import Mathlib

/-!
# TraceDoctor TEA profiler workers: a shallow embedding

Embedding of `generators/firechip/bridgestubs/src/main/cc/bridges/tracedoctor_tea.{h,cc}`.

Conventions of the embedding:
* machine integers are naturals; `uint64_t` arithmetic is reduced modulo `2^64`
  (`add64`, `sub64`, `mul64`), conversions to `uint16_t` modulo `2^16`;
* `std::unordered_map<uint64_t, V>` is an association list with at most one entry per key,
  `operator[]` inserting the value-initialised default;
* undefined behaviour (out-of-bounds table reads, division by zero) and non-termination
  are the `none` result of an `Option`;
* rows printed to the result files are collected in output lists.
-/

namespace TraceDoctor

/-! ## Definitions: flag constants (`tracedoctor_tea.h`) -/

def ROB_COMMITTING : Nat := 0x1 <<< 0
def ROB_POPULATED : Nat := 0x1 <<< 1
def ROB_DISPATCHING : Nat := 0x1 <<< 2
def ROB_EXCEPTION : Nat := 0x1 <<< 3

def INSTR_COMMITS : Nat := 0x1 <<< 0
def INSTR_VALID : Nat := 0x1 <<< 1
def INSTR_ICACHE_MISS : Nat := 0x1 <<< 2
def INSTR_ITLB_SMISS : Nat := 0x1 <<< 3
def INSTR_ITLB_PMISS : Nat := 0x1 <<< 4
def INSTR_DCACHE_MISS : Nat := 0x1 <<< 5
def INSTR_DTLB_SMISS : Nat := 0x1 <<< 6
def INSTR_DTLB_PMISS : Nat := 0x1 <<< 7
def INSTR_LSU_FULL : Nat := 0x1 <<< 8
def INSTR_REFETCHED : Nat := 0x1 <<< 9
def INSTR_BR_MISS : Nat := 0x1 <<< 10
def INSTR_FLUSHS : Nat := 0x1 <<< 11
def INSTR_EXCPT : Nat := 0x1 <<< 12

def INSTR_OIR : Nat := INSTR_BR_MISS ||| INSTR_FLUSHS ||| INSTR_EXCPT

def INSTR_MISS : Nat :=
  INSTR_ICACHE_MISS ||| INSTR_ITLB_PMISS ||| INSTR_ITLB_SMISS ||| INSTR_DCACHE_MISS |||
  INSTR_DTLB_PMISS ||| INSTR_DTLB_SMISS ||| INSTR_LSU_FULL ||| INSTR_REFETCHED |||
  INSTR_BR_MISS ||| INSTR_FLUSHS ||| INSTR_EXCPT

def TEA_FLAG_VALID_0 : Nat := 1 <<< 0
def TEA_FLAG_VALID_1 : Nat := 1 <<< 1
def TEA_FLAG_VALID_2 : Nat := 1 <<< 2
def TEA_FLAG_VALID_3 : Nat := 1 <<< 3
def TEA_FLAG_STALLED : Nat := 1 <<< 4
def TEA_FLAG_DEFERRED : Nat := 1 <<< 5
def TEA_FLAG_OIR : Nat := 1 <<< 6

/-- The C truth value of `x & m`. -/
def hasBit (x m : Nat) : Bool := (x &&& m) != 0

/-! ## Definitions: machine arithmetic -/

/-- Addition of `uint64_t` values. -/
def add64 (a b : Nat) : Nat := (a + b) % 2 ^ 64

/-- Subtraction of `uint64_t` values (wraps below zero). -/
def sub64 (a b : Nat) : Nat :=
  if b % 2 ^ 64 ≤ a % 2 ^ 64 then a % 2 ^ 64 - b % 2 ^ 64
  else a % 2 ^ 64 + 2 ^ 64 - b % 2 ^ 64

/-- Subtraction of `unsigned int` values (wraps below zero). -/
def sub32 (a b : Nat) : Nat :=
  if b % 2 ^ 32 ≤ a % 2 ^ 32 then a % 2 ^ 32 - b % 2 ^ 32
  else a % 2 ^ 32 + 2 ^ 32 - b % 2 ^ 32

/-- Multiplication of `uint64_t` values. -/
def mul64 (a b : Nat) : Nat := (a * b) % 2 ^ 64

/-- Conversion of a C `bool` to an integer. -/
def b2n (b : Bool) : Nat := if b then 1 else 0

/-! ## Definitions: the trace token -/

/-- The 64-byte `struct robAnalysisToken`; the bit-field `state` is flattened. -/
structure robAnalysisToken where
  tsc_cycle : Nat
  rob : Nat
  rob_head : Nat
  rob_tail : Nat
  instr0_flags : Nat
  instr1_flags : Nat
  instr2_flags : Nat
  instr3_flags : Nat
  instr0_address : Nat
  instr1_address : Nat
  instr2_address : Nat
  instr3_address : Nat
  instr0_memlat : Nat
  instr1_memlat : Nat
  instr2_memlat : Nat
  instr3_memlat : Nat
  instr0_isslat : Nat
  instr1_isslat : Nat
  instr2_isslat : Nat
  instr3_isslat : Nat
  deriving DecidableEq, Repr

/-- The value-initialised token (`lastToken = {}`). -/
def robAnalysisToken.zero : robAnalysisToken :=
  ⟨0, 0, 0, 0, 0, 0, 0, 0, 0, 0, 0, 0, 0, 0, 0, 0, 0, 0, 0, 0⟩

/-- The field widths of `struct robAnalysisToken`: 44/4/8/8 bits of state, 16-bit flags and
latencies, 64-bit addresses. -/
def robAnalysisToken.WF (t : robAnalysisToken) : Prop :=
  t.tsc_cycle < 2 ^ 44 ∧ t.rob < 2 ^ 4 ∧ t.rob_head < 2 ^ 8 ∧ t.rob_tail < 2 ^ 8 ∧
  t.instr0_flags < 2 ^ 16 ∧ t.instr1_flags < 2 ^ 16 ∧
  t.instr2_flags < 2 ^ 16 ∧ t.instr3_flags < 2 ^ 16 ∧
  t.instr0_address < 2 ^ 64 ∧ t.instr1_address < 2 ^ 64 ∧
  t.instr2_address < 2 ^ 64 ∧ t.instr3_address < 2 ^ 64 ∧
  t.instr0_memlat < 2 ^ 16 ∧ t.instr1_memlat < 2 ^ 16 ∧
  t.instr2_memlat < 2 ^ 16 ∧ t.instr3_memlat < 2 ^ 16 ∧
  t.instr0_isslat < 2 ^ 16 ∧ t.instr1_isslat < 2 ^ 16 ∧
  t.instr2_isslat < 2 ^ 16 ∧ t.instr3_isslat < 2 ^ 16

instance (t : robAnalysisToken) : Decidable t.WF := by
  unfold robAnalysisToken.WF; infer_instance

/-- Result of the four-output `getFirstCommitting`/`getFirstValid`/`getLastCommitting`. -/
structure slotInfo where
  address : Nat
  flags : Nat
  isslat : Nat
  memlat : Nat
  deriving DecidableEq, Repr

def getFirstCommitting (token : robAnalysisToken) : slotInfo :=
  if hasBit token.instr0_flags INSTR_COMMITS then
    ⟨token.instr0_address, token.instr0_flags, token.instr0_isslat, token.instr0_memlat⟩
  else if hasBit token.instr1_flags INSTR_COMMITS then
    ⟨token.instr1_address, token.instr1_flags, token.instr1_isslat, token.instr1_memlat⟩
  else if hasBit token.instr2_flags INSTR_COMMITS then
    ⟨token.instr2_address, token.instr2_flags, token.instr2_isslat, token.instr2_memlat⟩
  else
    ⟨token.instr3_address, token.instr3_flags, token.instr3_isslat, token.instr3_memlat⟩

def getFirstValid (token : robAnalysisToken) : slotInfo :=
  if hasBit token.instr0_flags INSTR_VALID then
    ⟨token.instr0_address, token.instr0_flags, token.instr0_isslat, token.instr0_memlat⟩
  else if hasBit token.instr1_flags INSTR_VALID then
    ⟨token.instr1_address, token.instr1_flags, token.instr1_isslat, token.instr1_memlat⟩
  else if hasBit token.instr2_flags INSTR_VALID then
    ⟨token.instr2_address, token.instr2_flags, token.instr2_isslat, token.instr2_memlat⟩
  else
    ⟨token.instr3_address, token.instr3_flags, token.instr3_isslat, token.instr3_memlat⟩

/-- The outputs of `getLastCommitting`; its `bool` result is `getLastCommittingRet`. -/
def getLastCommitting (token : robAnalysisToken) : slotInfo :=
  if hasBit token.instr3_flags INSTR_COMMITS then
    ⟨token.instr3_address, token.instr3_flags, token.instr3_isslat, token.instr3_memlat⟩
  else if hasBit token.instr2_flags INSTR_COMMITS then
    ⟨token.instr2_address, token.instr2_flags, token.instr2_isslat, token.instr2_memlat⟩
  else if hasBit token.instr1_flags INSTR_COMMITS then
    ⟨token.instr1_address, token.instr1_flags, token.instr1_isslat, token.instr1_memlat⟩
  else
    ⟨token.instr0_address, token.instr0_flags, token.instr0_isslat, token.instr0_memlat⟩

/-- The returned `flags & (INSTR_BR_MISS | INSTR_FLUSHS)` of `getLastCommitting`. -/
def getLastCommittingRet (token : robAnalysisToken) : Bool :=
  hasBit (getLastCommitting token).flags (INSTR_BR_MISS ||| INSTR_FLUSHS)

/-- The table `__ilp_magic`; a read outside it is undefined. -/
def ilp_magic (i : Nat) : Option Nat := [24, 12, 8, 6].get? i

/-- The function `genSignature`: the `int` expression converted to the `uint16_t` result. -/
def genSignature (lastFlags flags memlat l2MissLatency l3MissLatency : Nat) : Nat :=
  ((flags &&& INSTR_MISS) |||
    (if hasBit flags INSTR_DCACHE_MISS && decide (memlat ≥ l2MissLatency) then 0x1 else 0x0) |||
    (if hasBit flags INSTR_DCACHE_MISS && decide (memlat ≥ l3MissLatency) then 0x2 else 0x0) |||
    ((lastFlags &&& INSTR_OIR) <<< 3)) % 2 ^ 16

/-! ## Definitions: `std::unordered_map` and `histogram` -/

/-- Read of `m[k]` (the value-initialised default `dflt` when `k` has no entry). -/
def amapGet {α : Type} (dflt : α) : List (Nat × α) → Nat → α
  | [], _ => dflt
  | e :: m, k => if e.1 = k then e.2 else amapGet dflt m k

/-- Write of `m[k]`: replaces the entry of `k`, or inserts one. -/
def amapSet {α : Type} (k : Nat) (v : α) : List (Nat × α) → List (Nat × α)
  | [] => [(k, v)]
  | e :: m => if e.1 = k then (e.1, v) :: m else e :: amapSet k v m

/-- Whether `k` has an entry in the map. -/
def amapMem {α : Type} (m : List (Nat × α)) (k : Nat) : Bool := m.any (fun e => e.1 == k)

/-- The type `histogram<uint64_t>`: key ↦ vector of `uint64_t` counters. -/
abbrev histogram := List (Nat × List Nat)

/-- The call `vec.resize(n)` of a `std::vector<uint64_t>`. -/
def vecResize (vec : List Nat) (n : Nat) : List Nat :=
  vec.take n ++ List.replicate (n - vec.length) 0

/-- Body of `value2hist` on the vector `hist[address]`; `value + 1` is computed in 64 bits
(for `N = uint16_t` it cannot wrap); a write outside the vector is undefined. -/
def value2histVec (vec : List Nat) (value increment : Nat) : Option (List Nat) :=
  let vec1 := if vec.length ≤ value then vecResize vec ((value + 1) % 2 ^ 64) else vec
  if value < vec1.length then some (vec1.set value (add64 (vec1.getD value 0) increment))
  else none

def value2hist (hist : histogram) (address value increment : Nat) : Option histogram :=
  match value2histVec (amapGet [] hist address) value increment with
  | none => none
  | some vec => some (amapSet address vec hist)

/-- What `operator<<` prints for an unsigned integer in `std::dec` mode. -/
def decChars (n : Nat) : List Char := Nat.toDigits 10 n

/-- What `operator<<` prints for an unsigned integer in `std::hex` mode. -/
def hexChars (n : Nat) : List Char := Nat.toDigits 16 n

/-- The `for (N value = 0; value < maxValue; value++)` loop of `hist2file`; the first argument
counts the iterations left, so the loop variable is `maxValue - left`. -/
def hist2fileLoop (vec : List Nat) (maxValue : Nat) : Nat → List Char → Option (List Char)
  | 0, outbuf => some outbuf
  | left + 1, outbuf =>
    match vec.get? (maxValue - (left + 1)) with
    | none => none
    | some c =>
      if c = 0 then hist2fileLoop vec maxValue left outbuf
      else hist2fileLoop vec maxValue left
        (outbuf ++ decChars (maxValue - (left + 1)) ++ [':'] ++ decChars c ++ ['/'])

/-- One iteration of the outer loop of the integer `hist2file<T, N>`: the line written for the
entry `(key, vec)`, without the trailing newline. `w` is the bit width of `N`. -/
def hist2fileLine (w : Nat) (pfx : List Char) (key : Nat) (vec : List Nat) :
    Option (List Char) :=
  let maxValue := sub64 vec.length 1 % 2 ^ w
  match hist2fileLoop vec maxValue maxValue (['0', 'x'] ++ hexChars key ++ [';']) with
  | none => none
  | some outbuf =>
    match vec.get? maxValue with
    | none => none
    | some c => some (pfx ++ (outbuf ++ decChars maxValue ++ [':'] ++ decChars c))

/-- The integer `hist2file<T, N>`: the lines written for a histogram. -/
def hist2file (w : Nat) (pfx : List Char) : histogram → Option (List (List Char))
  | [] => some []
  | e :: hist =>
    match hist2fileLine w pfx e.1 e.2, hist2file w pfx hist with
    | some l, some ls => some (l :: ls)
    | _, _ => none

/-- The `norm` variant of `hist2file`: the pairs `value : counter / norm` of one line; the
counters are kept as integers (the division is done in `double` when printing). -/
def hist2fileNormLoop (vec : List Nat) (maxValue : Nat) :
    Nat → List (Nat × Nat) → Option (List (Nat × Nat))
  | 0, outbuf => some outbuf
  | left + 1, outbuf =>
    match vec.get? (maxValue - (left + 1)) with
    | none => none
    | some c =>
      if c = 0 then hist2fileNormLoop vec maxValue left outbuf
      else hist2fileNormLoop vec maxValue left (outbuf ++ [(maxValue - (left + 1), c)])

def hist2fileNormLine (w : Nat) (key : Nat) (vec : List Nat) :
    Option (Nat × List (Nat × Nat)) :=
  let maxValue := sub64 vec.length 1 % 2 ^ w
  match hist2fileNormLoop vec maxValue maxValue [] with
  | none => none
  | some outbuf =>
    match vec.get? maxValue with
    | none => none
    | some c => some (key, outbuf ++ [(maxValue, c)])

def hist2fileNorm (w : Nat) : histogram → Option (List (Nat × List (Nat × Nat)))
  | [] => some []
  | e :: hist =>
    match hist2fileNormLine w e.1 e.2, hist2fileNorm w hist with
    | some l, some ls => some (l :: ls)
    | _, _ => none

/-! ## Definitions: `base_profiler` -/

/-- The members of `base_profiler`. `rngDraws` counts the values drawn so far from
`randomGenerator`; the drawn values themselves are given by a function `rng : Nat → Nat`
passed to the operations that draw. -/
structure base_profiler where
  samplingPeriod : Nat
  randomStartOffset : Nat
  randomOffset : Nat
  lastPeriod : Nat
  nextPeriodStart : Nat
  nextPeriod : Nat
  lastFlushPeriod : Nat
  flushThreshold : Nat
  l2MissLatency : Nat
  l3MissLatency : Nat
  firstToken : Bool
  rngDraws : Nat
  deriving DecidableEq, Repr

/-- The in-class member initialisers of `base_profiler`. -/
def base_profiler.initial : base_profiler :=
  { samplingPeriod := 0, randomStartOffset := 0, randomOffset := 0, lastPeriod := 0,
    nextPeriodStart := 0, nextPeriod := 0, lastFlushPeriod := 0, flushThreshold := 0,
    l2MissLatency := 32, l3MissLatency := 84, firstToken := true, rngDraws := 0 }

/-- How construction of a worker can end without an object. -/
inductive ctorError where
  | invalid_argument
  | out_of_range
  | undefined_behaviour
  deriving DecidableEq, Repr

deriving instance DecidableEq for Except

/-- The function `isspace` in the "C" locale. -/
def isSpaceChar (c : Char) : Bool := c.toNat == 32 || (9 ≤ c.toNat && c.toNat ≤ 13)

/-- Value of a character as a digit, as `strtoul` reads it. -/
def digitVal (c : Char) : Option Nat :=
  if 48 ≤ c.toNat ∧ c.toNat ≤ 57 then some (c.toNat - 48)
  else if 97 ≤ c.toNat ∧ c.toNat ≤ 122 then some (c.toNat - 87)
  else if 65 ≤ c.toNat ∧ c.toNat ≤ 90 then some (c.toNat - 55)
  else none

/-- Longest run of digits of the given base: accumulated value and number of digits read. -/
def readDigits (base : Nat) : List Char → Nat → Nat → Nat × Nat
  | [], acc, cnt => (acc, cnt)
  | c :: cs, acc, cnt =>
    match digitVal c with
    | some d => if d < base then readDigits base cs (acc * base + d) (cnt + 1) else (acc, cnt)
    | none => (acc, cnt)

/-- The result of `strtoul` turned into that of `std::stoul`: `invalid_argument` when no
digit was read, `out_of_range` when the value does not fit `unsigned long`; a minus sign
negates modulo `2^64`. `r` is the value and the number of digits read. -/
def stoulResult (neg : Bool) (r : Nat × Nat) : Except ctorError Nat :=
  if r.2 = 0 then .error .invalid_argument
  else if 2 ^ 64 ≤ r.1 then .error .out_of_range
  else .ok (if neg then sub64 0 r.1 else r.1)

/-- Modelled from the C++ standard: `std::stoul(str, nullptr, 0)`, the library function the
constructors parse numbers with. Leading white space, an optional sign, base detection by
the `0x`/`0` prefix, then the longest run of digits. -/
def stoul (str : String) : Except ctorError Nat :=
  let s0 := str.toList.dropWhile isSpaceChar
  let neg := s0.head? == some '-'
  let s1 := if s0.head? == some '-' || s0.head? == some '+' then s0.tail else s0
  let isHex : Bool :=
    match s1 with
    | c0 :: c1 :: c2 :: _ =>
      c0 == '0' && (c1 == 'x' || c1 == 'X') &&
        (match digitVal c2 with | some d => decide (d < 16) | none => false)
    | _ => false
  stoulResult neg
    (if isHex then readDigits 16 (s1.drop 2) 0 0
     else if s1.head? == some '0' then readDigits 8 s1 0 0
     else readDigits 10 s1 0 0)

/-- One iteration of the argument loop of the `base_profiler` constructor; `c` is the
argument as split by `strSplit(a, ":")`. Reading `c[0]` of an empty vector is undefined. -/
def base_profiler.parseArg (b : base_profiler) (c : List String) :
    Except ctorError base_profiler :=
  match c with
  | [] => .error .undefined_behaviour
  | [_] => .ok b
  | c0 :: c1 :: _ =>
    if c0 = "flushAfter" then
      (stoul c1).map (fun n => { b with flushThreshold := n })
    else if c0 = "samplingPeriod" then
      (stoul c1).map (fun n => { b with samplingPeriod := n })
    else if c0 = "randomStartOffset" then
      (stoul c1).map (fun n => { b with randomStartOffset := n })
    else if c0 = "randomOffset" then
      (stoul c1).map (fun n => { b with randomOffset := n })
    else if c0 = "l2MissLatency" then
      (stoul c1).map (fun n => { b with l2MissLatency := n % 2 ^ 16 })
    else if c0 = "l3MissLatency" then
      (stoul c1).map (fun n => { b with l3MissLatency := n % 2 ^ 16 })
    else .ok b

/-- The argument loop of the `base_profiler` constructor. -/
def base_profiler.parseArgs (b : base_profiler) : List (List String) →
    Except ctorError base_profiler
  | [] => .ok b
  | c :: args =>
    match base_profiler.parseArg b c with
    | .error e => .error e
    | .ok b1 => base_profiler.parseArgs b1 args

def restartSampling (b : base_profiler) (count : Nat) : base_profiler :=
  { b with
    lastPeriod := add64 count b.randomStartOffset
    nextPeriodStart := add64 (add64 count b.samplingPeriod) b.randomStartOffset
    nextPeriod := add64 (add64 count b.samplingPeriod) b.randomStartOffset }

def reachedSamplingPeriod (b : base_profiler) (count : Nat) : Bool :=
  decide (b.nextPeriod ≤ count)

/-- The statement `if (randomOffset) nextPeriod -= randomRange(randomGenerator);`:
the distribution yields a value in `[0, randomOffset]`. -/
def ditherNextPeriod (rng : Nat → Nat) (b : base_profiler) : base_profiler :=
  if b.randomOffset ≠ 0 then
    { b with
      nextPeriod := sub64 b.nextPeriod (rng b.rngDraws % (b.randomOffset + 1))
      rngDraws := b.rngDraws + 1 }
  else b

/-- The `do ... while (nextPeriod <= count)` loop of `advanceSamplingPeriod`, with the number
of iterations it may still take; `none` when they are used up. -/
def advanceLoop (rng : Nat → Nat) (count : Nat) :
    Nat → base_profiler → Nat → Option (Nat × base_profiler)
  | 0, _, _ => none
  | fuel + 1, b, passedCount =>
    let passedCount1 := add64 passedCount (sub64 b.nextPeriod b.lastPeriod)
    let b1 := { b with lastPeriod := b.nextPeriod }
    let b2 := { b1 with nextPeriodStart := add64 b1.nextPeriodStart b1.samplingPeriod }
    let b3 := ditherNextPeriod rng { b2 with nextPeriod := b2.nextPeriodStart }
    if b3.nextPeriod ≤ count then advanceLoop rng count fuel b3 passedCount1
    else some (passedCount1, b3)

/-- Bound on the iterations of the loop of `advanceSamplingPeriod` that the embedding
follows: `nextPeriodStart` lives in a cycle of `2^64` values. -/
def advanceFuel : Nat := 2 ^ 64

/-- The first block of `advanceSamplingPeriod`, which skips the periods missed entirely;
`none` is the division by a zero `samplingPeriod`. -/
def skipMissedPeriods (rng : Nat → Nat) (b : base_profiler) (count : Nat) :
    Option base_profiler :=
  let passedPeriodCount := if b.nextPeriodStart < count then sub64 count b.nextPeriodStart else 0
  if passedPeriodCount ≥ b.samplingPeriod then
    if b.samplingPeriod = 0 then none
    else
      let missedPeriods := passedPeriodCount / b.samplingPeriod
      let b1 := { b with
        nextPeriodStart := add64 b.nextPeriodStart (mul64 missedPeriods b.samplingPeriod) }
      some (ditherNextPeriod rng { b1 with nextPeriod := b1.nextPeriodStart })
  else some b

/-- The function `advanceSamplingPeriod`: the returned `passedCount` and the new members.
`none` stands for the division by a zero `samplingPeriod` and for a loop that does not end. -/
def advanceSamplingPeriod (rng : Nat → Nat) (b : base_profiler) (count : Nat) :
    Option (Nat × base_profiler) :=
  match skipMissedPeriods rng b count with
  | none => none
  | some b1 => advanceLoop rng count advanceFuel b1 0

/-- The function `triggerDetection` without the virtual call: whether `flushResult()` is
called, the returned value, and the new members. -/
def triggerDetection (b : base_profiler) (token : robAnalysisToken) :
    Bool × Bool × base_profiler :=
  let flush := decide (b.flushThreshold ≠ 0) &&
    decide (sub64 token.tsc_cycle b.lastFlushPeriod ≥ b.flushThreshold)
  let b1 := if flush then { b with lastFlushPeriod := token.tsc_cycle } else b
  if b1.firstToken then (flush, true, { b1 with firstToken := false })
  else (flush, false, b1)

/-- The constructor of `base_profiler`, entered after the `tracedoctor_worker` base
constructor has returned. `tokenBytes` is `info.tokenBytes`, `args` the arguments as split by
`strSplit(a, ":")`. -/
def base_profiler.ctor (rng : Nat → Nat) (args : List (List String)) (tokenBytes : Nat) :
    Except ctorError base_profiler :=
  if tokenBytes ≠ 512 / 8 then .error .invalid_argument
  else
    match base_profiler.parseArgs base_profiler.initial args with
    | .error e => .error e
    | .ok b =>
      let b1 := if b.randomStartOffset > 0 then
          { b with randomStartOffset := rng b.rngDraws % (b.randomStartOffset + 1)
                   rngDraws := b.rngDraws + 1 }
        else b
      let b2 := if b1.samplingPeriod > 0 ∧ b1.randomOffset ≥ b1.samplingPeriod then
          { b1 with randomOffset := sub64 b1.samplingPeriod 1 }
        else b1
      .ok (restartSampling b2 0)

/-! ## Definitions: `tracedoctor_oracle` -/

structure flatSample where
  tCommit : Nat
  tStall : Nat
  tDeferred : Nat
  tBrMiss : Nat
  tFlush : Nat
  tExcpt : Nat
  tIssueLatency : Nat
  tMemoryLatency : Nat
  cCommit : Nat
  cStall : Nat
  cDeferred : Nat
  cBrMiss : Nat
  cFlush : Nat
  cExcpt : Nat
  deriving DecidableEq, Repr

/-- The value-initialised `flatSample` that `result[address]` inserts. -/
def flatSample.zero : flatSample := ⟨0, 0, 0, 0, 0, 0, 0, 0, 0, 0, 0, 0, 0, 0⟩

/-- The members of `tracedoctor_oracle` that `tick` uses, and the rows `flushResult` has
written (address and counters of each row). -/
structure tracedoctor_oracle where
  base : base_profiler
  result : List (Nat × flatSample)
  lastToken : robAnalysisToken
  out : List (Nat × flatSample)
  deriving DecidableEq, Repr

/-- In-place update `f` of `result[address]`. -/
def resultUpd (result : List (Nat × flatSample)) (address : Nat) (f : flatSample → flatSample) :
    List (Nat × flatSample) :=
  amapSet address (f (amapGet flatSample.zero result address)) result

namespace tracedoctor_oracle

def flushResult (s : tracedoctor_oracle) : tracedoctor_oracle :=
  { s with out := s.out ++ s.result, result := [] }

/-- The constructor; the header line is not modelled. -/
def ctor (rng : Nat → Nat) (args : List (List String)) (tokenBytes : Nat) :
    Except ctorError tracedoctor_oracle :=
  (base_profiler.ctor rng args tokenBytes).map
    (fun b => { base := b, result := [], lastToken := robAnalysisToken.zero, out := [] })

/-- The block of `tick` under `if (token.state.rob & ROB_POPULATED)`: the new `result`. -/
def populatedPart (result : List (Nat × flatSample)) (lastToken token : robAnalysisToken)
    (remainingCycles : Nat) : List (Nat × flatSample) :=
  let lastException := hasBit lastToken.rob ROB_EXCEPTION
  let deferredCycles := sub64 remainingCycles 1
  if lastException then
    resultUpd result (getFirstValid lastToken).address
      (fun t => { t with tExcpt := add64 t.tExcpt deferredCycles })
  else if getLastCommittingRet lastToken then
    let flags := (getLastCommitting lastToken).flags
    let br_miss := hasBit flags INSTR_BR_MISS
    let flushs := hasBit flags INSTR_FLUSHS
    resultUpd result (getLastCommitting lastToken).address
      (fun t => { t with
        tBrMiss := add64 t.tBrMiss (mul64 (b2n br_miss) deferredCycles)
        tFlush := add64 t.tFlush (mul64 (b2n flushs) deferredCycles)
        cBrMiss := add64 t.cBrMiss (b2n br_miss)
        cFlush := add64 t.cFlush (b2n flushs) })
  else
    resultUpd result (getFirstValid token).address
      (fun t => { t with tDeferred := add64 t.tDeferred deferredCycles })

/-- One `if (instrN_commits) { ... }` block of `tick`. -/
def commitSlot (result : List (Nat × flatSample)) (address isslat memlat ilpCycles : Nat)
    (stalled deferred : Bool) : List (Nat × flatSample) :=
  resultUpd result address
    (fun t => { t with
      tCommit := add64 t.tCommit ilpCycles
      tIssueLatency := add64 t.tIssueLatency isslat
      tMemoryLatency := add64 t.tMemoryLatency memlat
      cCommit := add64 t.cCommit 1
      cStall := add64 t.cStall (b2n stalled)
      cDeferred := add64 t.cDeferred (b2n deferred) })

/-- One of the first three `if (instrN_commits) { ... }` blocks of `tick`, which end with
`stalled = false; deferred = false;`: the new `result`, `stalled` and `deferred`. -/
def commitBlock (commits : Bool) (address isslat memlat ilpCycles : Nat)
    (st : List (Nat × flatSample) × Bool × Bool) : List (Nat × flatSample) × Bool × Bool :=
  if commits then (commitSlot st.1 address isslat memlat ilpCycles st.2.1 st.2.2, false, false)
  else st

/-- The block of `tick` under `if (token.state.rob & ROB_COMMITTING)`; `none` when the read
of `__ilp_magic[nCommitting - 1]` is out of bounds (`nCommitting` is an `unsigned int`). -/
def commitPart (result : List (Nat × flatSample)) (lastToken token : robAnalysisToken) :
    Option (List (Nat × flatSample)) :=
  let thisPopulated := hasBit token.rob ROB_POPULATED
  let lastOnlyPopulated := hasBit lastToken.rob ROB_POPULATED &&
    !hasBit lastToken.rob (ROB_COMMITTING ||| ROB_EXCEPTION)
  let stalled := !thisPopulated && lastOnlyPopulated
  let deferred := thisPopulated || lastOnlyPopulated
  let instr0_commits := hasBit token.instr0_flags INSTR_COMMITS
  let instr1_commits := hasBit token.instr1_flags INSTR_COMMITS
  let instr2_commits := hasBit token.instr2_flags INSTR_COMMITS
  let instr3_commits := hasBit token.instr3_flags INSTR_COMMITS
  let nCommitting := b2n instr0_commits + b2n instr1_commits + b2n instr2_commits +
    b2n instr3_commits
  match ilp_magic (sub32 nCommitting 1) with
  | none => none
  | some ilpCycles =>
    let st0 := commitBlock instr0_commits token.instr0_address token.instr0_isslat
      token.instr0_memlat ilpCycles (result, stalled, deferred)
    let st1 := commitBlock instr1_commits token.instr1_address token.instr1_isslat
      token.instr1_memlat ilpCycles st0
    let st2 := commitBlock instr2_commits token.instr2_address token.instr2_isslat
      token.instr2_memlat ilpCycles st1
    some (if instr3_commits then
        commitSlot st2.1 token.instr3_address token.instr3_isslat token.instr3_memlat
          ilpCycles st2.2.1 st2.2.2
      else st2.1)

/-- The block of `tick` under `if (!thisAttributeToken || remainingCycles > 1)`. -/
def stallPart (result : List (Nat × flatSample)) (token : robAnalysisToken)
    (remainingCycles : Nat) : List (Nat × flatSample) :=
  let thisAttributeToken := hasBit token.rob (ROB_COMMITTING ||| ROB_EXCEPTION)
  if !thisAttributeToken || decide (remainingCycles > 1) then
    resultUpd result (getFirstValid token).address
      (fun t => { t with
        tStall := add64 t.tStall (sub64 remainingCycles (b2n thisAttributeToken)) })
  else result

/-- The block of `tick` under `if (thisAttributeToken)`. -/
def attributePart (result : List (Nat × flatSample)) (lastToken token : robAnalysisToken) :
    Option (List (Nat × flatSample)) :=
  if hasBit token.rob (ROB_COMMITTING ||| ROB_EXCEPTION) then
    if hasBit token.rob ROB_COMMITTING then commitPart result lastToken token
    else
      some (resultUpd result (getFirstValid token).address
        (fun t => { t with tExcpt := add64 t.tExcpt 1, cExcpt := add64 t.cExcpt 1 }))
  else some result

/-- The body of the loop of `tick` after `triggerDetection` returned false: the new `result`
when the token touches POPULATED, COMMITTING or EXCEPTION. -/
def account (result : List (Nat × flatSample)) (lastToken token : robAnalysisToken) :
    Option (List (Nat × flatSample)) :=
  let remainingCycles0 := sub64 token.tsc_cycle lastToken.tsc_cycle
  let result1 := if hasBit token.rob ROB_POPULATED then
      populatedPart result lastToken token remainingCycles0
    else result
  let remainingCycles := if hasBit token.rob ROB_POPULATED then 1 else remainingCycles0
  attributePart (stallPart result1 token remainingCycles) lastToken token

/-- One iteration of the loop of `tick`. -/
def step (s : tracedoctor_oracle) (token : robAnalysisToken) : Option tracedoctor_oracle :=
  let td := triggerDetection s.base token
  let s1 := if td.1 then flushResult { s with base := td.2.2 } else { s with base := td.2.2 }
  if td.2.1 then some { s1 with lastToken := token }
  else if hasBit token.rob (ROB_POPULATED ||| ROB_COMMITTING ||| ROB_EXCEPTION) then
    match account s1.result s1.lastToken token with
    | none => none
    | some r => some { s1 with result := r, lastToken := token }
  else some s1

/-- The function `tick` on a buffer of tokens. -/
def tick (s : tracedoctor_oracle) : List robAnalysisToken → Option tracedoctor_oracle
  | [] => some s
  | token :: tokens =>
    match step s token with
    | none => none
    | some s1 => tick s1 tokens

end tracedoctor_oracle

/-- The integer form of `tCycles` of `flushResult`, scaled by 24 so that it stays integral:
`tCommit + 24 * (tStall + tDeferred + tBrMiss + tFlush + tExcpt)`. -/
def flatSample.cycles24 (t : flatSample) : Nat :=
  t.tCommit + 24 * (t.tStall + t.tDeferred + t.tBrMiss + t.tFlush + t.tExcpt)

/-- The value `tCycles` that `flushResult` prints for a row, as a rational number. -/
def flatSample.tCycles (t : flatSample) : ℚ :=
  (t.tCommit : ℚ) / 24 + t.tStall + t.tDeferred + t.tBrMiss + t.tFlush + t.tExcpt

/-! ## Definitions: `tracedoctor_tea_gold` -/

/-- The type `tracedoctor_tea_gold::instrInfo`. -/
structure goldInstrInfo where
  address : Nat
  flags : Nat
  signature : Nat
  severity : Nat
  ilpLatency : Nat
  oir : Bool
  deriving DecidableEq, Repr

/-- The value-initialised register (`lastInstructionRegister = {}`). -/
def goldInstrInfo.zero : goldInstrInfo := ⟨0, 0, 0, 0, 0, false⟩

/-- The members of `tracedoctor_tea_gold`. The array `severityHists` is kept as the list of
its non-default elements, indexed by signature. `out0` and `out1` are the lines `flushResult`
has written to its two files; a line of the second file is kept as the address and the pairs
`value : counter`, whose counters are divided by 24 when printed. -/
structure tracedoctor_tea_gold where
  base : base_profiler
  lastInstructionRegister : goldInstrInfo
  severityHists : List (Nat × histogram)
  result : histogram
  lastProgressCycle : Nat
  out0 : List (List Char)
  out1 : List (Nat × List (Nat × Nat))
  deriving DecidableEq, Repr

namespace tracedoctor_tea_gold

def missBits : Nat := 10
def oirBits : Nat := 3
def numSignatures : Nat := 1 <<< (missBits + oirBits + oirBits)

/-- The loop over `severityHists` in `flushResult`; the first argument counts the elements
left, so the index is `numSignatures - left`. -/
def flushSeverity (severityHists : List (Nat × histogram)) :
    Nat → List (List Char) → Option (List (List Char))
  | 0, out => some out
  | left + 1, out =>
    match hist2file 64 (decChars (numSignatures - (left + 1)) ++ [';'])
        (amapGet [] severityHists (numSignatures - (left + 1))) with
    | none => none
    | some lines => flushSeverity severityHists left (out ++ lines)

/-- The function `flushResult`: every element of `severityHists` is written and cleared, then
`result` is written. -/
def flushResult (s : tracedoctor_tea_gold) : Option tracedoctor_tea_gold :=
  match flushSeverity s.severityHists numSignatures s.out0, hist2fileNorm 64 s.result with
  | some o0, some l1 => some { s with severityHists := [], out0 := o0, out1 := s.out1 ++ l1 }
  | _, _ => none

/-- The constructor; the header lines are not modelled. -/
def ctor (rng : Nat → Nat) (args : List (List String)) (tokenBytes : Nat) :
    Except ctorError tracedoctor_tea_gold :=
  (base_profiler.ctor rng args tokenBytes).map
    (fun b => { base := b, lastInstructionRegister := goldInstrInfo.zero, severityHists := [],
                result := [], lastProgressCycle := 0, out0 := [], out1 := [] })

def attributeOIR (s : tracedoctor_tea_gold) (additionalSeverity : Nat) :
    Option tracedoctor_tea_gold :=
  if s.lastInstructionRegister.oir then
    match value2hist (amapGet [] s.severityHists s.lastInstructionRegister.signature)
        s.lastInstructionRegister.address
        (add64 s.lastInstructionRegister.severity additionalSeverity) 1,
      value2hist s.result s.lastInstructionRegister.address
        s.lastInstructionRegister.signature
        (add64 s.lastInstructionRegister.ilpLatency
          (mul64 (add64 s.lastInstructionRegister.severity additionalSeverity) 24)) with
    | some h, some r =>
      some { s with
        severityHists := amapSet s.lastInstructionRegister.signature h s.severityHists
        result := r
        lastInstructionRegister := { s.lastInstructionRegister with oir := false } }
    | _, _ => none
  else some s

/-- The method `attribute` (a reserved word of Lean). -/
def attributeInstr (s : tracedoctor_tea_gold) (address flags memlat severity ilpLatency : Nat) :
    Option tracedoctor_tea_gold :=
  let signature := genSignature s.lastInstructionRegister.flags flags memlat
    s.base.l2MissLatency s.base.l3MissLatency
  if (flags &&& INSTR_OIR) = 0 then
    match value2hist (amapGet [] s.severityHists signature) address severity 1,
      value2hist s.result address signature (add64 ilpLatency (mul64 severity 24)) with
    | some h, some r =>
      some { s with
        severityHists := amapSet signature h s.severityHists
        result := r
        lastInstructionRegister := { s.lastInstructionRegister with flags := flags } }
    | _, _ => none
  else
    some { s with
      lastInstructionRegister :=
        { address := address, flags := flags, signature := signature, severity := severity,
          ilpLatency := ilpLatency, oir := true } }

/-- One of the first three `if (token.instrN_flags & INSTR_COMMITS) { ... }` blocks of `tick`,
which end with `severity = 0;`: the new worker and `severity`. -/
def commitBlock (flags address memlat ilpLatency : Nat)
    (st : tracedoctor_tea_gold × Nat) : Option (tracedoctor_tea_gold × Nat) :=
  if hasBit flags INSTR_COMMITS then
    match attributeInstr st.1 address flags memlat st.2 ilpLatency with
    | none => none
    | some s1 => some (s1, 0)
  else some st

/-- The block of `tick` under `if (token.state.rob & ROB_COMMITTING)`; the index of
`__ilp_magic` is an `int`, and a read at `-1` is undefined. -/
def commitPart (s : tracedoctor_tea_gold) (token : robAnalysisToken) (severity : Nat) :
    Option tracedoctor_tea_gold :=
  let nCommitting := b2n (hasBit token.instr0_flags INSTR_COMMITS) +
    b2n (hasBit token.instr1_flags INSTR_COMMITS) +
    b2n (hasBit token.instr2_flags INSTR_COMMITS) +
    b2n (hasBit token.instr3_flags INSTR_COMMITS)
  if nCommitting = 0 then none
  else
    match ilp_magic (nCommitting - 1) with
    | none => none
    | some ilpLatency =>
      match commitBlock token.instr0_flags token.instr0_address token.instr0_memlat ilpLatency
          (s, severity) with
      | none => none
      | some st0 =>
        match commitBlock token.instr1_flags token.instr1_address token.instr1_memlat
            ilpLatency st0 with
        | none => none
        | some st1 =>
          match commitBlock token.instr2_flags token.instr2_address token.instr2_memlat
              ilpLatency st1 with
          | none => none
          | some st2 =>
            if hasBit token.instr3_flags INSTR_COMMITS then
              attributeInstr st2.1 token.instr3_address token.instr3_flags token.instr3_memlat
                st2.2 ilpLatency
            else some st2.1

/-- The block of `tick` under `if ((token.state.rob & ROB_POPULATED) &&
lastInstructionRegister.oir)`. -/
def populatedPart (s : tracedoctor_tea_gold) (token : robAnalysisToken) :
    Option tracedoctor_tea_gold :=
  if hasBit token.rob ROB_POPULATED && s.lastInstructionRegister.oir then
    match attributeOIR s (sub64 (sub64 token.tsc_cycle s.lastProgressCycle) 1) with
    | none => none
    | some s1 => some { s1 with lastProgressCycle := sub64 token.tsc_cycle 1 }
  else some s

/-- The block of `tick` under `if (token.state.rob & (ROB_COMMITTING | ROB_EXCEPTION))`. -/
def progressPart (s : tracedoctor_tea_gold) (token : robAnalysisToken) :
    Option tracedoctor_tea_gold :=
  if hasBit token.rob (ROB_COMMITTING ||| ROB_EXCEPTION) then
    let severity := sub64 (sub64 token.tsc_cycle s.lastProgressCycle) 1
    match attributeOIR s 0 with
    | none => none
    | some s1 =>
      match (if hasBit token.rob ROB_COMMITTING then commitPart s1 token severity
             else attributeInstr s1 (getFirstValid token).address INSTR_EXCPT 0 severity 24) with
      | none => none
      | some s2 => some { s2 with lastProgressCycle := token.tsc_cycle }
  else some s

/-- One iteration of the loop of `tick`. -/
def step (s : tracedoctor_tea_gold) (token : robAnalysisToken) : Option tracedoctor_tea_gold :=
  let td := triggerDetection s.base token
  match (if td.1 then flushResult { s with base := td.2.2 }
         else some { s with base := td.2.2 }) with
  | none => none
  | some s1 =>
    if td.2.1 then
      some { s1 with
        lastInstructionRegister := goldInstrInfo.zero, lastProgressCycle := token.tsc_cycle }
    else
      match populatedPart s1 token with
      | none => none
      | some s2 => progressPart s2 token

/-- The function `tick` on a buffer of tokens. -/
def tick (s : tracedoctor_tea_gold) : List robAnalysisToken → Option tracedoctor_tea_gold
  | [] => some s
  | token :: tokens =>
    match step s token with
    | none => none
    | some s1 => tick s1 tokens

/-- The destructor: `attributeOIR(0); flushResult();`. -/
def teardown (s : tracedoctor_tea_gold) : Option tracedoctor_tea_gold :=
  match attributeOIR s 0 with
  | none => none
  | some s1 => flushResult s1

end tracedoctor_tea_gold

/-! ## Definitions: `tracedoctor_latency_hist` -/

/-- The members of `tracedoctor_latency_hist` and the lines `flushResult` has written. -/
structure tracedoctor_latency_hist where
  base : base_profiler
  memoryLatencyHist : histogram
  out : List (List Char)
  deriving DecidableEq, Repr

namespace tracedoctor_latency_hist

def ctor (rng : Nat → Nat) (args : List (List String)) (tokenBytes : Nat) :
    Except ctorError tracedoctor_latency_hist :=
  (base_profiler.ctor rng args tokenBytes).map
    (fun b => { base := b, memoryLatencyHist := [], out := [] })

def flushResult (s : tracedoctor_latency_hist) : Option tracedoctor_latency_hist :=
  match hist2file 16 [] s.memoryLatencyHist with
  | none => none
  | some lines => some { s with out := s.out ++ lines }

/-- One `if (token.instrN_flags & INSTR_COMMITS) { value2hist(...); }` block of `tick`. -/
def commitBlock (flags address memlat : Nat) (hist : histogram) : Option histogram :=
  if hasBit flags INSTR_COMMITS then value2hist hist address memlat 1 else some hist

/-- One iteration of the loop of `tick`. -/
def step (s : tracedoctor_latency_hist) (token : robAnalysisToken) :
    Option tracedoctor_latency_hist :=
  if hasBit token.rob ROB_COMMITTING then
    match commitBlock token.instr0_flags token.instr0_address token.instr0_memlat
        s.memoryLatencyHist with
    | none => none
    | some h0 =>
      match commitBlock token.instr1_flags token.instr1_address token.instr1_memlat h0 with
      | none => none
      | some h1 =>
        match commitBlock token.instr2_flags token.instr2_address token.instr2_memlat h1 with
        | none => none
        | some h2 =>
          match commitBlock token.instr3_flags token.instr3_address token.instr3_memlat h2 with
          | none => none
          | some h3 => some { s with memoryLatencyHist := h3 }
  else some s

def tick (s : tracedoctor_latency_hist) :
    List robAnalysisToken → Option tracedoctor_latency_hist
  | [] => some s
  | token :: tokens =>
    match step s token with
    | none => none
    | some s1 => tick s1 tokens

end tracedoctor_latency_hist

/-! ## Definitions: rows of the sampler files -/

/-- One row written by a sampler: `cycle;stallLatency;teaflags` and the four
`address;isslat;memlat;signature` groups. -/
structure sampleRow where
  cycle : Nat
  stallLatency : Nat
  teaflags : Nat
  addresses : List Nat
  isslats : List Nat
  memlats : List Nat
  signatures : List Nat
  deriving DecidableEq, Repr

/-- The row of the format strings that end in `0x0;0;0;0;0x0;0;0;0;0x0;0;0;0`. -/
def sampleRow.single (cycle stallLatency teaflags address isslat memlat signature : Nat) :
    sampleRow :=
  { cycle := cycle, stallLatency := stallLatency, teaflags := teaflags,
    addresses := [address, 0, 0, 0], isslats := [isslat, 0, 0, 0],
    memlats := [memlat, 0, 0, 0], signatures := [signature, 0, 0, 0] }

/-! ## Definitions: `tracedoctor_tea_sampler` -/

/-- The type `tracedoctor_tea_sampler::instrInfo`. -/
structure teaInstrInfo where
  address : Nat
  flags : Nat
  isslat : Nat
  memlat : Nat
  prevFlags : Nat
  stallLatency : Nat
  deriving DecidableEq, Repr

def teaInstrInfo.zero : teaInstrInfo := ⟨0, 0, 0, 0, 0, 0⟩

/-- The members of `tracedoctor_tea_sampler` and the rows written so far. -/
structure tracedoctor_tea_sampler where
  base : base_profiler
  lastInstructionRegister : teaInstrInfo
  lastProgressCycle : Nat
  samplingCycle : Nat
  state : Nat
  out : List sampleRow
  deriving DecidableEq, Repr

namespace tracedoctor_tea_sampler

def s_off : Nat := 0
def s_deferred : Nat := 1
def s_stalled : Nat := 2
def s_armed : Nat := 3

/-- The constructor; the header line is not modelled. -/
def ctor (rng : Nat → Nat) (args : List (List String)) (tokenBytes : Nat) :
    Except ctorError tracedoctor_tea_sampler :=
  match base_profiler.ctor rng args tokenBytes with
  | .error e => .error e
  | .ok b =>
    if b.samplingPeriod = 0 then .error .invalid_argument
    else .ok { base := b, lastInstructionRegister := teaInstrInfo.zero, lastProgressCycle := 0,
               samplingCycle := 0, state := s_off, out := [] }

/-- The block of `tick` under `if (reachedSamplingPeriod(token.state.tsc_cycle))`. -/
def samplePoint (rng : Nat → Nat) (s : tracedoctor_tea_sampler) (token : robAnalysisToken) :
    Option tracedoctor_tea_sampler :=
  if reachedSamplingPeriod s.base token.tsc_cycle then
    let exactHit := decide (s.base.nextPeriod = token.tsc_cycle)
    let thisPopulated := hasBit token.rob ROB_POPULATED
    let thisOnlyPopulated := thisPopulated && !hasBit token.rob (ROB_COMMITTING ||| ROB_EXCEPTION)
    match advanceSamplingPeriod rng s.base token.tsc_cycle with
    | none => none
    | some adv =>
      let s1 := { s with samplingCycle := s.base.nextPeriod, base := adv.2, state := s_armed }
      if !exactHit && thisPopulated then
        if hasBit s1.lastInstructionRegister.flags INSTR_OIR then
          some { s1 with
            out := s1.out ++ [sampleRow.single s1.samplingCycle
              s1.lastInstructionRegister.stallLatency (TEA_FLAG_VALID_0 ||| TEA_FLAG_OIR)
              s1.lastInstructionRegister.address s1.lastInstructionRegister.isslat
              s1.lastInstructionRegister.memlat
              (genSignature s1.lastInstructionRegister.prevFlags
                s1.lastInstructionRegister.flags s1.lastInstructionRegister.memlat
                s1.base.l2MissLatency s1.base.l3MissLatency)]
            state := s_off }
        else some { s1 with state := s_deferred }
      else if !exactHit || thisOnlyPopulated then some { s1 with state := s_stalled }
      else some s1
  else some s

/-- The local arrays and variables of the block that fills a row from the committing slots. -/
structure rowBuilder where
  addresses : List Nat
  isslats : List Nat
  memlats : List Nat
  signatures : List Nat
  teaflags : Nat
  flags : Nat
  index : Nat
  deriving DecidableEq, Repr

/-- One `if (token.instrN_flags & INSTR_COMMITS) { ... }` block that fills the row. -/
def fillSlot (l2MissLatency l3MissLatency : Nat) (flags address isslat memlat : Nat)
    (rb : rowBuilder) : rowBuilder :=
  if hasBit flags INSTR_COMMITS then
    { addresses := rb.addresses.set rb.index address
      isslats := rb.isslats.set rb.index isslat
      memlats := rb.memlats.set rb.index memlat
      signatures := rb.signatures.set rb.index
        (genSignature rb.flags flags memlat l2MissLatency l3MissLatency)
      teaflags := (rb.teaflags ||| (1 <<< rb.index)) % 2 ^ 16
      flags := flags
      index := rb.index + 1 }
  else rb

/-- The block of `tick` under `if (state && (token.state.rob & (ROB_COMMITTING |
ROB_EXCEPTION)))`. -/
def emitPart (s : tracedoctor_tea_sampler) (token : robAnalysisToken) :
    tracedoctor_tea_sampler :=
  if s.state ≠ 0 ∧ hasBit token.rob (ROB_COMMITTING ||| ROB_EXCEPTION) = true then
    let stallLatency := sub64 (sub64 token.tsc_cycle s.lastProgressCycle) 1
    let teaflags := (if s.state = s_stalled then TEA_FLAG_STALLED else 0) |||
      (if s.state = s_deferred then TEA_FLAG_DEFERRED else 0)
    let row : sampleRow :=
      if hasBit token.rob ROB_EXCEPTION then
        { cycle := s.samplingCycle, stallLatency := stallLatency, teaflags := TEA_FLAG_VALID_0,
          addresses := [(getFirstValid token).address, 0, 0, 0], isslats := [0, 0, 0, 0],
          memlats := [0, 0, 0, 0],
          signatures := [genSignature s.lastInstructionRegister.flags INSTR_EXCPT 0
            s.base.l2MissLatency s.base.l3MissLatency, 0, 0, 0] }
      else
        let rb0 : rowBuilder :=
          { addresses := [0, 0, 0, 0], isslats := [0, 0, 0, 0], memlats := [0, 0, 0, 0],
            signatures := [0, 0, 0, 0], teaflags := teaflags,
            flags := s.lastInstructionRegister.flags, index := 0 }
        let rb1 := fillSlot s.base.l2MissLatency s.base.l3MissLatency token.instr0_flags
          token.instr0_address token.instr0_isslat token.instr0_memlat rb0
        let rb2 := fillSlot s.base.l2MissLatency s.base.l3MissLatency token.instr1_flags
          token.instr1_address token.instr1_isslat token.instr1_memlat rb1
        let rb3 := fillSlot s.base.l2MissLatency s.base.l3MissLatency token.instr2_flags
          token.instr2_address token.instr2_isslat token.instr2_memlat rb2
        let rb4 := fillSlot s.base.l2MissLatency s.base.l3MissLatency token.instr3_flags
          token.instr3_address token.instr3_isslat token.instr3_memlat rb3
        { cycle := s.samplingCycle, stallLatency := stallLatency, teaflags := rb4.teaflags,
          addresses := rb4.addresses, isslats := rb4.isslats, memlats := rb4.memlats,
          signatures := rb4.signatures }
    { s with out := s.out ++ [row], state := s_off }
  else s

/-- One `if (token.instrN_flags & INSTR_COMMITS) { ... }` block that updates
`lastInstructionRegister`; the first three end with `stallLatency = 0;`. -/
def registerSlot (flags address isslat memlat : Nat) (st : teaInstrInfo × Nat) :
    teaInstrInfo × Nat :=
  if hasBit flags INSTR_COMMITS then
    ({ prevFlags := st.1.flags, address := address, flags := flags, isslat := isslat,
       memlat := memlat, stallLatency := st.2 }, 0)
  else st

/-- The block of `tick` under `if (token.state.rob & (ROB_EXCEPTION | ROB_COMMITTING))`. -/
def registerPart (s : tracedoctor_tea_sampler) (token : robAnalysisToken) :
    tracedoctor_tea_sampler :=
  if hasBit token.rob (ROB_EXCEPTION ||| ROB_COMMITTING) then
    let stallLatency := sub64 (sub64 token.tsc_cycle s.lastProgressCycle) 1
    let reg : teaInstrInfo :=
      if hasBit token.rob ROB_EXCEPTION then
        { address := (getFirstValid token).address
          prevFlags := s.lastInstructionRegister.flags
          flags := INSTR_VALID ||| INSTR_EXCPT
          isslat := 0, memlat := 0, stallLatency := stallLatency }
      else
        (registerSlot token.instr3_flags token.instr3_address token.instr3_isslat
          token.instr3_memlat
          (registerSlot token.instr2_flags token.instr2_address token.instr2_isslat
            token.instr2_memlat
            (registerSlot token.instr1_flags token.instr1_address token.instr1_isslat
              token.instr1_memlat
              (registerSlot token.instr0_flags token.instr0_address token.instr0_isslat
                token.instr0_memlat (s.lastInstructionRegister, stallLatency))))).1
    { s with lastInstructionRegister := reg, lastProgressCycle := token.tsc_cycle }
  else s

/-- The block of `tick` under `if ((token.state.rob & ROB_POPULATED) &&
(lastInstructionRegister.flags & INSTR_OIR))`. -/
def oirGap (s : tracedoctor_tea_sampler) (token : robAnalysisToken) : tracedoctor_tea_sampler :=
  if hasBit token.rob ROB_POPULATED && hasBit s.lastInstructionRegister.flags INSTR_OIR then
    { s with lastProgressCycle := sub64 token.tsc_cycle 1 }
  else s

/-- The body of the loop of `tick` after `triggerDetection` returned false. -/
def body (rng : Nat → Nat) (s : tracedoctor_tea_sampler) (token : robAnalysisToken) :
    Option tracedoctor_tea_sampler :=
  if hasBit token.rob (ROB_COMMITTING ||| ROB_EXCEPTION ||| ROB_POPULATED) then
    match samplePoint rng (oirGap s token) token with
    | none => none
    | some s3 => some (registerPart (emitPart s3 token) token)
  else some s

/-- One iteration of the loop of `tick`; `rng` gives the values drawn from the generator. -/
def step (rng : Nat → Nat) (s : tracedoctor_tea_sampler) (token : robAnalysisToken) :
    Option tracedoctor_tea_sampler :=
  if (triggerDetection s.base token).2.1 then
    some { s with
      lastInstructionRegister := teaInstrInfo.zero
      lastProgressCycle := token.tsc_cycle
      base := restartSampling (triggerDetection s.base token).2.2 token.tsc_cycle }
  else body rng { s with base := (triggerDetection s.base token).2.2 } token

def tick (rng : Nat → Nat) (s : tracedoctor_tea_sampler) :
    List robAnalysisToken → Option tracedoctor_tea_sampler
  | [] => some s
  | token :: tokens =>
    match step rng s token with
    | none => none
    | some s1 => tick rng s1 tokens

end tracedoctor_tea_sampler

/-! ## Definitions: `tracedoctor_ibs_sampler` and `tracedoctor_pebs_sampler` -/

/-- The update of `lastInstructionRegister.flags` at the end of the IBS and PEBS `tick`. -/
def lastFlagsUpdate (flags : Nat) (token : robAnalysisToken) : Nat :=
  if hasBit token.rob ROB_EXCEPTION then INSTR_VALID ||| INSTR_EXCPT
  else if hasBit token.instr3_flags INSTR_COMMITS then token.instr3_flags
  else if hasBit token.instr2_flags INSTR_COMMITS then token.instr2_flags
  else if hasBit token.instr1_flags INSTR_COMMITS then token.instr1_flags
  else if hasBit token.instr0_flags INSTR_COMMITS then token.instr0_flags
  else flags

/-- The members of `tracedoctor_ibs_sampler` and the rows written so far;
`lastInstructionRegister` has the single member `flags`. -/
structure tracedoctor_ibs_sampler where
  base : base_profiler
  coreWidth : Nat
  lastInstructionRegister_flags : Nat
  lastProgressCycle : Nat
  samplingCycle : Nat
  tag : Nat
  state : Nat
  evicted : Nat
  out : List sampleRow
  deriving DecidableEq, Repr

namespace tracedoctor_ibs_sampler

def s_idle : Nat := 0
def s_tagging : Nat := 1
def s_armed : Nat := 2

/-- The argument loop of the constructor (`coreWidth` is an `unsigned int`). -/
def parseArgs (coreWidth : Nat) : List (List String) → Except ctorError Nat
  | [] => .ok coreWidth
  | c :: args =>
    match c with
    | [] => .error .undefined_behaviour
    | [_] => parseArgs coreWidth args
    | c0 :: c1 :: _ =>
      if c0 = "coreWidth" then
        match stoul c1 with
        | .error e => .error e
        | .ok n => parseArgs (n % 2 ^ 32) args
      else parseArgs coreWidth args

/-- The constructor; the header line is not modelled. -/
def ctor (rng : Nat → Nat) (args : List (List String)) (tokenBytes : Nat) :
    Except ctorError tracedoctor_ibs_sampler :=
  match base_profiler.ctor rng args tokenBytes with
  | .error e => .error e
  | .ok b =>
    if b.samplingPeriod = 0 then .error .invalid_argument
    else
      match parseArgs 4 args with
      | .error e => .error e
      | .ok w =>
        .ok { base := b, coreWidth := w, lastInstructionRegister_flags := 0,
              lastProgressCycle := 0, samplingCycle := 0, tag := 0, state := s_idle,
              evicted := 0, out := [] }

/-- Both blocks of `tick` under `if (reachedSamplingPeriod(token.state.tsc_cycle))`. -/
def samplePoint (rng : Nat → Nat) (s : tracedoctor_ibs_sampler) (token : robAnalysisToken) :
    Option tracedoctor_ibs_sampler :=
  if reachedSamplingPeriod s.base token.tsc_cycle then
    match advanceSamplingPeriod rng s.base token.tsc_cycle with
    | none => none
    | some adv => some { s with samplingCycle := s.base.nextPeriod, base := adv.2,
                                state := s_tagging }
  else some s

/-- The block of `tick` under `if (state == s_armed)`; `none` is the division by a zero
`coreWidth`. -/
def armedPart (s : tracedoctor_ibs_sampler) (token : robAnalysisToken) :
    Option tracedoctor_ibs_sampler :=
  if s.state = s_armed then
    if s.coreWidth = 0 then none
    else
      let tail := token.rob_tail
      let head := sub32 token.rob_head (token.rob_head % s.coreWidth) % 2 ^ 16
      let instr_valid := hasBit (token.instr0_flags ||| token.instr1_flags |||
        token.instr2_flags ||| token.instr3_flags) INSTR_VALID
      let evict_1 := decide (tail > head) && decide (s.tag ≥ tail)
      let evict_2 := decide (tail > head) && decide (s.tag < head)
      let evict_3 := decide (tail < head) && decide (s.tag ≥ tail) && decide (s.tag < head)
      let evict_4 := decide (tail = head) && !instr_valid
      if evict_1 || evict_2 || evict_3 || evict_4 then
        some { s with evicted := add64 s.evicted 1, state := s_idle }
      else if hasBit token.rob ROB_COMMITTING && decide (s.tag ≥ head) &&
          decide (s.tag < (head + s.coreWidth) % 2 ^ 32) then
        let fc := getFirstCommitting token
        some { s with
          out := s.out ++ [sampleRow.single s.samplingCycle
            (sub64 (sub64 token.tsc_cycle s.lastProgressCycle) 1) TEA_FLAG_VALID_0
            fc.address fc.isslat fc.memlat
            (genSignature s.lastInstructionRegister_flags fc.flags fc.memlat
              s.base.l2MissLatency s.base.l3MissLatency)]
          state := s_idle }
      else some s
  else some s

/-- The block of `tick` under `if ((token.state.rob & ROB_POPULATED) &&
(lastInstructionRegister.flags & INSTR_OIR))`. -/
def oirGap (s : tracedoctor_ibs_sampler) (token : robAnalysisToken) : tracedoctor_ibs_sampler :=
  if hasBit token.rob ROB_POPULATED && hasBit s.lastInstructionRegister_flags INSTR_OIR then
    { s with lastProgressCycle := sub64 token.tsc_cycle 1 }
  else s

/-- The block of `tick` under `if ((state == s_tagging) && (token.state.rob &
ROB_DISPATCHING))`. -/
def tagPart (s : tracedoctor_ibs_sampler) (token : robAnalysisToken) : tracedoctor_ibs_sampler :=
  if s.state = s_tagging ∧ hasBit token.rob ROB_DISPATCHING = true then
    { s with tag := token.rob_tail, state := s_armed }
  else s

/-- The block of `tick` under `if (token.state.rob & (ROB_EXCEPTION | ROB_COMMITTING))`. -/
def registerPart (s : tracedoctor_ibs_sampler) (token : robAnalysisToken) :
    tracedoctor_ibs_sampler :=
  if hasBit token.rob (ROB_EXCEPTION ||| ROB_COMMITTING) then
    { s with
      lastInstructionRegister_flags := lastFlagsUpdate s.lastInstructionRegister_flags token
      lastProgressCycle := token.tsc_cycle }
  else s

/-- The body of the loop of `tick` after `triggerDetection` returned false. -/
def body (rng : Nat → Nat) (s : tracedoctor_ibs_sampler) (token : robAnalysisToken) :
    Option tracedoctor_ibs_sampler :=
  match samplePoint rng (oirGap s token) token with
  | none => none
  | some s3 =>
    match armedPart s3 token with
    | none => none
    | some s4 =>
      match samplePoint rng s4 token with
      | none => none
      | some s5 => some (registerPart (tagPart s5 token) token)

/-- One iteration of the loop of `tick`. -/
def step (rng : Nat → Nat) (s : tracedoctor_ibs_sampler) (token : robAnalysisToken) :
    Option tracedoctor_ibs_sampler :=
  if (triggerDetection s.base token).2.1 then
    some { s with
      lastInstructionRegister_flags := 0
      lastProgressCycle := token.tsc_cycle
      base := restartSampling (triggerDetection s.base token).2.2 token.tsc_cycle }
  else body rng { s with base := (triggerDetection s.base token).2.2 } token

def tick (rng : Nat → Nat) (s : tracedoctor_ibs_sampler) :
    List robAnalysisToken → Option tracedoctor_ibs_sampler
  | [] => some s
  | token :: tokens =>
    match step rng s token with
    | none => none
    | some s1 => tick rng s1 tokens

end tracedoctor_ibs_sampler

/-- The members of `tracedoctor_pebs_sampler` and the rows written so far. -/
structure tracedoctor_pebs_sampler where
  base : base_profiler
  lastInstructionRegister_flags : Nat
  lastProgressCycle : Nat
  samplingCycle : Nat
  state : Nat
  out : List sampleRow
  deriving DecidableEq, Repr

namespace tracedoctor_pebs_sampler

def s_idle : Nat := 0
def s_armed : Nat := 2

/-- The constructor; the header line is not modelled. -/
def ctor (rng : Nat → Nat) (args : List (List String)) (tokenBytes : Nat) :
    Except ctorError tracedoctor_pebs_sampler :=
  match base_profiler.ctor rng args tokenBytes with
  | .error e => .error e
  | .ok b =>
    if b.samplingPeriod = 0 then .error .invalid_argument
    else .ok { base := b, lastInstructionRegister_flags := 0, lastProgressCycle := 0,
               samplingCycle := 0, state := s_idle, out := [] }

/-- The block of `tick` under `if (reachedSamplingPeriod(token.state.tsc_cycle))`. -/
def samplePoint (rng : Nat → Nat) (s : tracedoctor_pebs_sampler) (token : robAnalysisToken) :
    Option tracedoctor_pebs_sampler :=
  if reachedSamplingPeriod s.base token.tsc_cycle then
    match advanceSamplingPeriod rng s.base token.tsc_cycle with
    | none => none
    | some adv => some { s with samplingCycle := s.base.nextPeriod, base := adv.2,
                                state := s_armed }
  else some s

/-- The block of `tick` under `if ((state == s_armed) && token.state.rob & ROB_COMMITTING)`. -/
def emitPart (s : tracedoctor_pebs_sampler) (token : robAnalysisToken) :
    tracedoctor_pebs_sampler :=
  if s.state = s_armed ∧ hasBit token.rob ROB_COMMITTING = true then
    let fc := getFirstCommitting token
    { s with
      out := s.out ++ [sampleRow.single s.samplingCycle
        (sub64 (sub64 token.tsc_cycle s.lastProgressCycle) 1) TEA_FLAG_VALID_0
        fc.address fc.isslat fc.memlat
        (genSignature s.lastInstructionRegister_flags fc.flags fc.memlat
          s.base.l2MissLatency s.base.l3MissLatency)]
      state := s_idle }
  else s

/-- The block of `tick` under `if ((token.state.rob & ROB_POPULATED) &&
(lastInstructionRegister.flags & INSTR_OIR))`. -/
def oirGap (s : tracedoctor_pebs_sampler) (token : robAnalysisToken) :
    tracedoctor_pebs_sampler :=
  if hasBit token.rob ROB_POPULATED && hasBit s.lastInstructionRegister_flags INSTR_OIR then
    { s with lastProgressCycle := sub64 token.tsc_cycle 1 }
  else s

/-- The block of `tick` under `if (token.state.rob & (ROB_EXCEPTION | ROB_COMMITTING))`. -/
def registerPart (s : tracedoctor_pebs_sampler) (token : robAnalysisToken) :
    tracedoctor_pebs_sampler :=
  if hasBit token.rob (ROB_EXCEPTION ||| ROB_COMMITTING) then
    { s with
      lastInstructionRegister_flags := lastFlagsUpdate s.lastInstructionRegister_flags token
      lastProgressCycle := token.tsc_cycle }
  else s

/-- The body of the loop of `tick` after `triggerDetection` returned false. -/
def body (rng : Nat → Nat) (s : tracedoctor_pebs_sampler) (token : robAnalysisToken) :
    Option tracedoctor_pebs_sampler :=
  match samplePoint rng (oirGap s token) token with
  | none => none
  | some s3 => some (registerPart (emitPart s3 token) token)

/-- One iteration of the loop of `tick`. -/
def step (rng : Nat → Nat) (s : tracedoctor_pebs_sampler) (token : robAnalysisToken) :
    Option tracedoctor_pebs_sampler :=
  if (triggerDetection s.base token).2.1 then
    some { s with
      lastInstructionRegister_flags := 0
      lastProgressCycle := token.tsc_cycle
      base := restartSampling (triggerDetection s.base token).2.2 token.tsc_cycle }
  else body rng { s with base := (triggerDetection s.base token).2.2 } token

def tick (rng : Nat → Nat) (s : tracedoctor_pebs_sampler) :
    List robAnalysisToken → Option tracedoctor_pebs_sampler
  | [] => some s
  | token :: tokens =>
    match step rng s token with
    | none => none
    | some s1 => tick rng s1 tokens

end tracedoctor_pebs_sampler

/-! ## Definitions: quantities the Oracle properties are stated with -/

/-- Sum of `tCommit + 24 * (tStall + tDeferred + tBrMiss + tFlush + tExcpt)` over all rows. -/
def total24 (r : List (Nat × flatSample)) : Nat := (r.map (fun e => e.2.cycles24)).sum

/-- Sum of `tCycles` over all rows. -/
def totalCycles (r : List (Nat × flatSample)) : ℚ := (r.map (fun e => e.2.tCycles)).sum

/-- Whether at least one slot of the token has COMMITS. -/
def anyCommits (t : robAnalysisToken) : Bool :=
  hasBit t.instr0_flags INSTR_COMMITS || hasBit t.instr1_flags INSTR_COMMITS ||
  hasBit t.instr2_flags INSTR_COMMITS || hasBit t.instr3_flags INSTR_COMMITS

/-- Whether the flags of the last committing slot carry both BR_MISS and FLUSHS. -/
def lastBrMissAndFlush (t : robAnalysisToken) : Bool :=
  hasBit (getLastCommitting t).flags INSTR_BR_MISS &&
  hasBit (getLastCommitting t).flags INSTR_FLUSHS

/-- A token with the given cycle and ROB status whose slot 0 has the given flags and address;
everything else is zero. -/
def slot0Token (cycle rob flags address : Nat) : robAnalysisToken :=
  { robAnalysisToken.zero with
    tsc_cycle := cycle, rob := rob, instr0_flags := flags, instr0_address := address }

/-- The Oracle as constructed with no arguments. -/
def oracleFresh : tracedoctor_oracle :=
  { base := base_profiler.initial, result := [], lastToken := robAnalysisToken.zero, out := [] }

/-- Every counter vector stored in the histogram is non-empty, as `value2hist` leaves them. -/
def histWF (h : histogram) : Prop := ∀ e ∈ h, e.2 ≠ []

instance (h : histogram) : Decidable (histWF h) := by
  unfold histWF; infer_instance

/-- Every counter vector held by the TEA-gold worker is non-empty. -/
def goldWF (s : tracedoctor_tea_gold) : Prop :=
  histWF s.result ∧ ∀ e ∈ s.severityHists, histWF e.2

instance (s : tracedoctor_tea_gold) : Decidable (goldWF s) := by
  unfold goldWF; infer_instance

/-- TEA-gold as constructed with no arguments. -/
def goldFresh : tracedoctor_tea_gold :=
  { base := base_profiler.initial, lastInstructionRegister := goldInstrInfo.zero,
    severityHists := [], result := [], lastProgressCycle := 0, out0 := [], out1 := [] }

/-- A first token at cycle 49 and a COMMITTING token at cycle 50 whose only committing slot is
a mispredicted branch at `0x200`. -/
def goldBranchTokens : List robAnalysisToken :=
  [slot0Token 49 ROB_COMMITTING (INSTR_COMMITS ||| INSTR_VALID) 0x100,
   slot0Token 50 ROB_COMMITTING (INSTR_COMMITS ||| INSTR_VALID ||| INSTR_BR_MISS) 0x200]

/-- TEA-gold after its first token, seen at cycle 49. -/
def goldStarted : tracedoctor_tea_gold :=
  { goldFresh with
    base := { base_profiler.initial with firstToken := false }, lastProgressCycle := 49 }

/-- A COMMITTING token at cycle 50 whose only committing slot is a mispredicted branch at
`0x200`. -/
def goldBranchToken : robAnalysisToken :=
  slot0Token 50 ROB_COMMITTING (INSTR_COMMITS ||| INSTR_VALID ||| INSTR_BR_MISS) 0x200

/-- A COMMITTING token at cycle 51, not POPULATED, committing one instruction at `0x300`. -/
def goldNextCommitToken : robAnalysisToken :=
  slot0Token 51 ROB_COMMITTING (INSTR_COMMITS ||| INSTR_VALID) 0x300

/-- Two tokens at cycles 51 and 52 whose ROB status is DISPATCHING only. -/
def goldQuietTokens : List robAnalysisToken :=
  [slot0Token 51 ROB_DISPATCHING INSTR_VALID 0x300, slot0Token 52 ROB_DISPATCHING INSTR_VALID 0x300]

/-! ## Definitions: inputs the sampler properties are stated with -/

/-- The IBS sampler as constructed with `samplingPeriod:100` (and the default `coreWidth` 4). -/
def ibsFresh : tracedoctor_ibs_sampler :=
  { base := restartSampling { base_profiler.initial with samplingPeriod := 100 } 0,
    coreWidth := 4, lastInstructionRegister_flags := 0, lastProgressCycle := 0,
    samplingCycle := 0, tag := 0, state := tracedoctor_ibs_sampler.s_idle, evicted := 0,
    out := [] }

/-- A first token at cycle 0, then a DISPATCHING token at cycle 100 (the sample tick) whose
`rob_tail` is 12. -/
def ibsTagTokens : List robAnalysisToken :=
  [slot0Token 0 ROB_POPULATED INSTR_VALID 0x100,
   { slot0Token 100 ROB_DISPATCHING INSTR_VALID 0x100 with rob_head := 4, rob_tail := 12 }]

/-- A token at cycle 101 with `rob_tail = 8` and `rob_head = 20`. -/
def ibsRewindToken : robAnalysisToken :=
  { slot0Token 101 ROB_DISPATCHING INSTR_VALID 0x100 with rob_head := 20, rob_tail := 8 }

/-! ## Definitions: the histogram encoding rule, as the specification words it -/

/-- The pairs `(v, count[v])` for the values `v < m` whose count is not zero, in increasing
order of `v`. -/
def nonzeroPairs (count : List Nat) (m : Nat) : List (Nat × Nat) :=
  ((List.range m).filter (fun v => count.getD v 0 ≠ 0)).map (fun v => (v, count.getD v 0))

/-- The text `v:c` of a pair. -/
def pairChars (p : Nat × Nat) : List Char := decChars p.1 ++ [':'] ++ decChars p.2

/-- The encoding rule: every pair of a non-zero count below the maximum value `m`, each
followed by `/`, then the pair of `m` itself. -/
def encodedBody (count : List Nat) (m : Nat) : List Char :=
  (nonzeroPairs count m).flatMap (fun p => pairChars p ++ ['/']) ++
    pairChars (m, count.getD m 0)

/-- The line of a histogram entry: prefix, key in hexadecimal, `;`, and the encoded pairs. -/
def encodedLine (pfx : List Char) (key : Nat) (count : List Nat) (m : Nat) : List Char :=
  pfx ++ (['0', 'x'] ++ hexChars key ++ [';'] ++ encodedBody count m)

/-! ## Definitions: the sampling window without dither -/

/-- The sampling members after the first token when no dither is configured: period `P`,
`randomOffset = 0`, and the next sample point `np` (`nextPeriodStart = nextPeriod = np`). -/
def samplingInv (b : base_profiler) (P np : Nat) : Prop :=
  b.firstToken = false ∧ b.samplingPeriod = P ∧ b.randomOffset = 0 ∧
  b.nextPeriodStart = np ∧ b.nextPeriod = np

/-- The loop of a `tick` function over a buffer, for any loop body. -/
def runTokens {σ : Type} (step : σ → robAnalysisToken → Option σ) :
    σ → List robAnalysisToken → Option σ
  | s, [] => some s
  | s, token :: tokens =>
    match step s token with
    | none => none
    | some s1 => runTokens step s1 tokens

/-- What the period-coverage argument uses of a sampler without dither, seen through its
`base_profiler` members, whether its state machine is away from its rest state, and the number
of rows written:
* the first token restarts the sampling window and writes nothing;
* a token before the next sample point changes nothing;
* a COMMITTING token exactly on the sample point writes one row and moves the sample point one
  period ahead;
* a COMMITTING token past a sample point that lies behind it because `c + P` wrapped writes
  one row and moves the sample point beyond every 44-bit cycle. -/
def periodicSampler {σ : Type} (step : σ → robAnalysisToken → Option σ)
    (base : σ → base_profiler) (active : σ → Bool) (rows : σ → Nat) : Prop :=
  (∀ (s : σ) (t : robAnalysisToken) (P : Nat),
      (base s).firstToken = true → (base s).samplingPeriod = P → (base s).randomOffset = 0 →
      (base s).randomStartOffset = 0 → t.tsc_cycle < 2 ^ 64 →
      ∃ s1, step s t = some s1 ∧ samplingInv (base s1) P ((t.tsc_cycle + P) % 2 ^ 64) ∧
        active s1 = active s ∧ rows s1 = rows s) ∧
  (∀ (s : σ) (t : robAnalysisToken) (P np : Nat),
      samplingInv (base s) P np → t.tsc_cycle < np → active s = false →
      ∃ s1, step s t = some s1 ∧ samplingInv (base s1) P np ∧ active s1 = false ∧
        rows s1 = rows s) ∧
  (∀ (s : σ) (t : robAnalysisToken) (P : Nat),
      samplingInv (base s) P t.tsc_cycle → 1 ≤ P → t.tsc_cycle + P < 2 ^ 64 →
      active s = false → hasBit t.rob ROB_COMMITTING = true →
      ∃ s1, step s t = some s1 ∧ samplingInv (base s1) P (t.tsc_cycle + P) ∧
        active s1 = false ∧ rows s1 = rows s + 1) ∧
  (∀ (s : σ) (t : robAnalysisToken) (P x : Nat),
      samplingInv (base s) P x → x < t.tsc_cycle → t.tsc_cycle < 2 ^ 44 →
      2 ^ 64 - 2 ^ 44 ≤ P → P < 2 ^ 64 →
      active s = false → hasBit t.rob ROB_COMMITTING = true →
      ∃ s1 np, step s t = some s1 ∧ samplingInv (base s1) P np ∧ 2 ^ 44 ≤ np ∧
        active s1 = false ∧ rows s1 = rows s + 1)


/-- The tokens at the consecutive cycles `c0 + 1 .. c0 + N` of a run, each of them COMMITTING. -/
def consecutiveCommitting (c0 : Nat) (toks : List robAnalysisToken) : Prop :=
  ∀ (j : Nat) (h : j < toks.length),
    (toks.get ⟨j, h⟩).tsc_cycle = c0 + j + 1 ∧
    hasBit (toks.get ⟨j, h⟩).rob ROB_COMMITTING = true

instance (c0 : Nat) (toks : List robAnalysisToken) : Decidable (consecutiveCommitting c0 toks) := by
  unfold consecutiveCommitting
  infer_instance

/-- A first token at cycle 10. -/
def coverageFirst : robAnalysisToken := slot0Token 10 ROB_COMMITTING INSTR_COMMITS 256

/-- Five COMMITTING tokens at the cycles 11 to 15, each committing from slot 0. -/
def coverageTokens : List robAnalysisToken :=
  [slot0Token 11 ROB_COMMITTING INSTR_COMMITS 260,
   slot0Token 12 ROB_COMMITTING INSTR_COMMITS 264,
   slot0Token 13 ROB_COMMITTING INSTR_COMMITS 268,
   slot0Token 14 ROB_COMMITTING INSTR_COMMITS 272,
   slot0Token 15 ROB_COMMITTING INSTR_COMMITS 276]

/-! ## Definitions: the tokens and expected rows of the concrete scenarios -/

/-- The token of scenario S1: COMMITTING at cycle 1000, slot 0 commits at `0x80` with memory
latency 10. -/
def s1Token : robAnalysisToken :=
  { robAnalysisToken.zero with
    tsc_cycle := 1000, rob := ROB_COMMITTING, instr0_flags := INSTR_COMMITS ||| INSTR_VALID,
    instr0_address := 0x80, instr0_memlat := 10 }

/-- The row scenario S1 expects: `tCommit = 24`, `cCommit = 1`, all other fields 0. -/
def s1Expected : flatSample := { flatSample.zero with tCommit := 24, cCommit := 1 }

/-- A token that is POPULATED only. -/
def populatedToken (cycle : Nat) : robAnalysisToken :=
  { robAnalysisToken.zero with tsc_cycle := cycle, rob := ROB_POPULATED }

/-- The counter `hist[key][value]`, read without inserting; 0 where the histogram has no
entry or the vector is shorter. -/
def histCount (hist : histogram) (key value : Nat) : Nat := (amapGet [] hist key).getD value 0

/-- The number of slots of the token with COMMITS, address `a` and memory latency `v`; 0 when
the ROB status of the token lacks COMMITTING. -/
def slotHits (t : robAnalysisToken) (a v : Nat) : Nat :=
  if hasBit t.rob ROB_COMMITTING then
    b2n (hasBit t.instr0_flags INSTR_COMMITS && decide (t.instr0_address = a) &&
      decide (t.instr0_memlat = v)) +
    b2n (hasBit t.instr1_flags INSTR_COMMITS && decide (t.instr1_address = a) &&
      decide (t.instr1_memlat = v)) +
    b2n (hasBit t.instr2_flags INSTR_COMMITS && decide (t.instr2_address = a) &&
      decide (t.instr2_memlat = v)) +
    b2n (hasBit t.instr3_flags INSTR_COMMITS && decide (t.instr3_address = a) &&
      decide (t.instr3_memlat = v))
  else 0

/-- The number of committing slots with address `a` and memory latency `v` over all tokens. -/
def latencyCount (toks : List robAnalysisToken) (a v : Nat) : Nat :=
  (toks.map (fun t => slotHits t a v)).sum

/-- The latency-histogram worker as constructed with no arguments. -/
def latencyFresh : tracedoctor_latency_hist :=
  { base := restartSampling base_profiler.initial 0, memoryLatencyHist := [], out := [] }

/-- The token of scenario S6: all four slots commit, at `0xA`, `0xB`, `0xC`, `0xD` with memory
latencies 5, 10, 10 and 99. -/
def s6Token : robAnalysisToken :=
  { robAnalysisToken.zero with
    tsc_cycle := 7, rob := ROB_COMMITTING,
    instr0_flags := INSTR_COMMITS ||| INSTR_VALID, instr0_address := 0xA, instr0_memlat := 5,
    instr1_flags := INSTR_COMMITS ||| INSTR_VALID, instr1_address := 0xB, instr1_memlat := 10,
    instr2_flags := INSTR_COMMITS ||| INSTR_VALID, instr2_address := 0xC, instr2_memlat := 10,
    instr3_flags := INSTR_COMMITS ||| INSTR_VALID, instr3_address := 0xD, instr3_memlat := 99 }

/-- The three tokens of scenario S3: a mispredicted branch commits at `0x200` in cycle 50, the
ROB is populated again in cycle 80, and an instruction at `0x300` commits in cycle 81. -/
def s3Tokens : List robAnalysisToken :=
  [slot0Token 50 ROB_COMMITTING (INSTR_COMMITS ||| INSTR_VALID ||| INSTR_BR_MISS) 0x200,
   populatedToken 80,
   slot0Token 81 ROB_COMMITTING (INSTR_COMMITS ||| INSTR_VALID) 0x300]

/-- The three tokens of scenario S4: POPULATED at cycle 500, then slot 0 commits at `0xD` in
cycle 1000 and at `0xE` in cycle 2000. -/
def s4Tokens : List robAnalysisToken :=
  [populatedToken 500,
   slot0Token 1000 ROB_COMMITTING (INSTR_COMMITS ||| INSTR_VALID) 0xD,
   slot0Token 2000 ROB_COMMITTING (INSTR_COMMITS ||| INSTR_VALID) 0xE]

/-- The PEBS sampler as constructed with `samplingPeriod:1000`. -/
def pebsFresh1000 : tracedoctor_pebs_sampler :=
  { base := restartSampling { base_profiler.initial with samplingPeriod := 1000 } 0,
    lastInstructionRegister_flags := 0, lastProgressCycle := 0, samplingCycle := 0,
    state := tracedoctor_pebs_sampler.s_idle, out := [] }

/-- TEA-gold as constructed with `flushAfter:100`. -/
def goldFlush100 : tracedoctor_tea_gold :=
  { goldFresh with base := { base_profiler.initial with flushThreshold := 100 } }

/-- Tokens after which the mispredicted branch at `0x200` has one observation of severity 29
and is pending again, with `lastProgressCycle = 82`. -/
def goldRepeatTokens : List robAnalysisToken :=
  [slot0Token 49 ROB_COMMITTING (INSTR_COMMITS ||| INSTR_VALID) 0x100,
   slot0Token 50 ROB_COMMITTING (INSTR_COMMITS ||| INSTR_VALID ||| INSTR_BR_MISS) 0x200,
   populatedToken 80,
   slot0Token 81 ROB_COMMITTING (INSTR_COMMITS ||| INSTR_VALID) 0x300,
   slot0Token 82 ROB_COMMITTING (INSTR_COMMITS ||| INSTR_VALID ||| INSTR_BR_MISS) 0x200]

/-- A token at cycle 80 that is POPULATED and COMMITTING; slot 0 commits a mispredicted branch
at `0x300`. -/
def populatedCommitToken : robAnalysisToken :=
  slot0Token 80 (ROB_POPULATED ||| ROB_COMMITTING)
    (INSTR_COMMITS ||| INSTR_VALID ||| INSTR_BR_MISS) 0x300

/-! ## Definitions: quantities the sampling-period properties are stated with -/

/-- The members after one pass through the body of the `do ... while` loop of
`advanceSamplingPeriod`. -/
def advanceBody (rng : Nat → Nat) (b : base_profiler) : base_profiler :=
  ditherNextPeriod rng
    { b with
      lastPeriod := b.nextPeriod
      nextPeriodStart := add64 b.nextPeriodStart b.samplingPeriod
      nextPeriod := add64 b.nextPeriodStart b.samplingPeriod }

/-- The members right after construction with `samplingPeriod:9223372036854775808` and
`randomOffset:9223372036854775807` (`P = 2^63`, `R = P - 1`). -/
def wrapState : base_profiler :=
  restartSampling
    { base_profiler.initial with samplingPeriod := 2 ^ 63, randomOffset := 2 ^ 63 - 1 } 0

/-- A sequence of dither draws in `[0, 2^63 - 1]`: 0 and `2^63 - 1` in turn. -/
def wrapDraws (k : Nat) : Nat := if k % 2 = 0 then 0 else 2 ^ 63 - 1
/-! ## Definitions: the dispatcher (`tracedoctor.h`) -/

/-- The type `referencedBuffer` of `tracedoctor.h`: the block `data` as the list of the tokens
it holds, the token count, and the reference count. -/
structure referencedBuffer (α : Type) where
  data : List α
  tokens : Nat
  refs : Nat

/-- Modelled from the spec: what `worker.tick(buf.data, buf.tokenCount)` reads (section 4.3,
step 5), the first `tokens` tokens of the block. -/
def referencedBuffer.contents {α : Type} (b : referencedBuffer α) : List α :=
  b.data.take b.tokens

/-- Modelled from the spec: where the thread of a worker stands in its loop (section 4.3).
It holds no buffer (steps 1 to 4), or it has popped a buffer pointer and released the lock
(after step 2), or it has run `tick` on that buffer and not yet released it (after step 5).
A buffer pointer is the index of the buffer in `buffers`. -/
inductive workerThread where
  | waiting
  | popped (buf : Nat)
  | ticked (buf : Nat)

/-- The buffer pointer a thread holds. -/
def workerThread.held : workerThread → List Nat
  | .waiting => []
  | .popped buf => [buf]
  | .ticked buf => [buf]

/-- The buffer pointer a thread holds and has not yet handed to `tick`. -/
def workerThread.unseen : workerThread → List Nat
  | .waiting => []
  | .popped buf => [buf]
  | .ticked _ => []

/-- Modelled from the spec: the state of the dispatcher that `process_tokens` and `work` of
`tracedoctor.cc` act on; the sources hold only the declarations in `tracedoctor.h`.
`buffers` is the pool of `bufferDepth` buffers, `bufferIndex` the buffer the rotation has
chosen as fill target, `fillTokens` the number of tokens the ingest thread has appended to it,
`workQueues` one FIFO of buffer pointers per worker (guarded by `workQueueLock`), `threads` the
place of every worker thread in its loop, one thread per worker (the default of section 4.3).
Three lists record the history: `produced` the tokens the ingest thread has appended,
`published` the contents of the buffers it has published, `observed`, per worker, the contents
its `tick` was handed. -/
structure dispatcher (α : Type) where
  buffers : List (referencedBuffer α)
  bufferIndex : Nat
  bufferTokenCapacity : Nat
  fillTokens : Nat
  workQueues : List (List Nat)
  threads : List workerThread
  produced : List α
  published : List (List α)
  observed : List (List (List α))

/-- Modelled from the spec: what can happen to the dispatcher of `tracedoctor.cc`. The ingest
thread appends one polled token to the fill target, or it publishes the fill target (the
threshold is crossed or a flush is requested), or the thread of a worker takes the next step
of its loop. -/
inductive dispatchEvent (α : Type) where
  | ingest (token : α)
  | publish
  | work (worker : Nat)

namespace dispatcher

/-- Modelled from the spec: the dispatcher of `tracedoctor.cc` before the first token, with
`n` workers, a pool of `bufferDepth` free buffers and empty queues. -/
def init (α : Type) (n bufferDepth bufferTokenCapacity : Nat) : dispatcher α :=
  { buffers := List.replicate bufferDepth { data := [], tokens := 0, refs := 0 }
    bufferIndex := 0
    bufferTokenCapacity := bufferTokenCapacity
    fillTokens := 0
    workQueues := List.replicate n []
    threads := List.replicate n .waiting
    produced := []
    published := []
    observed := List.replicate n [] }

/-- Modelled from the spec: `acquireFillTarget()` (section 4.1) returns the current write
buffer, and fails (`BackpressureStall`) when the buffer the rotation has chosen still has a
reference count above zero. -/
def acquireFillTarget {α : Type} (d : dispatcher α) : Option (referencedBuffer α) :=
  match d.buffers[d.bufferIndex]? with
  | some b => if b.refs = 0 then some b else none
  | none => none

/-- Modelled from the spec: the ingest thread appends one token to the active buffer (section
4.2). It writes the block at position `fillTokens`; when the fill target cannot be acquired
the ingest thread stalls, and when the buffer is full the token stays in the bridge: nothing
changes. -/
def ingest {α : Type} (d : dispatcher α) (token : α) : dispatcher α :=
  match d.acquireFillTarget with
  | some b =>
    if d.fillTokens < d.bufferTokenCapacity then
      { d with
        buffers := d.buffers.set d.bufferIndex
          { b with data := b.data.take d.fillTokens ++ [token] ++
              b.data.drop (d.fillTokens + 1) }
        fillTokens := d.fillTokens + 1
        produced := d.produced ++ [token] }
    else d
  | none => d

/-- Modelled from the spec: `publish(buf, tokenCount, subscriberCount)` (section 4.1) on the
fill target, followed by the rotation. The reference count is set to the number of worker
queues and the token count is fixed; the buffer pointer is enqueued to all queues while the
single `workQueueLock` is held (section 4.2), so this is one indivisible step; the rotation
goes round-robin through the pool. When the fill target cannot be acquired the ingest thread
stalls. -/
def publish {α : Type} (d : dispatcher α) : dispatcher α :=
  match d.acquireFillTarget with
  | some b =>
    { d with
      buffers := d.buffers.set d.bufferIndex
        { b with tokens := d.fillTokens, refs := d.workQueues.length }
      workQueues := d.workQueues.map (fun q => q ++ [d.bufferIndex])
      bufferIndex := (d.bufferIndex + 1) % d.buffers.length
      fillTokens := 0
      published := d.published ++ [b.data.take d.fillTokens] }
  | none => d

/-- Modelled from the spec: `release(buf)` (section 4.1), the atomic decrement of the
reference count; at zero the buffer is free again. A thread releases only the buffer it
holds, whose count is above zero (`dispatchInv`), so the decrement does not wrap. -/
def release {α : Type} (d : dispatcher α) (buf : Nat) : dispatcher α :=
  match d.buffers[buf]? with
  | some b => { d with buffers := d.buffers.set buf { b with refs := b.refs - 1 } }
  | none => d

/-- Modelled from the spec: the next step of the thread loop of `work` in `tracedoctor.cc`
(section 4.3). A thread that holds no buffer pops the first buffer pointer of its own queue
under `workQueueLock` (steps 1 and 2), and waits when the queue is empty (step 4); a thread
that has popped runs `tick(buf.data, buf.tokenCount)` outside the lock (step 5), reading the
buffer as it is then; a thread that has ticked releases the buffer (step 6). -/
def work {α : Type} (d : dispatcher α) (worker : Nat) : dispatcher α :=
  match d.threads[worker]? with
  | some .waiting =>
    match d.workQueues[worker]? with
    | some (buf :: queue) =>
      { d with
        workQueues := d.workQueues.set worker queue
        threads := d.threads.set worker (.popped buf) }
    | _ => d
  | some (.popped buf) =>
    match d.buffers[buf]?, d.observed[worker]? with
    | some b, some seen =>
      { d with
        observed := d.observed.set worker (seen ++ [b.contents])
        threads := d.threads.set worker (.ticked buf) }
    | _, _ => d
  | some (.ticked buf) =>
    { d.release buf with threads := d.threads.set worker .waiting }
  | none => d

/-- Modelled from the spec: the dispatcher of `tracedoctor.cc` after one event. -/
def step {α : Type} (d : dispatcher α) : dispatchEvent α → dispatcher α
  | .ingest token => d.ingest token
  | .publish => d.publish
  | .work worker => d.work worker

/-- Modelled from the spec: the dispatcher of `tracedoctor.cc` after a schedule of events, in
any interleaving of the ingest thread and the worker threads. -/
def run {α : Type} (d : dispatcher α) : List (dispatchEvent α) → dispatcher α
  | [] => d
  | e :: es => run (d.step e) es

/-- The contents of the buffer a pointer refers to, as the pool holds it now. -/
def contentsOf {α : Type} (d : dispatcher α) (buf : Nat) : List α :=
  match d.buffers[buf]? with
  | some b => b.contents
  | none => []

/-- The tokens appended to the fill target and not yet published. -/
def filling {α : Type} (d : dispatcher α) : List α :=
  match d.buffers[d.bufferIndex]? with
  | some b => b.data.take d.fillTokens
  | none => []

/-- The buffer pointers a worker refers to: the one its thread holds, then its queue. -/
def holds {α : Type} (d : dispatcher α) (worker : Nat) : List Nat :=
  (d.threads.getD worker .waiting).held ++ d.workQueues.getD worker []

/-- The buffer pointers a worker has still to hand to `tick`: the one its thread has popped,
then its queue. -/
def pending {α : Type} (d : dispatcher α) (worker : Nat) : List Nat :=
  (d.threads.getD worker .waiting).unseen ++ d.workQueues.getD worker []

/-- The number of workers that refer to a buffer, counted over the threads and the queues. -/
def subscribers {α : Type} (d : dispatcher α) (buf : Nat) : Nat :=
  ((List.range d.workQueues.length).map (fun worker => (d.holds worker).count buf)).sum

/-- The number of steps the thread of a worker needs to drain its queue. -/
def stepsLeft {α : Type} (d : dispatcher α) (worker : Nat) : Nat :=
  match d.threads.getD worker .waiting with
  | .waiting => 3 * (d.workQueues.getD worker []).length
  | .popped _ => 3 * (d.workQueues.getD worker []).length + 2
  | .ticked _ => 3 * (d.workQueues.getD worker []).length + 1

end dispatcher

/-- The invariant of the dispatcher with `n` workers. Every worker has a queue, a thread and
a list of observed buffers. What a worker has observed, followed by the contents the pool
holds now for the buffers it has still to observe, is the published sequence. The reference
count of every buffer is the number of workers that refer to it, and every buffer pointer
refers to a buffer of the pool. What the ingest thread has produced is what it has published
followed by what it has appended to the fill target. -/
def dispatchInv {α : Type} (n : Nat) (d : dispatcher α) : Prop :=
  (d.workQueues.length = n ∧ d.threads.length = n ∧ d.observed.length = n) ∧
  (∀ i, i < n →
    d.observed.getD i [] ++ (d.pending i).map d.contentsOf = d.published) ∧
  (∀ j b, d.buffers[j]? = some b → b.refs = d.subscribers j) ∧
  (∀ i, i < n → ∀ j ∈ d.holds i, j < d.buffers.length) ∧
  (d.produced = d.published.flatten ++ d.filling ∧
    ∀ b, d.buffers[d.bufferIndex]? = some b → d.fillTokens ≤ b.data.length)

/-- A schedule for two workers: the tokens 1 and 2 are appended and published, worker 1 pops;
the token 3 is appended, worker 1 ticks, the second buffer is published; worker 0 pops and
worker 1 releases; then the ingest thread tries to append the token 4, to publish, and to
append the token 5. -/
def dispatchSchedule : List (dispatchEvent Nat) :=
  [.ingest 1, .ingest 2, .publish, .work 1, .ingest 3, .work 1, .publish, .work 0, .work 1,
   .ingest 4, .publish, .ingest 5]

/-! ## Definitions: quantities the IBS and TEA sampler properties are stated with -/

/-- The local `head` of the block under `if (state == s_armed)` of the IBS `tick`: the ROB
head aligned down to a multiple of `coreWidth`, as a `uint16_t`. -/
def ibsHead (coreWidth rob_head : Nat) : Nat :=
  sub32 rob_head (rob_head % coreWidth) % 2 ^ 16

/-- The local `instr_valid` of the IBS `tick`. -/
def ibsInstrValid (token : robAnalysisToken) : Bool :=
  hasBit (token.instr0_flags ||| token.instr1_flags ||| token.instr2_flags |||
    token.instr3_flags) INSTR_VALID

/-- The local `evict_1` of the IBS `tick`. -/
def evict_1 (tail head tag : Nat) : Bool := decide (tail > head) && decide (tag ≥ tail)

/-- The local `evict_2` of the IBS `tick`. -/
def evict_2 (tail head tag : Nat) : Bool := decide (tail > head) && decide (tag < head)

/-- The local `evict_3` of the IBS `tick`. -/
def evict_3 (tail head tag : Nat) : Bool :=
  decide (tail < head) && decide (tag ≥ tail) && decide (tag < head)

/-- The local `evict_4` of the IBS `tick`. -/
def evict_4 (tail head : Nat) (instr_valid : Bool) : Bool :=
  decide (tail = head) && !instr_valid

/-- Whether one of the four eviction tests of the IBS `tick` holds for the token. -/
def ibsEvicted (s : tracedoctor_ibs_sampler) (token : robAnalysisToken) : Bool :=
  evict_1 token.rob_tail (ibsHead s.coreWidth token.rob_head) s.tag ||
  evict_2 token.rob_tail (ibsHead s.coreWidth token.rob_head) s.tag ||
  evict_3 token.rob_tail (ibsHead s.coreWidth token.rob_head) s.tag ||
  evict_4 token.rob_tail (ibsHead s.coreWidth token.rob_head) (ibsInstrValid token)

namespace tracedoctor_ibs_sampler

/-- The body of the loop of the IBS `tick` with the second
`if (reachedSamplingPeriod(token.state.tsc_cycle))` block removed. -/
def bodySingle (rng : Nat → Nat) (s : tracedoctor_ibs_sampler) (token : robAnalysisToken) :
    Option tracedoctor_ibs_sampler :=
  match samplePoint rng (oirGap s token) token with
  | none => none
  | some s3 =>
    match armedPart s3 token with
    | none => none
    | some s4 => some (registerPart (tagPart s4 token) token)

/-- One iteration of the loop of the IBS `tick` with the second block removed. -/
def stepSingle (rng : Nat → Nat) (s : tracedoctor_ibs_sampler) (token : robAnalysisToken) :
    Option tracedoctor_ibs_sampler :=
  if (triggerDetection s.base token).2.1 then
    some { s with
      lastInstructionRegister_flags := 0
      lastProgressCycle := token.tsc_cycle
      base := restartSampling (triggerDetection s.base token).2.2 token.tsc_cycle }
  else bodySingle rng { s with base := (triggerDetection s.base token).2.2 } token

/-- The IBS `tick` with the second block removed. -/
def tickSingle (rng : Nat → Nat) (s : tracedoctor_ibs_sampler) :
    List robAnalysisToken → Option tracedoctor_ibs_sampler
  | [] => some s
  | token :: tokens =>
    match stepSingle rng s token with
    | none => none
    | some s1 => tickSingle rng s1 tokens

end tracedoctor_ibs_sampler

/-- The member `lastProgressCycle` when the block under `if (state == s_armed)` of the IBS
`tick` is reached: the block before it sets it to `tsc_cycle - 1` on a POPULATED token that
follows an instruction with the OIR flag. -/
def ibsProgressCycle (s : tracedoctor_ibs_sampler) (token : robAnalysisToken) : Nat :=
  if hasBit token.rob ROB_POPULATED && hasBit s.lastInstructionRegister_flags INSTR_OIR then
    sub64 token.tsc_cycle 1
  else s.lastProgressCycle

/-- A COMMITTING token at cycle 105 whose ROB head 13 lies in the row of the tag 12. -/
def ibsRetireToken : robAnalysisToken :=
  { slot0Token 105 (ROB_POPULATED ||| ROB_COMMITTING) (INSTR_VALID ||| INSTR_COMMITS) 0x100
    with rob_head := 13, rob_tail := 40 }

/-! ## Definitions: quantities the TEA sampler state properties are stated with -/

/-- The range of the sampling members and of the cycle `c` in which the 64-bit arithmetic of
`advanceSamplingPeriod(c)` does not wrap: period `1 <= P < 2^62`, dither `R <= P - 1`,
a 44-bit cycle and a start of the next period below `2^63`. -/
def advanceBounds (b : base_profiler) (c : Nat) : Prop :=
  1 ≤ b.samplingPeriod ∧ b.samplingPeriod < 2 ^ 62 ∧ b.randomOffset ≤ b.samplingPeriod - 1 ∧
  c < 2 ^ 44 ∧ b.nextPeriodStart < 2 ^ 63

instance (b : base_profiler) (c : Nat) : Decidable (advanceBounds b c) := by
  unfold advanceBounds
  infer_instance

/-- The sampler when the block under `if (state && (token.state.rob & (ROB_COMMITTING |
ROB_EXCEPTION)))` of the TEA sampler `tick` is reached in the iteration that processes
`token` from `s`: `triggerDetection` has run, then the OIR-gap block and the sample-point
block. -/
def teaAtEmit (rng : Nat → Nat) (s : tracedoctor_tea_sampler) (token : robAnalysisToken) :
    Option tracedoctor_tea_sampler :=
  tracedoctor_tea_sampler.samplePoint rng
    (tracedoctor_tea_sampler.oirGap { s with base := (triggerDetection s.base token).2.2 } token)
    token

/-- The TEA sampler with `samplingPeriod:100` after a first token at cycle 0: the next sample
point is cycle 100. -/
def teaStarted : tracedoctor_tea_sampler :=
  { base := { restartSampling { base_profiler.initial with samplingPeriod := 100 } 0 with
      firstToken := false },
    lastInstructionRegister := teaInstrInfo.zero, lastProgressCycle := 0, samplingCycle := 0,
    state := tracedoctor_tea_sampler.s_off, out := [] }

/-- A token with EXCEPTION whose slot 0 is valid at `0x100`. -/
def exceptionToken (cycle : Nat) : robAnalysisToken :=
  slot0Token cycle ROB_EXCEPTION INSTR_VALID 0x100

/-- A COMMITTING token whose slot 0 commits at `0x100`. -/
def commitToken (cycle : Nat) : robAnalysisToken :=
  slot0Token cycle ROB_COMMITTING (INSTR_VALID ||| INSTR_COMMITS) 0x100

/-- The TEA sampler as constructed with `samplingPeriod:100`. -/
def teaFresh100 : tracedoctor_tea_sampler :=
  { base := restartSampling { base_profiler.initial with samplingPeriod := 100 } 0,
    lastInstructionRegister := teaInstrInfo.zero, lastProgressCycle := 0, samplingCycle := 0,
    state := tracedoctor_tea_sampler.s_off, out := [] }

/-- The TEA sampler `teaStarted` after the POPULATED-only token of cycle 100: the sample of
cycle 100 is outstanding in state STALLED and the next sample point is cycle 200. -/
def teaStalled : tracedoctor_tea_sampler :=
  { teaStarted with
    base := { teaStarted.base with lastPeriod := 100, nextPeriodStart := 200, nextPeriod := 200 }
    samplingCycle := 100, state := tracedoctor_tea_sampler.s_stalled }

/-! ## Definitions: counters of the Oracle per address and in total -/

/-- The counter `φ` of `result[a]`, read without inserting: 0 when `a` has no row (for a
counter that is 0 in the value-initialised row). -/
def fieldAt (φ : flatSample → Nat) (r : List (Nat × flatSample)) (a : Nat) : Nat :=
  φ (amapGet flatSample.zero r a)

/-- Sum of the counter `φ` over all rows. -/
def fieldTotal (φ : flatSample → Nat) (r : List (Nat × flatSample)) : Nat :=
  (r.map (fun e => φ e.2)).sum

/-- From `r` to `r1` the counter `φ` of every address `x` grows by `δ x`, and its sum over
all rows by `D`. -/
def fieldAdds (φ : flatSample → Nat) (r r1 : List (Nat × flatSample)) (δ : Nat → Nat)
    (D : Nat) : Prop :=
  (∀ x, fieldAt φ r1 x = fieldAt φ r x + δ x) ∧ fieldTotal φ r1 = fieldTotal φ r + D

/-- What the accounting of a COMMITTING token uses of a counter `φ` of `flatSample`: it is 0 in
the value-initialised row, none of the updates of the POPULATED block, of the stall block
and of the EXCEPTION block changes it, and the update of a committing slot adds
`inc ilpCycles stalled deferred` to it in 64 bits. -/
def commitField (φ : flatSample → Nat) (inc : Nat → Bool → Bool → Nat) : Prop :=
  φ flatSample.zero = 0 ∧
  (∀ (t : flatSample) (x : Nat), φ { t with tExcpt := x } = φ t) ∧
  (∀ (t : flatSample) (a b c d : Nat),
    φ { t with tBrMiss := a, tFlush := b, cBrMiss := c, cFlush := d } = φ t) ∧
  (∀ (t : flatSample) (x : Nat), φ { t with tDeferred := x } = φ t) ∧
  (∀ (t : flatSample) (x : Nat), φ { t with tStall := x } = φ t) ∧
  (∀ (t : flatSample) (ilpCycles isslat memlat : Nat) (stalled deferred : Bool),
    φ { t with
        tCommit := add64 t.tCommit ilpCycles
        tIssueLatency := add64 t.tIssueLatency isslat
        tMemoryLatency := add64 t.tMemoryLatency memlat
        cCommit := add64 t.cCommit 1
        cStall := add64 t.cStall (b2n stalled)
        cDeferred := add64 t.cDeferred (b2n deferred) } =
      add64 (φ t) (inc ilpCycles stalled deferred))

/-- The increment `d` that a slot with address `addr` brings to address `x` when it commits. -/
def slotInc (c : Bool) (addr d x : Nat) : Nat := if c = true ∧ x = addr then d else 0

/-- The local `nCommitting` of the Oracle `tick`: the number of slots with COMMITS. -/
def nCommitting (t : robAnalysisToken) : Nat :=
  b2n (hasBit t.instr0_flags INSTR_COMMITS) + b2n (hasBit t.instr1_flags INSTR_COMMITS) +
  b2n (hasBit t.instr2_flags INSTR_COMMITS) + b2n (hasBit t.instr3_flags INSTR_COMMITS)

/-- The number of slots of the token with COMMITS whose address is `a`. -/
def commitsAt (t : robAnalysisToken) (a : Nat) : Nat :=
  b2n (hasBit t.instr0_flags INSTR_COMMITS && decide (t.instr0_address = a)) +
  b2n (hasBit t.instr1_flags INSTR_COMMITS && decide (t.instr1_address = a)) +
  b2n (hasBit t.instr2_flags INSTR_COMMITS && decide (t.instr2_address = a)) +
  b2n (hasBit t.instr3_flags INSTR_COMMITS && decide (t.instr3_address = a))

/-- The local `stalled` of the Oracle `tick` before the first committing slot. -/
def oracleStalled (lastToken token : robAnalysisToken) : Bool :=
  !hasBit token.rob ROB_POPULATED &&
  (hasBit lastToken.rob ROB_POPULATED &&
    !hasBit lastToken.rob (ROB_COMMITTING ||| ROB_EXCEPTION))

/-- The local `deferred` of the Oracle `tick` before the first committing slot. -/
def oracleDeferred (lastToken token : robAnalysisToken) : Bool :=
  hasBit token.rob ROB_POPULATED ||
  (hasBit lastToken.rob ROB_POPULATED &&
    !hasBit lastToken.rob (ROB_COMMITTING ||| ROB_EXCEPTION))

/-- The map `result` that the accounting of `token` starts from: emptied by `flushResult`
when `triggerDetection` finds a flush due. -/
def oracleResultBefore (s : tracedoctor_oracle) (token : robAnalysisToken) :
    List (Nat × flatSample) :=
  if (triggerDetection s.base token).1 then [] else s.result

/-- What the four `if (instrN_commits)` blocks of the Oracle `tick` add to a counter at
address `x`, the counter growing by `inc ilpCycles stalled deferred` in a committing slot:
`stalled` and `deferred` are cleared by the first slot that commits. -/
def commitIncAt (inc : Nat → Bool → Bool → Nat) (ilpCycles : Nat)
    (lastToken token : robAnalysisToken) (x : Nat) : Nat :=
  let c0 := hasBit token.instr0_flags INSTR_COMMITS
  let c1 := hasBit token.instr1_flags INSTR_COMMITS
  let c2 := hasBit token.instr2_flags INSTR_COMMITS
  let c3 := hasBit token.instr3_flags INSTR_COMMITS
  let st0 := oracleStalled lastToken token
  let df0 := oracleDeferred lastToken token
  let st1 := !c0 && st0
  let df1 := !c0 && df0
  let st2 := !c1 && st1
  let df2 := !c1 && df1
  let st3 := !c2 && st2
  let df3 := !c2 && df2
  slotInc c0 token.instr0_address (inc ilpCycles st0 df0) x +
  slotInc c1 token.instr1_address (inc ilpCycles st1 df1) x +
  slotInc c2 token.instr2_address (inc ilpCycles st2 df2) x +
  slotInc c3 token.instr3_address (inc ilpCycles st3 df3) x

/-- What the four `if (instrN_commits)` blocks add to a counter over all addresses. -/
def commitIncTotal (inc : Nat → Bool → Bool → Nat) (ilpCycles : Nat)
    (lastToken token : robAnalysisToken) : Nat :=
  let c0 := hasBit token.instr0_flags INSTR_COMMITS
  let c1 := hasBit token.instr1_flags INSTR_COMMITS
  let c2 := hasBit token.instr2_flags INSTR_COMMITS
  let c3 := hasBit token.instr3_flags INSTR_COMMITS
  let st0 := oracleStalled lastToken token
  let df0 := oracleDeferred lastToken token
  let st1 := !c0 && st0
  let df1 := !c0 && df0
  let st2 := !c1 && st1
  let df2 := !c1 && df1
  let st3 := !c2 && st2
  let df3 := !c2 && df2
  b2n c0 * inc ilpCycles st0 df0 + b2n c1 * inc ilpCycles st1 df1 +
  b2n c2 * inc ilpCycles st2 df2 + b2n c3 * inc ilpCycles st3 df3

/-- The Oracle after a first token at cycle 90 that is POPULATED only, with nothing
accounted yet. -/
def oracleStarted : tracedoctor_oracle :=
  { oracleFresh with
    base := { base_profiler.initial with firstToken := false }
    lastToken := populatedToken 90 }

/-- A COMMITTING token at cycle 100 whose slots 0 and 2 commit, at `0x10` and `0x20`. -/
def twoCommitToken : robAnalysisToken :=
  { slot0Token 100 ROB_COMMITTING (INSTR_VALID ||| INSTR_COMMITS) 0x10 with
    instr2_flags := INSTR_VALID ||| INSTR_COMMITS, instr2_address := 0x20 }

/-- A POPULATED-only token at cycle 100 in which nothing commits and whose slot 0 holds a valid
instruction at `0x10` flagged BR_MISS. -/
def bridgeLastToken : robAnalysisToken :=
  slot0Token 100 ROB_POPULATED (INSTR_VALID ||| INSTR_BR_MISS) 0x10

/-- A POPULATED-only token at cycle 110 whose first valid slot is at `0x20`. -/
def bridgeToken : robAnalysisToken := slot0Token 110 ROB_POPULATED INSTR_VALID 0x20

/-! ## Definitions: quantities the immediate attribution of TEA-gold is stated with -/

/-- Sum of all counters of a histogram. -/
def histTotal (h : histogram) : Nat := (h.map (fun e => e.2.sum)).sum

/-- The array `severityHists` that the attribution of `token` starts from: emptied by
`flushResult` when `triggerDetection` finds a flush due. -/
def goldSeverityBefore (s : tracedoctor_tea_gold) (token : robAnalysisToken) :
    List (Nat × histogram) :=
  if (triggerDetection s.base token).1 then [] else s.severityHists

/-- One `if (token.instrN_flags & INSTR_COMMITS)` block of the TEA-gold `tick`, as the list of
the observations attributed so far (address, signature, severity), the flags of the
previously attributed instruction, and the local `severity`. -/
def goldSlot (l2 l3 flags address memlat : Nat) (acc : List (Nat × Nat × Nat) × Nat × Nat) :
    List (Nat × Nat × Nat) × Nat × Nat :=
  if hasBit flags INSTR_COMMITS then
    (acc.1 ++ [(address, genSignature acc.2.1 flags memlat l2 l3, acc.2.2)], flags, 0)
  else acc

/-- The observations (address, signature, severity) of the committing slots of a token, in
slot order: the signature of a slot is computed against the flags of the previously
attributed instruction, and the severity is `severity` for the lowest-index committing slot
and 0 for the others. -/
def goldSlots (lastFlags severity l2 l3 : Nat) (token : robAnalysisToken) :
    List (Nat × Nat × Nat) :=
  (goldSlot l2 l3 token.instr3_flags token.instr3_address token.instr3_memlat
    (goldSlot l2 l3 token.instr2_flags token.instr2_address token.instr2_memlat
      (goldSlot l2 l3 token.instr1_flags token.instr1_address token.instr1_memlat
        (goldSlot l2 l3 token.instr0_flags token.instr0_address token.instr0_memlat
          ([], lastFlags, severity))))).1

/-- What the observations add to `result[a][g]`: `ilpLatency + 24 * severity` for each
observation of address `a` and signature `g`. -/
def goldWeight (ilpLatency : Nat) (slots : List (Nat × Nat × Nat)) (a g : Nat) : Nat :=
  ((slots.filter (fun e => decide (e.1 = a ∧ e.2.1 = g))).map
    (fun e => ilpLatency + 24 * e.2.2)).sum

/-- What the observations add to `result` over all addresses and signatures. -/
def goldTotalWeight (ilpLatency : Nat) (slots : List (Nat × Nat × Nat)) : Nat :=
  (slots.map (fun e => ilpLatency + 24 * e.2.2)).sum

/-- Whether no committing slot of the token has one of the OIR flags. -/
def goldNoOIR (t : robAnalysisToken) : Bool :=
  (!hasBit t.instr0_flags INSTR_COMMITS || decide (t.instr0_flags &&& INSTR_OIR = 0)) &&
  (!hasBit t.instr1_flags INSTR_COMMITS || decide (t.instr1_flags &&& INSTR_OIR = 0)) &&
  (!hasBit t.instr2_flags INSTR_COMMITS || decide (t.instr2_flags &&& INSTR_OIR = 0)) &&
  (!hasBit t.instr3_flags INSTR_COMMITS || decide (t.instr3_flags &&& INSTR_OIR = 0))

/-- From the severity histograms `sev0` and the map `r0`, the worker `s` has attributed exactly
the observations `obs`: every severity counter `severityHists[g][a][v]` has grown by the number
of observations `(a, g, v)`, every counter `result[a][g]` by their weight, and the sum of all
counters of `result` by the total weight. -/
def goldAttributed (sev0 : List (Nat × histogram)) (r0 : histogram) (ilpLatency : Nat)
    (s : tracedoctor_tea_gold) (obs : List (Nat × Nat × Nat)) : Prop :=
  (∀ g a v, histCount (amapGet [] s.severityHists g) a v =
    histCount (amapGet [] sev0 g) a v + obs.count (a, g, v)) ∧
  (∀ a g, histCount s.result a g = histCount r0 a g + goldWeight ilpLatency obs a g) ∧
  histTotal s.result = histTotal r0 + goldTotalWeight ilpLatency obs

/-! ## Definitions: the rows a sampler writes over a run -/

/-- What one iteration of the `tick` of a sampler does to the rows written, the sample cycle
and the sample point, seen through the members `base`, the rows `out`, `samplingCycle` and
whether a sample is outstanding (`active`): at most one row is appended, it carries the
sample cycle, and after it no sample is outstanding; and either a sample point was taken
(the sample cycle is the sample point, which is not after the cycle of the token, and the
next sample point lies after that cycle), or sample cycle and sample point are unchanged, a
row is written only for an outstanding sample, and no sample becomes outstanding. -/
def rowStep {σ : Type} (base : σ → base_profiler) (out : σ → List sampleRow)
    (samplingCycle : σ → Nat) (active : σ → Bool) (s s1 : σ) (t : robAnalysisToken) : Prop :=
  ∃ rows, out s1 = out s ++ rows ∧ rows.length ≤ 1 ∧
    (∀ r ∈ rows, r.cycle = samplingCycle s1) ∧
    (rows ≠ [] → active s1 = false) ∧
    ((samplingCycle s1 = (base s).nextPeriod ∧ (base s).nextPeriod ≤ t.tsc_cycle ∧
        t.tsc_cycle < (base s1).nextPeriod) ∨
     (samplingCycle s1 = samplingCycle s ∧ (base s1).nextPeriod = (base s).nextPeriod ∧
        (rows ≠ [] → active s = true) ∧ (active s = false → active s1 = false)))

/-- What the argument about the rows of a run uses of a sampler: the first token writes no
row and leaves the state machine alone; every later token is a `rowStep`. -/
def rowSampler {σ : Type} (step : σ → robAnalysisToken → Option σ) (base : σ → base_profiler)
    (out : σ → List sampleRow) (samplingCycle : σ → Nat) (active : σ → Bool) : Prop :=
  (∀ s t s1, (base s).firstToken = true → step s t = some s1 →
    (base s1).firstToken = false ∧ out s1 = out s ∧ active s1 = active s) ∧
  (∀ s t s1, (base s).firstToken = false → step s t = some s1 →
    (base s1).firstToken = false ∧ rowStep base out samplingCycle active s s1 t)

/-- The invariant of a run of a sampler whose last token had cycle `c` (or which has seen no
token): the sample cycles of the rows written are strictly increasing, none is after `c`,
all lie before the next sample point, and the sample cycle of an outstanding sample lies after
them, not after `c` and before the next sample point. Before the first token no row is
written and no sample is outstanding. -/
def rowInv {σ : Type} (base : σ → base_profiler) (out : σ → List sampleRow)
    (samplingCycle : σ → Nat) (active : σ → Bool) (c : Nat) (s : σ) : Prop :=
  ((base s).firstToken = true → out s = [] ∧ active s = false) ∧
  List.Pairwise (fun a b : Nat => a < b) ((out s).map (fun r => r.cycle)) ∧
  (∀ r ∈ out s, r.cycle ≤ c ∧ r.cycle < (base s).nextPeriod) ∧
  (active s = true → samplingCycle s ≤ c ∧ samplingCycle s < (base s).nextPeriod ∧
    ∀ r ∈ out s, r.cycle < samplingCycle s)

/-- The rows written over a run, each with the cycle of the token whose iteration wrote it. -/
def emitLog {σ : Type} (step : σ → robAnalysisToken → Option σ) (out : σ → List sampleRow) :
    σ → List robAnalysisToken → Option (List (Nat × sampleRow))
  | _, [] => some []
  | s, t :: ts =>
    match step s t with
    | none => none
    | some s1 =>
      match emitLog step out s1 ts with
      | none => none
      | some log => some (((out s1).drop (out s).length).map (fun r => (t.tsc_cycle, r)) ++ log)

/-- A first token at cycle 0, a COMMITTING token at the sample point 100 and one at cycle 250,
past the sample point 200. -/
def teaRowTokens : List robAnalysisToken := [commitToken 0, commitToken 100, commitToken 250]

/-! ## Definitions: the cycle differences of the workers -/

/-- The 64-bit unsigned value `tsc - mark - 1` does not wrap: `mark` lies before `tsc` and the
value the code computes is the difference of the integers. -/
def gapExact (tsc mark : Nat) : Prop :=
  mark < tsc ∧ sub64 (sub64 tsc mark) 1 + mark + 1 = tsc

instance (tsc mark : Nat) : Decidable (gapExact tsc mark) := by
  unfold gapExact
  infer_instance

/-- What the argument on the cycle differences uses of a worker, seen through whether it waits
for its first token and the cycle `mark` it subtracts: the first token sets `mark` to its
cycle, and a later token leaves `mark`, or sets it to its cycle or to its cycle minus 1. -/
def markSampler {σ : Type} (step : σ → robAnalysisToken → Option σ) (first : σ → Bool)
    (mark : σ → Nat) : Prop :=
  (∀ s t s1, first s = true → step s t = some s1 →
    first s1 = false ∧ mark s1 = t.tsc_cycle) ∧
  (∀ s t s1, first s = false → step s t = some s1 →
    first s1 = false ∧
      (mark s1 = mark s ∨ mark s1 = t.tsc_cycle ∨ mark s1 = sub64 t.tsc_cycle 1))

/-- The TEA-gold worker when the block under `if ((token.state.rob & ROB_POPULATED) &&
lastInstructionRegister.oir)` of `tick` is reached in the iteration that processes `token`
from `s`: `triggerDetection` has run, with the flush it may call. -/
def goldAtPopulated (s : tracedoctor_tea_gold) (token : robAnalysisToken) :
    Option tracedoctor_tea_gold :=
  if (triggerDetection s.base token).1 then
    tracedoctor_tea_gold.flushResult { s with base := (triggerDetection s.base token).2.2 }
  else some { s with base := (triggerDetection s.base token).2.2 }

/-- The TEA-gold worker when the block under `if (token.state.rob & (ROB_COMMITTING |
ROB_EXCEPTION))` of `tick` is reached. -/
def goldAtProgress (s : tracedoctor_tea_gold) (token : robAnalysisToken) :
    Option tracedoctor_tea_gold :=
  match goldAtPopulated s token with
  | none => none
  | some s1 => tracedoctor_tea_gold.populatedPart s1 token

/-- The IBS sampler when the block under `if (state == s_armed)` of `tick` is reached. -/
def ibsAtArmed (rng : Nat → Nat) (s : tracedoctor_ibs_sampler) (token : robAnalysisToken) :
    Option tracedoctor_ibs_sampler :=
  tracedoctor_ibs_sampler.samplePoint rng
    (tracedoctor_ibs_sampler.oirGap { s with base := (triggerDetection s.base token).2.2 } token)
    token

/-- The PEBS sampler when the block under `if ((state == s_armed) && token.state.rob &
ROB_COMMITTING)` of `tick` is reached. -/
def pebsAtEmit (rng : Nat → Nat) (s : tracedoctor_pebs_sampler) (token : robAnalysisToken) :
    Option tracedoctor_pebs_sampler :=
  tracedoctor_pebs_sampler.samplePoint rng
    (tracedoctor_pebs_sampler.oirGap { s with base := (triggerDetection s.base token).2.2 }
      token)
    token

/-- A token at cycle 100 whose rob has COMMITTING while no slot has COMMITS. -/
def emptyCommitToken : robAnalysisToken := slot0Token 100 ROB_COMMITTING INSTR_VALID 0x10

/-- The IBS sampler as constructed with `samplingPeriod:100` and `coreWidth:0`. -/
def ibsWidth0 : tracedoctor_ibs_sampler := { ibsFresh with coreWidth := 0 }

/-! ## Definitions: sequences of `value2hist` calls -/

/-- A sequence of calls `value2hist(hist, address, value, increment)` on one histogram, each
call given as `(address, value, increment)`. -/
def value2histRun : histogram → List (Nat × Nat × Nat) → Option histogram
  | h, [] => some h
  | h, c :: cs =>
    match value2hist h c.1 c.2.1 c.2.2 with
    | none => none
    | some h1 => value2histRun h1 cs

/-- Every call of the sequence has `value < 2^64 - 1` and `increment >= 1`, and the counter
it increments does not overflow (the calls after one that has no defined result are not
constrained). -/
def value2histCallsOk : histogram → List (Nat × Nat × Nat) → Bool
  | _, [] => true
  | h, c :: cs =>
    decide (c.2.1 < 2 ^ 64 - 1) && decide (1 ≤ c.2.2) &&
    decide (histCount h c.1 c.2.1 + c.2.2 < 2 ^ 64) &&
    match value2hist h c.1 c.2.1 c.2.2 with
    | none => true
    | some h1 => value2histCallsOk h1 cs

/-- Every key present maps to a non-empty counter vector whose last element is non-zero. -/
def histLastNonzero (h : histogram) : Prop :=
  ∀ e ∈ h, e.2 ≠ [] ∧ e.2.getD (e.2.length - 1) 0 ≠ 0

instance (h : histogram) : Decidable (histLastNonzero h) := by
  unfold histLastNonzero
  infer_instance

/-- Three calls: counter 3 of `0x100` by 1, counter 1 of `0x100` by 2, counter 0 of `0x200`
by 5. -/
def histCalls : List (Nat × Nat × Nat) := [(0x100, 3, 1), (0x100, 1, 2), (0x200, 0, 5)]

/-! ## Definitions: the instructions TEA-gold has attributed -/

/-- Sum of all counters of all severity histograms. -/
def sevTotal (sev : List (Nat × histogram)) : Nat := (sev.map (fun e => histTotal e.2)).sum

/-- Whether a slot commits an instruction with one of the OIR flags, as 0 or 1. -/
def goldOirSlot (flags : Nat) : Nat := b2n (hasBit flags INSTR_COMMITS && hasBit flags INSTR_OIR)

/-- The number of slots of the token that commit an instruction with one of the OIR flags. -/
def goldOirSlots (t : robAnalysisToken) : Nat :=
  goldOirSlot t.instr0_flags + goldOirSlot t.instr1_flags + goldOirSlot t.instr2_flags +
    goldOirSlot t.instr3_flags

/-- The number of instructions a token retires for TEA-gold: its slots with COMMITS when it is
COMMITTING, one when it is an EXCEPTION token without COMMITTING, none otherwise. -/
def goldRetired (t : robAnalysisToken) : Nat :=
  if hasBit t.rob ROB_COMMITTING then nCommitting t
  else if hasBit t.rob ROB_EXCEPTION then 1 else 0

/-- TEA-gold past its first token, without flushing, has accounted for `n` instructions: the
counters of the severity histograms and the instruction that is pending in
`lastInstructionRegister` make `n`; the pending severity is a 44-bit value and the pending
signature a 16-bit value. -/
def goldCounted (n : Nat) (s : tracedoctor_tea_gold) : Prop :=
  goldWF s ∧ s.base.firstToken = false ∧ s.base.flushThreshold = 0 ∧
  s.lastInstructionRegister.severity < 2 ^ 44 ∧ s.lastInstructionRegister.signature < 2 ^ 16 ∧
  sevTotal s.severityHists + b2n s.lastInstructionRegister.oir = n

/-- A first token at cycle 49. -/
def goldFirst49 : robAnalysisToken :=
  slot0Token 49 ROB_COMMITTING (INSTR_COMMITS ||| INSTR_VALID) 0x100

/-- A COMMITTING token at cycle 50 in which two slots commit a mispredicted branch, at `0x200`
and `0x204`. -/
def goldTwoBranchRest : List robAnalysisToken :=
  [{ slot0Token 50 ROB_COMMITTING (INSTR_COMMITS ||| INSTR_VALID ||| INSTR_BR_MISS) 0x200 with
     instr1_flags := INSTR_COMMITS ||| INSTR_VALID ||| INSTR_BR_MISS, instr1_address := 0x204 }]

/-- A COMMITTING token at cycle 50 that commits a mispredicted branch at `0x200` and an
instruction at `0x204`, and an EXCEPTION token at cycle 60. -/
def goldCountRest : List robAnalysisToken :=
  [{ slot0Token 50 ROB_COMMITTING (INSTR_COMMITS ||| INSTR_VALID ||| INSTR_BR_MISS) 0x200 with
     instr1_flags := INSTR_COMMITS ||| INSTR_VALID, instr1_address := 0x204 },
   exceptionToken 60]

/-! ## Definitions: the range in which the runs of the samplers return -/

/-- The sampling members of a sampler past its first token, in the range where the 64-bit
period arithmetic does not wrap on 44-bit cycles: period `1 <= P < 2^61`, dither
`R <= P - 1`, the next sample point at most `R` before the start of its period, and that
start below `2^63`. -/
def periodBounds (b : base_profiler) : Prop :=
  1 ≤ b.samplingPeriod ∧ b.samplingPeriod < 2 ^ 61 ∧ b.randomOffset ≤ b.samplingPeriod - 1 ∧
  b.nextPeriodStart ≤ b.nextPeriod + b.randomOffset ∧ b.nextPeriodStart < 2 ^ 63

instance (b : base_profiler) : Decidable (periodBounds b) := by
  unfold periodBounds
  infer_instance

/-- The sampling members of a sampler that waits for its first token: period
`1 <= P < 2^61`, dither `R <= P - 1` and a start offset below `2^61`. -/
def startBounds (b : base_profiler) : Prop :=
  1 ≤ b.samplingPeriod ∧ b.samplingPeriod < 2 ^ 61 ∧ b.randomOffset ≤ b.samplingPeriod - 1 ∧
  b.randomStartOffset < 2 ^ 61

instance (b : base_profiler) : Decidable (startBounds b) := by
  unfold startBounds
  infer_instance

/-- What the argument that a run returns uses of a sampler, seen through its `base_profiler`
members and a condition `ok` on the other members: within the bounds an iteration returns and
keeps the bounds and `ok`. -/
def totalSampler {σ : Type} (step : σ → robAnalysisToken → Option σ)
    (base : σ → base_profiler) (ok : σ → Prop) : Prop :=
  (∀ s t, ok s → (base s).firstToken = true → startBounds (base s) → t.tsc_cycle < 2 ^ 44 →
    ∃ s1, step s t = some s1 ∧ ok s1 ∧ (base s1).firstToken = false ∧
      periodBounds (base s1)) ∧
  (∀ s t, ok s → (base s).firstToken = false → periodBounds (base s) →
    t.tsc_cycle < 2 ^ 44 →
    ∃ s1, step s t = some s1 ∧ ok s1 ∧ (base s1).firstToken = false ∧
      periodBounds (base s1))


/-! ## Definitions: two flush windows of TEA-gold -/

/-- A first token at cycle 49 and a COMMITTING token at cycle 50 that commits one instruction,
at `0x300`. -/
def goldWindowTokens : List robAnalysisToken :=
  [slot0Token 49 ROB_COMMITTING (INSTR_COMMITS ||| INSTR_VALID) 0x100,
   slot0Token 50 ROB_COMMITTING (INSTR_COMMITS ||| INSTR_VALID) 0x300]

/-- A token whose ROB status is DISPATCHING only. -/
def dispatchingToken (cycle : Nat) : robAnalysisToken :=
  slot0Token cycle ROB_DISPATCHING INSTR_VALID 0x400

/-! ## Definitions: quantities the deferred attribution of TEA-gold is stated with -/

/-- The severity added to an instruction pending since `lastProgress` when `next` finalises
it: the ROB-empty gap `tsc_cycle - lastProgress - 1` when the token is POPULATED, nothing when
it is only COMMITTING or EXCEPTION. -/
def goldGap (lastProgress : Nat) (next : robAnalysisToken) : Nat :=
  if hasBit next.rob ROB_POPULATED then next.tsc_cycle - lastProgress - 1 else 0

/-- From the worker `t` to the worker `s`, exactly the instruction held in the register `r` has
been attributed, with the additional severity `x`: the counter
`severityHists[r.signature][r.address][r.severity + x]` has grown by 1 and
`result[r.address][r.signature]` by `r.ilpLatency + 24 * (r.severity + x)` (64-bit counters),
no other counter has changed, and the register holds `r` without the pending mark. -/
def goldFinalised (r : goldInstrInfo) (x : Nat) (t s : tracedoctor_tea_gold) : Prop :=
  (∀ g a v, histCount (amapGet [] s.severityHists g) a v =
    if g = r.signature ∧ a = r.address ∧ v = r.severity + x then
      (histCount (amapGet [] t.severityHists g) a v + 1) % 2 ^ 64
    else histCount (amapGet [] t.severityHists g) a v) ∧
  (∀ a g, histCount s.result a g =
    if a = r.address ∧ g = r.signature then
      (histCount t.result a g + (r.ilpLatency + 24 * (r.severity + x))) % 2 ^ 64
    else histCount t.result a g) ∧
  s.lastInstructionRegister = { r with oir := false }

/-- Both histograms of TEA-gold hold an entry for the instruction at `address`: the severity
histogram of `signature` and the map `result`. -/
def goldHasEntry (s : tracedoctor_tea_gold) (signature address : Nat) : Prop :=
  amapMem (amapGet [] s.severityHists signature) address = true ∧
  amapMem s.result address = true

instance (s : tracedoctor_tea_gold) (signature address : Nat) :
    Decidable (goldHasEntry s signature address) := by
  unfold goldHasEntry; infer_instance

/-- A COMMITTING token at cycle 60, not POPULATED, committing one instruction at `0x300`. -/
def goldLaterCommitToken : robAnalysisToken :=
  slot0Token 60 ROB_COMMITTING (INSTR_COMMITS ||| INSTR_VALID) 0x300
/-! # Theorems -/

/-! ## Shared lemmas -/

theorem nat_or_eq_zero (a b : Nat) : a ||| b = 0 ↔ a = 0 ∧ b = 0 := by
  constructor
  · intro h
    constructor
    · apply Nat.eq_of_testBit_eq
      intro i
      have := congrArg (fun y => Nat.testBit y i) h
      simp only [Nat.testBit_or, Nat.zero_testBit, Bool.or_eq_false_iff] at this
      simp [this.1]
    · apply Nat.eq_of_testBit_eq
      intro i
      have := congrArg (fun y => Nat.testBit y i) h
      simp only [Nat.testBit_or, Nat.zero_testBit, Bool.or_eq_false_iff] at this
      simp [this.2]
  · rintro ⟨rfl, rfl⟩
    rfl

theorem hasBit_or (x a b : Nat) : hasBit x (a ||| b) = (hasBit x a || hasBit x b) := by
  unfold hasBit
  rw [Nat.and_or_distrib_left]
  rw [Bool.eq_iff_iff]
  simp only [bne_iff_ne, ne_eq, Bool.or_eq_true, nat_or_eq_zero]
  tauto

theorem triggerDetection_later (b : base_profiler) (token : robAnalysisToken)
    (h1 : b.firstToken = false) (h2 : b.flushThreshold = 0) :
    triggerDetection b token = (false, false, b) := by
  unfold triggerDetection
  simp [h1, h2]

theorem triggerDetection_first (b : base_profiler) (token : robAnalysisToken)
    (h1 : b.firstToken = true) (h2 : b.flushThreshold = 0) :
    triggerDetection b token = (false, true, { b with firstToken := false }) := by
  unfold triggerDetection
  simp [h1, h2]


theorem triggerDetection_firstToken (b : base_profiler) (token : robAnalysisToken) :
    (triggerDetection b token).2.2.firstToken = false := by
  unfold triggerDetection
  dsimp only
  generalize (if (decide (b.flushThreshold ≠ 0) &&
      decide (sub64 token.tsc_cycle b.lastFlushPeriod ≥ b.flushThreshold)) = true then
      { b with lastFlushPeriod := token.tsc_cycle } else b) = b1
  cases h : b1.firstToken
  · simp [h]
  · simp [h]

theorem triggerDetection_notFirst (b : base_profiler) (token : robAnalysisToken)
    (h : b.firstToken = false) :
    (triggerDetection b token).2.1 = false ∧ (triggerDetection b token).2.2.firstToken = false := by
  refine ⟨?_, triggerDetection_firstToken b token⟩
  unfold triggerDetection
  dsimp only
  have hb1 : (if (decide (b.flushThreshold ≠ 0) &&
      decide (sub64 token.tsc_cycle b.lastFlushPeriod ≥ b.flushThreshold)) = true then
      { b with lastFlushPeriod := token.tsc_cycle } else b).firstToken = false := by
    split
    · exact h
    · exact h
  generalize (if (decide (b.flushThreshold ≠ 0) &&
      decide (sub64 token.tsc_cycle b.lastFlushPeriod ≥ b.flushThreshold)) = true then
      { b with lastFlushPeriod := token.tsc_cycle } else b) = b1 at hb1
  simp [hb1]

theorem sub64_lt (a b : Nat) : sub64 a b < 2 ^ 64 := by
  unfold sub64; split <;> omega

/-! ## Oracle: cycle conservation -/

theorem amapGet_le_total24 (r : List (Nat × flatSample)) (a : Nat) :
    (amapGet flatSample.zero r a).cycles24 ≤ total24 r := by
  induction r with
  | nil => simp [amapGet, flatSample.zero, flatSample.cycles24]
  | cons e r ih =>
    simp only [amapGet, total24, List.map_cons, List.sum_cons] at ih ⊢
    split
    · omega
    · omega

theorem total24_amapSet (r : List (Nat × flatSample)) (a : Nat) (v : flatSample) :
    total24 (amapSet a v r) + (amapGet flatSample.zero r a).cycles24 =
      total24 r + v.cycles24 := by
  induction r with
  | nil => simp [amapSet, amapGet, total24, flatSample.zero, flatSample.cycles24]
  | cons e r ih =>
    simp only [amapGet, amapSet, total24] at ih ⊢
    split
    · simp only [List.map_cons, List.sum_cons]; omega
    · simp only [List.map_cons, List.sum_cons]; omega

theorem total24_resultUpd (r : List (Nat × flatSample)) (a d : Nat) (f : flatSample → flatSample)
    (hf : ∀ t : flatSample, t.cycles24 ≤ total24 r → (f t).cycles24 = t.cycles24 + d) :
    total24 (resultUpd r a f) = total24 r + d := by
  have h1 := total24_amapSet r a (f (amapGet flatSample.zero r a))
  have h2 := hf _ (amapGet_le_total24 r a)
  unfold resultUpd
  omega


theorem total24_populatedPart (r : List (Nat × flatSample)) (lastToken token : robAnalysisToken)
    (D : Nat) (hD1 : 1 ≤ D) (hD : D < 2 ^ 44) (hr : total24 r ≤ 24 * 2 ^ 44)
    (hexcl : ¬ (hasBit (getLastCommitting lastToken).flags INSTR_BR_MISS = true ∧
      hasBit (getLastCommitting lastToken).flags INSTR_FLUSHS = true)) :
    total24 (tracedoctor_oracle.populatedPart r lastToken token D) = total24 r + 24 * (D - 1) := by
  unfold tracedoctor_oracle.populatedPart
  have hsub : sub64 D 1 = D - 1 := by unfold sub64; split <;> omega
  simp only [hsub]
  split
  · apply total24_resultUpd
    intro t ht
    simp only [flatSample.cycles24, add64] at ht ⊢
    omega
  · split
    · rename_i hret
      unfold getLastCommittingRet at hret
      rw [hasBit_or] at hret
      apply total24_resultUpd
      intro t ht
      simp only [flatSample.cycles24, add64, mul64, b2n] at ht ⊢
      cases hb : hasBit (getLastCommitting lastToken).flags INSTR_BR_MISS <;>
        cases hf : hasBit (getLastCommitting lastToken).flags INSTR_FLUSHS <;>
        simp [hb, hf] at hret hexcl ⊢ <;> omega
    · apply total24_resultUpd
      intro t ht
      simp only [flatSample.cycles24, add64] at ht ⊢
      omega


theorem ilp_magic_lookup (c0 c1 c2 c3 : Bool) (h : (c0 || c1 || c2 || c3) = true) :
    ∃ ilp, ilp_magic (sub32 (b2n c0 + b2n c1 + b2n c2 + b2n c3) 1) = some ilp ∧
      (b2n c0 + b2n c1 + b2n c2 + b2n c3) * ilp = 24 := by
  cases c0 <;> cases c1 <;> cases c2 <;> cases c3 <;>
    first
    | exact absurd h (by decide)
    | exact ⟨_, rfl, rfl⟩

theorem total24_commitSlot (r : List (Nat × flatSample))
    (address isslat memlat ilpCycles : Nat) (stalled deferred : Bool)
    (hb : total24 r + ilpCycles < 2 ^ 64) :
    total24 (tracedoctor_oracle.commitSlot r address isslat memlat ilpCycles stalled deferred) =
      total24 r + ilpCycles := by
  unfold tracedoctor_oracle.commitSlot
  apply total24_resultUpd
  intro t ht
  simp only [flatSample.cycles24, add64] at ht ⊢
  omega

theorem total24_commitBlock (c : Bool) (address isslat memlat ilpCycles : Nat)
    (st : List (Nat × flatSample) × Bool × Bool) (K : Nat)
    (hK : total24 st.1 = K) (hb : K + ilpCycles < 2 ^ 64) :
    total24 (tracedoctor_oracle.commitBlock c address isslat memlat ilpCycles st).1 =
      K + b2n c * ilpCycles := by
  unfold tracedoctor_oracle.commitBlock
  cases c
  · simp [b2n, hK]
  · simp only [if_true, b2n, one_mul]
    rw [total24_commitSlot _ _ _ _ _ _ _ (by omega), hK]

theorem b2n_le_one (c : Bool) : b2n c ≤ 1 := by cases c <;> simp [b2n]

theorem total24_commitPart (r : List (Nat × flatSample)) (lastToken token : robAnalysisToken)
    (hr : total24 r ≤ 24 * 2 ^ 44)
    (hn : (hasBit token.instr0_flags INSTR_COMMITS || hasBit token.instr1_flags INSTR_COMMITS ||
      hasBit token.instr2_flags INSTR_COMMITS || hasBit token.instr3_flags INSTR_COMMITS) = true) :
    ∃ r1, tracedoctor_oracle.commitPart r lastToken token = some r1 ∧
      total24 r1 = total24 r + 24 := by
  obtain ⟨ilp, hilp, hmul⟩ := ilp_magic_lookup _ _ _ _ hn
  unfold tracedoctor_oracle.commitPart
  dsimp only
  rw [hilp]
  dsimp only
  refine ⟨_, rfl, ?_⟩
  generalize hasBit token.instr0_flags INSTR_COMMITS = c0 at hmul ⊢
  generalize hasBit token.instr1_flags INSTR_COMMITS = c1 at hmul ⊢
  generalize hasBit token.instr2_flags INSTR_COMMITS = c2 at hmul ⊢
  generalize hasBit token.instr3_flags INSTR_COMMITS = c3 at hmul ⊢
  have hle : ilp ≤ 24 := by
    have h1 : 1 ≤ b2n c0 + b2n c1 + b2n c2 + b2n c3 := by
      rcases Nat.eq_zero_or_pos (b2n c0 + b2n c1 + b2n c2 + b2n c3) with h0 | h0
      · rw [h0] at hmul; simp at hmul
      · exact h0
    calc ilp = 1 * ilp := (one_mul _).symm
      _ ≤ _ * ilp := Nat.mul_le_mul_right _ h1
      _ = 24 := hmul
  have m0 := Nat.mul_le_mul_right ilp (b2n_le_one c0)
  have m1 := Nat.mul_le_mul_right ilp (b2n_le_one c1)
  have m2 := Nat.mul_le_mul_right ilp (b2n_le_one c2)
  have e0 := fun (s d : Bool) => total24_commitBlock c0 token.instr0_address token.instr0_isslat
    token.instr0_memlat ilp (r, s, d) (total24 r) rfl (by omega)
  have e1 := fun (s d : Bool) => total24_commitBlock c1 token.instr1_address token.instr1_isslat
    token.instr1_memlat ilp _ _ (e0 s d) (by omega)
  have e2 := fun (s d : Bool) => total24_commitBlock c2 token.instr2_address token.instr2_isslat
    token.instr2_memlat ilp _ _ (e1 s d) (by omega)
  rw [Nat.add_mul, Nat.add_mul, Nat.add_mul] at hmul
  cases c3
  · simp only [Bool.false_eq_true, if_false]
    rw [e2]
    simp only [b2n, Bool.false_eq_true, if_false, Nat.zero_mul] at hmul ⊢
    omega
  · simp only [if_true]
    rw [total24_commitSlot _ _ _ _ _ _ _ (by rw [e2]; omega), e2]
    simp only [b2n, if_true, Nat.one_mul] at hmul ⊢
    omega

theorem total24_stallPart (r : List (Nat × flatSample)) (token : robAnalysisToken) (rem : Nat)
    (hrem1 : 1 ≤ rem) (hrem : rem < 2 ^ 44) (hr : total24 r ≤ 24 * 2 ^ 44) :
    total24 (tracedoctor_oracle.stallPart r token rem) =
      total24 r + 24 * (rem - b2n (hasBit token.rob (ROB_COMMITTING ||| ROB_EXCEPTION))) := by
  unfold tracedoctor_oracle.stallPart
  dsimp only
  have hb := b2n_le_one (hasBit token.rob (ROB_COMMITTING ||| ROB_EXCEPTION))
  have hsub : sub64 rem (b2n (hasBit token.rob (ROB_COMMITTING ||| ROB_EXCEPTION))) =
      rem - b2n (hasBit token.rob (ROB_COMMITTING ||| ROB_EXCEPTION)) := by
    unfold sub64; split <;> omega
  rw [hsub]
  split
  · apply total24_resultUpd
    intro t ht
    simp only [flatSample.cycles24, add64] at ht ⊢
    omega
  · rename_i hcond
    simp only [Bool.or_eq_true, Bool.not_eq_true', decide_eq_true_eq, not_or, Bool.not_eq_false,
      not_lt] at hcond
    have : b2n (hasBit token.rob (ROB_COMMITTING ||| ROB_EXCEPTION)) = 1 := by
      rw [hcond.1]; rfl
    omega

theorem total24_attributePart (r : List (Nat × flatSample)) (lastToken token : robAnalysisToken)
    (hr : total24 r ≤ 24 * 2 ^ 44)
    (hn : hasBit token.rob ROB_COMMITTING = true →
      (hasBit token.instr0_flags INSTR_COMMITS || hasBit token.instr1_flags INSTR_COMMITS ||
      hasBit token.instr2_flags INSTR_COMMITS || hasBit token.instr3_flags INSTR_COMMITS) = true) :
    ∃ r1, tracedoctor_oracle.attributePart r lastToken token = some r1 ∧
      total24 r1 =
        total24 r + 24 * b2n (hasBit token.rob (ROB_COMMITTING ||| ROB_EXCEPTION)) := by
  unfold tracedoctor_oracle.attributePart
  split
  · rename_i hattr
    rw [hattr]
    split
    · rename_i hc
      obtain ⟨r1, h1, h2⟩ := total24_commitPart r lastToken token hr (hn hc)
      exact ⟨r1, h1, by rw [h2]; rfl⟩
    · refine ⟨_, rfl, ?_⟩
      rw [total24_resultUpd r _ 24]
      · rfl
      · intro t ht
        simp only [flatSample.cycles24, add64] at ht ⊢
        omega
  · rename_i hattr
    simp only [Bool.not_eq_true] at hattr
    rw [hattr]
    exact ⟨_, rfl, rfl⟩

theorem oracleFresh_ctor : tracedoctor_oracle.ctor (fun _ => 0) [] 64 = .ok oracleFresh := by
  decide

theorem genSignature_testBit (lastFlags flags memlat l2 l3 i : Nat) (hi : i < 16) :
    (genSignature lastFlags flags memlat l2 l3).testBit i =
      ((flags.testBit i && INSTR_MISS.testBit i) ||
       (if hasBit flags INSTR_DCACHE_MISS && decide (memlat ≥ l2) then 1 else 0 : Nat).testBit i ||
       (if hasBit flags INSTR_DCACHE_MISS && decide (memlat ≥ l3) then 2 else 0 : Nat).testBit i ||
       (decide (i ≥ 3) && (lastFlags.testBit (i - 3) && INSTR_OIR.testBit (i - 3)))) := by
  unfold genSignature
  rw [Nat.testBit_mod_two_pow]
  simp [hi, Nat.testBit_or, Nat.testBit_and, Nat.testBit_shiftLeft]


theorem INSTR_MISS_val : INSTR_MISS = 8188 := by decide
theorem INSTR_OIR_val : INSTR_OIR = 7168 := by decide

theorem testBit_const_ge (c n i : Nat) (hc : c < 2 ^ n) (hi : n ≤ i) : c.testBit i = false :=
  Nat.testBit_eq_false_of_lt (lt_of_lt_of_le hc (Nat.pow_le_pow_right (by decide) hi))

theorem testBit_MISS (i : Nat) : INSTR_MISS.testBit i = decide (2 ≤ i ∧ i ≤ 12) := by
  rw [INSTR_MISS_val]
  by_cases hi : i < 13
  · interval_cases i <;> decide
  · rw [testBit_const_ge 8188 13 i (by decide) (by omega)]
    simp; omega

theorem testBit_OIR (i : Nat) : INSTR_OIR.testBit i = decide (10 ≤ i ∧ i ≤ 12) := by
  rw [INSTR_OIR_val]
  by_cases hi : i < 13
  · interval_cases i <;> decide
  · rw [testBit_const_ge 7168 13 i (by decide) (by omega)]
    simp; omega

theorem testBit_lit_one (i : Nat) : Nat.testBit 1 i = decide (i = 0) := by
  by_cases hi : i < 1
  · interval_cases i; decide
  · rw [testBit_const_ge 1 1 i (by decide) (by omega)]
    simp; omega

theorem testBit_lit_two (i : Nat) : Nat.testBit 2 i = decide (i = 1) := by
  by_cases hi : i < 2
  · interval_cases i <;> decide
  · rw [testBit_const_ge 2 2 i (by decide) (by omega)]
    simp; omega

theorem genSignature_testBit_eq (lastFlags flags memlat l2 l3 i : Nat) (hi : i < 16) :
    (genSignature lastFlags flags memlat l2 l3).testBit i =
      ((flags.testBit i && decide (2 ≤ i ∧ i ≤ 12)) ||
       ((hasBit flags INSTR_DCACHE_MISS && decide (memlat ≥ l2)) && decide (i = 0)) ||
       ((hasBit flags INSTR_DCACHE_MISS && decide (memlat ≥ l3)) && decide (i = 1)) ||
       (decide (13 ≤ i) && lastFlags.testBit (i - 3))) := by
  rw [genSignature_testBit _ _ _ _ _ _ hi, testBit_MISS, testBit_OIR]
  have e1 : ∀ b : Bool, (if b then 1 else 0 : Nat).testBit i = (b && decide (i = 0)) := by
    intro b; cases b <;> simp [testBit_lit_one]
  have e2 : ∀ b : Bool, (if b then 2 else 0 : Nat).testBit i = (b && decide (i = 1)) := by
    intro b; cases b <;> simp [testBit_lit_two]
  rw [e1, e2]
  congr 1
  by_cases h13 : 13 ≤ i
  · have : 10 ≤ i - 3 ∧ i - 3 ≤ 12 := by omega
    have h3 : i ≥ 3 := by omega
    simp [h13, this, h3]
  · have : ¬ (10 ≤ i - 3 ∧ i - 3 ≤ 12) := by omega
    simp [h13]
    omega

/-- C8. For all inputs of `genSignature`, bit 0 of the signature is set if and only if `flags`
has DCACHE_MISS and `memlat >= l2MissLatency`, and bit 1 is set if and only if `flags` has
DCACHE_MISS and `memlat >= l3MissLatency`; the COMMITS and VALID bits of `flags` never reach
bits 0 and 1. -/
theorem genSignature_low_bits (lastFlags flags memlat l2MissLatency l3MissLatency : Nat) :
    ((genSignature lastFlags flags memlat l2MissLatency l3MissLatency).testBit 0 = true ↔
        (flags &&& INSTR_DCACHE_MISS ≠ 0 ∧ memlat ≥ l2MissLatency)) ∧
    ((genSignature lastFlags flags memlat l2MissLatency l3MissLatency).testBit 1 = true ↔
        (flags &&& INSTR_DCACHE_MISS ≠ 0 ∧ memlat ≥ l3MissLatency)) := by
  constructor
  · rw [genSignature_testBit_eq _ _ _ _ _ 0 (by decide)]
    simp [hasBit]
  · rw [genSignature_testBit_eq _ _ _ _ _ 1 (by decide)]
    simp [hasBit]

theorem genSignature_lt_16 (lastFlags flags memlat l2 l3 : Nat) :
    genSignature lastFlags flags memlat l2 l3 < 2 ^ 16 := by
  unfold genSignature; exact Nat.mod_lt _ (by decide)

theorem and_OIR_eq_zero_iff (x : Nat) :
    x &&& INSTR_OIR = 0 ↔ x.testBit 10 = false ∧ x.testBit 11 = false ∧ x.testBit 12 = false := by
  constructor
  · intro h
    have h10 := congrArg (fun y => Nat.testBit y 10) h
    have h11 := congrArg (fun y => Nat.testBit y 11) h
    have h12 := congrArg (fun y => Nat.testBit y 12) h
    simp [Nat.testBit_and, testBit_OIR] at h10 h11 h12
    exact ⟨h10, h11, h12⟩
  · rintro ⟨h10, h11, h12⟩
    apply Nat.eq_of_testBit_eq
    intro i
    simp only [Nat.testBit_and, Nat.zero_testBit, testBit_OIR]
    by_cases hi : 10 ≤ i ∧ i ≤ 12
    · have : i = 10 ∨ i = 11 ∨ i = 12 := by omega
      rcases this with rfl | rfl | rfl <;> simp [h10, h11, h12]
    · simp [hi]

theorem genSignature_lt_13_iff (lastFlags flags memlat l2 l3 : Nat) :
    genSignature lastFlags flags memlat l2 l3 < 2 ^ 13 ↔ lastFlags &&& INSTR_OIR = 0 := by
  rw [and_OIR_eq_zero_iff]
  constructor
  · intro h
    have hb : ∀ i, 13 ≤ i → (genSignature lastFlags flags memlat l2 l3).testBit i = false :=
      fun i hi => Nat.testBit_eq_false_of_lt (lt_of_lt_of_le h (Nat.pow_le_pow_right (by decide) hi))
    have h13 := hb 13 (by decide)
    have h14 := hb 14 (by decide)
    have h15 := hb 15 (by decide)
    rw [genSignature_testBit_eq _ _ _ _ _ _ (by decide)] at h13 h14 h15
    simp at h13 h14 h15
    exact ⟨h13, h14, h15⟩
  · rintro ⟨h10, h11, h12⟩
    apply Nat.lt_pow_two_of_testBit
    intro i hi
    by_cases h16 : i < 16
    · rw [genSignature_testBit_eq _ _ _ _ _ _ h16]
      have : i = 13 ∨ i = 14 ∨ i = 15 := by omega
      rcases this with rfl | rfl | rfl <;> simp [h10, h11, h12]
    · exact Nat.testBit_eq_false_of_lt (lt_of_lt_of_le (genSignature_lt_16 _ _ _ _ _)
        (Nat.pow_le_pow_right (by decide) (by omega)))


/-- C7 (as amended). The signature is a 16-bit value: for all inputs `genSignature` returns a
value strictly below `2^16`, and the value is below `2^13` exactly when `lastFlags` carries no
OIR bit (the predecessor's OIR bits land in bits 15..13). -/
theorem genSignature_width (lastFlags flags memlat l2MissLatency l3MissLatency : Nat) :
    genSignature lastFlags flags memlat l2MissLatency l3MissLatency < 2 ^ 16 ∧
    (genSignature lastFlags flags memlat l2MissLatency l3MissLatency < 2 ^ 13 ↔
      lastFlags &&& INSTR_OIR = 0) :=
  ⟨genSignature_lt_16 _ _ _ _ _, genSignature_lt_13_iff _ _ _ _ _⟩

/-- C7 (counterexample). After a mispredicted branch (`lastFlags = INSTR_BR_MISS`) the
signature of an instruction without any miss, with the default latencies 32 and 84, is
`2^13`. -/
theorem genSignature_13bit_counterexample :
    genSignature INSTR_BR_MISS (INSTR_COMMITS ||| INSTR_VALID) 0 32 84 = 2 ^ 13 ∧
    ¬ (genSignature INSTR_BR_MISS (INSTR_COMMITS ||| INSTR_VALID) 0 32 84 < 2 ^ 13) := by
  decide
/-! ## Construction -/

theorem stoulResult_lt (neg : Bool) (r : Nat × Nat) (n : Nat)
    (h : stoulResult neg r = .ok n) : n < 2 ^ 64 := by
  unfold stoulResult at h
  split at h
  · exact absurd h (by simp)
  · split at h
    · exact absurd h (by simp)
    · simp only [Except.ok.injEq] at h
      rw [← h]
      split
      · exact sub64_lt _ _
      · omega

theorem stoul_lt (str : String) (n : Nat) (h : stoul str = .ok n) : n < 2 ^ 64 := by
  unfold stoul at h
  exact stoulResult_lt _ _ n h

theorem parseArg_ok (b b1 : base_profiler) (c : List String)
    (h : base_profiler.parseArg b c = .ok b1) (hb : b.samplingPeriod < 2 ^ 64) :
    b1.samplingPeriod < 2 ^ 64 := by
  unfold base_profiler.parseArg at h
  split at h
  · exact absurd h (by simp)
  · simp only [Except.ok.injEq] at h; rw [← h]; exact hb
  · rename_i c0 c1 rest
    have key : ∀ (f : Nat → base_profiler),
        Except.map f (stoul c1) = Except.ok b1 → ∃ n, stoul c1 = .ok n ∧ b1 = f n := by
      intro f hf
      cases hs : stoul c1 with
      | error e => rw [hs] at hf; exact absurd hf (by simp [Except.map])
      | ok n =>
        rw [hs] at hf
        simp only [Except.map, Except.ok.injEq] at hf
        exact ⟨n, rfl, hf.symm⟩
    split at h
    · obtain ⟨n, _, e⟩ := key _ h; rw [e]; exact hb
    · split at h
      · obtain ⟨n, hn, e⟩ := key _ h; rw [e]; exact stoul_lt _ _ hn
      · split at h
        · obtain ⟨n, _, e⟩ := key _ h; rw [e]; exact hb
        · split at h
          · obtain ⟨n, _, e⟩ := key _ h; rw [e]; exact hb
          · split at h
            · obtain ⟨n, _, e⟩ := key _ h; rw [e]; exact hb
            · split at h
              · obtain ⟨n, _, e⟩ := key _ h; rw [e]; exact hb
              · simp only [Except.ok.injEq] at h; rw [← h]; exact hb

theorem parseArgs_ok (args : List (List String)) :
    ∀ (b b1 : base_profiler), base_profiler.parseArgs b args = .ok b1 →
      b.samplingPeriod < 2 ^ 64 → b1.samplingPeriod < 2 ^ 64 := by
  induction args with
  | nil =>
    intro b b1 h hb
    simp only [base_profiler.parseArgs, Except.ok.injEq] at h
    rw [← h]; exact hb
  | cons c args ih =>
    intro b b1 h hb
    simp only [base_profiler.parseArgs] at h
    split at h
    · exact absurd h (by simp)
    · rename_i b2 h2
      exact ih b2 b1 h (parseArg_ok b b2 c h2 hb)

/-- The members set by the constructor once the arguments are parsed to `b`. -/
theorem base_ctor_ok (rng : Nat → Nat) (args : List (List String)) (tokenBytes : Nat)
    (b : base_profiler) (hparse : base_profiler.parseArgs base_profiler.initial args = .ok b)
    (h64 : tokenBytes = 64) :
    ∃ b1, base_profiler.ctor rng args tokenBytes = .ok b1 ∧
      b1.samplingPeriod = b.samplingPeriod ∧
      b1.randomOffset = (if b.samplingPeriod > 0 ∧ b.randomOffset ≥ b.samplingPeriod then
        sub64 b.samplingPeriod 1 else b.randomOffset) := by
  unfold base_profiler.ctor
  rw [hparse, h64]
  simp only [Nat.reduceDiv, ne_eq, not_true_eq_false, if_false]
  refine ⟨_, rfl, ?_, ?_⟩
  · simp only [restartSampling]
    split <;> split <;> rfl
  · simp only [restartSampling]
    split <;> split <;> simp_all

theorem base_ctor_not64 (rng : Nat → Nat) (args : List (List String)) (tokenBytes : Nat)
    (h64 : tokenBytes ≠ 64) :
    base_profiler.ctor rng args tokenBytes = .error .invalid_argument := by
  unfold base_profiler.ctor
  simp [h64]


theorem except_map_unit_ok {α : Type} (x : Except ctorError α) :
    (x.map (fun _ => ()) = .ok ()) ↔ ∃ a, x = .ok a := by
  cases x with
  | error e => simp [Except.map]
  | ok a => simp [Except.map]

theorem except_map_unit_error {α : Type} (x : Except ctorError α) (e : ctorError) :
    (x.map (fun _ => ()) = .error e) ↔ x = .error e := by
  cases x with
  | error e1 => simp [Except.map]
  | ok a => simp [Except.map]

/-- C10 (as amended). Random-offset clamp. If construction succeeds and the argument loop
configured the sampling period `P` and the random offset `R`, then the effective
`randomOffset` is `P - 1` when `P > 0` and `R >= P`, and it is `R` unchanged when `P = 0`
(the clamp is guarded by `samplingPeriod > 0`) or `R < P`. -/
theorem randomOffset_clamp (rng : Nat → Nat) (args : List (List String)) (tokenBytes : Nat)
    (cfg b : base_profiler)
    (hparse : base_profiler.parseArgs base_profiler.initial args = .ok cfg)
    (hctor : base_profiler.ctor rng args tokenBytes = .ok b) :
    (cfg.samplingPeriod > 0 → cfg.randomOffset ≥ cfg.samplingPeriod →
      b.randomOffset = cfg.samplingPeriod - 1) ∧
    (cfg.samplingPeriod = 0 → b.randomOffset = cfg.randomOffset) ∧
    (cfg.randomOffset < cfg.samplingPeriod → b.randomOffset = cfg.randomOffset) := by
  have h64 : tokenBytes = 64 := by
    by_contra hne
    rw [base_ctor_not64 rng args tokenBytes hne] at hctor
    exact absurd hctor (by simp)
  obtain ⟨b1, hb, _, hR⟩ := base_ctor_ok rng args tokenBytes cfg hparse h64
  rw [hb] at hctor
  simp only [Except.ok.injEq] at hctor
  subst hctor
  have hlt := parseArgs_ok args base_profiler.initial cfg hparse (by decide)
  rw [hR]
  refine ⟨?_, ?_, ?_⟩
  · intro h1 h2
    rw [if_pos ⟨h1, h2⟩]
    unfold sub64; split <;> omega
  · intro h1
    rw [if_neg (by omega)]
  · intro h1
    rw [if_neg (by omega)]

/-- Witness of `randomOffset_clamp`: `samplingPeriod:100` with `randomOffset:500` gives the
effective random offset 99. -/
theorem randomOffset_clamp_witness :
    ∃ cfg b, base_profiler.parseArgs base_profiler.initial
        [["samplingPeriod", "100"], ["randomOffset", "500"]] = .ok cfg ∧
      base_profiler.ctor (fun _ => 0) [["samplingPeriod", "100"], ["randomOffset", "500"]] 64 =
        .ok b ∧
      cfg.samplingPeriod = 100 ∧ cfg.randomOffset = 500 ∧ b.randomOffset = 100 - 1 := by
  have h1 : base_profiler.parseArgs base_profiler.initial
      [["samplingPeriod", "100"], ["randomOffset", "500"]] =
      .ok { base_profiler.initial with samplingPeriod := 100, randomOffset := 500 } := by
    decide
  have h4 : base_profiler.ctor (fun _ => 0)
      [["samplingPeriod", "100"], ["randomOffset", "500"]] 64 =
      .ok (restartSampling
        { base_profiler.initial with samplingPeriod := 100, randomOffset := 99 } 0) := by
    decide
  exact ⟨_, _, h1, h4, rfl, rfl,
    (randomOffset_clamp (fun _ => 0) _ 64 _ _ h1 h4).1 (by decide) (by decide)⟩

/-- C10 (counterexample). The oracle is constructed with `randomOffset:5` and no sampling
period: the configured `R = 5` is `>= P = 0`, and the effective random offset stays 5, which
is not `P - 1` (neither as a wrapped 64-bit value nor truncated at zero). -/
theorem randomOffset_clamp_counterexample :
    ∃ cfg s, base_profiler.parseArgs base_profiler.initial [["randomOffset", "5"]] = .ok cfg ∧
      tracedoctor_oracle.ctor (fun _ => 0) [["randomOffset", "5"]] 64 = .ok s ∧
      cfg.randomOffset ≥ cfg.samplingPeriod ∧ cfg.samplingPeriod = 0 ∧
      s.base.randomOffset = 5 ∧
      s.base.randomOffset ≠ sub64 cfg.samplingPeriod 1 ∧
      s.base.randomOffset ≠ cfg.samplingPeriod - 1 :=
  ⟨{ base_profiler.initial with randomOffset := 5 },
   { base := restartSampling { base_profiler.initial with randomOffset := 5 } 0,
     result := [], lastToken := robAnalysisToken.zero, out := [] },
   by decide, by decide, by decide, by decide, by decide, by decide, by decide⟩
/-! ## TEA-gold: deferral of OIR attribution -/

theorem amapSet_mem {α : Type} (k : Nat) (v : α) (m : List (Nat × α)) :
    ∀ e ∈ amapSet k v m, e.2 = v ∨ e ∈ m := by
  induction m with
  | nil =>
    intro e he
    simp only [amapSet, List.mem_singleton] at he
    left; rw [he]
  | cons x m ih =>
    intro e he
    simp only [amapSet] at he
    split at he
    · rcases List.mem_cons.1 he with h | h
      · left; rw [h]
      · right; exact List.mem_cons_of_mem _ h
    · rcases List.mem_cons.1 he with h | h
      · right; rw [h]; exact List.mem_cons_self _ _
      · rcases ih e h with h1 | h1
        · left; exact h1
        · right; exact List.mem_cons_of_mem _ h1

theorem amapGet_mem {α : Type} (dflt : α) (m : List (Nat × α)) (k : Nat) :
    amapGet dflt m k = dflt ∨ ∃ e ∈ m, e.2 = amapGet dflt m k := by
  induction m with
  | nil => left; rfl
  | cons x m ih =>
    simp only [amapGet]
    split
    · right; exact ⟨x, List.mem_cons_self _ _, rfl⟩
    · rcases ih with h | ⟨e, he, h⟩
      · left; exact h
      · right; exact ⟨e, List.mem_cons_of_mem _ he, h⟩

theorem value2histVec_ne_nil (vec : List Nat) (value increment : Nat) (vec1 : List Nat)
    (h : value2histVec vec value increment = some vec1) : vec1 ≠ [] := by
  unfold value2histVec at h
  dsimp only at h
  generalize (if vec.length ≤ value then vecResize vec ((value + 1) % 2 ^ 64) else vec) = w at h
  by_cases hlt : value < w.length
  · rw [if_pos hlt] at h
    simp only [Option.some.injEq] at h
    intro hnil
    rw [← h] at hnil
    have := congrArg List.length hnil
    simp only [List.length_set, List.length_nil] at this
    omega
  · rw [if_neg hlt] at h
    exact absurd h (by simp)

theorem value2hist_WF (hist : histogram) (address value increment : Nat) (hist1 : histogram)
    (hwf : histWF hist) (h : value2hist hist address value increment = some hist1) :
    histWF hist1 := by
  unfold value2hist at h
  split at h
  · exact absurd h (by simp)
  · rename_i vec hv
    simp only [Option.some.injEq] at h
    rw [← h]
    intro e he
    rcases amapSet_mem address vec hist e he with h1 | h1
    · rw [h1]; exact value2histVec_ne_nil _ _ _ _ hv
    · exact hwf e h1

theorem severityHists_get_WF (sev : List (Nat × histogram)) (i : Nat)
    (hwf : ∀ e ∈ sev, histWF e.2) : histWF (amapGet [] sev i) := by
  rcases amapGet_mem ([] : histogram) sev i with h | ⟨e, he, h⟩
  · rw [h]; intro e he; exact absurd he (List.not_mem_nil _)
  · rw [← h]; exact hwf e he

theorem severityHists_set_WF (sev : List (Nat × histogram)) (i : Nat) (h : histogram)
    (hwf : ∀ e ∈ sev, histWF e.2) (hh : histWF h) : ∀ e ∈ amapSet i h sev, histWF e.2 := by
  intro e he
  rcases amapSet_mem i h sev e he with h1 | h1
  · rw [h1]; exact hh
  · exact hwf e h1

theorem gold_attributeOIR_WF (s s1 : tracedoctor_tea_gold) (additionalSeverity : Nat)
    (hwf : goldWF s) (h : tracedoctor_tea_gold.attributeOIR s additionalSeverity = some s1) :
    goldWF s1 ∧ s1.base = s.base ∧ s1.lastInstructionRegister.oir = false ∧
      s1.lastProgressCycle = s.lastProgressCycle ∧
      s1.lastInstructionRegister.flags = s.lastInstructionRegister.flags := by
  unfold tracedoctor_tea_gold.attributeOIR at h
  split at h
  · split at h
    · rename_i hh r e1 e2
      simp only [Option.some.injEq] at h
      rw [← h]
      refine ⟨⟨value2hist_WF _ _ _ _ _ hwf.1 e2, ?_⟩, rfl, rfl, rfl, rfl⟩
      exact severityHists_set_WF _ _ _ hwf.2
        (value2hist_WF _ _ _ _ _ (severityHists_get_WF _ _ hwf.2) e1)
    · exact absurd h (by simp)
  · rename_i hoir
    simp only [Option.some.injEq] at h
    rw [← h]
    exact ⟨hwf, rfl, by simpa using hoir, rfl, rfl⟩

theorem gold_attributeInstr_WF (s s1 : tracedoctor_tea_gold)
    (address flags memlat severity ilpLatency : Nat)
    (hwf : goldWF s)
    (h : tracedoctor_tea_gold.attributeInstr s address flags memlat severity ilpLatency =
      some s1) :
    goldWF s1 ∧ s1.base = s.base ∧
      (hasBit flags INSTR_OIR = true →
        s1.lastInstructionRegister.oir = true ∧ s1.lastInstructionRegister.address = address) ∧
      (hasBit flags INSTR_OIR = false →
        s1.lastInstructionRegister.oir = s.lastInstructionRegister.oir ∧
        s1.lastInstructionRegister.address = s.lastInstructionRegister.address) := by
  unfold tracedoctor_tea_gold.attributeInstr at h
  dsimp only at h
  split at h
  · rename_i hz
    have hb : hasBit flags INSTR_OIR = false := by simp [hasBit, hz]
    split at h
    · rename_i hh r e1 e2
      simp only [Option.some.injEq] at h
      rw [← h]
      refine ⟨⟨value2hist_WF _ _ _ _ _ hwf.1 e2, ?_⟩, rfl, ?_, fun _ => ⟨rfl, rfl⟩⟩
      · exact severityHists_set_WF _ _ _ hwf.2
          (value2hist_WF _ _ _ _ _ (severityHists_get_WF _ _ hwf.2) e1)
      · intro hc; rw [hb] at hc; exact absurd hc (by simp)
    · exact absurd h (by simp)
  · rename_i hz
    have hb : hasBit flags INSTR_OIR = true := by simp [hasBit, hz]
    simp only [Option.some.injEq] at h
    rw [← h]
    refine ⟨hwf, rfl, fun _ => ⟨rfl, rfl⟩, ?_⟩
    intro hc; rw [hb] at hc; exact absurd hc (by simp)


theorem gold_commitBlock_spec (flags address memlat ilpLatency : Nat)
    (st st1 : tracedoctor_tea_gold × Nat) (hwf : goldWF st.1)
    (h : tracedoctor_tea_gold.commitBlock flags address memlat ilpLatency st = some st1) :
    goldWF st1.1 ∧ st1.1.base = st.1.base ∧
      (hasBit flags INSTR_COMMITS = true → hasBit flags INSTR_OIR = true →
        st1.1.lastInstructionRegister.oir = true ∧
        st1.1.lastInstructionRegister.address = address) ∧
      (hasBit flags INSTR_COMMITS = false → st1 = st) := by
  unfold tracedoctor_tea_gold.commitBlock at h
  split at h
  · rename_i hc
    split at h
    · exact absurd h (by simp)
    · rename_i s1 hs
      simp only [Option.some.injEq] at h
      rw [← h]
      obtain ⟨w1, w2, w3, _⟩ := gold_attributeInstr_WF _ _ _ _ _ _ _ hwf hs
      exact ⟨w1, w2, fun _ ho => w3 ho, fun hn => by rw [hc] at hn; exact absurd hn (by simp)⟩
  · rename_i hc
    simp only [Option.some.injEq] at h
    rw [← h]
    exact ⟨hwf, rfl, fun hn => absurd hn hc, fun _ => rfl⟩

theorem gold_commitPart_spec (s s1 : tracedoctor_tea_gold) (token : robAnalysisToken)
    (severity : Nat) (hwf : goldWF s)
    (h : tracedoctor_tea_gold.commitPart s token severity = some s1) :
    goldWF s1 ∧ s1.base = s.base ∧
      (hasBit (getLastCommitting token).flags INSTR_OIR = true →
        s1.lastInstructionRegister.oir = true ∧
        s1.lastInstructionRegister.address = (getLastCommitting token).address) := by
  unfold tracedoctor_tea_gold.commitPart at h
  dsimp only at h
  split at h
  · exact absurd h (by simp)
  · rename_i hn
    split at h
    · exact absurd h (by simp)
    · rename_i ilp _
      split at h
      · exact absurd h (by simp)
      · rename_i st0 h0
        split at h
        · exact absurd h (by simp)
        · rename_i st1 h1
          split at h
          · exact absurd h (by simp)
          · rename_i st2 h2
            obtain ⟨a1, a2, a3, a4⟩ := gold_commitBlock_spec _ _ _ _ _ _ hwf h0
            obtain ⟨b1, b2, b3, b4⟩ := gold_commitBlock_spec _ _ _ _ _ _ a1 h1
            obtain ⟨c1, c2, c3, c4⟩ := gold_commitBlock_spec _ _ _ _ _ _ b1 h2
            have hbase : st2.1.base = s.base := by rw [c2, b2, a2]
            unfold getLastCommitting
            split at h
            · rename_i hc3
              obtain ⟨d1, d2, d3, _⟩ := gold_attributeInstr_WF _ _ _ _ _ _ _ c1 h
              rw [if_pos hc3]
              exact ⟨d1, by rw [d2, hbase], fun ho => d3 ho⟩
            · rename_i hc3
              simp only [Option.some.injEq] at h
              rw [← h, if_neg hc3]
              refine ⟨c1, hbase, ?_⟩
              by_cases hc2 : hasBit token.instr2_flags INSTR_COMMITS = true
              · rw [if_pos hc2]; exact fun ho => c3 hc2 ho
              · rw [if_neg hc2]
                have e2 : st2 = st1 := c4 (by simpa using hc2)
                rw [e2]
                by_cases hc1 : hasBit token.instr1_flags INSTR_COMMITS = true
                · rw [if_pos hc1]; exact fun ho => b3 hc1 ho
                · rw [if_neg hc1]
                  have e1 : st1 = st0 := b4 (by simpa using hc1)
                  rw [e1]
                  by_cases hc0 : hasBit token.instr0_flags INSTR_COMMITS = true
                  · exact fun ho => a3 hc0 ho
                  · exfalso
                    apply hn
                    simp only [Bool.not_eq_true] at hc0 hc1 hc2 hc3
                    simp [hc0, hc1, hc2, hc3, b2n]

theorem hist2fileLoop_some (vec : List Nat) (maxValue : Nat) (hmax : maxValue < vec.length) :
    ∀ (left : Nat) (outbuf : List Char), ∃ out, hist2fileLoop vec maxValue left outbuf = some out := by
  intro left
  induction left with
  | zero => intro outbuf; exact ⟨outbuf, rfl⟩
  | succ n ih =>
    intro outbuf
    have hlt : maxValue - (n + 1) < vec.length := by omega
    simp only [hist2fileLoop, List.get?_eq_getElem?, List.getElem?_eq_getElem hlt]
    split
    · exact ih _
    · exact ih _

theorem hist2fileNormLoop_some (vec : List Nat) (maxValue : Nat) (hmax : maxValue < vec.length) :
    ∀ (left : Nat) (outbuf : List (Nat × Nat)),
      ∃ out, hist2fileNormLoop vec maxValue left outbuf = some out := by
  intro left
  induction left with
  | zero => intro outbuf; exact ⟨outbuf, rfl⟩
  | succ n ih =>
    intro outbuf
    have hlt : maxValue - (n + 1) < vec.length := by omega
    simp only [hist2fileNormLoop, List.get?_eq_getElem?, List.getElem?_eq_getElem hlt]
    split
    · exact ih _
    · exact ih _

theorem maxValue_lt (w : Nat) (vec : List Nat) (hne : vec ≠ []) :
    sub64 vec.length 1 % 2 ^ w < vec.length := by
  have hpos : 0 < vec.length := List.length_pos.2 hne
  have h1 : sub64 vec.length 1 ≤ vec.length - 1 := by
    unfold sub64
    have hm := Nat.mod_le vec.length (2 ^ 64)
    have hd := Nat.div_add_mod vec.length (2 ^ 64)
    split <;> omega
  have h2 := Nat.mod_le (sub64 vec.length 1) (2 ^ w)
  omega


theorem hist2fileLine_some (w : Nat) (pfx : List Char) (key : Nat) (vec : List Nat)
    (hne : vec ≠ []) : ∃ l, hist2fileLine w pfx key vec = some l := by
  have hlt := maxValue_lt w vec hne
  obtain ⟨out, ho⟩ := hist2fileLoop_some vec _ hlt (sub64 vec.length 1 % 2 ^ w)
    (['0', 'x'] ++ hexChars key ++ [';'])
  unfold hist2fileLine
  simp only [ho, List.get?_eq_getElem?, List.getElem?_eq_getElem hlt]
  exact ⟨_, rfl⟩

theorem hist2file_some (w : Nat) (pfx : List Char) (hist : histogram) (hwf : histWF hist) :
    ∃ ls, hist2file w pfx hist = some ls := by
  induction hist with
  | nil => exact ⟨[], rfl⟩
  | cons e hist ih =>
    obtain ⟨l, hl⟩ := hist2fileLine_some w pfx e.1 e.2 (hwf e (List.mem_cons_self _ _))
    obtain ⟨ls, hls⟩ := ih (fun x hx => hwf x (List.mem_cons_of_mem _ hx))
    exact ⟨l :: ls, by simp only [hist2file, hl, hls]⟩

theorem hist2fileNormLine_some (w : Nat) (key : Nat) (vec : List Nat)
    (hne : vec ≠ []) : ∃ l, hist2fileNormLine w key vec = some l := by
  have hlt := maxValue_lt w vec hne
  obtain ⟨out, ho⟩ := hist2fileNormLoop_some vec _ hlt (sub64 vec.length 1 % 2 ^ w) []
  unfold hist2fileNormLine
  simp only [ho, List.get?_eq_getElem?, List.getElem?_eq_getElem hlt]
  exact ⟨_, rfl⟩

theorem hist2fileNorm_some (w : Nat) (hist : histogram) (hwf : histWF hist) :
    ∃ ls, hist2fileNorm w hist = some ls := by
  induction hist with
  | nil => exact ⟨[], rfl⟩
  | cons e hist ih =>
    obtain ⟨l, hl⟩ := hist2fileNormLine_some w e.1 e.2 (hwf e (List.mem_cons_self _ _))
    obtain ⟨ls, hls⟩ := ih (fun x hx => hwf x (List.mem_cons_of_mem _ hx))
    exact ⟨l :: ls, by simp only [hist2fileNorm, hl, hls]⟩

theorem gold_flushSeverity_some (sev : List (Nat × histogram))
    (hwf : ∀ e ∈ sev, histWF e.2) :
    ∀ (left : Nat) (out : List (List Char)),
      ∃ o, tracedoctor_tea_gold.flushSeverity sev left out = some o := by
  intro left
  induction left with
  | zero => intro out; exact ⟨out, rfl⟩
  | succ n ih =>
    intro out
    obtain ⟨ls, hls⟩ := hist2file_some 64
      (decChars (tracedoctor_tea_gold.numSignatures - (n + 1)) ++ [';'])
      (amapGet [] sev (tracedoctor_tea_gold.numSignatures - (n + 1)))
      (severityHists_get_WF sev _ hwf)
    obtain ⟨o, ho⟩ := ih (out ++ ls)
    exact ⟨o, by simp only [tracedoctor_tea_gold.flushSeverity, hls, ho]⟩

theorem gold_flushResult_spec (s : tracedoctor_tea_gold) (hwf : goldWF s) :
    ∃ s1, tracedoctor_tea_gold.flushResult s = some s1 ∧ goldWF s1 ∧ s1.base = s.base ∧
      s1.result = s.result ∧ s1.severityHists = [] ∧
      s1.lastInstructionRegister = s.lastInstructionRegister ∧
      s1.lastProgressCycle = s.lastProgressCycle := by
  obtain ⟨o, ho⟩ := gold_flushSeverity_some s.severityHists hwf.2
    tracedoctor_tea_gold.numSignatures s.out0
  obtain ⟨l, hl⟩ := hist2fileNorm_some 64 s.result hwf.1
  unfold tracedoctor_tea_gold.flushResult
  simp only [ho, hl]
  exact ⟨_, rfl, ⟨hwf.1, fun e he => absurd he (List.not_mem_nil _)⟩, rfl, rfl, rfl, rfl, rfl⟩

/-- The state after `triggerDetection` and the flush it may call. -/
theorem gold_trigger_spec (s : tracedoctor_tea_gold) (token : robAnalysisToken)
    (hwf : goldWF s) :
    ∃ s1, (if (triggerDetection s.base token).1 then
          tracedoctor_tea_gold.flushResult { s with base := (triggerDetection s.base token).2.2 }
        else some { s with base := (triggerDetection s.base token).2.2 }) = some s1 ∧
      goldWF s1 ∧ s1.base = (triggerDetection s.base token).2.2 ∧ s1.result = s.result ∧
      (s1.severityHists = s.severityHists ∨ s1.severityHists = []) ∧
      s1.lastInstructionRegister = s.lastInstructionRegister ∧
      s1.lastProgressCycle = s.lastProgressCycle := by
  split
  · obtain ⟨s1, e, w, b, r, sv, l, p⟩ := gold_flushResult_spec
      { s with base := (triggerDetection s.base token).2.2 } hwf
    exact ⟨s1, e, w, b, r, Or.inr sv, l, p⟩
  · exact ⟨_, rfl, hwf, rfl, rfl, Or.inl rfl, rfl, rfl⟩

/-- A token whose ROB status has none of POPULATED, COMMITTING and EXCEPTION leaves the
register and `result` as they are and does not add to `severityHists`. -/
theorem gold_step_quiet (s : tracedoctor_tea_gold) (token : robAnalysisToken)
    (hwf : goldWF s) (hnf : s.base.firstToken = false)
    (hq : hasBit token.rob (ROB_POPULATED ||| ROB_COMMITTING ||| ROB_EXCEPTION) = false) :
    ∃ s1, tracedoctor_tea_gold.step s token = some s1 ∧ goldWF s1 ∧
      s1.base.firstToken = false ∧ s1.result = s.result ∧
      (s1.severityHists = s.severityHists ∨ s1.severityHists = []) ∧
      s1.lastInstructionRegister = s.lastInstructionRegister := by
  rw [hasBit_or, hasBit_or] at hq
  simp only [Bool.or_eq_false_iff] at hq
  obtain ⟨⟨hp, hc⟩, he⟩ := hq
  obtain ⟨s1, e, w, b, r, sv, l, _⟩ := gold_trigger_spec s token hwf
  obtain ⟨t1, t2⟩ := triggerDetection_notFirst s.base token hnf
  unfold tracedoctor_tea_gold.step
  dsimp only
  rw [e]
  dsimp only
  rw [t1]
  simp only [Bool.false_eq_true, if_false]
  have hpop : tracedoctor_tea_gold.populatedPart s1 token = some s1 := by
    unfold tracedoctor_tea_gold.populatedPart
    simp [hp]
  have hprog : tracedoctor_tea_gold.progressPart s1 token = some s1 := by
    unfold tracedoctor_tea_gold.progressPart
    rw [hasBit_or]
    simp [hc, he]
  rw [hpop]
  dsimp only
  rw [hprog]
  exact ⟨s1, rfl, w, by rw [b]; exact t2, r, sv, l⟩

theorem gold_tick_quiet (tokens : List robAnalysisToken) :
    ∀ s : tracedoctor_tea_gold, goldWF s → s.base.firstToken = false →
    (∀ t ∈ tokens,
      hasBit t.rob (ROB_POPULATED ||| ROB_COMMITTING ||| ROB_EXCEPTION) = false) →
    ∃ s1, tracedoctor_tea_gold.tick s tokens = some s1 ∧ s1.result = s.result ∧
      (s1.severityHists = s.severityHists ∨ s1.severityHists = []) ∧
      s1.lastInstructionRegister = s.lastInstructionRegister := by
  induction tokens with
  | nil => intro s _ _ _; exact ⟨s, rfl, rfl, Or.inl rfl, rfl⟩
  | cons t ts ih =>
    intro s hwf hnf hq
    obtain ⟨s1, e, w, f, r, sv, l⟩ := gold_step_quiet s t hwf hnf (hq t (List.mem_cons_self _ _))
    obtain ⟨s2, e2, r2, sv2, l2⟩ := ih s1 w f (fun u hu => hq u (List.mem_cons_of_mem _ hu))
    refine ⟨s2, by simp only [tracedoctor_tea_gold.tick, e, e2], by rw [r2, r], ?_,
      by rw [l2, l]⟩
    rcases sv2 with h | h
    · rcases sv with h1 | h1
      · left; rw [h, h1]
      · right; rw [h, h1]
    · right; exact h

/-- The state after a COMMITTING token whose last committing slot carries an OIR flag. -/
theorem gold_step_oir (s s1 : tracedoctor_tea_gold) (token : robAnalysisToken)
    (hwf : goldWF s) (hnf : s.base.firstToken = false)
    (hc : hasBit token.rob ROB_COMMITTING = true)
    (hoir : hasBit (getLastCommitting token).flags INSTR_OIR = true)
    (h : tracedoctor_tea_gold.step s token = some s1) :
    goldWF s1 ∧ s1.base.firstToken = false ∧ s1.lastInstructionRegister.oir = true ∧
      s1.lastInstructionRegister.address = (getLastCommitting token).address := by
  obtain ⟨t, e, w, b, _, _, _, _⟩ := gold_trigger_spec s token hwf
  obtain ⟨t1, t2⟩ := triggerDetection_notFirst s.base token hnf
  unfold tracedoctor_tea_gold.step at h
  dsimp only at h
  rw [e] at h
  dsimp only at h
  rw [t1] at h
  simp only [Bool.false_eq_true, if_false] at h
  split at h
  · exact absurd h (by simp)
  · rename_i s2 hpop
    have hs2 : goldWF s2 ∧ s2.base = t.base := by
      unfold tracedoctor_tea_gold.populatedPart at hpop
      split at hpop
      · split at hpop
        · exact absurd hpop (by simp)
        · rename_i s3 h3
          simp only [Option.some.injEq] at hpop
          obtain ⟨w3, b3, _⟩ := gold_attributeOIR_WF _ _ _ w h3
          rw [← hpop]
          exact ⟨w3, b3⟩
      · simp only [Option.some.injEq] at hpop
        rw [← hpop]; exact ⟨w, rfl⟩
    unfold tracedoctor_tea_gold.progressPart at h
    rw [hasBit_or, hc] at h
    simp only [Bool.true_or, if_true] at h
    split at h
    · exact absurd h (by simp)
    · rename_i s3 h3
      obtain ⟨w3, b3, _⟩ := gold_attributeOIR_WF _ _ _ hs2.1 h3
      split at h
      · exact absurd h (by simp)
      · rename_i s4 h4
        obtain ⟨w4, b4, p4⟩ := gold_commitPart_spec _ _ _ _ w3 h4
        simp only [Option.some.injEq] at h
        rw [← h]
        exact ⟨w4, by rw [b4, b3, hs2.2, b]; exact t2, (p4 hoir).1, (p4 hoir).2⟩

/-! ## Sampling-period arithmetic: members left alone -/

theorem ditherNextPeriod_firstToken (rng : Nat → Nat) (b : base_profiler) :
    (ditherNextPeriod rng b).firstToken = b.firstToken := by
  unfold ditherNextPeriod
  split <;> rfl

theorem advanceLoop_firstToken (rng : Nat → Nat) (count : Nat) :
    ∀ (fuel : Nat) (b : base_profiler) (p : Nat) (r : Nat × base_profiler),
      advanceLoop rng count fuel b p = some r → r.2.firstToken = b.firstToken := by
  intro fuel
  induction fuel with
  | zero => intro b p r h; exact absurd h (by simp [advanceLoop])
  | succ n ih =>
    intro b p r h
    simp only [advanceLoop] at h
    split at h
    · have := ih _ _ _ h
      rw [this, ditherNextPeriod_firstToken]
    · simp only [Option.some.injEq] at h
      rw [← h, ditherNextPeriod_firstToken]

theorem skipMissedPeriods_firstToken (rng : Nat → Nat) (b b1 : base_profiler) (count : Nat)
    (h : skipMissedPeriods rng b count = some b1) : b1.firstToken = b.firstToken := by
  unfold skipMissedPeriods at h
  dsimp only at h
  generalize (if b.nextPeriodStart < count then sub64 count b.nextPeriodStart else 0) = ppc at h
  by_cases h1 : ppc ≥ b.samplingPeriod
  · rw [if_pos h1] at h
    by_cases h2 : b.samplingPeriod = 0
    · rw [if_pos h2] at h; exact absurd h (by simp)
    · rw [if_neg h2] at h
      simp only [Option.some.injEq] at h
      rw [← h, ditherNextPeriod_firstToken]
  · rw [if_neg h1] at h
    simp only [Option.some.injEq] at h
    rw [← h]

theorem advanceSamplingPeriod_firstToken (rng : Nat → Nat) (b : base_profiler) (count : Nat)
    (r : Nat × base_profiler) (h : advanceSamplingPeriod rng b count = some r) :
    r.2.firstToken = b.firstToken := by
  unfold advanceSamplingPeriod at h
  split at h
  · exact absurd h (by simp)
  · rename_i b1 h1
    rw [advanceLoop_firstToken rng count _ _ _ _ h, skipMissedPeriods_firstToken rng b b1 count h1]

theorem triggerDetection_nextPeriod (b : base_profiler) (token : robAnalysisToken) :
    (triggerDetection b token).2.2.nextPeriod = b.nextPeriod := by
  unfold triggerDetection
  dsimp only
  have hb1 : (if (decide (b.flushThreshold ≠ 0) &&
      decide (sub64 token.tsc_cycle b.lastFlushPeriod ≥ b.flushThreshold)) = true then
      { b with lastFlushPeriod := token.tsc_cycle } else b).nextPeriod = b.nextPeriod := by
    split <;> rfl
  generalize (if (decide (b.flushThreshold ≠ 0) &&
      decide (sub64 token.tsc_cycle b.lastFlushPeriod ≥ b.flushThreshold)) = true then
      { b with lastFlushPeriod := token.tsc_cycle } else b) = b1 at hb1
  split
  · exact hb1
  · exact hb1

/-! ## IBS sampler: eviction -/

theorem ibs_samplePoint_firstToken (rng : Nat → Nat) (s s1 : tracedoctor_ibs_sampler)
    (token : robAnalysisToken) (h : tracedoctor_ibs_sampler.samplePoint rng s token = some s1) :
    s1.base.firstToken = s.base.firstToken := by
  unfold tracedoctor_ibs_sampler.samplePoint at h
  split at h
  · split at h
    · exact absurd h (by simp)
    · rename_i adv hadv
      simp only [Option.some.injEq] at h
      rw [← h]
      exact advanceSamplingPeriod_firstToken rng _ _ _ hadv
  · simp only [Option.some.injEq] at h
    rw [← h]

theorem ibs_armedPart_base (s s1 : tracedoctor_ibs_sampler) (token : robAnalysisToken)
    (h : tracedoctor_ibs_sampler.armedPart s token = some s1) : s1.base = s.base := by
  unfold tracedoctor_ibs_sampler.armedPart at h
  dsimp only at h
  split at h
  · split at h
    · exact absurd h (by simp)
    · split at h
      · simp only [Option.some.injEq] at h; rw [← h]
      · split at h
        · simp only [Option.some.injEq] at h; rw [← h]
        · simp only [Option.some.injEq] at h; rw [← h]
  · simp only [Option.some.injEq] at h; rw [← h]

theorem ibs_body_firstToken (rng : Nat → Nat) (s s1 : tracedoctor_ibs_sampler)
    (token : robAnalysisToken) (h : tracedoctor_ibs_sampler.body rng s token = some s1) :
    s1.base.firstToken = s.base.firstToken := by
  unfold tracedoctor_ibs_sampler.body at h
  split at h
  · exact absurd h (by simp)
  · rename_i s3 h3
    have e3 := ibs_samplePoint_firstToken rng _ _ _ h3
    split at h
    · exact absurd h (by simp)
    · rename_i s4 h4
      have e4 := ibs_armedPart_base _ _ _ h4
      split at h
      · exact absurd h (by simp)
      · rename_i s5 h5
        have e5 := ibs_samplePoint_firstToken rng _ _ _ h5
        simp only [Option.some.injEq] at h
        have e6 : s1.base = s5.base := by
          rw [← h]
          unfold tracedoctor_ibs_sampler.registerPart tracedoctor_ibs_sampler.tagPart
          split <;> split <;> rfl
        have e0 : (tracedoctor_ibs_sampler.oirGap s token).base = s.base := by
          unfold tracedoctor_ibs_sampler.oirGap
          split <;> rfl
        rw [e6, e5, e4, e3, e0]

theorem ibs_step_firstToken (rng : Nat → Nat) (s s1 : tracedoctor_ibs_sampler)
    (token : robAnalysisToken) (h : tracedoctor_ibs_sampler.step rng s token = some s1) :
    s1.base.firstToken = false := by
  have ht := triggerDetection_firstToken s.base token
  unfold tracedoctor_ibs_sampler.step at h
  split at h
  · simp only [Option.some.injEq] at h
    rw [← h]
    exact ht
  · rw [ibs_body_firstToken rng _ s1 token h]
    exact ht

theorem ibs_tick_firstToken (rng : Nat → Nat) (tokens : List robAnalysisToken) :
    ∀ (s s1 : tracedoctor_ibs_sampler), tracedoctor_ibs_sampler.tick rng s tokens = some s1 →
      tokens = [] ∧ s1 = s ∨ s1.base.firstToken = false := by
  induction tokens with
  | nil =>
    intro s s1 h
    simp only [tracedoctor_ibs_sampler.tick, Option.some.injEq] at h
    exact Or.inl ⟨rfl, h.symm⟩
  | cons t ts ih =>
    intro s s1 h
    simp only [tracedoctor_ibs_sampler.tick] at h
    split at h
    · exact absurd h (by simp)
    · rename_i s2 h2
      rcases ih s2 s1 h with ⟨_, e⟩ | e
      · right; rw [e]; exact ibs_step_firstToken rng s s2 t h2
      · right; exact e


theorem ibs_samplePoint_notReached (rng : Nat → Nat) (s : tracedoctor_ibs_sampler)
    (token : robAnalysisToken) (h : reachedSamplingPeriod s.base token.tsc_cycle = false) :
    tracedoctor_ibs_sampler.samplePoint rng s token = some s := by
  unfold tracedoctor_ibs_sampler.samplePoint
  rw [h]
  rfl

/-- The eviction branch of the block under `if (state == s_armed)`. -/
theorem ibs_armedPart_evict3 (s : tracedoctor_ibs_sampler) (token : robAnalysisToken)
    (harmed : s.state = tracedoctor_ibs_sampler.s_armed) (hhead : token.rob_head < 2 ^ 8)
    (h1 : token.rob_tail < token.rob_head - token.rob_head % s.coreWidth)
    (h2 : token.rob_tail ≤ s.tag)
    (h3 : s.tag < token.rob_head - token.rob_head % s.coreWidth) :
    tracedoctor_ibs_sampler.armedPart s token =
      some { s with evicted := add64 s.evicted 1, state := tracedoctor_ibs_sampler.s_idle } := by
  have hcw : s.coreWidth ≠ 0 := by
    intro h0
    rw [h0, Nat.mod_zero] at h1
    omega
  have hmod : token.rob_head % s.coreWidth ≤ token.rob_head := Nat.mod_le _ _
  have hheadv : sub32 token.rob_head (token.rob_head % s.coreWidth) % 2 ^ 16 =
      token.rob_head - token.rob_head % s.coreWidth := by
    unfold sub32
    split <;> omega
  unfold tracedoctor_ibs_sampler.armedPart
  rw [if_pos harmed, if_neg hcw]
  dsimp only
  rw [hheadv]
  have e3 : (decide (token.rob_tail < token.rob_head - token.rob_head % s.coreWidth) &&
      decide (s.tag ≥ token.rob_tail) &&
      decide (s.tag < token.rob_head - token.rob_head % s.coreWidth)) = true := by
    simp [h1, h2, h3]
  rw [e3]
  simp

theorem ibs_body_evict3 (rng : Nat → Nat) (s : tracedoctor_ibs_sampler)
    (token : robAnalysisToken)
    (harmed : s.state = tracedoctor_ibs_sampler.s_armed) (hhead : token.rob_head < 2 ^ 8)
    (hnot : reachedSamplingPeriod s.base token.tsc_cycle = false)
    (h1 : token.rob_tail < token.rob_head - token.rob_head % s.coreWidth)
    (h2 : token.rob_tail ≤ s.tag)
    (h3 : s.tag < token.rob_head - token.rob_head % s.coreWidth) :
    ∃ s1, tracedoctor_ibs_sampler.body rng s token = some s1 ∧
      s1.evicted = add64 s.evicted 1 ∧ s1.out = s.out ∧
      s1.state = tracedoctor_ibs_sampler.s_idle := by
  have p2 : (tracedoctor_ibs_sampler.oirGap s token).base = s.base ∧
      (tracedoctor_ibs_sampler.oirGap s token).state = s.state ∧
      (tracedoctor_ibs_sampler.oirGap s token).tag = s.tag ∧
      (tracedoctor_ibs_sampler.oirGap s token).coreWidth = s.coreWidth ∧
      (tracedoctor_ibs_sampler.oirGap s token).evicted = s.evicted ∧
      (tracedoctor_ibs_sampler.oirGap s token).out = s.out := by
    unfold tracedoctor_ibs_sampler.oirGap
    split <;> exact ⟨rfl, rfl, rfl, rfl, rfl, rfl⟩
  obtain ⟨q1, q2, q3, q4, q5, q6⟩ := p2
  have e1 := ibs_samplePoint_notReached rng (tracedoctor_ibs_sampler.oirGap s token) token
    (by rw [q1]; exact hnot)
  have e2 := ibs_armedPart_evict3 (tracedoctor_ibs_sampler.oirGap s token) token
    (by rw [q2]; exact harmed) hhead
    (by rw [q4]; exact h1) (by rw [q3]; exact h2) (by rw [q3, q4]; exact h3)
  have e3 := ibs_samplePoint_notReached rng
    { tracedoctor_ibs_sampler.oirGap s token with
      evicted := add64 (tracedoctor_ibs_sampler.oirGap s token).evicted 1,
      state := tracedoctor_ibs_sampler.s_idle } token (by rw [q1] at *; exact hnot)
  unfold tracedoctor_ibs_sampler.body
  simp only [e1, e2, e3]
  refine ⟨_, rfl, ?_, ?_, ?_⟩
  · unfold tracedoctor_ibs_sampler.registerPart tracedoctor_ibs_sampler.tagPart
    split <;> split <;> simp [q5]
  · unfold tracedoctor_ibs_sampler.registerPart tracedoctor_ibs_sampler.tagPart
    split <;> split <;> exact q6
  · unfold tracedoctor_ibs_sampler.registerPart tracedoctor_ibs_sampler.tagPart
    have hnt : ¬ (tracedoctor_ibs_sampler.s_idle = tracedoctor_ibs_sampler.s_tagging ∧
        hasBit token.rob ROB_DISPATCHING = true) := by
      intro h; exact absurd h.1 (by decide)
    dsimp only
    rw [if_neg hnt]
    split <;> rfl

/-- C4. IBS eviction. The IBS sampler is ARMED with tag `g` (a state reached by processing
tokens from an IDLE state). Every well-formed token that does not reach a new sample point and
whose tail `t` and aligned head `h = rob_head - (rob_head mod coreWidth)` satisfy `t < h` and
`t <= g < h` is processed, increments the `evicted` counter by exactly one (a 64-bit counter),
emits no sample row and leaves the sampler IDLE. -/
theorem ibs_eviction (rng : Nat → Nat) (s0 s : tracedoctor_ibs_sampler)
    (before : List robAnalysisToken) (token : robAnalysisToken)
    (hidle : s0.state = tracedoctor_ibs_sampler.s_idle)
    (hrun : tracedoctor_ibs_sampler.tick rng s0 before = some s)
    (harmed : s.state = tracedoctor_ibs_sampler.s_armed)
    (hwf : token.WF)
    (hnot : reachedSamplingPeriod s.base token.tsc_cycle = false)
    (h1 : token.rob_tail < token.rob_head - token.rob_head % s.coreWidth)
    (h2 : token.rob_tail ≤ s.tag)
    (h3 : s.tag < token.rob_head - token.rob_head % s.coreWidth) :
    ∃ s1, tracedoctor_ibs_sampler.step rng s token = some s1 ∧
      s1.evicted = (s.evicted + 1) % 2 ^ 64 ∧
      s1.out = s.out ∧
      s1.state = tracedoctor_ibs_sampler.s_idle := by
  have hnf : s.base.firstToken = false := by
    rcases ibs_tick_firstToken rng before s0 s hrun with ⟨_, e⟩ | e
    · rw [e, hidle] at harmed
      exact absurd harmed (by decide)
    · exact e
  obtain ⟨t1, _⟩ := triggerDetection_notFirst s.base token hnf
  have hnp := triggerDetection_nextPeriod s.base token
  unfold tracedoctor_ibs_sampler.step
  rw [t1]
  simp only [Bool.false_eq_true, if_false]
  exact ibs_body_evict3 rng { s with base := (triggerDetection s.base token).2.2 } token
    harmed hwf.2.2.1 (by unfold reachedSamplingPeriod at hnot ⊢; rw [hnp]; exact hnot) h1 h2 h3

/-- Witness of `ibs_eviction`: coreWidth 4, sample tick at cycle 100 on a DISPATCHING token
with `rob_tail = 12` (tag 12), then a token with `rob_tail = 8` and `rob_head = 20`. -/
theorem ibs_eviction_witness :
    ∃ s, tracedoctor_ibs_sampler.tick (fun _ => 0) ibsFresh ibsTagTokens = some s ∧
      s.state = tracedoctor_ibs_sampler.s_armed ∧ s.tag = 12 ∧ s.evicted = 0 ∧
      ∃ s1, tracedoctor_ibs_sampler.step (fun _ => 0) s ibsRewindToken = some s1 ∧
        s1.evicted = (s.evicted + 1) % 2 ^ 64 ∧ s1.out = s.out ∧
        s1.state = tracedoctor_ibs_sampler.s_idle := by
  have h : ∃ s, tracedoctor_ibs_sampler.tick (fun _ => 0) ibsFresh ibsTagTokens = some s ∧
      s.state = tracedoctor_ibs_sampler.s_armed ∧ s.tag = 12 ∧ s.evicted = 0 ∧
      s.coreWidth = 4 ∧ reachedSamplingPeriod s.base ibsRewindToken.tsc_cycle = false := by
    decide
  obtain ⟨s, hs, ha, ht, he, hc, hr⟩ := h
  exact ⟨s, hs, ha, ht, he,
    ibs_eviction (fun _ => 0) ibsFresh s ibsTagTokens ibsRewindToken (by decide) hs ha
      (by decide) hr (by rw [hc]; decide) (by rw [ht]; decide) (by rw [ht, hc]; decide)⟩

/-! ## Printing of unsigned integers -/

theorem toDigitsCore_append (b : Nat) :
    ∀ (f n : Nat) (ds : List Char),
      Nat.toDigitsCore b f n ds = Nat.toDigitsCore b f n [] ++ ds := by
  intro f
  induction f with
  | zero => intro n ds; simp [Nat.toDigitsCore]
  | succ k ih =>
    intro n ds
    simp only [Nat.toDigitsCore]
    split
    · simp
    · rw [ih (n / b) (Nat.digitChar (n % b) :: ds), ih (n / b) [Nat.digitChar (n % b)]]
      simp

theorem toDigitsCore_fuel (b : Nat) (hb : 2 ≤ b) :
    ∀ (n f g : Nat), n < f → n < g →
      Nat.toDigitsCore b f n [] = Nat.toDigitsCore b g n [] := by
  intro n
  induction n using Nat.strong_induction_on with
  | _ n ih =>
    intro f g hf hg
    obtain ⟨f1, rfl⟩ : ∃ k, f = k + 1 := ⟨f - 1, by omega⟩
    obtain ⟨g1, rfl⟩ : ∃ k, g = k + 1 := ⟨g - 1, by omega⟩
    simp only [Nat.toDigitsCore]
    by_cases h0 : n / b = 0
    · simp [h0]
    · simp only [h0, if_false]
      have hlt : n / b < n := by
        have hn : 0 < n := by
          rcases Nat.eq_zero_or_pos n with h | h
          · rw [h] at h0; simp at h0
          · exact h
        exact Nat.div_lt_self hn hb
      rw [toDigitsCore_append b f1, toDigitsCore_append b g1,
        ih (n / b) hlt f1 g1 (by omega) (by omega)]

theorem toDigitsCore_step (b : Nat) (hb : 2 ≤ b) (n : Nat) :
    Nat.toDigitsCore b (n + 1) n [] =
      if n / b = 0 then [Nat.digitChar (n % b)]
      else Nat.toDigitsCore b (n / b + 1) (n / b) [] ++ [Nat.digitChar (n % b)] := by
  conv => lhs; simp only [Nat.toDigitsCore]
  by_cases h0 : n / b = 0
  · simp [h0]
  · simp only [h0, if_false]
    have hlt : n / b < n := by
      have hn : 0 < n := by
        rcases Nat.eq_zero_or_pos n with h | h
        · rw [h] at h0; simp at h0
        · exact h
      exact Nat.div_lt_self hn hb
    rw [toDigitsCore_append b n, toDigitsCore_fuel b hb (n / b) n (n / b + 1) hlt (by omega)]

/-- The digits of `n` are those of `n / b` followed by the digit `n % b`. -/
theorem toDigits_step (b : Nat) (hb : 2 ≤ b) (n : Nat) :
    Nat.toDigits b n =
      if n / b = 0 then [Nat.digitChar (n % b)]
      else Nat.toDigits b (n / b) ++ [Nat.digitChar (n % b)] := by
  unfold Nat.toDigits
  exact toDigitsCore_step b hb n

theorem toDigits_ne_nil (b : Nat) (hb : 2 ≤ b) (n : Nat) : Nat.toDigits b n ≠ [] := by
  rw [toDigits_step b hb n]
  split <;> simp

theorem digitChar_inj : ∀ a < 16, ∀ c < 16, Nat.digitChar a = Nat.digitChar c → a = c := by
  decide

theorem digitChar_not_sep : ∀ a < 16,
    Nat.digitChar a ≠ ':' ∧ Nat.digitChar a ≠ '/' ∧ Nat.digitChar a ≠ ';' := by
  decide

theorem toDigits_injective (b : Nat) (hb : 2 ≤ b) (hb16 : b ≤ 16) :
    ∀ n m : Nat, Nat.toDigits b n = Nat.toDigits b m → n = m := by
  intro n
  induction n using Nat.strong_induction_on with
  | _ n ih =>
    intro m h
    have hbpos : 0 < b := by omega
    rw [toDigits_step b hb n, toDigits_step b hb m] at h
    have hn := Nat.div_add_mod n b
    have hm := Nat.div_add_mod m b
    have hnb : n % b < 16 := lt_of_lt_of_le (Nat.mod_lt _ hbpos) hb16
    have hmb : m % b < 16 := lt_of_lt_of_le (Nat.mod_lt _ hbpos) hb16
    by_cases h0 : n / b = 0 <;> by_cases h1 : m / b = 0
    · simp only [h0, h1, if_true, List.cons.injEq, and_true] at h
      have := digitChar_inj _ hnb _ hmb h
      rw [h0] at hn; rw [h1] at hm
      omega
    · simp only [h0, h1, if_true, if_false] at h
      have hl := congrArg List.length h
      have hne := toDigits_ne_nil b hb (m / b)
      have : (Nat.toDigits b (m / b)).length ≠ 0 := fun hz => hne (List.length_eq_zero.1 hz)
      simp only [List.length_singleton, List.length_append] at hl
      omega
    · simp only [h0, h1, if_true, if_false] at h
      have hl := congrArg List.length h
      have hne := toDigits_ne_nil b hb (n / b)
      have : (Nat.toDigits b (n / b)).length ≠ 0 := fun hz => hne (List.length_eq_zero.1 hz)
      simp only [List.length_singleton, List.length_append] at hl
      omega
    · simp only [h0, h1, if_false] at h
      obtain ⟨e1, e2⟩ := List.append_inj' h rfl
      simp only [List.cons.injEq, and_true] at e2
      have hd := digitChar_inj _ hnb _ hmb e2
      have hlt : n / b < n := by
        have hpos : 0 < n := by
          rcases Nat.eq_zero_or_pos n with hz | hz
          · rw [hz] at h0; simp at h0
          · exact hz
        exact Nat.div_lt_self hpos hb
      have hq := ih (n / b) hlt (m / b) e1
      rw [hq, hd] at hn
      omega

theorem toDigits_not_sep (b : Nat) (hb : 2 ≤ b) (hb16 : b ≤ 16) :
    ∀ n : Nat, ∀ c ∈ Nat.toDigits b n, c ≠ ':' ∧ c ≠ '/' ∧ c ≠ ';' := by
  intro n
  induction n using Nat.strong_induction_on with
  | _ n ih =>
    intro c hc
    have hbpos : 0 < b := by omega
    have hnb : n % b < 16 := lt_of_lt_of_le (Nat.mod_lt _ hbpos) hb16
    rw [toDigits_step b hb n] at hc
    by_cases h0 : n / b = 0
    · simp only [h0, if_true, List.mem_singleton] at hc
      rw [hc]; exact digitChar_not_sep _ hnb
    · simp only [h0, if_false, List.mem_append, List.mem_singleton] at hc
      rcases hc with hc | hc
      · have hlt : n / b < n := by
          have hpos : 0 < n := by
            rcases Nat.eq_zero_or_pos n with hz | hz
            · rw [hz] at h0; simp at h0
            · exact hz
          exact Nat.div_lt_self hpos hb
        exact ih (n / b) hlt c hc
      · rw [hc]; exact digitChar_not_sep _ hnb

theorem decChars_injective (n m : Nat) (h : decChars n = decChars m) : n = m :=
  toDigits_injective 10 (by decide) (by decide) n m h

theorem hexChars_injective (n m : Nat) (h : hexChars n = hexChars m) : n = m :=
  toDigits_injective 16 (by decide) (by decide) n m h

/-- Two texts that agree and whose heads, up to a separator, do not contain the separator
have the same head and the same rest. -/
theorem split_at_sep (sep : Char) :
    ∀ (a b r1 r2 : List Char), sep ∉ a → sep ∉ b →
      a ++ sep :: r1 = b ++ sep :: r2 → a = b ∧ r1 = r2 := by
  intro a
  induction a with
  | nil =>
    intro b r1 r2 _ hb h
    cases b with
    | nil => simp only [List.nil_append, List.cons.injEq, true_and] at h; exact ⟨rfl, h⟩
    | cons y ys =>
      simp only [List.nil_append, List.cons_append, List.cons.injEq] at h
      exact absurd (h.1 ▸ List.mem_cons_self _ _) hb
  | cons x xs ih =>
    intro b r1 r2 ha hb h
    cases b with
    | nil =>
      simp only [List.nil_append, List.cons_append, List.cons.injEq] at h
      exact absurd (h.1 ▸ List.mem_cons_self _ _) ha
    | cons y ys =>
      simp only [List.cons_append, List.cons.injEq] at h
      obtain ⟨e1, e2⟩ := ih ys r1 r2 (fun hx => ha (List.mem_cons_of_mem _ hx))
        (fun hx => hb (List.mem_cons_of_mem _ hx)) h.2
      exact ⟨by rw [h.1, e1], e2⟩

/-! ## Histogram lines -/

theorem hist2fileLoop_eq (vec : List Nat) (maxValue : Nat) (hmax : maxValue < vec.length) :
    ∀ (left : Nat) (outbuf : List Char), left ≤ maxValue →
      hist2fileLoop vec maxValue left outbuf =
        some (outbuf ++
          (((List.range' (maxValue - left) left).filter (fun v => vec.getD v 0 ≠ 0)).map
            (fun v => (v, vec.getD v 0))).flatMap (fun p => pairChars p ++ ['/'])) := by
  intro left
  induction left with
  | zero => intro outbuf _; simp [hist2fileLoop]
  | succ n ih =>
    intro outbuf hle
    have hlt : maxValue - (n + 1) < vec.length := by omega
    have hstart : maxValue - (n + 1) + 1 = maxValue - n := by omega
    have hget : vec.getD (maxValue - (n + 1)) 0 = vec[maxValue - (n + 1)] := by
      simp [List.getD, List.getElem?_eq_getElem hlt]
    simp only [hist2fileLoop, List.get?_eq_getElem?, List.getElem?_eq_getElem hlt]
    rw [List.range'_succ, hstart]
    by_cases hz : vec[maxValue - (n + 1)] = 0
    · rw [if_pos hz, ih outbuf (by omega)]
      rw [List.filter_cons_of_neg (by rw [hget]; simp [hz])]
    · rw [if_neg hz, ih _ (by omega)]
      rw [List.filter_cons_of_pos (by rw [hget]; simp [hz])]
      simp only [List.map_cons, List.flatMap_cons, pairChars, hget, List.append_assoc]

theorem maxValue_eq (w m : Nat) (hw : w ≤ 64) (hm : m < 2 ^ w) :
    sub64 (m + 1) 1 % 2 ^ w = m := by
  have h64 : 2 ^ w ≤ 2 ^ 64 := Nat.pow_le_pow_right (by decide) hw
  have hs : sub64 (m + 1) 1 = m := by
    unfold sub64
    split <;> omega
  rw [hs]
  exact Nat.mod_eq_of_lt hm

theorem hist2fileLine_eq_encodedLine (w : Nat) (pfx : List Char) (key : Nat)
    (count : List Nat) (m : Nat) (hw : w ≤ 64) (hlen : count.length = m + 1) (hm : m < 2 ^ w) :
    hist2fileLine w pfx key count = some (encodedLine pfx key count m) := by
  have hmax : m < count.length := by omega
  unfold hist2fileLine
  dsimp only
  rw [hlen, maxValue_eq w m hw hm, hist2fileLoop_eq count m hmax m _ (le_refl _)]
  simp only [List.get?_eq_getElem?, List.getElem?_eq_getElem hmax]
  have hget : count.getD m 0 = count[m] := by
    simp [List.getD, List.getElem?_eq_getElem hmax]
  simp only [encodedLine, encodedBody, nonzeroPairs, pairChars, Nat.sub_self,
    List.range_eq_range', hget, List.append_assoc]

/-- C6. Histogram encoding rule. For every histogram entry with a counter vector of length
`m + 1` (with `m` in the range of the index type `N` of `hist2file<T, N>`, 16 or 64 bits wide
in this program), `hist2file` writes the line of the encoding rule: after the key, in
increasing order of `v`, exactly the pairs `v:count[v]` for those `v < m` with
`count[v] != 0`, each followed by `/`, and then always the final pair `m:count[m]`, also when
`count[m]` is zero. -/
theorem hist2file_encoding_rule (w : Nat) (pfx : List Char) (key : Nat) (count : List Nat)
    (m : Nat) (hw : w ≤ 64) (hlen : count.length = m + 1) (hm : m < 2 ^ w) :
    hist2fileLine w pfx key count = some (encodedLine pfx key count m) :=
  hist2fileLine_eq_encodedLine w pfx key count m hw hlen hm

/-- Witness of `hist2file_encoding_rule`: the counters `[0, 3, 0, 0]` of key 255 are written
as `0xff;1:3/3:0`. -/
theorem hist2file_encoding_rule_witness :
    hist2fileLine 16 [] 255 [0, 3, 0, 0] = some (encodedLine [] 255 [0, 3, 0, 0] 3) ∧
    encodedLine [] 255 [0, 3, 0, 0] 3 = "0xff;1:3/3:0".toList :=
  ⟨hist2file_encoding_rule 16 [] 255 [0, 3, 0, 0] 3 (by decide) (by decide) (by decide),
   by decide⟩


theorem decChars_no_colon (n : Nat) : ':' ∉ decChars n := fun h =>
  (toDigits_not_sep 10 (by decide) (by decide) n ':' h).1 rfl

theorem decChars_no_slash (n : Nat) : '/' ∉ decChars n := fun h =>
  (toDigits_not_sep 10 (by decide) (by decide) n '/' h).2.1 rfl

theorem hexChars_no_semicolon (n : Nat) : ';' ∉ hexChars n := fun h =>
  (toDigits_not_sep 16 (by decide) (by decide) n ';' h).2.2 rfl

/-- The text of the pairs determines the pairs. -/
theorem pairs_text_inj :
    ∀ (P1 P2 : List (Nat × Nat)) (f1 f2 : Nat × Nat),
      P1.flatMap (fun p => pairChars p ++ ['/']) ++ pairChars f1 =
        P2.flatMap (fun p => pairChars p ++ ['/']) ++ pairChars f2 →
      P1 = P2 ∧ f1 = f2 := by
  intro P1
  induction P1 with
  | nil =>
    intro P2 f1 f2 h
    cases P2 with
    | nil =>
      simp only [List.flatMap_nil, List.nil_append, pairChars, List.append_assoc,
        List.singleton_append] at h
      obtain ⟨e1, e2⟩ := split_at_sep ':' _ _ _ _ (decChars_no_colon _) (decChars_no_colon _) h
      exact ⟨rfl, Prod.ext (decChars_injective _ _ e1) (decChars_injective _ _ e2)⟩
    | cons q Q =>
      exfalso
      simp only [List.flatMap_nil, List.nil_append, List.flatMap_cons, pairChars,
        List.append_assoc, List.singleton_append] at h
      obtain ⟨_, e2⟩ := split_at_sep ':' _ _ _ _ (decChars_no_colon _) (decChars_no_colon _) h
      have hmem : '/' ∈ decChars f1.2 := by
        rw [e2]
        exact List.mem_append_right _ (List.mem_cons_self _ _)
      exact decChars_no_slash _ hmem
  | cons p P ih =>
    intro P2 f1 f2 h
    cases P2 with
    | nil =>
      exfalso
      simp only [List.flatMap_nil, List.nil_append, List.flatMap_cons, pairChars,
        List.append_assoc, List.singleton_append] at h
      obtain ⟨_, e2⟩ := split_at_sep ':' _ _ _ _ (decChars_no_colon _) (decChars_no_colon _) h
      have hmem : '/' ∈ decChars f2.2 := by
        rw [← e2]
        exact List.mem_append_right _ (List.mem_cons_self _ _)
      exact decChars_no_slash _ hmem
    | cons q Q =>
      simp only [List.flatMap_cons, pairChars, List.append_assoc, List.singleton_append] at h
      obtain ⟨e1, e2⟩ := split_at_sep ':' _ _ _ _ (decChars_no_colon _) (decChars_no_colon _) h
      obtain ⟨e3, e4⟩ := split_at_sep '/' _ _ _ _ (decChars_no_slash _) (decChars_no_slash _) e2
      have hrest : P.flatMap (fun p => pairChars p ++ ['/']) ++ pairChars f1 =
          Q.flatMap (fun p => pairChars p ++ ['/']) ++ pairChars f2 := by
        simp only [pairChars, List.append_assoc, List.singleton_append]
        exact e4
      obtain ⟨r1, r2⟩ := ih Q f1 f2 hrest
      exact ⟨by rw [r1, Prod.ext (decChars_injective _ _ e1) (decChars_injective _ _ e3)], r2⟩

theorem mem_nonzeroPairs (count : List Nat) (m v c : Nat) :
    (v, c) ∈ nonzeroPairs count m ↔ v < m ∧ count.getD v 0 ≠ 0 ∧ c = count.getD v 0 := by
  unfold nonzeroPairs
  simp only [List.mem_map, List.mem_filter, List.mem_range, Prod.mk.injEq, decide_eq_true_eq]
  constructor
  · rintro ⟨a, ⟨h1, h2⟩, h3, h4⟩
    subst h3
    exact ⟨h1, h2, h4.symm⟩
  · rintro ⟨h1, h2, h3⟩
    exact ⟨v, ⟨h1, h2⟩, rfl, h3.symm⟩

/-- The pairs of the encoding rule determine the counter vector. -/
theorem counters_of_pairs (count1 count2 : List Nat) (m : Nat)
    (h1 : count1.length = m + 1) (h2 : count2.length = m + 1)
    (hp : nonzeroPairs count1 m = nonzeroPairs count2 m)
    (hm : count1.getD m 0 = count2.getD m 0) : count1 = count2 := by
  apply List.ext_getElem (by rw [h1, h2])
  intro v hv1 hv2
  have g1 : count1.getD v 0 = count1[v] := by simp [List.getD, List.getElem?_eq_getElem hv1]
  have g2 : count2.getD v 0 = count2[v] := by simp [List.getD, List.getElem?_eq_getElem hv2]
  rw [← g1, ← g2]
  by_cases hvm : v = m
  · rw [hvm]; exact hm
  · have hlt : v < m := by omega
    by_cases hz : count1.getD v 0 = 0
    · by_cases hz2 : count2.getD v 0 = 0
      · rw [hz, hz2]
      · have hmem : (v, count2.getD v 0) ∈ nonzeroPairs count2 m :=
          (mem_nonzeroPairs count2 m v _).2 ⟨hlt, hz2, rfl⟩
        rw [← hp] at hmem
        exact ((mem_nonzeroPairs count1 m v _).1 hmem).2.2.symm
    · have hmem : (v, count1.getD v 0) ∈ nonzeroPairs count1 m :=
        (mem_nonzeroPairs count1 m v _).2 ⟨hlt, hz, rfl⟩
      rw [hp] at hmem
      exact ((mem_nonzeroPairs count2 m v _).1 hmem).2.2

theorem encodedLine_inj (pfx : List Char) (key1 key2 : Nat) (count1 count2 : List Nat)
    (m1 m2 : Nat) (h1 : count1.length = m1 + 1) (h2 : count2.length = m2 + 1)
    (h : encodedLine pfx key1 count1 m1 = encodedLine pfx key2 count2 m2) :
    key1 = key2 ∧ count1 = count2 := by
  unfold encodedLine at h
  have h3 := List.append_cancel_left h
  simp only [List.cons_append, List.nil_append, List.cons.injEq, true_and,
    List.append_assoc] at h3
  obtain ⟨e1, e2⟩ := split_at_sep ';' _ _ _ _ (hexChars_no_semicolon _)
    (hexChars_no_semicolon _) h3
  unfold encodedBody at e2
  obtain ⟨p1, p2⟩ := pairs_text_inj _ _ _ _ e2
  simp only [Prod.mk.injEq] at p2
  obtain ⟨hm, hc⟩ := p2
  subst hm
  exact ⟨hexChars_injective _ _ e1, counters_of_pairs count1 count2 m1 h1 h2 p1 hc⟩

/-- C5. Histogram round-trip. The integer-counter line encoding written by `hist2file` (key
in hex, then `v:c` pairs joined by `/`) is lossless: for every key and every non-empty counter
vector (whose length is in the range of the index type `N` of `hist2file<T, N>`), a line is
written, and the written line determines the key and the whole counter vector it was
produced from; so a faithful parse followed by serialising again yields the same bytes. -/
theorem hist2file_lossless (w : Nat) (pfx : List Char) (key1 key2 : Nat)
    (count1 count2 : List Nat) (hw : w ≤ 64)
    (hne1 : count1 ≠ []) (hne2 : count2 ≠ [])
    (hlen1 : count1.length ≤ 2 ^ w) (hlen2 : count2.length ≤ 2 ^ w) :
    (∃ line, hist2fileLine w pfx key1 count1 = some line) ∧
    (hist2fileLine w pfx key1 count1 = hist2fileLine w pfx key2 count2 →
      key1 = key2 ∧ count1 = count2) := by
  have hp1 : 0 < count1.length := List.length_pos.2 hne1
  have hp2 : 0 < count2.length := List.length_pos.2 hne2
  have e1 := hist2fileLine_eq_encodedLine w pfx key1 count1 (count1.length - 1) hw
    (by omega) (by omega)
  have e2 := hist2fileLine_eq_encodedLine w pfx key2 count2 (count2.length - 1) hw
    (by omega) (by omega)
  refine ⟨⟨_, e1⟩, ?_⟩
  intro h
  rw [e1, e2] at h
  simp only [Option.some.injEq] at h
  exact encodedLine_inj pfx key1 key2 count1 count2 _ _ (by omega) (by omega) h

/-- Witness of `hist2file_lossless`: the lines of `(255, [0, 3, 0, 0])` and of
`(255, [0, 3, 0])` are written and differ. -/
theorem hist2file_lossless_witness :
    (∃ line, hist2fileLine 16 [] 255 [0, 3, 0, 0] = some line) ∧
    (hist2fileLine 16 [] 255 [0, 3, 0, 0] = hist2fileLine 16 [] 255 [0, 3, 0] →
      255 = 255 ∧ [0, 3, 0, 0] = [0, 3, 0]) :=
  hist2file_lossless 16 [] 255 255 [0, 3, 0, 0] [0, 3, 0] (by decide) (by decide) (by decide)
    (by decide) (by decide)

/-! ## Sampling without dither -/

theorem samplingInv_trigger (b : base_profiler) (token : robAnalysisToken) (P np : Nat)
    (h : samplingInv b P np) :
    (triggerDetection b token).2.1 = false ∧
      samplingInv (triggerDetection b token).2.2 P np := by
  obtain ⟨h1, h2, h3, h4, h5⟩ := h
  obtain ⟨t1, t2⟩ := triggerDetection_notFirst b token h1
  refine ⟨t1, t2, ?_⟩
  unfold triggerDetection
  dsimp only
  have hb1 : ∀ b1 : base_profiler, b1.samplingPeriod = P ∧ b1.randomOffset = 0 ∧
      b1.nextPeriodStart = np ∧ b1.nextPeriod = np →
      (if b1.firstToken = true then
        ((decide (b.flushThreshold ≠ 0) &&
          decide (sub64 token.tsc_cycle b.lastFlushPeriod ≥ b.flushThreshold)), true,
          { b1 with firstToken := false })
       else ((decide (b.flushThreshold ≠ 0) &&
          decide (sub64 token.tsc_cycle b.lastFlushPeriod ≥ b.flushThreshold)), false,
          b1)).2.2.samplingPeriod = P ∧
      (if b1.firstToken = true then
        ((decide (b.flushThreshold ≠ 0) &&
          decide (sub64 token.tsc_cycle b.lastFlushPeriod ≥ b.flushThreshold)), true,
          { b1 with firstToken := false })
       else ((decide (b.flushThreshold ≠ 0) &&
          decide (sub64 token.tsc_cycle b.lastFlushPeriod ≥ b.flushThreshold)), false,
          b1)).2.2.randomOffset = 0 ∧
      (if b1.firstToken = true then
        ((decide (b.flushThreshold ≠ 0) &&
          decide (sub64 token.tsc_cycle b.lastFlushPeriod ≥ b.flushThreshold)), true,
          { b1 with firstToken := false })
       else ((decide (b.flushThreshold ≠ 0) &&
          decide (sub64 token.tsc_cycle b.lastFlushPeriod ≥ b.flushThreshold)), false,
          b1)).2.2.nextPeriodStart = np ∧
      (if b1.firstToken = true then
        ((decide (b.flushThreshold ≠ 0) &&
          decide (sub64 token.tsc_cycle b.lastFlushPeriod ≥ b.flushThreshold)), true,
          { b1 with firstToken := false })
       else ((decide (b.flushThreshold ≠ 0) &&
          decide (sub64 token.tsc_cycle b.lastFlushPeriod ≥ b.flushThreshold)), false,
          b1)).2.2.nextPeriod = np := by
    intro b1 hb
    split <;> exact hb
  apply hb1
  split <;> exact ⟨h2, h3, h4, h5⟩


theorem succ_div_cases (k P : Nat) (hP : 0 < P) :
    ((k + 1) / P = k / P ∧ k % P + 1 < P) ∨ ((k + 1) / P = k / P + 1 ∧ k % P + 1 = P) := by
  have hk := Nat.div_add_mod k P
  have hr := Nat.mod_lt k hP
  have e : (k + 1) / P = k / P + (k % P + 1) / P := by
    have : k + 1 = P * (k / P) + (k % P + 1) := by omega
    rw [this, Nat.mul_add_div hP]
  rcases Nat.lt_or_ge (k % P + 1) P with h | h
  · left
    rw [e, Nat.div_eq_of_lt h]
    exact ⟨rfl, h⟩
  · right
    have h1 : k % P + 1 = P := by omega
    rw [e, h1, Nat.div_self hP]
    exact ⟨rfl, rfl⟩

/-- Consecutive COMMITTING tokens, while `c0 + P` does not wrap: after `k` tokens the next
sample point is `c0 + (k / P + 1) * P` and `k / P` rows were written. -/
theorem periodic_run {σ : Type} (step : σ → robAnalysisToken → Option σ)
    (base : σ → base_profiler) (active : σ → Bool) (rows : σ → Nat)
    (hspec : periodicSampler step base active rows) (c0 P : Nat) (hP : 1 ≤ P) :
    ∀ (toks : List robAnalysisToken) (k : Nat) (s : σ),
      samplingInv (base s) P (c0 + P * (k / P) + P) → c0 + P * (k / P) + P < 2 ^ 64 →
      active s = false →
      (∀ (j : Nat) (h : j < toks.length),
        (toks.get ⟨j, h⟩).tsc_cycle = c0 + k + j + 1 ∧
        hasBit (toks.get ⟨j, h⟩).rob ROB_COMMITTING = true) →
      c0 + k + toks.length < 2 ^ 44 →
      ∃ s1, runTokens step s toks = some s1 ∧
        rows s1 + k / P = rows s + (k + toks.length) / P := by
  obtain ⟨_, hN, hA, _⟩ := hspec
  intro toks
  induction toks with
  | nil => intro k s _ _ _ _ _; exact ⟨s, rfl, by simp⟩
  | cons t ts ih =>
    intro k s hinv hlt hact htok hbound
    have h0 := htok 0 (by simp)
    simp only [List.get_eq_getElem, List.getElem_cons_zero, Nat.add_zero] at h0
    have hk := Nat.div_add_mod k P
    have hr := Nat.mod_lt k hP
    simp only [List.length_cons] at hbound
    have htail : ∀ (j : Nat) (h : j < ts.length),
        (ts.get ⟨j, h⟩).tsc_cycle = c0 + (k + 1) + j + 1 ∧
        hasBit (ts.get ⟨j, h⟩).rob ROB_COMMITTING = true := by
      intro j h
      have := htok (j + 1) (by simp only [List.length_cons]; omega)
      simp only [List.get_eq_getElem, List.getElem_cons_succ] at this ⊢
      exact ⟨by rw [this.1]; omega, this.2⟩
    rcases succ_div_cases k P hP with ⟨hq, hlow⟩ | ⟨hq, hfull⟩
    · obtain ⟨s1, e1, i1, a1, r1⟩ := hN s t P _ hinv (by rw [h0.1]; omega) hact
      obtain ⟨s2, e2, r2⟩ := ih (k + 1) s1 (by rw [hq]; exact i1) (by rw [hq]; exact hlt) a1
        htail (by omega)
      refine ⟨s2, by simp only [runTokens, e1, e2], ?_⟩
      rw [hq] at r2
      simp only [List.length_cons]
      have : k + (ts.length + 1) = k + 1 + ts.length := by omega
      rw [this]
      omega
    · have htsc : t.tsc_cycle = c0 + P * (k / P) + P := by rw [h0.1]; omega
      obtain ⟨s1, e1, i1, a1, r1⟩ := hA s t P (by rw [htsc]; exact hinv) hP
        (by rw [h0.1]; omega) hact h0.2
      have hnp : t.tsc_cycle + P = c0 + P * ((k + 1) / P) + P := by
        rw [hq, htsc, Nat.mul_add, Nat.mul_one]
        omega
      obtain ⟨s2, e2, r2⟩ := ih (k + 1) s1 (by rw [← hnp]; exact i1)
        (by rw [← hnp, h0.1]; omega) a1 htail (by omega)
      refine ⟨s2, by simp only [runTokens, e1, e2], ?_⟩
      rw [hq] at r2
      simp only [List.length_cons]
      have : k + (ts.length + 1) = k + 1 + ts.length := by omega
      rw [this]
      omega

/-- Tokens before a sample point that lies beyond every 44-bit cycle write nothing. -/
theorem periodic_quiet {σ : Type} (step : σ → robAnalysisToken → Option σ)
    (base : σ → base_profiler) (active : σ → Bool) (rows : σ → Nat)
    (hspec : periodicSampler step base active rows) (P np : Nat) (hnp : 2 ^ 44 ≤ np) :
    ∀ (toks : List robAnalysisToken) (s : σ),
      samplingInv (base s) P np → active s = false →
      (∀ t ∈ toks, t.tsc_cycle < 2 ^ 44) →
      ∃ s1, runTokens step s toks = some s1 ∧ rows s1 = rows s := by
  obtain ⟨_, hN, _, _⟩ := hspec
  intro toks
  induction toks with
  | nil => intro s _ _ _; exact ⟨s, rfl, rfl⟩
  | cons t ts ih =>
    intro s hinv hact hall
    have ht := hall t (List.mem_cons_self _ _)
    obtain ⟨s1, e1, i1, a1, r1⟩ := hN s t P np hinv (by omega) hact
    obtain ⟨s2, e2, r2⟩ := ih s1 i1 a1 (fun u hu => hall u (List.mem_cons_of_mem _ hu))
    exact ⟨s2, by simp only [runTokens, e1, e2], by rw [r2, r1]⟩

/-- Period coverage for any sampler that meets `periodicSampler`. -/
theorem periodic_coverage {σ : Type} (step : σ → robAnalysisToken → Option σ)
    (base : σ → base_profiler) (active : σ → Bool) (rows : σ → Nat)
    (hspec : periodicSampler step base active rows) (c0 P : Nat) (s0 : σ)
    (first : robAnalysisToken) (toks : List robAnalysisToken)
    (hP : 1 ≤ P) (hP64 : P < 2 ^ 64)
    (hfirst : (base s0).firstToken = true) (hper : (base s0).samplingPeriod = P)
    (hR : (base s0).randomOffset = 0) (hS : (base s0).randomStartOffset = 0)
    (hact : active s0 = false) (hrows : rows s0 = 0)
    (hc0 : first.tsc_cycle = c0)
    (htok : ∀ (j : Nat) (h : j < toks.length),
      (toks.get ⟨j, h⟩).tsc_cycle = c0 + j + 1 ∧
      hasBit (toks.get ⟨j, h⟩).rob ROB_COMMITTING = true)
    (hbound : c0 + toks.length < 2 ^ 44) :
    ∃ s1, runTokens step s0 (first :: toks) = some s1 ∧
      rows s1 ≤ toks.length / P + 1 ∧ toks.length / P ≤ rows s1 + 1 := by
  obtain ⟨hF, hN, hA, hB⟩ := hspec
  obtain ⟨s1, e1, i1, a1, r1⟩ := hF s0 first P hfirst hper hR hS (by rw [hc0]; omega)
  rw [hc0] at i1
  rw [hact] at a1
  rw [hrows] at r1
  rcases Nat.lt_or_ge (c0 + P) (2 ^ 64) with hA64 | hB64
  · -- the first sample point is c0 + P
    have hmod : (c0 + P) % 2 ^ 64 = c0 + P * (0 / P) + P := by
      rw [Nat.mod_eq_of_lt hA64]; simp
    rw [hmod] at i1
    obtain ⟨s2, e2, r2⟩ := periodic_run step base active rows ⟨hF, hN, hA, hB⟩ c0 P hP toks 0 s1
      i1 (by simp; exact hA64) a1 (by simpa using htok) (by simpa using hbound)
    refine ⟨s2, by simp only [runTokens, e1, e2], ?_⟩
    simp only [Nat.zero_div, Nat.add_zero, Nat.zero_add] at r2
    omega
  · -- c0 + P wraps: the first sample point lies before c0
    have hmod : (c0 + P) % 2 ^ 64 = c0 + P - 2 ^ 64 := by
      rw [Nat.mod_eq_sub_mod hB64, Nat.mod_eq_of_lt (by omega)]
    rw [hmod] at i1
    have hdiv : toks.length / P = 0 := Nat.div_eq_of_lt (by omega)
    cases toks with
    | nil =>
      refine ⟨s1, by simp only [runTokens, e1], ?_⟩
      simp only [List.length_nil, Nat.zero_div]
      omega
    | cons t ts =>
      have h0 := htok 0 (by simp)
      simp only [List.get_eq_getElem, List.getElem_cons_zero, Nat.add_zero] at h0
      simp only [List.length_cons] at hbound
      obtain ⟨s2, np, e2, i2, hnp, a2, r2⟩ := hB s1 t P _ i1 (by rw [h0.1]; omega)
        (by rw [h0.1]; omega) (by omega) hP64 a1 h0.2
      obtain ⟨s3, e3, r3⟩ := periodic_quiet step base active rows ⟨hF, hN, hA, hB⟩ P np hnp ts s2
        i2 a2 (by
          intro u hu
          obtain ⟨j, hj, rfl⟩ := List.getElem_of_mem hu
          have := (htok (j + 1) (by simp only [List.length_cons]; omega)).1
          simp only [List.get_eq_getElem, List.getElem_cons_succ] at this
          rw [this]; omega)
      refine ⟨s3, by simp only [runTokens, e1, e2, e3], ?_⟩
      rw [hdiv, r3, r2, r1]
      omega


theorem advanceLoop_succ_nodither (rng : Nat → Nat) (count fuel : Nat) (b : base_profiler)
    (p : Nat) (hR : b.randomOffset = 0) :
    advanceLoop rng count (fuel + 1) b p =
      if add64 b.nextPeriodStart b.samplingPeriod ≤ count then
        advanceLoop rng count fuel
          { b with lastPeriod := b.nextPeriod
                   nextPeriodStart := add64 b.nextPeriodStart b.samplingPeriod
                   nextPeriod := add64 b.nextPeriodStart b.samplingPeriod }
          (add64 p (sub64 b.nextPeriod b.lastPeriod))
      else
        some (add64 p (sub64 b.nextPeriod b.lastPeriod),
          { b with lastPeriod := b.nextPeriod
                   nextPeriodStart := add64 b.nextPeriodStart b.samplingPeriod
                   nextPeriod := add64 b.nextPeriodStart b.samplingPeriod }) := by
  simp only [advanceLoop, ditherNextPeriod, hR, ne_eq, not_true_eq_false, if_false]

theorem advanceFuel_succ : advanceFuel = (2 ^ 64 - 1) + 1 := by decide

theorem skipMissedPeriods_none_missed (rng : Nat → Nat) (b : base_profiler) (count : Nat)
    (hP : 1 ≤ b.samplingPeriod) (hnps : b.nextPeriodStart ≤ count) (hc : count < 2 ^ 64)
    (hlt : count - b.nextPeriodStart < b.samplingPeriod) :
    skipMissedPeriods rng b count = some b := by
  unfold skipMissedPeriods
  dsimp only
  have hs : sub64 count b.nextPeriodStart = count - b.nextPeriodStart := by
    unfold sub64
    split <;> omega
  rw [hs]
  have : ¬ ((if b.nextPeriodStart < count then count - b.nextPeriodStart else 0) ≥
      b.samplingPeriod) := by
    split <;> omega
  rw [if_neg this]

/-- A sample point hit exactly: one period ahead. -/
theorem advance_exact (rng : Nat → Nat) (b : base_profiler) (count P : Nat)
    (hinv : samplingInv b P count) (hP : 1 ≤ P) (hlt : count + P < 2 ^ 64) :
    ∃ r, advanceSamplingPeriod rng b count = some r ∧ samplingInv r.2 P (count + P) := by
  obtain ⟨h1, h2, h3, h4, h5⟩ := hinv
  unfold advanceSamplingPeriod
  rw [skipMissedPeriods_none_missed rng b count (by omega) (by omega) (by omega) (by omega)]
  dsimp only
  rw [advanceFuel_succ, advanceLoop_succ_nodither rng count _ b 0 h3]
  have ha : add64 b.nextPeriodStart b.samplingPeriod = count + P := by
    unfold add64
    rw [h4, h2]
    exact Nat.mod_eq_of_lt hlt
  rw [ha, if_neg (by omega)]
  exact ⟨_, rfl, h1, h2, h3, rfl, rfl⟩

/-- The loop of `advanceSamplingPeriod` when adding the period wraps: the sample point walks
down by `2^64 - P` until the addition no longer wraps, and ends at or above `P`. -/
theorem advanceLoop_wrap (rng : Nat → Nat) (count P : Nat) (hPlt : P < 2 ^ 64)
    (hc : count < P) :
    ∀ (x fuel : Nat) (b : base_profiler) (p : Nat), x < fuel → x ≤ count →
      b.samplingPeriod = P → b.randomOffset = 0 → b.nextPeriodStart = x →
      b.firstToken = false →
      ∃ r np, advanceLoop rng count fuel b p = some r ∧ samplingInv r.2 P np ∧ P ≤ np := by
  intro x
  induction x using Nat.strong_induction_on with
  | _ x ih =>
    intro fuel b p hfuel hx hP hR hnps hft
    obtain ⟨f1, rfl⟩ : ∃ k, fuel = k + 1 := ⟨fuel - 1, by omega⟩
    rw [advanceLoop_succ_nodither rng count f1 b p hR]
    rcases Nat.lt_or_ge (x + P) (2 ^ 64) with hno | hwrap
    · have ha : add64 b.nextPeriodStart b.samplingPeriod = x + P := by
        unfold add64
        rw [hnps, hP]
        exact Nat.mod_eq_of_lt hno
      rw [ha, if_neg (by omega)]
      exact ⟨_, x + P, rfl, ⟨hft, hP, hR, rfl, rfl⟩, by omega⟩
    · have ha : add64 b.nextPeriodStart b.samplingPeriod = x + P - 2 ^ 64 := by
        unfold add64
        rw [hnps, hP, Nat.mod_eq_sub_mod hwrap, Nat.mod_eq_of_lt (by omega)]
      rw [ha, if_pos (by omega)]
      exact ih (x + P - 2 ^ 64) (by omega) f1 _ _ (by omega) (by omega) hP hR rfl hft

/-- A sample point that lies behind the cycle because `c + P` wrapped. -/
theorem advance_wrapped (rng : Nat → Nat) (b : base_profiler) (count P x : Nat)
    (hinv : samplingInv b P x) (hx : x < count) (hc : count < 2 ^ 44)
    (hP : 2 ^ 64 - 2 ^ 44 ≤ P) (hPlt : P < 2 ^ 64) :
    ∃ r np, advanceSamplingPeriod rng b count = some r ∧ samplingInv r.2 P np ∧
      2 ^ 44 ≤ np := by
  obtain ⟨h1, h2, h3, h4, h5⟩ := hinv
  unfold advanceSamplingPeriod
  rw [skipMissedPeriods_none_missed rng b count (by omega) (by omega) (by omega) (by omega)]
  dsimp only
  obtain ⟨r, np, e, i, hnp⟩ := advanceLoop_wrap rng count P hPlt (by omega) x advanceFuel b 0
    (by unfold advanceFuel; omega) (by omega) h2 h3 h4 h1
  exact ⟨r, np, e, i, by omega⟩


theorem triggerDetection_fields (b : base_profiler) (token : robAnalysisToken) :
    (triggerDetection b token).2.1 = b.firstToken ∧
    (triggerDetection b token).2.2.samplingPeriod = b.samplingPeriod ∧
    (triggerDetection b token).2.2.randomOffset = b.randomOffset ∧
    (triggerDetection b token).2.2.randomStartOffset = b.randomStartOffset := by
  unfold triggerDetection
  dsimp only
  have hb1 : (if (decide (b.flushThreshold ≠ 0) &&
      decide (sub64 token.tsc_cycle b.lastFlushPeriod ≥ b.flushThreshold)) = true then
      { b with lastFlushPeriod := token.tsc_cycle } else b).firstToken = b.firstToken ∧
      (if (decide (b.flushThreshold ≠ 0) &&
      decide (sub64 token.tsc_cycle b.lastFlushPeriod ≥ b.flushThreshold)) = true then
      { b with lastFlushPeriod := token.tsc_cycle } else b).samplingPeriod = b.samplingPeriod ∧
      (if (decide (b.flushThreshold ≠ 0) &&
      decide (sub64 token.tsc_cycle b.lastFlushPeriod ≥ b.flushThreshold)) = true then
      { b with lastFlushPeriod := token.tsc_cycle } else b).randomOffset = b.randomOffset ∧
      (if (decide (b.flushThreshold ≠ 0) &&
      decide (sub64 token.tsc_cycle b.lastFlushPeriod ≥ b.flushThreshold)) = true then
      { b with lastFlushPeriod := token.tsc_cycle } else b).randomStartOffset =
        b.randomStartOffset := by
    split <;> exact ⟨rfl, rfl, rfl, rfl⟩
  generalize (if (decide (b.flushThreshold ≠ 0) &&
      decide (sub64 token.tsc_cycle b.lastFlushPeriod ≥ b.flushThreshold)) = true then
      { b with lastFlushPeriod := token.tsc_cycle } else b) = b1 at hb1
  obtain ⟨e1, e2, e3, e4⟩ := hb1
  cases hf : b1.firstToken
  · simp only [hf, Bool.false_eq_true, if_false]
    exact ⟨by rw [← e1, hf], e2, e3, e4⟩
  · simp only [hf, if_true]
    exact ⟨by rw [← e1, hf], e2, e3, e4⟩

/-- The sampling window set by `restartSampling` on the first token, without a start offset. -/
theorem restart_samplingInv (b : base_profiler) (token : robAnalysisToken) (P : Nat)
    (hper : b.samplingPeriod = P) (hR : b.randomOffset = 0) (hS : b.randomStartOffset = 0) :
    samplingInv (restartSampling (triggerDetection b token).2.2 token.tsc_cycle) P
      ((token.tsc_cycle + P) % 2 ^ 64) := by
  obtain ⟨_, f2, f3, f4⟩ := triggerDetection_fields b token
  have hval : add64 (add64 token.tsc_cycle (triggerDetection b token).2.2.samplingPeriod)
      (triggerDetection b token).2.2.randomStartOffset = (token.tsc_cycle + P) % 2 ^ 64 := by
    rw [f2, f4, hper, hS]
    unfold add64
    simp
  unfold samplingInv restartSampling
  exact ⟨triggerDetection_firstToken b token, by rw [← hper, ← f2], by rw [← hR, ← f3],
    hval, hval⟩

/-! ## PEBS sampler: period coverage -/

theorem pebs_oirGap_fields (s : tracedoctor_pebs_sampler) (token : robAnalysisToken) :
    (tracedoctor_pebs_sampler.oirGap s token).base = s.base ∧
    (tracedoctor_pebs_sampler.oirGap s token).state = s.state ∧
    (tracedoctor_pebs_sampler.oirGap s token).out = s.out := by
  unfold tracedoctor_pebs_sampler.oirGap
  split <;> exact ⟨rfl, rfl, rfl⟩

theorem pebs_registerPart_fields (s : tracedoctor_pebs_sampler) (token : robAnalysisToken) :
    (tracedoctor_pebs_sampler.registerPart s token).base = s.base ∧
    (tracedoctor_pebs_sampler.registerPart s token).state = s.state ∧
    (tracedoctor_pebs_sampler.registerPart s token).out = s.out := by
  unfold tracedoctor_pebs_sampler.registerPart
  split <;> exact ⟨rfl, rfl, rfl⟩

theorem pebs_emitPart_idle (s : tracedoctor_pebs_sampler) (token : robAnalysisToken)
    (hidle : s.state = tracedoctor_pebs_sampler.s_idle) :
    tracedoctor_pebs_sampler.emitPart s token = s := by
  unfold tracedoctor_pebs_sampler.emitPart
  rw [if_neg]
  rw [hidle]
  intro h
  exact absurd h.1 (by decide)

theorem pebs_emitPart_armed (s : tracedoctor_pebs_sampler) (token : robAnalysisToken)
    (harmed : s.state = tracedoctor_pebs_sampler.s_armed)
    (hc : hasBit token.rob ROB_COMMITTING = true) :
    (tracedoctor_pebs_sampler.emitPart s token).base = s.base ∧
    (tracedoctor_pebs_sampler.emitPart s token).state = tracedoctor_pebs_sampler.s_idle ∧
    (tracedoctor_pebs_sampler.emitPart s token).out.length = s.out.length + 1 := by
  unfold tracedoctor_pebs_sampler.emitPart
  rw [if_pos ⟨harmed, hc⟩]
  exact ⟨rfl, rfl, by simp⟩

theorem pebs_body_notReached (rng : Nat → Nat) (s : tracedoctor_pebs_sampler)
    (token : robAnalysisToken) (hnot : reachedSamplingPeriod s.base token.tsc_cycle = false)
    (hidle : s.state = tracedoctor_pebs_sampler.s_idle) :
    ∃ s1, tracedoctor_pebs_sampler.body rng s token = some s1 ∧ s1.base = s.base ∧
      s1.state = tracedoctor_pebs_sampler.s_idle ∧ s1.out = s.out := by
  obtain ⟨p1, p2, p3⟩ := pebs_oirGap_fields s token
  have e1 : tracedoctor_pebs_sampler.samplePoint rng (tracedoctor_pebs_sampler.oirGap s token)
      token = some (tracedoctor_pebs_sampler.oirGap s token) := by
    unfold tracedoctor_pebs_sampler.samplePoint
    rw [p1, hnot]
    rfl
  have e2 := pebs_emitPart_idle (tracedoctor_pebs_sampler.oirGap s token) token
    (by rw [p2]; exact hidle)
  obtain ⟨q1, q2, q3⟩ := pebs_registerPart_fields (tracedoctor_pebs_sampler.oirGap s token) token
  unfold tracedoctor_pebs_sampler.body
  simp only [e1, e2]
  exact ⟨_, rfl, by rw [q1, p1], by rw [q2, p2, hidle], by rw [q3, p3]⟩

theorem pebs_body_reached (rng : Nat → Nat) (s : tracedoctor_pebs_sampler)
    (token : robAnalysisToken) (r : Nat × base_profiler)
    (hreach : reachedSamplingPeriod s.base token.tsc_cycle = true)
    (hadv : advanceSamplingPeriod rng s.base token.tsc_cycle = some r)
    (hc : hasBit token.rob ROB_COMMITTING = true) :
    ∃ s1, tracedoctor_pebs_sampler.body rng s token = some s1 ∧ s1.base = r.2 ∧
      s1.state = tracedoctor_pebs_sampler.s_idle ∧ s1.out.length = s.out.length + 1 := by
  obtain ⟨p1, _, p3⟩ := pebs_oirGap_fields s token
  have e1 : tracedoctor_pebs_sampler.samplePoint rng (tracedoctor_pebs_sampler.oirGap s token)
      token = some { tracedoctor_pebs_sampler.oirGap s token with
        samplingCycle := s.base.nextPeriod, base := r.2,
        state := tracedoctor_pebs_sampler.s_armed } := by
    unfold tracedoctor_pebs_sampler.samplePoint
    rw [p1, hreach, hadv]
    rfl
  obtain ⟨m1, m2, m3⟩ := pebs_emitPart_armed
    { tracedoctor_pebs_sampler.oirGap s token with
        samplingCycle := s.base.nextPeriod, base := r.2,
        state := tracedoctor_pebs_sampler.s_armed } token rfl hc
  obtain ⟨q1, q2, q3⟩ := pebs_registerPart_fields (tracedoctor_pebs_sampler.emitPart
    { tracedoctor_pebs_sampler.oirGap s token with
        samplingCycle := s.base.nextPeriod, base := r.2,
        state := tracedoctor_pebs_sampler.s_armed } token) token
  unfold tracedoctor_pebs_sampler.body
  simp only [e1]
  exact ⟨_, rfl, by rw [q1, m1], by rw [q2, m2], by rw [q3, m3, ← p3]⟩

theorem pebs_step_first (rng : Nat → Nat) (s : tracedoctor_pebs_sampler)
    (token : robAnalysisToken) (hf : s.base.firstToken = true) :
    tracedoctor_pebs_sampler.step rng s token =
      some { s with
        lastInstructionRegister_flags := 0
        lastProgressCycle := token.tsc_cycle
        base := restartSampling (triggerDetection s.base token).2.2 token.tsc_cycle } := by
  obtain ⟨f1, _⟩ := triggerDetection_fields s.base token
  unfold tracedoctor_pebs_sampler.step
  rw [if_pos (by rw [f1, hf])]

theorem pebs_step_later (rng : Nat → Nat) (s : tracedoctor_pebs_sampler)
    (token : robAnalysisToken) (hf : (triggerDetection s.base token).2.1 = false) :
    tracedoctor_pebs_sampler.step rng s token =
      tracedoctor_pebs_sampler.body rng { s with base := (triggerDetection s.base token).2.2 }
        token := by
  unfold tracedoctor_pebs_sampler.step
  rw [if_neg (by rw [hf]; simp)]

theorem pebs_periodic (rng : Nat → Nat) :
    periodicSampler (tracedoctor_pebs_sampler.step rng) (fun s => s.base)
      (fun s => decide (s.state ≠ tracedoctor_pebs_sampler.s_idle))
      (fun s => s.out.length) := by
  refine ⟨?_, ?_, ?_, ?_⟩
  · intro s t P hf hper hR hS _
    exact ⟨_, pebs_step_first rng s t hf, restart_samplingInv s.base t P hper hR hS, rfl, rfl⟩
  · intro s t P np hinv hlt hact
    obtain ⟨t1, t2⟩ := samplingInv_trigger s.base t P np hinv
    have hidle : s.state = tracedoctor_pebs_sampler.s_idle := by simpa using hact
    obtain ⟨s1, e, b1, st1, o1⟩ := pebs_body_notReached rng
      { s with base := (triggerDetection s.base t).2.2 } t
      (by unfold reachedSamplingPeriod; simp only [t2.2.2.2.2]; simp; omega) hidle
    refine ⟨s1, by rw [pebs_step_later rng s t t1]; exact e, ?_, ?_, ?_⟩
    · simp only [b1]; exact t2
    · simp [st1]
    · simp only [o1]
  · intro s t P hinv hP hlt hact hc
    obtain ⟨t1, t2⟩ := samplingInv_trigger s.base t P _ hinv
    obtain ⟨r, hr, ir⟩ := advance_exact rng _ t.tsc_cycle P t2 hP hlt
    obtain ⟨s1, e, b1, st1, o1⟩ := pebs_body_reached rng
      { s with base := (triggerDetection s.base t).2.2 } t r
      (by unfold reachedSamplingPeriod; simp only [t2.2.2.2.2]; simp) hr hc
    refine ⟨s1, by rw [pebs_step_later rng s t t1]; exact e, ?_, ?_, ?_⟩
    · simp only [b1]; exact ir
    · simp [st1]
    · simp only [o1]
  · intro s t P x hinv hx htsc hP hPlt hact hc
    obtain ⟨t1, t2⟩ := samplingInv_trigger s.base t P _ hinv
    obtain ⟨r, np, hr, ir, hnp⟩ := advance_wrapped rng _ t.tsc_cycle P x t2 hx htsc hP hPlt
    obtain ⟨s1, e, b1, st1, o1⟩ := pebs_body_reached rng
      { s with base := (triggerDetection s.base t).2.2 } t r
      (by unfold reachedSamplingPeriod; simp only [t2.2.2.2.2]; simp; omega) hr hc
    refine ⟨s1, np, by rw [pebs_step_later rng s t t1]; exact e, ?_, hnp, ?_, ?_⟩
    · simp only [b1]; exact ir
    · simp [st1]
    · simp only [o1]

theorem pebs_tick_eq_run (rng : Nat → Nat) (toks : List robAnalysisToken) :
    ∀ s : tracedoctor_pebs_sampler,
      tracedoctor_pebs_sampler.tick rng s toks =
        runTokens (tracedoctor_pebs_sampler.step rng) s toks := by
  induction toks with
  | nil => intro s; rfl
  | cons t ts ih =>
    intro s
    simp only [tracedoctor_pebs_sampler.tick, runTokens]
    cases tracedoctor_pebs_sampler.step rng s t with
    | none => rfl
    | some s1 => exact ih s1

/-! ## TEA sampler: period coverage -/

theorem tea_oirGap_fields (s : tracedoctor_tea_sampler) (token : robAnalysisToken) :
    (tracedoctor_tea_sampler.oirGap s token).base = s.base ∧
    (tracedoctor_tea_sampler.oirGap s token).state = s.state ∧
    (tracedoctor_tea_sampler.oirGap s token).out = s.out := by
  unfold tracedoctor_tea_sampler.oirGap
  split <;> exact ⟨rfl, rfl, rfl⟩

theorem tea_registerPart_fields (s : tracedoctor_tea_sampler) (token : robAnalysisToken) :
    (tracedoctor_tea_sampler.registerPart s token).base = s.base ∧
    (tracedoctor_tea_sampler.registerPart s token).state = s.state ∧
    (tracedoctor_tea_sampler.registerPart s token).out = s.out := by
  unfold tracedoctor_tea_sampler.registerPart
  split <;> exact ⟨rfl, rfl, rfl⟩

theorem tea_emitPart_off (s : tracedoctor_tea_sampler) (token : robAnalysisToken)
    (hoff : s.state = 0) : tracedoctor_tea_sampler.emitPart s token = s := by
  unfold tracedoctor_tea_sampler.emitPart
  rw [if_neg]
  intro h
  exact h.1 hoff

theorem tea_emitPart_on (s : tracedoctor_tea_sampler) (token : robAnalysisToken)
    (hon : s.state ≠ 0) (hc : hasBit token.rob ROB_COMMITTING = true) :
    (tracedoctor_tea_sampler.emitPart s token).base = s.base ∧
    (tracedoctor_tea_sampler.emitPart s token).state = 0 ∧
    (tracedoctor_tea_sampler.emitPart s token).out.length = s.out.length + 1 := by
  have hce : hasBit token.rob (ROB_COMMITTING ||| ROB_EXCEPTION) = true := by
    rw [hasBit_or, hc]
    rfl
  unfold tracedoctor_tea_sampler.emitPart
  rw [if_pos ⟨hon, hce⟩]
  exact ⟨rfl, rfl, by simp⟩

theorem tea_samplePoint_notReached (rng : Nat → Nat) (s : tracedoctor_tea_sampler)
    (token : robAnalysisToken) (hnot : reachedSamplingPeriod s.base token.tsc_cycle = false) :
    tracedoctor_tea_sampler.samplePoint rng s token = some s := by
  unfold tracedoctor_tea_sampler.samplePoint
  rw [hnot]
  rfl

/-- A sample point that is reached either writes the row of the outstanding OIR and rests, or
leaves the state machine away from rest with no row written. -/
theorem tea_samplePoint_reached (rng : Nat → Nat) (s : tracedoctor_tea_sampler)
    (token : robAnalysisToken) (r : Nat × base_profiler)
    (hreach : reachedSamplingPeriod s.base token.tsc_cycle = true)
    (hadv : advanceSamplingPeriod rng s.base token.tsc_cycle = some r) :
    ∃ s3, tracedoctor_tea_sampler.samplePoint rng s token = some s3 ∧ s3.base = r.2 ∧
      ((s3.state ≠ 0 ∧ s3.out.length = s.out.length) ∨
       (s3.state = 0 ∧ s3.out.length = s.out.length + 1)) := by
  unfold tracedoctor_tea_sampler.samplePoint
  rw [hreach, hadv]
  simp only [if_true]
  split_ifs
  · exact ⟨_, rfl, rfl, Or.inr ⟨rfl, by simp⟩⟩
  · exact ⟨_, rfl, rfl, Or.inl ⟨by simp [tracedoctor_tea_sampler.s_deferred], rfl⟩⟩
  · exact ⟨_, rfl, rfl, Or.inl ⟨by simp [tracedoctor_tea_sampler.s_stalled], rfl⟩⟩
  · exact ⟨_, rfl, rfl, Or.inl ⟨by simp [tracedoctor_tea_sampler.s_armed], rfl⟩⟩

theorem tea_body_guard (token : robAnalysisToken) (hc : hasBit token.rob ROB_COMMITTING = true) :
    hasBit token.rob (ROB_COMMITTING ||| ROB_EXCEPTION ||| ROB_POPULATED) = true := by
  rw [hasBit_or, hasBit_or, hc]
  rfl

theorem tea_body_notReached (rng : Nat → Nat) (s : tracedoctor_tea_sampler)
    (token : robAnalysisToken) (hnot : reachedSamplingPeriod s.base token.tsc_cycle = false)
    (hoff : s.state = 0) :
    ∃ s1, tracedoctor_tea_sampler.body rng s token = some s1 ∧ s1.base = s.base ∧
      s1.state = 0 ∧ s1.out = s.out := by
  unfold tracedoctor_tea_sampler.body
  split
  · obtain ⟨p1, p2, p3⟩ := tea_oirGap_fields s token
    have e1 := tea_samplePoint_notReached rng (tracedoctor_tea_sampler.oirGap s token) token
      (by rw [p1]; exact hnot)
    have e2 := tea_emitPart_off (tracedoctor_tea_sampler.oirGap s token) token
      (by rw [p2]; exact hoff)
    obtain ⟨q1, q2, q3⟩ := tea_registerPart_fields (tracedoctor_tea_sampler.oirGap s token)
      token
    simp only [e1, e2]
    exact ⟨_, rfl, by rw [q1, p1], by rw [q2, p2, hoff], by rw [q3, p3]⟩
  · exact ⟨s, rfl, rfl, hoff, rfl⟩

theorem tea_body_reached (rng : Nat → Nat) (s : tracedoctor_tea_sampler)
    (token : robAnalysisToken) (r : Nat × base_profiler)
    (hreach : reachedSamplingPeriod s.base token.tsc_cycle = true)
    (hadv : advanceSamplingPeriod rng s.base token.tsc_cycle = some r)
    (hc : hasBit token.rob ROB_COMMITTING = true) :
    ∃ s1, tracedoctor_tea_sampler.body rng s token = some s1 ∧ s1.base = r.2 ∧
      s1.state = 0 ∧ s1.out.length = s.out.length + 1 := by
  obtain ⟨p1, _, p3⟩ := tea_oirGap_fields s token
  obtain ⟨s3, e3, b3, h3⟩ := tea_samplePoint_reached rng
    (tracedoctor_tea_sampler.oirGap s token) token r (by rw [p1]; exact hreach)
    (by rw [p1]; exact hadv)
  rw [p3] at h3
  obtain ⟨q1, q2, q3⟩ := tea_registerPart_fields (tracedoctor_tea_sampler.emitPart s3 token)
    token
  unfold tracedoctor_tea_sampler.body
  rw [if_pos (tea_body_guard token hc)]
  simp only [e3]
  refine ⟨_, rfl, ?_, ?_, ?_⟩
  · rcases h3 with ⟨hon, _⟩ | ⟨hoff, _⟩
    · rw [q1, (tea_emitPart_on s3 token hon hc).1, b3]
    · rw [q1, tea_emitPart_off s3 token hoff, b3]
  · rcases h3 with ⟨hon, _⟩ | ⟨hoff, _⟩
    · rw [q2, (tea_emitPart_on s3 token hon hc).2.1]
    · rw [q2, tea_emitPart_off s3 token hoff, hoff]
  · rcases h3 with ⟨hon, ho⟩ | ⟨hoff, ho⟩
    · rw [q3, (tea_emitPart_on s3 token hon hc).2.2, ho]
    · rw [q3, tea_emitPart_off s3 token hoff, ho]

theorem tea_step_first (rng : Nat → Nat) (s : tracedoctor_tea_sampler)
    (token : robAnalysisToken) (hf : s.base.firstToken = true) :
    tracedoctor_tea_sampler.step rng s token =
      some { s with
        lastInstructionRegister := teaInstrInfo.zero
        lastProgressCycle := token.tsc_cycle
        base := restartSampling (triggerDetection s.base token).2.2 token.tsc_cycle } := by
  obtain ⟨f1, _⟩ := triggerDetection_fields s.base token
  unfold tracedoctor_tea_sampler.step
  rw [if_pos (by rw [f1, hf])]

theorem tea_step_later (rng : Nat → Nat) (s : tracedoctor_tea_sampler)
    (token : robAnalysisToken) (hf : (triggerDetection s.base token).2.1 = false) :
    tracedoctor_tea_sampler.step rng s token =
      tracedoctor_tea_sampler.body rng { s with base := (triggerDetection s.base token).2.2 }
        token := by
  unfold tracedoctor_tea_sampler.step
  rw [if_neg (by rw [hf]; simp)]

/-- The TEA sampler is a periodic sampler: its rest state is `s_off`. -/
theorem tea_periodic (rng : Nat → Nat) :
    periodicSampler (tracedoctor_tea_sampler.step rng) (fun s => s.base)
      (fun s => decide (s.state ≠ tracedoctor_tea_sampler.s_off))
      (fun s => s.out.length) := by
  refine ⟨?_, ?_, ?_, ?_⟩
  · intro s t P hf hper hR hS _
    exact ⟨_, tea_step_first rng s t hf, restart_samplingInv s.base t P hper hR hS, rfl, rfl⟩
  · intro s t P np hinv hlt hact
    obtain ⟨t1, t2⟩ := samplingInv_trigger s.base t P np hinv
    have hoff : s.state = 0 := by simpa [tracedoctor_tea_sampler.s_off] using hact
    obtain ⟨s1, e, b1, st1, o1⟩ := tea_body_notReached rng
      { s with base := (triggerDetection s.base t).2.2 } t
      (by unfold reachedSamplingPeriod; simp only [t2.2.2.2.2]; simp; omega) hoff
    refine ⟨s1, by rw [tea_step_later rng s t t1]; exact e, ?_, ?_, ?_⟩
    · simp only [b1]; exact t2
    · simp [st1, tracedoctor_tea_sampler.s_off]
    · simp only [o1]
  · intro s t P hinv hP hlt hact hc
    obtain ⟨t1, t2⟩ := samplingInv_trigger s.base t P _ hinv
    obtain ⟨r, hr, ir⟩ := advance_exact rng _ t.tsc_cycle P t2 hP hlt
    obtain ⟨s1, e, b1, st1, o1⟩ := tea_body_reached rng
      { s with base := (triggerDetection s.base t).2.2 } t r
      (by unfold reachedSamplingPeriod; simp only [t2.2.2.2.2]; simp) hr hc
    refine ⟨s1, by rw [tea_step_later rng s t t1]; exact e, ?_, ?_, ?_⟩
    · simp only [b1]; exact ir
    · simp [st1, tracedoctor_tea_sampler.s_off]
    · simp only [o1]
  · intro s t P x hinv hx htsc hP hPlt hact hc
    obtain ⟨t1, t2⟩ := samplingInv_trigger s.base t P _ hinv
    obtain ⟨r, np, hr, ir, hnp⟩ := advance_wrapped rng _ t.tsc_cycle P x t2 hx htsc hP hPlt
    obtain ⟨s1, e, b1, st1, o1⟩ := tea_body_reached rng
      { s with base := (triggerDetection s.base t).2.2 } t r
      (by unfold reachedSamplingPeriod; simp only [t2.2.2.2.2]; simp; omega) hr hc
    refine ⟨s1, np, by rw [tea_step_later rng s t t1]; exact e, ?_, hnp, ?_, ?_⟩
    · simp only [b1]; exact ir
    · simp [st1, tracedoctor_tea_sampler.s_off]
    · simp only [o1]

theorem tea_tick_eq_run (rng : Nat → Nat) (toks : List robAnalysisToken) :
    ∀ s : tracedoctor_tea_sampler,
      tracedoctor_tea_sampler.tick rng s toks =
        runTokens (tracedoctor_tea_sampler.step rng) s toks := by
  induction toks with
  | nil => intro s; rfl
  | cons t ts ih =>
    intro s
    simp only [tracedoctor_tea_sampler.tick, runTokens]
    cases tracedoctor_tea_sampler.step rng s t with
    | none => rfl
    | some s1 => exact ih s1

/-! ## Period coverage of the samplers as constructed -/

theorem parseArg_firstToken (b b1 : base_profiler) (c : List String)
    (h : base_profiler.parseArg b c = .ok b1) (hb : b.firstToken = true) :
    b1.firstToken = true := by
  unfold base_profiler.parseArg at h
  split at h
  · exact absurd h (by simp)
  · simp only [Except.ok.injEq] at h; rw [← h]; exact hb
  · rename_i c0 c1 rest
    have key : ∀ (f : Nat → base_profiler),
        Except.map f (stoul c1) = Except.ok b1 → ∃ n, b1 = f n := by
      intro f hf
      cases hs : stoul c1 with
      | error e => rw [hs] at hf; exact absurd hf (by simp [Except.map])
      | ok n =>
        rw [hs] at hf
        simp only [Except.map, Except.ok.injEq] at hf
        exact ⟨n, hf.symm⟩
    split at h
    · obtain ⟨n, e⟩ := key _ h; rw [e]; exact hb
    · split at h
      · obtain ⟨n, e⟩ := key _ h; rw [e]; exact hb
      · split at h
        · obtain ⟨n, e⟩ := key _ h; rw [e]; exact hb
        · split at h
          · obtain ⟨n, e⟩ := key _ h; rw [e]; exact hb
          · split at h
            · obtain ⟨n, e⟩ := key _ h; rw [e]; exact hb
            · split at h
              · obtain ⟨n, e⟩ := key _ h; rw [e]; exact hb
              · simp only [Except.ok.injEq] at h; rw [← h]; exact hb

theorem parseArgs_firstToken (args : List (List String)) :
    ∀ (b b1 : base_profiler), base_profiler.parseArgs b args = .ok b1 →
      b.firstToken = true → b1.firstToken = true := by
  induction args with
  | nil =>
    intro b b1 h hb
    simp only [base_profiler.parseArgs, Except.ok.injEq] at h
    rw [← h]; exact hb
  | cons c args ih =>
    intro b b1 h hb
    simp only [base_profiler.parseArgs] at h
    split at h
    · exact absurd h (by simp)
    · rename_i b2 h2
      exact ih b2 b1 h (parseArg_firstToken b b2 c h2 hb)

/-- A constructed `base_profiler` has not seen a token, and its sampling period is a 64-bit
value. -/
theorem base_ctor_fresh (rng : Nat → Nat) (args : List (List String)) (tokenBytes : Nat)
    (b : base_profiler) (h : base_profiler.ctor rng args tokenBytes = .ok b) :
    b.firstToken = true ∧ b.samplingPeriod < 2 ^ 64 := by
  have h64 : tokenBytes = 64 := by
    by_contra hne
    rw [base_ctor_not64 rng args tokenBytes hne] at h
    exact absurd h (by simp)
  cases hp : base_profiler.parseArgs base_profiler.initial args with
  | error e =>
    unfold base_profiler.ctor at h
    rw [hp, h64] at h
    simp at h
  | ok cfg =>
    have hft := parseArgs_firstToken args base_profiler.initial cfg hp rfl
    have hlt := parseArgs_ok args base_profiler.initial cfg hp (by decide)
    obtain ⟨b1, hb, hper, _⟩ := base_ctor_ok rng args tokenBytes cfg hp h64
    have hbb : b1 = b := by
      rw [hb] at h
      simpa using h
    subst hbb
    refine ⟨?_, by rw [hper]; exact hlt⟩
    unfold base_profiler.ctor at hb
    rw [hp, h64] at hb
    simp only [Nat.reduceDiv, ne_eq, not_true_eq_false, if_false, Except.ok.injEq] at hb
    rw [← hb]
    simp only [restartSampling]
    split <;> split <;> exact hft

theorem pebs_ctor_fresh (rng : Nat → Nat) (args : List (List String)) (tokenBytes : Nat)
    (s : tracedoctor_pebs_sampler)
    (h : tracedoctor_pebs_sampler.ctor rng args tokenBytes = .ok s) :
    s.base.firstToken = true ∧ 1 ≤ s.base.samplingPeriod ∧ s.base.samplingPeriod < 2 ^ 64 ∧
      s.state = tracedoctor_pebs_sampler.s_idle ∧ s.out = [] := by
  unfold tracedoctor_pebs_sampler.ctor at h
  split at h
  · exact absurd h (by simp)
  · rename_i b hb
    obtain ⟨f1, f2⟩ := base_ctor_fresh rng args tokenBytes b hb
    split at h
    · exact absurd h (by simp)
    · rename_i hne
      simp only [Except.ok.injEq] at h
      rw [← h]
      exact ⟨f1, by show 1 ≤ b.samplingPeriod; omega, f2, rfl, rfl⟩

theorem tea_ctor_fresh (rng : Nat → Nat) (args : List (List String)) (tokenBytes : Nat)
    (s : tracedoctor_tea_sampler)
    (h : tracedoctor_tea_sampler.ctor rng args tokenBytes = .ok s) :
    s.base.firstToken = true ∧ 1 ≤ s.base.samplingPeriod ∧ s.base.samplingPeriod < 2 ^ 64 ∧
      s.state = tracedoctor_tea_sampler.s_off ∧ s.out = [] := by
  unfold tracedoctor_tea_sampler.ctor at h
  split at h
  · exact absurd h (by simp)
  · rename_i b hb
    obtain ⟨f1, f2⟩ := base_ctor_fresh rng args tokenBytes b hb
    split at h
    · exact absurd h (by simp)
    · rename_i hne
      simp only [Except.ok.injEq] at h
      rw [← h]
      exact ⟨f1, by show 1 ≤ b.samplingPeriod; omega, f2, rfl, rfl⟩

/-- C3. Sampling period coverage. A PEBS sampler or a TEA sampler that was constructed with
the sampling period `P` (the constructors accept only `P >= 1`), random offset 0 and random
start offset 0, and is fed a first token at cycle `c0` followed by one COMMITTING token at
every consecutive cycle `c0 + 1 .. c0 + N` (cycles are 44-bit values), consumes the whole
buffer and has then written a number of sample rows that differs from `N / P` (rounded down)
by at most 1. -/
theorem sampling_period_coverage (rng : Nat → Nat) (args : List (List String))
    (tokenBytes P c0 : Nat) (first : robAnalysisToken) (toks : List robAnalysisToken)
    (hc0 : first.tsc_cycle = c0) (htok : consecutiveCommitting c0 toks)
    (hbound : c0 + toks.length < 2 ^ 44) :
    (∀ s0 : tracedoctor_pebs_sampler,
      tracedoctor_pebs_sampler.ctor rng args tokenBytes = .ok s0 →
      s0.base.samplingPeriod = P → s0.base.randomOffset = 0 →
      s0.base.randomStartOffset = 0 →
      ∃ s1, tracedoctor_pebs_sampler.tick rng s0 (first :: toks) = some s1 ∧
        s1.out.length ≤ toks.length / P + 1 ∧ toks.length / P ≤ s1.out.length + 1) ∧
    (∀ s0 : tracedoctor_tea_sampler,
      tracedoctor_tea_sampler.ctor rng args tokenBytes = .ok s0 →
      s0.base.samplingPeriod = P → s0.base.randomOffset = 0 →
      s0.base.randomStartOffset = 0 →
      ∃ s1, tracedoctor_tea_sampler.tick rng s0 (first :: toks) = some s1 ∧
        s1.out.length ≤ toks.length / P + 1 ∧ toks.length / P ≤ s1.out.length + 1) := by
  constructor
  · intro s0 hctor hper hR hS
    obtain ⟨f1, f2, f3, f4, f5⟩ := pebs_ctor_fresh rng args tokenBytes s0 hctor
    rw [pebs_tick_eq_run]
    exact periodic_coverage (tracedoctor_pebs_sampler.step rng) (fun s => s.base)
      (fun s => decide (s.state ≠ tracedoctor_pebs_sampler.s_idle)) (fun s => s.out.length)
      (pebs_periodic rng) c0 P s0 first toks (by omega) (by omega) f1 hper hR hS
      (by simp [f4]) (by simp [f5]) hc0 htok hbound
  · intro s0 hctor hper hR hS
    obtain ⟨f1, f2, f3, f4, f5⟩ := tea_ctor_fresh rng args tokenBytes s0 hctor
    rw [tea_tick_eq_run]
    exact periodic_coverage (tracedoctor_tea_sampler.step rng) (fun s => s.base)
      (fun s => decide (s.state ≠ tracedoctor_tea_sampler.s_off)) (fun s => s.out.length)
      (tea_periodic rng) c0 P s0 first toks (by omega) (by omega) f1 hper hR hS
      (by simp [f4]) (by simp [f5]) hc0 htok hbound

/-- Witness of `sampling_period_coverage`: both samplers are constructed with
`samplingPeriod:2` and fed a first token at cycle 10 and five COMMITTING tokens at the cycles
11 to 15. -/
theorem sampling_period_coverage_witness :
    coverageFirst.tsc_cycle = 10 ∧ consecutiveCommitting 10 coverageTokens ∧
    10 + coverageTokens.length < 2 ^ 44 ∧
    (∃ s0 s1, tracedoctor_pebs_sampler.ctor (fun _ => 0) [["samplingPeriod", "2"]] 64 = .ok s0 ∧
      tracedoctor_pebs_sampler.tick (fun _ => 0) s0 (coverageFirst :: coverageTokens) =
        some s1 ∧
      s1.out.length ≤ coverageTokens.length / 2 + 1 ∧
      coverageTokens.length / 2 ≤ s1.out.length + 1) ∧
    (∃ s0 s1, tracedoctor_tea_sampler.ctor (fun _ => 0) [["samplingPeriod", "2"]] 64 = .ok s0 ∧
      tracedoctor_tea_sampler.tick (fun _ => 0) s0 (coverageFirst :: coverageTokens) =
        some s1 ∧
      s1.out.length ≤ coverageTokens.length / 2 + 1 ∧
      coverageTokens.length / 2 ≤ s1.out.length + 1) := by
  have hp : tracedoctor_pebs_sampler.ctor (fun _ => 0) [["samplingPeriod", "2"]] 64 =
      .ok { base := restartSampling { base_profiler.initial with samplingPeriod := 2 } 0,
            lastInstructionRegister_flags := 0, lastProgressCycle := 0, samplingCycle := 0,
            state := tracedoctor_pebs_sampler.s_idle, out := [] } := by
    decide
  have ht : tracedoctor_tea_sampler.ctor (fun _ => 0) [["samplingPeriod", "2"]] 64 =
      .ok { base := restartSampling { base_profiler.initial with samplingPeriod := 2 } 0,
            lastInstructionRegister := teaInstrInfo.zero, lastProgressCycle := 0,
            samplingCycle := 0, state := tracedoctor_tea_sampler.s_off, out := [] } := by
    decide
  have hall := sampling_period_coverage (fun _ => 0) [["samplingPeriod", "2"]] 64 2 10
    coverageFirst coverageTokens (by decide) (by decide) (by decide)
  obtain ⟨s1, e1, r1⟩ := hall.1 _ hp rfl rfl rfl
  obtain ⟨s2, e2, r2⟩ := hall.2 _ ht rfl rfl rfl
  exact ⟨by decide, by decide, by decide, ⟨_, s1, hp, e1, r1⟩, ⟨_, s2, ht, e2, r2⟩⟩

/-! ## Oracle: the first token and the scenarios S1 and S2 -/

theorem oracle_step_first (s : tracedoctor_oracle) (token : robAnalysisToken)
    (h1 : s.base.firstToken = true) (h2 : s.base.flushThreshold = 0) :
    tracedoctor_oracle.step s token =
      some { s with base := { s.base with firstToken := false }, lastToken := token } := by
  unfold tracedoctor_oracle.step
  rw [triggerDetection_first s.base token h1 h2]
  rfl

theorem oracle_step_later (s : tracedoctor_oracle) (token : robAnalysisToken)
    (r : List (Nat × flatSample))
    (h1 : s.base.firstToken = false) (h2 : s.base.flushThreshold = 0)
    (h3 : hasBit token.rob (ROB_POPULATED ||| ROB_COMMITTING ||| ROB_EXCEPTION) = true)
    (hr : tracedoctor_oracle.account s.result s.lastToken token = some r) :
    tracedoctor_oracle.step s token = some { s with result := r, lastToken := token } := by
  unfold tracedoctor_oracle.step
  rw [triggerDetection_later s.base token h1 h2]
  simp only [Bool.false_eq_true, if_false, h3, if_true, hr]

theorem sub64_of_le (a b : Nat) (hb : b ≤ a) (ha : a < 2 ^ 64) : sub64 a b = a - b := by
  unfold sub64
  rw [Nat.mod_eq_of_lt ha, Nat.mod_eq_of_lt (by omega : b < 2 ^ 64), if_pos hb]

theorem add64_of_lt (a b : Nat) (h : a + b < 2 ^ 64) : add64 a b = a + b := by
  unfold add64
  exact Nat.mod_eq_of_lt h

/-- The accounting of a COMMITTING-only token whose slot 0 alone commits, `d` cycles after a
token that was not accounted as committing. -/
theorem oracle_account_commit0 (last token : robAnalysisToken) (d : Nat)
    (hd : 1 ≤ d) (ht : token.tsc_cycle = last.tsc_cycle + d) (ht64 : token.tsc_cycle < 2 ^ 64)
    (hrob : token.rob = ROB_COMMITTING)
    (hf0 : token.instr0_flags = INSTR_COMMITS ||| INSTR_VALID)
    (hf1 : hasBit token.instr1_flags INSTR_COMMITS = false)
    (hf2 : hasBit token.instr2_flags INSTR_COMMITS = false)
    (hf3 : hasBit token.instr3_flags INSTR_COMMITS = false)
    (hi : token.instr0_isslat < 2 ^ 64) (hm : token.instr0_memlat < 2 ^ 64) :
    tracedoctor_oracle.account [] last token =
      some [(token.instr0_address,
        { flatSample.zero with
          tCommit := 24
          tStall := d - 1
          tIssueLatency := token.instr0_isslat
          tMemoryLatency := token.instr0_memlat
          cCommit := 1
          cStall := b2n (hasBit last.rob ROB_POPULATED &&
            !hasBit last.rob (ROB_COMMITTING ||| ROB_EXCEPTION))
          cDeferred := b2n (hasBit last.rob ROB_POPULATED &&
            !hasBit last.rob (ROB_COMMITTING ||| ROB_EXCEPTION)) })] := by
  have e1 : hasBit ROB_COMMITTING ROB_POPULATED = false := by decide
  have e2 : hasBit ROB_COMMITTING (ROB_COMMITTING ||| ROB_EXCEPTION) = true := by decide
  have e3 : hasBit ROB_COMMITTING ROB_COMMITTING = true := by decide
  have e4 : hasBit (INSTR_COMMITS ||| INSTR_VALID) INSTR_VALID = true := by decide
  have e5 : hasBit (INSTR_COMMITS ||| INSTR_VALID) INSTR_COMMITS = true := by decide
  have e6 : sub64 token.tsc_cycle last.tsc_cycle = d := by
    rw [sub64_of_le _ _ (by omega) ht64]; omega
  have e7 : ilp_magic (sub32 (b2n true + b2n false + b2n false + b2n false) 1) = some 24 := by
    decide
  have e8 : sub64 d (b2n true) = d - 1 := by
    rw [sub64_of_le _ _ (by simp [b2n]; omega) (by omega)]
    simp [b2n]
  have e9 : ∀ x, x < 2 ^ 64 → add64 0 x = x := by
    intro x hx
    rw [add64_of_lt _ _ (by omega)]; omega
  unfold tracedoctor_oracle.account
  simp only [hrob, e1, Bool.false_eq_true, if_false, e6]
  unfold tracedoctor_oracle.stallPart tracedoctor_oracle.attributePart
    tracedoctor_oracle.commitPart
  simp only [hrob, e1, e2, e3, hf0, hf1, hf2, hf3, e5, e7, if_true, Bool.not_true,
    Bool.false_or, Bool.not_false, Bool.true_and, Bool.false_eq_true, if_false,
    tracedoctor_oracle.commitBlock, getFirstValid, e4]
  by_cases hd1 : d > 1
  · simp only [hd1, decide_True, if_true, resultUpd, amapGet, amapSet,
      tracedoctor_oracle.commitSlot, flatSample.zero, e8, if_true]
    rw [e9 _ (by omega), e9 _ hi, e9 _ hm]
    simp [add64, b2n]
    split <;> simp <;> omega
  · have hd0 : d = 1 := by omega
    subst hd0
    simp only [gt_iff_lt, lt_self_iff_false, decide_False, Bool.false_eq_true, if_false,
      resultUpd, amapGet, amapSet, tracedoctor_oracle.commitSlot, flatSample.zero]
    rw [e9 _ hi, e9 _ hm]
    simp [add64, b2n]
    split <;> simp

theorem oracle_tick_cons (s s1 : tracedoctor_oracle) (t : robAnalysisToken)
    (ts : List robAnalysisToken) (h : tracedoctor_oracle.step s t = some s1) :
    tracedoctor_oracle.tick s (t :: ts) = tracedoctor_oracle.tick s1 ts := by
  simp only [tracedoctor_oracle.tick, h]

/-- An Oracle without flushing that is fed its first token and then a token that is
accounted: the result is that of `account` on the earlier result. -/
theorem oracle_tick_two (s0 : tracedoctor_oracle) (first token : robAnalysisToken)
    (r : List (Nat × flatSample))
    (hfresh : s0.base.firstToken = true) (hflush : s0.base.flushThreshold = 0)
    (h3 : hasBit token.rob (ROB_POPULATED ||| ROB_COMMITTING ||| ROB_EXCEPTION) = true)
    (hr : tracedoctor_oracle.account s0.result first token = some r) :
    tracedoctor_oracle.tick s0 [first, token] =
      some { s0 with
        base := { s0.base with firstToken := false }, result := r, lastToken := token } := by
  rw [oracle_tick_cons s0 _ first [token] (oracle_step_first s0 first hfresh hflush)]
  rw [oracle_tick_cons _ _ token [] (oracle_step_later
    { s0 with base := { s0.base with firstToken := false }, lastToken := first } token r
    rfl hflush h3 hr)]
  rfl

/-- C11 (as amended). Scenario S1. The token of S1 (COMMITTING at cycle 1000, slot 0 commits
at `0x80` with memory latency 10), fed to an Oracle without flushing after a first token at
cycle 999 that is not POPULATED-only, leaves exactly one result entry, for `0x80`, with
`tCommit = 24`, `cCommit = 1`, `tMemoryLatency = 10` and all other fields 0 (`tCycles = 1`).
Fed as the only token it is the first token, which is not accounted: the result stays
empty. -/
theorem oracle_S1 (s0 : tracedoctor_oracle) (first : robAnalysisToken)
    (hfresh : s0.base.firstToken = true) (hflush : s0.base.flushThreshold = 0)
    (hres : s0.result = []) (hc : first.tsc_cycle = 999)
    (hrob : (hasBit first.rob ROB_POPULATED &&
      !hasBit first.rob (ROB_COMMITTING ||| ROB_EXCEPTION)) = false) :
    (∃ s, tracedoctor_oracle.tick s0 [first, s1Token] = some s ∧
      s.result = [(0x80, { s1Expected with tMemoryLatency := 10 })] ∧
      totalCycles s.result = 1) ∧
    (∃ s, tracedoctor_oracle.tick s0 [s1Token] = some s ∧ s.result = []) := by
  constructor
  · have hacc := oracle_account_commit0 first s1Token 1 (by omega) (by rw [hc]; rfl)
      (by decide) rfl rfl (by decide) (by decide) (by decide) (by decide) (by decide)
    rw [hrob] at hacc
    have hacc1 : tracedoctor_oracle.account s0.result first s1Token =
        some [(0x80, { s1Expected with tMemoryLatency := 10 })] := by
      rw [hres, hacc]
      rfl
    refine ⟨_, oracle_tick_two s0 first s1Token _ hfresh hflush (by decide) hacc1, rfl, ?_⟩
    · simp only [totalCycles, flatSample.tCycles, s1Expected, flatSample.zero, List.map_cons,
        List.map_nil, List.sum_cons, List.sum_nil]
      norm_num
  · refine ⟨{ s0 with base := { s0.base with firstToken := false }, lastToken := s1Token },
      ?_, hres⟩
    rw [oracle_tick_cons s0 _ s1Token [] (oracle_step_first s0 s1Token hfresh hflush)]
    rfl

/-- Witness of `oracle_S1`: the first token commits one instruction at cycle 999. -/
theorem oracle_S1_witness :
    (∃ s, tracedoctor_oracle.tick oracleFresh
        [slot0Token 999 ROB_COMMITTING (INSTR_COMMITS ||| INSTR_VALID) 0x7c, s1Token] = some s ∧
      s.result = [(0x80, { s1Expected with tMemoryLatency := 10 })] ∧
      totalCycles s.result = 1) ∧
    (∃ s, tracedoctor_oracle.tick oracleFresh [s1Token] = some s ∧ s.result = []) :=
  oracle_S1 oracleFresh (slot0Token 999 ROB_COMMITTING (INSTR_COMMITS ||| INSTR_VALID) 0x7c)
    rfl rfl rfl rfl (by decide)

/-- C11 (counterexample). The Oracle as constructed, fed the single token of scenario S1, has
an empty result map afterwards: the entry of `0x80` is not the expected row. And when the
token is accounted, after a first token at cycle 999, its entry has `tMemoryLatency = 10`,
so it is not the expected row either. -/
theorem oracle_S1_counterexample :
    tracedoctor_oracle.ctor (fun _ => 0) [] 64 = .ok oracleFresh ∧
    (∃ s, tracedoctor_oracle.tick oracleFresh [s1Token] = some s ∧ s.result = [] ∧
      amapGet flatSample.zero s.result 0x80 ≠ s1Expected) ∧
    (∃ s, tracedoctor_oracle.tick oracleFresh
        [slot0Token 999 ROB_COMMITTING (INSTR_COMMITS ||| INSTR_VALID) 0x7c, s1Token] = some s ∧
      (amapGet flatSample.zero s.result 0x80).tMemoryLatency = 10 ∧
      amapGet flatSample.zero s.result 0x80 ≠ s1Expected) := by
  refine ⟨by decide, by decide, by decide⟩

/-- C12. Scenario S2, generalised. An Oracle without flushing is fed a first token at cycle
`c` that is POPULATED and neither COMMITTING nor EXCEPTION, then a COMMITTING-only token at
cycle `c + d` (`d >= 2`) in which only slot 0 commits, with flags `COMMITS|VALID`, at address
`a`. Afterwards the entry of `a` has `tStall = d - 1`, `tCommit = 24`, `cStall = 1` and
`cCommit = 1`; it is the only entry, its `cDeferred` is 1 as well, its latency sums are the
latencies of slot 0 and its other fields are 0. -/
theorem oracle_S2 (s0 : tracedoctor_oracle) (first token : robAnalysisToken) (c d a : Nat)
    (hfresh : s0.base.firstToken = true) (hflush : s0.base.flushThreshold = 0)
    (hres : s0.result = []) (hd : 2 ≤ d) (hc : first.tsc_cycle = c)
    (hfp : hasBit first.rob ROB_POPULATED = true)
    (hfo : hasBit first.rob (ROB_COMMITTING ||| ROB_EXCEPTION) = false)
    (hwf : token.WF) (ht : token.tsc_cycle = c + d) (hrob : token.rob = ROB_COMMITTING)
    (hf0 : token.instr0_flags = INSTR_COMMITS ||| INSTR_VALID)
    (ha : token.instr0_address = a)
    (hf1 : hasBit token.instr1_flags INSTR_COMMITS = false)
    (hf2 : hasBit token.instr2_flags INSTR_COMMITS = false)
    (hf3 : hasBit token.instr3_flags INSTR_COMMITS = false) :
    ∃ s, tracedoctor_oracle.tick s0 [first, token] = some s ∧
      (amapGet flatSample.zero s.result a).tStall = d - 1 ∧
      (amapGet flatSample.zero s.result a).tCommit = 24 ∧
      (amapGet flatSample.zero s.result a).cStall = 1 ∧
      (amapGet flatSample.zero s.result a).cCommit = 1 ∧
      s.result = [(a, { flatSample.zero with
        tCommit := 24, tStall := d - 1, tIssueLatency := token.instr0_isslat,
        tMemoryLatency := token.instr0_memlat, cCommit := 1, cStall := 1, cDeferred := 1 })] := by
  obtain ⟨w1, _, _, _, _, _, _, _, _, _, _, _, w13, _, _, _, w17, _⟩ := hwf
  have hacc := oracle_account_commit0 first token d (by omega) (by rw [hc]; exact ht)
    (by omega) hrob hf0 hf1 hf2 hf3 (by omega) (by omega)
  rw [hfp, hfo, ha] at hacc
  have hacc1 : tracedoctor_oracle.account s0.result first token =
      some [(a, { flatSample.zero with
        tCommit := 24, tStall := d - 1, tIssueLatency := token.instr0_isslat,
        tMemoryLatency := token.instr0_memlat, cCommit := 1, cStall := 1, cDeferred := 1 })] := by
    rw [hres, hacc]
    rfl
  refine ⟨_, oracle_tick_two s0 first token _ hfresh hflush (by rw [hrob]; decide) hacc1,
    ?_, ?_, ?_, ?_, rfl⟩ <;> simp [amapGet]

/-- Witness of `oracle_S2`: `c = 100`, `d = 10`, `a = 0xA0`. -/
theorem oracle_S2_witness :
    ∃ s, tracedoctor_oracle.tick oracleFresh
        [populatedToken 100, slot0Token 110 ROB_COMMITTING (INSTR_COMMITS ||| INSTR_VALID) 0xA0]
        = some s ∧
      (amapGet flatSample.zero s.result 0xA0).tStall = 10 - 1 ∧
      (amapGet flatSample.zero s.result 0xA0).tCommit = 24 ∧
      (amapGet flatSample.zero s.result 0xA0).cStall = 1 ∧
      (amapGet flatSample.zero s.result 0xA0).cCommit = 1 ∧
      s.result = [(0xA0, { flatSample.zero with
        tCommit := 24, tStall := 10 - 1, tIssueLatency := 0,
        tMemoryLatency := 0, cCommit := 1, cStall := 1, cDeferred := 1 })] :=
  oracle_S2 oracleFresh (populatedToken 100)
    (slot0Token 110 ROB_COMMITTING (INSTR_COMMITS ||| INSTR_VALID) 0xA0) 100 10 0xA0
    rfl rfl rfl (by decide) rfl (by decide) (by decide) (by decide) rfl rfl rfl rfl
    (by decide) (by decide) (by decide)

/-! ## Counters of a histogram after `value2hist` -/

theorem amapGet_amapSet {α : Type} (dflt : α) (k : Nat) (v : α) (m : List (Nat × α))
    (k1 : Nat) :
    amapGet dflt (amapSet k v m) k1 = if k1 = k then v else amapGet dflt m k1 := by
  induction m with
  | nil =>
    simp only [amapSet, amapGet]
    by_cases h : k1 = k
    · rw [if_pos h.symm, if_pos h]
    · rw [if_neg (fun e => h e.symm), if_neg h]
  | cons x m ih =>
    simp only [amapSet]
    by_cases hx : x.1 = k
    · rw [if_pos hx]
      simp only [amapGet]
      by_cases h : k1 = k
      · rw [if_pos (by rw [hx, h]), if_pos h]
      · rw [if_neg (by rw [hx]; exact fun e => h e.symm), if_neg h,
          if_neg (by rw [hx]; exact fun e => h e.symm)]
    · rw [if_neg hx]
      simp only [amapGet]
      by_cases h1 : x.1 = k1
      · rw [if_pos h1, if_pos h1, if_neg (by rw [← h1]; exact hx)]
      · rw [if_neg h1, if_neg h1, ih]

theorem vecResize_getD (vec : List Nat) (n i : Nat) (h : vec.length ≤ n) :
    (vecResize vec n).getD i 0 = vec.getD i 0 := by
  unfold vecResize
  rw [List.take_of_length_le h]
  simp only [List.getD_eq_getElem?_getD]
  by_cases hi : i < vec.length
  · rw [List.getElem?_append_left hi]
  · rw [List.getElem?_append_right (by omega)]
    rw [List.getElem?_eq_none (by omega : vec.length ≤ i)]
    by_cases hr : i - vec.length < n - vec.length
    · rw [List.getElem?_replicate_of_lt hr]
      rfl
    · rw [List.getElem?_eq_none (by simp; omega)]

theorem vecResize_length (vec : List Nat) (n : Nat) : (vecResize vec n).length = n := by
  unfold vecResize
  simp only [List.length_append, List.length_take, List.length_replicate]
  omega

/-- The vector `value2hist` leaves: the counter of `value` is incremented, the others are
unchanged. -/
theorem value2histVec_spec (vec : List Nat) (value increment : Nat)
    (hv : value + 1 < 2 ^ 64) :
    ∃ vec1, value2histVec vec value increment = some vec1 ∧
      ∀ i, vec1.getD i 0 =
        if i = value then add64 (vec.getD value 0) increment else vec.getD i 0 := by
  unfold value2histVec
  dsimp only
  rw [Nat.mod_eq_of_lt hv]
  by_cases hl : vec.length ≤ value
  · rw [if_pos hl]
    have hlen := vecResize_length vec (value + 1)
    rw [if_pos (by rw [hlen]; omega)]
    refine ⟨_, rfl, ?_⟩
    intro i
    rw [vecResize_getD vec (value + 1) value (by omega)]
    by_cases hi : i = value
    · rw [if_pos hi, hi]
      simp only [List.getD_eq_getElem?_getD]
      rw [List.getElem?_set_self (by rw [hlen]; omega)]
      rfl
    · rw [if_neg hi]
      simp only [List.getD_eq_getElem?_getD]
      rw [List.getElem?_set_ne (fun e => hi e.symm)]
      have := vecResize_getD vec (value + 1) i (by omega)
      simp only [List.getD_eq_getElem?_getD] at this
      exact this
  · rw [if_neg hl, if_pos (by omega)]
    refine ⟨_, rfl, ?_⟩
    intro i
    by_cases hi : i = value
    · rw [if_pos hi, hi]
      simp only [List.getD_eq_getElem?_getD]
      rw [List.getElem?_set_self (by omega)]
      rfl
    · rw [if_neg hi]
      simp only [List.getD_eq_getElem?_getD]
      rw [List.getElem?_set_ne (fun e => hi e.symm)]

/-- The histogram `value2hist` leaves: the counter of `(address, value)` is incremented, all
other counters are unchanged. -/
theorem value2hist_spec (hist : histogram) (address value increment : Nat)
    (hv : value + 1 < 2 ^ 64) :
    ∃ hist1, value2hist hist address value increment = some hist1 ∧
      ∀ a v, histCount hist1 a v =
        if a = address ∧ v = value then add64 (histCount hist address value) increment
        else histCount hist a v := by
  obtain ⟨vec1, e, hget⟩ := value2histVec_spec (amapGet [] hist address) value increment hv
  unfold value2hist
  rw [e]
  refine ⟨_, rfl, ?_⟩
  intro a v
  unfold histCount
  rw [amapGet_amapSet]
  by_cases ha : a = address
  · rw [if_pos ha, hget v]
    by_cases hv1 : v = value
    · rw [if_pos hv1, if_pos ⟨ha, hv1⟩]
    · rw [if_neg hv1, if_neg (fun h => hv1 h.2), ha]
  · rw [if_neg ha, if_neg (fun h => ha h.1)]

/-! ## Latency histogram -/

theorem latency_commitBlock_spec (flags address memlat : Nat) (hist : histogram)
    (N : Nat → Nat → Nat) (hm : memlat < 2 ^ 16)
    (hinv : ∀ a v, histCount hist a v = N a v % 2 ^ 64) :
    ∃ h1, tracedoctor_latency_hist.commitBlock flags address memlat hist = some h1 ∧
      ∀ a v, histCount h1 a v =
        (N a v + b2n (hasBit flags INSTR_COMMITS && decide (address = a) &&
          decide (memlat = v))) % 2 ^ 64 := by
  unfold tracedoctor_latency_hist.commitBlock
  cases hc : hasBit flags INSTR_COMMITS
  · simp only [Bool.false_eq_true, if_false, Bool.false_and, b2n, Nat.add_zero]
    exact ⟨hist, rfl, hinv⟩
  · simp only [if_true, Bool.true_and]
    obtain ⟨h1, e, hget⟩ := value2hist_spec hist address memlat 1 (by omega)
    refine ⟨h1, e, ?_⟩
    intro a v
    rw [hget a v]
    by_cases hav : a = address ∧ v = memlat
    · rw [if_pos hav, hinv, hav.1, hav.2]
      simp only [decide_True, Bool.and_self, b2n, if_true, add64, Nat.add_mod, Nat.mod_mod]
    · rw [if_neg hav, hinv]
      have hb : (decide (address = a) && decide (memlat = v)) = false := by
        rw [Bool.and_eq_false_iff]
        by_cases ha : address = a
        · right
          simp only [decide_eq_false_iff_not]
          exact fun hv => hav ⟨ha.symm, hv.symm⟩
        · left
          simp only [decide_eq_false_iff_not]
          exact ha
      rw [hb]
      simp [b2n]

theorem latency_step_spec (s : tracedoctor_latency_hist) (token : robAnalysisToken)
    (N : Nat → Nat → Nat) (hwf : token.WF)
    (hinv : ∀ a v, histCount s.memoryLatencyHist a v = N a v % 2 ^ 64) :
    ∃ s1, tracedoctor_latency_hist.step s token = some s1 ∧
      ∀ a v, histCount s1.memoryLatencyHist a v = (N a v + slotHits token a v) % 2 ^ 64 := by
  obtain ⟨_, _, _, _, _, _, _, _, _, _, _, _, m0, m1, m2, m3, _⟩ := hwf
  unfold tracedoctor_latency_hist.step slotHits
  cases hc : hasBit token.rob ROB_COMMITTING
  · simp only [Bool.false_eq_true, if_false, Nat.add_zero]
    exact ⟨s, rfl, hinv⟩
  · simp only [if_true]
    obtain ⟨h0, e0, i0⟩ := latency_commitBlock_spec token.instr0_flags token.instr0_address
      token.instr0_memlat s.memoryLatencyHist N m0 hinv
    obtain ⟨h1, e1, i1⟩ := latency_commitBlock_spec token.instr1_flags token.instr1_address
      token.instr1_memlat h0 _ m1 i0
    obtain ⟨h2, e2, i2⟩ := latency_commitBlock_spec token.instr2_flags token.instr2_address
      token.instr2_memlat h1 _ m2 i1
    obtain ⟨h3, e3, i3⟩ := latency_commitBlock_spec token.instr3_flags token.instr3_address
      token.instr3_memlat h2 _ m3 i2
    rw [e0]
    dsimp only
    rw [e1]
    dsimp only
    rw [e2]
    dsimp only
    rw [e3]
    refine ⟨_, rfl, ?_⟩
    intro a v
    rw [i3 a v]
    congr 1
    omega

theorem latency_tick_spec (toks : List robAnalysisToken) :
    ∀ (s : tracedoctor_latency_hist) (N : Nat → Nat → Nat), (∀ t ∈ toks, t.WF) →
      (∀ a v, histCount s.memoryLatencyHist a v = N a v % 2 ^ 64) →
      ∃ s1, tracedoctor_latency_hist.tick s toks = some s1 ∧
        ∀ a v, histCount s1.memoryLatencyHist a v =
          (N a v + latencyCount toks a v) % 2 ^ 64 := by
  induction toks with
  | nil =>
    intro s N _ hinv
    exact ⟨s, rfl, by simpa [latencyCount] using hinv⟩
  | cons t ts ih =>
    intro s N hwf hinv
    obtain ⟨s1, e1, i1⟩ := latency_step_spec s t N (hwf t (List.mem_cons_self _ _)) hinv
    obtain ⟨s2, e2, i2⟩ := ih s1 (fun a v => N a v + slotHits t a v)
      (fun u hu => hwf u (List.mem_cons_of_mem _ hu)) i1
    refine ⟨s2, by simp only [tracedoctor_latency_hist.tick, e1, e2], ?_⟩
    intro a v
    rw [i2 a v]
    simp only [latencyCount, List.map_cons, List.sum_cons]
    congr 1
    omega

theorem slotHits_le (t : robAnalysisToken) (a v : Nat) : slotHits t a v ≤ 4 := by
  unfold slotHits
  split
  · have h := fun c => b2n_le_one c
    have h0 := h (hasBit t.instr0_flags INSTR_COMMITS && decide (t.instr0_address = a) &&
      decide (t.instr0_memlat = v))
    have h1 := h (hasBit t.instr1_flags INSTR_COMMITS && decide (t.instr1_address = a) &&
      decide (t.instr1_memlat = v))
    have h2 := h (hasBit t.instr2_flags INSTR_COMMITS && decide (t.instr2_address = a) &&
      decide (t.instr2_memlat = v))
    have h3 := h (hasBit t.instr3_flags INSTR_COMMITS && decide (t.instr3_address = a) &&
      decide (t.instr3_memlat = v))
    omega
  · omega

theorem latencyCount_le (toks : List robAnalysisToken) (a v : Nat) :
    latencyCount toks a v ≤ 4 * toks.length := by
  induction toks with
  | nil => simp [latencyCount]
  | cons t ts ih =>
    have h := slotHits_le t a v
    simp only [latencyCount, List.map_cons, List.sum_cons, List.length_cons] at ih ⊢
    omega

/-- C15. Latency histogram. After the latency-histogram worker, starting with an empty
histogram, has processed any sequence of tokens (its first token included: the worker has no
trigger), every counter `memoryLatencyHist[a][v]` equals the number of slots with COMMITS,
address `a` and memory latency `v` over all tokens whose ROB status has COMMITTING. The
counters are 64 bits wide, so the equality is modulo `2^64`, and exact for every buffer of
less than `2^62` tokens. -/
theorem latency_hist_counts (s0 : tracedoctor_latency_hist) (toks : List robAnalysisToken)
    (hs0 : s0.memoryLatencyHist = []) (hwf : ∀ t ∈ toks, t.WF) :
    ∃ s, tracedoctor_latency_hist.tick s0 toks = some s ∧
      ∀ a v, histCount s.memoryLatencyHist a v = latencyCount toks a v % 2 ^ 64 ∧
        (toks.length < 2 ^ 62 → histCount s.memoryLatencyHist a v = latencyCount toks a v) := by
  obtain ⟨s, e, h⟩ := latency_tick_spec toks s0 (fun _ _ => 0) hwf
    (by intro a v; rw [hs0]; rfl)
  refine ⟨s, e, ?_⟩
  intro a v
  have hav := h a v
  simp only [Nat.zero_add] at hav
  refine ⟨hav, ?_⟩
  intro hlen
  rw [hav]
  have := latencyCount_le toks a v
  exact Nat.mod_eq_of_lt (by omega)

/-- Witness of `latency_hist_counts`: scenario S6, one token with four committing slots at
`0xA`, `0xB`, `0xC`, `0xD` and memory latencies 5, 10, 10, 99, fed as the very first token,
yields exactly four entries, each with a single counter of 1. -/
theorem latency_hist_counts_witness :
    tracedoctor_latency_hist.ctor (fun _ => 0) [] 64 = .ok latencyFresh ∧
    ∃ s, tracedoctor_latency_hist.tick latencyFresh [s6Token] = some s ∧
      s.memoryLatencyHist =
        [(0xA, List.replicate 5 0 ++ [1]), (0xB, List.replicate 10 0 ++ [1]),
         (0xC, List.replicate 10 0 ++ [1]), (0xD, List.replicate 99 0 ++ [1])] ∧
      ∀ a v, histCount s.memoryLatencyHist a v = latencyCount [s6Token] a v % 2 ^ 64 ∧
        ([s6Token].length < 2 ^ 62 →
          histCount s.memoryLatencyHist a v = latencyCount [s6Token] a v) := by
  obtain ⟨s, e, h⟩ := latency_hist_counts latencyFresh [s6Token] rfl (by decide)
  have e1 : tracedoctor_latency_hist.tick latencyFresh [s6Token] = some
      { latencyFresh with memoryLatencyHist :=
        [(0xA, List.replicate 5 0 ++ [1]), (0xB, List.replicate 10 0 ++ [1]),
         (0xC, List.replicate 10 0 ++ [1]), (0xD, List.replicate 99 0 ++ [1])] } := by
    decide
  rw [e1] at e
  simp only [Option.some.injEq] at e
  subst e
  exact ⟨by decide, _, e1, rfl, h⟩

/-! ## Scenarios S3 (TEA-gold) and S4 (PEBS sampler) -/

/-- C13 (as amended). Scenario S3. TEA-gold, fed a first token at cycle 49 and then the
COMMITTING token of cycle 50 (slot 0 commits with `COMMITS|VALID|BR_MISS` at `0x200`), holds
the branch pending with no observation recorded. Processing the POPULATED token of cycle 80
records one observation for `0x200`: the severity counter of `80 - 50 - 1 = 29` under the
signature of the branch becomes 1, `result[0x200]` grows by `24 + 29 * 24` under that
signature, and the branch is no longer pending. -/
theorem gold_S3 :
    goldBranchTokens.drop 1 = s3Tokens.take 1 ∧
    s3Tokens.get? 1 = some (populatedToken 80) ∧
    (tracedoctor_tea_gold.tick goldFresh goldBranchTokens).map
        (fun s => s.lastInstructionRegister.oir) = some true ∧
    (tracedoctor_tea_gold.tick goldFresh goldBranchTokens).map
        (fun s => s.severityHists) = some [] ∧
    (tracedoctor_tea_gold.tick goldFresh goldBranchTokens).map (fun s => s.result) = some [] ∧
    ((tracedoctor_tea_gold.tick goldFresh goldBranchTokens).bind
        (fun s => tracedoctor_tea_gold.step s (populatedToken 80))).map
        (fun s => s.lastInstructionRegister.oir) = some false ∧
    ((tracedoctor_tea_gold.tick goldFresh goldBranchTokens).bind
        (fun s => tracedoctor_tea_gold.step s (populatedToken 80))).map
        (fun s => s.severityHists) = some [(1024, [(0x200, List.replicate 29 0 ++ [1])])] ∧
    ((tracedoctor_tea_gold.tick goldFresh goldBranchTokens).bind
        (fun s => tracedoctor_tea_gold.step s (populatedToken 80))).map (fun s => s.result) =
      some [(0x200, List.replicate 1024 0 ++ [24 + 29 * 24])] := by
  refine ⟨by decide, by decide, by decide!, by decide!, by decide!, by decide!, by decide!,
    by decide!⟩

/-- C13 (counterexample). TEA-gold as constructed, fed exactly the three tokens of scenario
S3: the token of cycle 50 is the first token, which only resets the register, so nothing is
pending and processing the token of cycle 80 records no observation; after all three tokens
no histogram has an entry for `0x200`. -/
theorem gold_S3_counterexample :
    tracedoctor_tea_gold.ctor (fun _ => 0) [] 64 =
      .ok goldFresh ∧
    (tracedoctor_tea_gold.tick goldFresh (s3Tokens.take 1)).map
        (fun s => s.lastInstructionRegister.oir) = some false ∧
    (tracedoctor_tea_gold.tick goldFresh (s3Tokens.take 2)).map
        (fun s => s.severityHists) = some [] ∧
    (tracedoctor_tea_gold.tick goldFresh (s3Tokens.take 2)).map (fun s => s.result) = some [] ∧
    (tracedoctor_tea_gold.tick goldFresh s3Tokens).map
        (fun s => amapMem s.result 0x200) = some false ∧
    (tracedoctor_tea_gold.tick goldFresh s3Tokens).map
        (fun s => s.severityHists.all (fun e => !amapMem e.2 0x200)) = some true := by
  refine ⟨by decide, by decide!, by decide!, by decide!, by decide!, by decide!⟩

/-- C14 (as amended). Scenario S4. The PEBS sampler with `samplingPeriod = 1000` and no random
offsets, fed a first token at cycle 0 and then tokens at cycle 500 (POPULATED), 1000
(COMMITTING, slot 0 at `0xD`) and 2000 (COMMITTING, slot 0 at `0xE`), writes exactly two rows:
sampling cycle 1000 with address `0xD` and sampling cycle 2000 with address `0xE`. Fed the
three tokens alone, the token of cycle 500 is the first token and restarts the sampling window
there: exactly one row is written, with sampling cycle 1500 and address `0xE`. -/
theorem pebs_S4 :
    tracedoctor_pebs_sampler.ctor (fun _ => 0) [["samplingPeriod", "1000"]] 64 =
      .ok pebsFresh1000 ∧
    (tracedoctor_pebs_sampler.tick (fun _ => 0) pebsFresh1000 (populatedToken 0 :: s4Tokens)).map
        (fun s => s.out.map (fun r => (r.cycle, r.addresses))) =
      some [(1000, [0xD, 0, 0, 0]), (2000, [0xE, 0, 0, 0])] ∧
    (tracedoctor_pebs_sampler.tick (fun _ => 0) pebsFresh1000 s4Tokens).map
        (fun s => s.out.map (fun r => (r.cycle, r.addresses))) =
      some [(1500, [0xE, 0, 0, 0])] := by
  decide!

/-- C14 (counterexample). The PEBS sampler constructed with `samplingPeriod:1000`, fed the
three tokens of scenario S4, writes one row, not two, and its sampling cycle is 1500. -/
theorem pebs_S4_counterexample :
    (tracedoctor_pebs_sampler.tick (fun _ => 0) pebsFresh1000 s4Tokens).map
        (fun s => (s.out.length, s.out.map (fun r => r.cycle))) = some (1, [1500]) ∧
    (tracedoctor_pebs_sampler.tick (fun _ => 0) pebsFresh1000 s4Tokens).map
        (fun s => s.out.length) ≠ some 2 := by
  decide!

/-! ## What `flushResult` leaves in the histograms -/

theorem latency_step_out (s s1 : tracedoctor_latency_hist) (token : robAnalysisToken)
    (h : tracedoctor_latency_hist.step s token = some s1) : s1.out = s.out := by
  unfold tracedoctor_latency_hist.step at h
  split at h
  · split at h
    · exact absurd h (by simp)
    · split at h
      · exact absurd h (by simp)
      · split at h
        · exact absurd h (by simp)
        · split at h
          · exact absurd h (by simp)
          · simp only [Option.some.injEq] at h
            rw [← h]
  · simp only [Option.some.injEq] at h
    rw [← h]

theorem latency_tick_out (toks : List robAnalysisToken) :
    ∀ (s s1 : tracedoctor_latency_hist), tracedoctor_latency_hist.tick s toks = some s1 →
      s1.out = s.out := by
  induction toks with
  | nil =>
    intro s s1 h
    simp only [tracedoctor_latency_hist.tick, Option.some.injEq] at h
    rw [← h]
  | cons t ts ih =>
    intro s s1 h
    simp only [tracedoctor_latency_hist.tick] at h
    split at h
    · exact absurd h (by simp)
    · rename_i s2 h2
      rw [ih s2 s1 h, latency_step_out s s2 t h2]

/-- The function `flushResult` of TEA-gold writes `result` to the second file and keeps it. -/
theorem gold_flushResult_out1 (s : tracedoctor_tea_gold) (hwf : goldWF s) :
    ∃ s1 l, tracedoctor_tea_gold.flushResult s = some s1 ∧
      hist2fileNorm 64 s.result = some l ∧ s1.out1 = s.out1 ++ l ∧
      s1.result = s.result ∧ s1.severityHists = [] ∧ s1.base = s.base ∧ goldWF s1 := by
  obtain ⟨o, ho⟩ := gold_flushSeverity_some s.severityHists hwf.2
    tracedoctor_tea_gold.numSignatures s.out0
  obtain ⟨l, hl⟩ := hist2fileNorm_some 64 s.result hwf.1
  unfold tracedoctor_tea_gold.flushResult
  simp only [ho, hl]
  exact ⟨_, l, rfl, rfl, rfl, rfl, rfl, rfl,
    ⟨hwf.1, fun e he => absurd he (List.not_mem_nil _)⟩⟩

/-- A token whose ROB status has none of POPULATED, COMMITTING and EXCEPTION, at which a flush
is due: the iteration of `tick` is the flush. -/
theorem gold_step_flush_quiet (s : tracedoctor_tea_gold) (token : robAnalysisToken)
    (hwf : goldWF s) (hnf : s.base.firstToken = false)
    (hfl : (triggerDetection s.base token).1 = true)
    (hq : hasBit token.rob (ROB_POPULATED ||| ROB_COMMITTING ||| ROB_EXCEPTION) = false) :
    ∃ s1 l, tracedoctor_tea_gold.step s token = some s1 ∧
      hist2fileNorm 64 s.result = some l ∧ s1.out1 = s.out1 ++ l ∧
      s1.result = s.result ∧ s1.severityHists = [] ∧
      s1.base = (triggerDetection s.base token).2.2 ∧ goldWF s1 := by
  rw [hasBit_or, hasBit_or] at hq
  simp only [Bool.or_eq_false_iff] at hq
  obtain ⟨⟨hp, hc⟩, he⟩ := hq
  obtain ⟨s1, l, e, hl, o, r, sv, b, w⟩ := gold_flushResult_out1
    { s with base := (triggerDetection s.base token).2.2 } hwf
  obtain ⟨t1, _⟩ := triggerDetection_notFirst s.base token hnf
  have hpop : tracedoctor_tea_gold.populatedPart s1 token = some s1 := by
    unfold tracedoctor_tea_gold.populatedPart
    simp [hp]
  have hprog : tracedoctor_tea_gold.progressPart s1 token = some s1 := by
    unfold tracedoctor_tea_gold.progressPart
    rw [hasBit_or]
    simp [hc, he]
  refine ⟨s1, l, ?_, hl, o, r, sv, b, w⟩
  unfold tracedoctor_tea_gold.step
  dsimp only
  rw [hfl, t1]
  simp only [if_true, e, Bool.false_eq_true, if_false, hpop, hprog]

/-- What `flushResult` empties. After `flushResult` of the TEA-gold worker every severity
histogram is empty, so the severity observations written in one flush window are not written
again by the next flush. The latency-histogram worker has no flush windows: its `tick` writes
nothing, and its `flushResult`, which only the destructor calls, writes the memory-latency
histogram and leaves it as it is. -/
theorem flush_empties_severity (g : tracedoctor_tea_gold) (l : tracedoctor_latency_hist)
    (hg : goldWF g) (hl : histWF l.memoryLatencyHist) :
    (∃ g1, tracedoctor_tea_gold.flushResult g = some g1 ∧ g1.severityHists = [] ∧
      ∀ sig a v, histCount (amapGet [] g1.severityHists sig) a v = 0) ∧
    (∃ l1, tracedoctor_latency_hist.flushResult l = some l1 ∧
      l1.memoryLatencyHist = l.memoryLatencyHist) ∧
    (∀ toks l1, tracedoctor_latency_hist.tick l toks = some l1 → l1.out = l.out) := by
  refine ⟨?_, ?_, fun toks l1 h => latency_tick_out toks l l1 h⟩
  · obtain ⟨g1, e, _, _, _, sv, _⟩ := gold_flushResult_spec g hg
    refine ⟨g1, e, sv, ?_⟩
    intro sig a v
    rw [sv]
    rfl
  · obtain ⟨ls, hls⟩ := hist2file_some 16 [] l.memoryLatencyHist hl
    unfold tracedoctor_latency_hist.flushResult
    rw [hls]
    exact ⟨_, rfl, rfl⟩

/-- Witness of `flush_empties_severity`: a TEA-gold worker holding one severity observation
and a latency-histogram worker holding one latency observation. -/
theorem flush_empties_severity_witness :
    goldWF { goldFresh with severityHists := [(1024, [(0x200, [0, 1])])] } ∧
    histWF [(0xA, [0, 0, 1])] ∧
    (∃ g1, tracedoctor_tea_gold.flushResult
        { goldFresh with severityHists := [(1024, [(0x200, [0, 1])])] } = some g1 ∧
      g1.severityHists = [] ∧
      ∀ sig a v, histCount (amapGet [] g1.severityHists sig) a v = 0) ∧
    (∃ l1, tracedoctor_latency_hist.flushResult
        { latencyFresh with memoryLatencyHist := [(0xA, [0, 0, 1])] } = some l1 ∧
      l1.memoryLatencyHist = [(0xA, [0, 0, 1])]) :=
  ⟨by decide, by decide,
    (flush_empties_severity { goldFresh with severityHists := [(1024, [(0x200, [0, 1])])] }
      { latencyFresh with memoryLatencyHist := [(0xA, [0, 0, 1])] }
      (by decide) (by decide)).1,
    (flush_empties_severity { goldFresh with severityHists := [(1024, [(0x200, [0, 1])])] }
      { latencyFresh with memoryLatencyHist := [(0xA, [0, 0, 1])] }
      (by decide) (by decide)).2.1⟩

/-- C16 (failing input). TEA-gold constructed with `flushAfter:100` sees a first token at cycle
49 and a COMMITTING token at cycle 50 that commits the instruction at `0x300`: `result` holds
the entry of `0x300` (signature 0, weight 24) and nothing has been written. The token of
cycle 100 is due for a flush: `flushResult` empties `severityHists` and writes the line of
`0x300` to the second file, but `result` still holds the entry. No instruction commits in
the second flush window, and the flush due at the token of cycle 200 writes the line of
`0x300` a second time. -/
theorem flush_keeps_result :
    ∃ sA, tracedoctor_tea_gold.tick goldFlush100 goldWindowTokens = some sA ∧
      sA.severityHists = [(0, [(0x300, [1])])] ∧ sA.result = [(0x300, [24])] ∧ sA.out1 = [] ∧
      ∃ sB, tracedoctor_tea_gold.step sA (dispatchingToken 100) = some sB ∧
        sB.severityHists = [] ∧ sB.result = [(0x300, [24])] ∧
        sB.out1 = [(0x300, [(0, 24)])] ∧
        ∃ sC, tracedoctor_tea_gold.step sB (dispatchingToken 200) = some sC ∧
          sC.result = [(0x300, [24])] ∧
          sC.out1 = [(0x300, [(0, 24)]), (0x300, [(0, 24)])] := by
  have hA : tracedoctor_tea_gold.tick goldFlush100 goldWindowTokens = some
      { goldFlush100 with
        base := { base_profiler.initial with flushThreshold := 100, firstToken := false }
        lastInstructionRegister := { goldInstrInfo.zero with flags := 3 }
        severityHists := [(0, [(0x300, [1])])]
        result := [(0x300, [24])]
        lastProgressCycle := 50 } := by decide!
  refine ⟨_, hA, rfl, rfl, rfl, ?_⟩
  obtain ⟨sB, lB, eB, hlB, oB, rB, svB, bB, wB⟩ := gold_step_flush_quiet
    { goldFlush100 with
      base := { base_profiler.initial with flushThreshold := 100, firstToken := false }
      lastInstructionRegister := { goldInstrInfo.zero with flags := 3 }
      severityHists := [(0, [(0x300, [1])])]
      result := [(0x300, [24])]
      lastProgressCycle := 50 } (dispatchingToken 100)
    (by decide) (by decide) (by decide) (by decide)
  have hl1 : hist2fileNorm 64 [(0x300, [24])] = some [(0x300, [(0, 24)])] := by decide
  have rB1 : sB.result = [(0x300, [24])] := rB
  have hlB1 : some lB = some [(0x300, [(0, 24)])] := by rw [← hlB]; exact hl1
  simp only [Option.some.injEq] at hlB1
  have oB1 : sB.out1 = [(0x300, [(0, 24)])] := by rw [oB, hlB1]; rfl
  have bB1 : sB.base =
      { base_profiler.initial with
        flushThreshold := 100, firstToken := false, lastFlushPeriod := 100 } := by
    rw [bB]; decide
  refine ⟨sB, eB, svB, rB1, oB1, ?_⟩
  obtain ⟨sC, lC, eC, hlC, oC, rC, _, _, _⟩ := gold_step_flush_quiet sB (dispatchingToken 200)
    wB (by rw [bB1]) (by rw [bB1]; decide) (by decide)
  rw [rB1] at hlC rC
  have hlC1 : some lC = some [(0x300, [(0, 24)])] := by rw [← hlC]; exact hl1
  simp only [Option.some.injEq] at hlC1
  exact ⟨sC, eC, rC, by rw [oC, oB1, hlC1]; rfl⟩
/-! ## The first-token trigger -/

theorem triggerDetection_ret (b : base_profiler) (token : robAnalysisToken) :
    (triggerDetection b token).2.1 = b.firstToken := by
  cases h : b.firstToken
  · exact (triggerDetection_notFirst b token h).1
  · unfold triggerDetection
    dsimp only
    have hb1 : (if (decide (b.flushThreshold ≠ 0) &&
        decide (sub64 token.tsc_cycle b.lastFlushPeriod ≥ b.flushThreshold)) = true then
        { b with lastFlushPeriod := token.tsc_cycle } else b).firstToken = true := by
      split
      · exact h
      · exact h
    generalize (if (decide (b.flushThreshold ≠ 0) &&
        decide (sub64 token.tsc_cycle b.lastFlushPeriod ≥ b.flushThreshold)) = true then
        { b with lastFlushPeriod := token.tsc_cycle } else b) = b1 at hb1
    simp [hb1]

theorem oracle_step_firstToken (s s1 : tracedoctor_oracle) (token : robAnalysisToken)
    (h : tracedoctor_oracle.step s token = some s1) : s1.base.firstToken = false := by
  have ht := triggerDetection_firstToken s.base token
  unfold tracedoctor_oracle.step at h
  dsimp only at h
  have hb : (if (triggerDetection s.base token).1 = true then
      tracedoctor_oracle.flushResult { s with base := (triggerDetection s.base token).2.2 }
      else { s with base := (triggerDetection s.base token).2.2 }).base.firstToken = false := by
    split
    · exact ht
    · exact ht
  generalize (if (triggerDetection s.base token).1 = true then
      tracedoctor_oracle.flushResult { s with base := (triggerDetection s.base token).2.2 }
      else { s with base := (triggerDetection s.base token).2.2 }) = s2 at h hb
  by_cases h1 : (triggerDetection s.base token).2.1 = true
  · rw [if_pos h1] at h
    simp only [Option.some.injEq] at h
    rw [← h]
    exact hb
  · rw [if_neg h1] at h
    by_cases h2 : hasBit token.rob (ROB_POPULATED ||| ROB_COMMITTING ||| ROB_EXCEPTION) = true
    · rw [if_pos h2] at h
      cases ha : tracedoctor_oracle.account s2.result s2.lastToken token with
      | none => rw [ha] at h; exact absurd h (by simp)
      | some r =>
        rw [ha] at h
        simp only [Option.some.injEq] at h
        rw [← h]
        exact hb
    · rw [if_neg h2] at h
      simp only [Option.some.injEq] at h
      rw [← h]
      exact hb

/-- The first token seen by a constructed Oracle is not accounted. -/
theorem oracle_first_not_accounted (s : tracedoctor_oracle) (token : robAnalysisToken)
    (hf : s.base.firstToken = true) (hr : s.result = []) :
    ∃ s1, tracedoctor_oracle.step s token = some s1 ∧ s1.result = s.result ∧
      s1.lastToken = token ∧ s1.out = s.out := by
  have hret := triggerDetection_ret s.base token
  rw [hf] at hret
  unfold tracedoctor_oracle.step
  dsimp only
  rw [if_pos hret]
  refine ⟨_, rfl, ?_, rfl, ?_⟩
  · split
    · rw [hr]; rfl
    · rfl
  · split
    · show s.out ++ s.result = s.out
      rw [hr, List.append_nil]
    · rfl

theorem gold_populatedPart_base (s s1 : tracedoctor_tea_gold) (token : robAnalysisToken)
    (hwf : goldWF s) (h : tracedoctor_tea_gold.populatedPart s token = some s1) :
    goldWF s1 ∧ s1.base = s.base := by
  unfold tracedoctor_tea_gold.populatedPart at h
  split at h
  · split at h
    · exact absurd h (by simp)
    · rename_i s2 h2
      obtain ⟨w, b, _⟩ := gold_attributeOIR_WF s s2 _ hwf h2
      simp only [Option.some.injEq] at h
      rw [← h]
      exact ⟨w, b⟩
  · simp only [Option.some.injEq] at h
    rw [← h]
    exact ⟨hwf, rfl⟩

theorem gold_progressPart_base (s s1 : tracedoctor_tea_gold) (token : robAnalysisToken)
    (hwf : goldWF s) (h : tracedoctor_tea_gold.progressPart s token = some s1) :
    goldWF s1 ∧ s1.base = s.base := by
  unfold tracedoctor_tea_gold.progressPart at h
  split at h
  · dsimp only at h
    cases h2 : tracedoctor_tea_gold.attributeOIR s 0 with
    | none => rw [h2] at h; exact absurd h (by simp)
    | some s2 =>
      rw [h2] at h
      dsimp only at h
      obtain ⟨w2, b2, _⟩ := gold_attributeOIR_WF s s2 _ hwf h2
      by_cases hc : hasBit token.rob ROB_COMMITTING = true
      · rw [if_pos hc] at h
        cases h3 : tracedoctor_tea_gold.commitPart s2 token
            (sub64 (sub64 token.tsc_cycle s.lastProgressCycle) 1) with
        | none => rw [h3] at h; exact absurd h (by simp)
        | some s3 =>
          rw [h3] at h
          obtain ⟨w3, b3, _⟩ := gold_commitPart_spec s2 s3 token _ w2 h3
          simp only [Option.some.injEq] at h
          rw [← h]
          exact ⟨w3, by rw [← b2, ← b3]⟩
      · rw [if_neg hc] at h
        cases h3 : tracedoctor_tea_gold.attributeInstr s2 (getFirstValid token).address
            INSTR_EXCPT 0 (sub64 (sub64 token.tsc_cycle s.lastProgressCycle) 1) 24 with
        | none => rw [h3] at h; exact absurd h (by simp)
        | some s3 =>
          rw [h3] at h
          obtain ⟨w3, b3, _⟩ := gold_attributeInstr_WF s2 s3 _ _ _ _ _ w2 h3
          simp only [Option.some.injEq] at h
          rw [← h]
          exact ⟨w3, by rw [← b2, ← b3]⟩
  · simp only [Option.some.injEq] at h
    rw [← h]
    exact ⟨hwf, rfl⟩

theorem gold_step_firstToken (s s1 : tracedoctor_tea_gold) (token : robAnalysisToken)
    (hwf : goldWF s) (h : tracedoctor_tea_gold.step s token = some s1) :
    goldWF s1 ∧ s1.base.firstToken = false := by
  have ht := triggerDetection_firstToken s.base token
  obtain ⟨t, e, w, b, _⟩ := gold_trigger_spec s token hwf
  unfold tracedoctor_tea_gold.step at h
  dsimp only at h
  rw [e] at h
  dsimp only at h
  by_cases h1 : (triggerDetection s.base token).2.1 = true
  · rw [if_pos h1] at h
    simp only [Option.some.injEq] at h
    rw [← h]
    exact ⟨w, by show t.base.firstToken = false; rw [b]; exact ht⟩
  · rw [if_neg h1] at h
    cases h2 : tracedoctor_tea_gold.populatedPart t token with
    | none => rw [h2] at h; exact absurd h (by simp)
    | some s2 =>
      rw [h2] at h
      dsimp only at h
      obtain ⟨w2, b2⟩ := gold_populatedPart_base t s2 token w h2
      obtain ⟨w3, b3⟩ := gold_progressPart_base s2 s1 token w2 h
      exact ⟨w3, by rw [b3, b2, b]; exact ht⟩

theorem tea_samplePoint_firstToken (rng : Nat → Nat) (s s1 : tracedoctor_tea_sampler)
    (token : robAnalysisToken) (h : tracedoctor_tea_sampler.samplePoint rng s token = some s1) :
    s1.base.firstToken = s.base.firstToken := by
  unfold tracedoctor_tea_sampler.samplePoint at h
  by_cases hr : reachedSamplingPeriod s.base token.tsc_cycle = true
  · rw [if_pos hr] at h
    dsimp only at h
    cases hadv : advanceSamplingPeriod rng s.base token.tsc_cycle with
    | none => rw [hadv] at h; exact absurd h (by simp)
    | some adv =>
      rw [hadv] at h
      dsimp only at h
      have ha := advanceSamplingPeriod_firstToken rng s.base token.tsc_cycle adv hadv
      split at h
      · split at h
        · simp only [Option.some.injEq] at h; rw [← h]; exact ha
        · simp only [Option.some.injEq] at h; rw [← h]; exact ha
      · split at h
        · simp only [Option.some.injEq] at h; rw [← h]; exact ha
        · simp only [Option.some.injEq] at h; rw [← h]; exact ha
  · rw [if_neg hr] at h
    simp only [Option.some.injEq] at h
    rw [← h]

theorem tea_emitPart_base (s : tracedoctor_tea_sampler) (token : robAnalysisToken) :
    (tracedoctor_tea_sampler.emitPart s token).base = s.base := by
  unfold tracedoctor_tea_sampler.emitPart
  split <;> rfl

theorem tea_step_firstToken (rng : Nat → Nat) (s s1 : tracedoctor_tea_sampler)
    (token : robAnalysisToken) (h : tracedoctor_tea_sampler.step rng s token = some s1) :
    s1.base.firstToken = false := by
  have ht := triggerDetection_firstToken s.base token
  unfold tracedoctor_tea_sampler.step at h
  by_cases h1 : (triggerDetection s.base token).2.1 = true
  · rw [if_pos h1] at h
    simp only [Option.some.injEq] at h
    rw [← h]
    exact ht
  · rw [if_neg h1] at h
    unfold tracedoctor_tea_sampler.body at h
    split at h
    · cases h3 : tracedoctor_tea_sampler.samplePoint rng
          (tracedoctor_tea_sampler.oirGap { s with base := (triggerDetection s.base token).2.2 }
            token) token with
      | none => rw [h3] at h; exact absurd h (by simp)
      | some s3 =>
        rw [h3] at h
        simp only [Option.some.injEq] at h
        rw [← h, (tea_registerPart_fields _ token).1, tea_emitPart_base,
          tea_samplePoint_firstToken rng _ s3 token h3, (tea_oirGap_fields _ token).1]
        exact ht
    · simp only [Option.some.injEq] at h
      rw [← h]
      exact ht

theorem pebs_samplePoint_firstToken (rng : Nat → Nat) (s s1 : tracedoctor_pebs_sampler)
    (token : robAnalysisToken) (h : tracedoctor_pebs_sampler.samplePoint rng s token = some s1) :
    s1.base.firstToken = s.base.firstToken := by
  unfold tracedoctor_pebs_sampler.samplePoint at h
  by_cases hr : reachedSamplingPeriod s.base token.tsc_cycle = true
  · rw [if_pos hr] at h
    cases hadv : advanceSamplingPeriod rng s.base token.tsc_cycle with
    | none => rw [hadv] at h; exact absurd h (by simp)
    | some adv =>
      rw [hadv] at h
      simp only [Option.some.injEq] at h
      rw [← h]
      exact advanceSamplingPeriod_firstToken rng s.base token.tsc_cycle adv hadv
  · rw [if_neg hr] at h
    simp only [Option.some.injEq] at h
    rw [← h]

theorem pebs_emitPart_base (s : tracedoctor_pebs_sampler) (token : robAnalysisToken) :
    (tracedoctor_pebs_sampler.emitPart s token).base = s.base := by
  unfold tracedoctor_pebs_sampler.emitPart
  split <;> rfl

theorem pebs_step_firstToken (rng : Nat → Nat) (s s1 : tracedoctor_pebs_sampler)
    (token : robAnalysisToken) (h : tracedoctor_pebs_sampler.step rng s token = some s1) :
    s1.base.firstToken = false := by
  have ht := triggerDetection_firstToken s.base token
  unfold tracedoctor_pebs_sampler.step at h
  by_cases h1 : (triggerDetection s.base token).2.1 = true
  · rw [if_pos h1] at h
    simp only [Option.some.injEq] at h
    rw [← h]
    exact ht
  · rw [if_neg h1] at h
    unfold tracedoctor_pebs_sampler.body at h
    cases h3 : tracedoctor_pebs_sampler.samplePoint rng
        (tracedoctor_pebs_sampler.oirGap { s with base := (triggerDetection s.base token).2.2 }
          token) token with
    | none => rw [h3] at h; exact absurd h (by simp)
    | some s3 =>
      rw [h3] at h
      simp only [Option.some.injEq] at h
      rw [← h, (pebs_registerPart_fields _ token).1, pebs_emitPart_base,
        pebs_samplePoint_firstToken rng _ s3 token h3, (pebs_oirGap_fields _ token).1]
      exact ht

/-- C17. First-token trigger. A constructed profiler has `firstToken` set; `triggerDetection`
returns the value of `firstToken` and clears it; no iteration of a worker's `tick` loop sets
it again (Oracle, TEA-gold, TEA, IBS and PEBS samplers). So `triggerDetection` returns true
on the first token a worker ever sees and false on every later one. The first token of a
constructed Oracle is not accounted: the result map is unchanged, nothing is written, and
`lastToken` is that token. -/
theorem first_token_trigger (rng : Nat → Nat) (args : List (List String)) (tokenBytes : Nat)
    (token : robAnalysisToken) :
    (∀ b, base_profiler.ctor rng args tokenBytes = .ok b →
      (triggerDetection b token).2.1 = true) ∧
    (∀ b, (triggerDetection b token).2.1 = b.firstToken ∧
      (triggerDetection b token).2.2.firstToken = false) ∧
    (∀ s s1 later, tracedoctor_oracle.step s token = some s1 →
      (triggerDetection s1.base later).2.1 = false) ∧
    (∀ s s1 later, goldWF s → tracedoctor_tea_gold.step s token = some s1 →
      goldWF s1 ∧ (triggerDetection s1.base later).2.1 = false) ∧
    (∀ s s1 later, tracedoctor_tea_sampler.step rng s token = some s1 →
      (triggerDetection s1.base later).2.1 = false) ∧
    (∀ s s1 later, tracedoctor_ibs_sampler.step rng s token = some s1 →
      (triggerDetection s1.base later).2.1 = false) ∧
    (∀ s s1 later, tracedoctor_pebs_sampler.step rng s token = some s1 →
      (triggerDetection s1.base later).2.1 = false) ∧
    (∀ s0, tracedoctor_oracle.ctor rng args tokenBytes = .ok s0 →
      ∃ s1, tracedoctor_oracle.step s0 token = some s1 ∧ s1.result = s0.result ∧
        s1.lastToken = token ∧ s1.out = s0.out) := by
  refine ⟨?_, ?_, ?_, ?_, ?_, ?_, ?_, ?_⟩
  · intro b hb
    rw [triggerDetection_ret, (base_ctor_fresh rng args tokenBytes b hb).1]
  · intro b
    exact ⟨triggerDetection_ret b token, triggerDetection_firstToken b token⟩
  · intro s s1 later h
    rw [triggerDetection_ret, oracle_step_firstToken s s1 token h]
  · intro s s1 later hwf h
    obtain ⟨w, f⟩ := gold_step_firstToken s s1 token hwf h
    exact ⟨w, by rw [triggerDetection_ret, f]⟩
  · intro s s1 later h
    rw [triggerDetection_ret, tea_step_firstToken rng s s1 token h]
  · intro s s1 later h
    rw [triggerDetection_ret, ibs_step_firstToken rng s s1 token h]
  · intro s s1 later h
    rw [triggerDetection_ret, pebs_step_firstToken rng s s1 token h]
  · intro s0 h0
    unfold tracedoctor_oracle.ctor at h0
    cases hb : base_profiler.ctor rng args tokenBytes with
    | error e => rw [hb] at h0; exact absurd h0 (by simp [Except.map])
    | ok b =>
      rw [hb] at h0
      simp only [Except.map, Except.ok.injEq] at h0
      have hf := (base_ctor_fresh rng args tokenBytes b hb).1
      exact oracle_first_not_accounted s0 token (by rw [← h0]; exact hf) (by rw [← h0])

/-- Witness of `first_token_trigger`: the Oracle constructed without arguments, fed a first
token at cycle 1000 and then a token at cycle 1001. -/
theorem first_token_trigger_witness :
    tracedoctor_oracle.ctor (fun _ => 0) [] 64 = .ok oracleFresh ∧
    (triggerDetection oracleFresh.base s1Token).2.1 = true ∧
    ∃ s1, tracedoctor_oracle.step oracleFresh s1Token = some s1 ∧ s1.result = oracleFresh.result ∧
      s1.lastToken = s1Token ∧ s1.out = oracleFresh.out ∧
      (triggerDetection s1.base (populatedToken 1001)).2.1 = false := by
  have hc : tracedoctor_oracle.ctor (fun _ => 0) [] 64 = .ok oracleFresh := by decide
  have hb : base_profiler.ctor (fun _ => 0) [] 64 = .ok oracleFresh.base := by decide
  have key := first_token_trigger (fun _ => 0) [] 64 s1Token
  obtain ⟨s1, e, r, l, o⟩ := key.2.2.2.2.2.2.2 oracleFresh hc
  exact ⟨hc, key.1 _ hb, s1, e, r, l, o, key.2.2.1 oracleFresh s1 (populatedToken 1001) e⟩

/-! ## `advanceSamplingPeriod` catches up -/

theorem advanceLoop_succ (rng : Nat → Nat) (count fuel : Nat) (b : base_profiler) (p : Nat) :
    advanceLoop rng count (fuel + 1) b p =
      if (advanceBody rng b).nextPeriod ≤ count then
        advanceLoop rng count fuel (advanceBody rng b)
          (add64 p (sub64 b.nextPeriod b.lastPeriod))
      else some (add64 p (sub64 b.nextPeriod b.lastPeriod), advanceBody rng b) := by
  simp only [advanceLoop, advanceBody]

theorem ditherNextPeriod_spec (rng : Nat → Nat) (b : base_profiler)
    (hn : b.nextPeriod < 2 ^ 64) (hR : b.randomOffset < b.nextPeriod) :
    (ditherNextPeriod rng b).samplingPeriod = b.samplingPeriod ∧
    (ditherNextPeriod rng b).randomOffset = b.randomOffset ∧
    (ditherNextPeriod rng b).nextPeriodStart = b.nextPeriodStart ∧
    (ditherNextPeriod rng b).lastPeriod = b.lastPeriod ∧
    (ditherNextPeriod rng b).nextPeriod ≤ b.nextPeriod ∧
    b.nextPeriod ≤ (ditherNextPeriod rng b).nextPeriod + b.randomOffset := by
  unfold ditherNextPeriod
  split
  · have hd : rng b.rngDraws % (b.randomOffset + 1) ≤ b.randomOffset :=
      Nat.lt_succ_iff.1 (Nat.mod_lt _ (Nat.succ_pos _))
    refine ⟨rfl, rfl, rfl, rfl, ?_, ?_⟩
    · show sub64 b.nextPeriod (rng b.rngDraws % (b.randomOffset + 1)) ≤ b.nextPeriod
      rw [sub64_of_le _ _ (by omega) hn]
      omega
    · show b.nextPeriod ≤ sub64 b.nextPeriod (rng b.rngDraws % (b.randomOffset + 1)) + _
      rw [sub64_of_le _ _ (by omega) hn]
      omega
  · exact ⟨rfl, rfl, rfl, rfl, le_refl _, by omega⟩

/-- One pass through the loop body when adding the period does not wrap: the start of the
next period moves one period ahead and the next sample point lies in the period before it. -/
theorem advanceBody_spec (rng : Nat → Nat) (b : base_profiler)
    (hP : 1 ≤ b.samplingPeriod) (hR : b.randomOffset ≤ b.samplingPeriod - 1)
    (hs : b.nextPeriodStart + b.samplingPeriod < 2 ^ 64) :
    (advanceBody rng b).samplingPeriod = b.samplingPeriod ∧
    (advanceBody rng b).randomOffset = b.randomOffset ∧
    (advanceBody rng b).nextPeriodStart = b.nextPeriodStart + b.samplingPeriod ∧
    (advanceBody rng b).lastPeriod = b.nextPeriod ∧
    b.nextPeriodStart + 1 ≤ (advanceBody rng b).nextPeriod ∧
    (advanceBody rng b).nextPeriod ≤ b.nextPeriodStart + b.samplingPeriod := by
  have ha : add64 b.nextPeriodStart b.samplingPeriod = b.nextPeriodStart + b.samplingPeriod :=
    add64_of_lt _ _ hs
  unfold advanceBody
  generalize add64 b.nextPeriodStart b.samplingPeriod = x at ha
  obtain ⟨d1, d2, d3, d4, d5, d6⟩ := ditherNextPeriod_spec rng
    { b with lastPeriod := b.nextPeriod, nextPeriodStart := x, nextPeriod := x }
    (by show x < 2 ^ 64; omega) (by show b.randomOffset < x; omega)
  refine ⟨d1, d2, ?_, d4, ?_, ?_⟩
  · rw [d3]; exact ha
  · have h6 : x ≤ (ditherNextPeriod rng
        { b with lastPeriod := b.nextPeriod, nextPeriodStart := x, nextPeriod := x }).nextPeriod +
          b.randomOffset := d6
    omega
  · have h5 : (ditherNextPeriod rng
        { b with lastPeriod := b.nextPeriod, nextPeriodStart := x, nextPeriod := x }).nextPeriod ≤
          x := d5
    omega

/-- The loop of `advanceSamplingPeriod` ends after at most two passes once the start of the
next period is less than one period behind the cycle. -/
theorem advanceLoop_catches_up (rng : Nat → Nat) (count fuel : Nat) (b : base_profiler)
    (p : Nat) (hP : 1 ≤ b.samplingPeriod) (hR : b.randomOffset ≤ b.samplingPeriod - 1)
    (hnear : count < b.nextPeriodStart + b.samplingPeriod)
    (hs : b.nextPeriodStart + 2 * b.samplingPeriod < 2 ^ 64) :
    ∃ r, advanceLoop rng count (fuel + 2) b p = some r ∧ count < r.2.nextPeriod ∧
      (b.nextPeriod ≤ count → r.2.lastPeriod ≤ count) := by
  obtain ⟨a1, a2, a3, a4, a5, a6⟩ := advanceBody_spec rng b hP hR (by omega)
  rw [advanceLoop_succ]
  by_cases h1 : (advanceBody rng b).nextPeriod ≤ count
  · rw [if_pos h1]
    obtain ⟨c1, c2, c3, c4, c5, c6⟩ := advanceBody_spec rng (advanceBody rng b)
      (by rw [a1]; exact hP) (by rw [a1, a2]; exact hR) (by rw [a1, a3]; omega)
    rw [advanceLoop_succ, if_neg (by rw [a3] at c5; omega)]
    exact ⟨_, rfl, by rw [a3] at c5; show count < (advanceBody rng (advanceBody rng b)).nextPeriod
                      omega,
      fun _ => by show (advanceBody rng (advanceBody rng b)).lastPeriod ≤ count
                  rw [c4]; exact h1⟩
  · rw [if_neg h1]
    exact ⟨_, rfl, by show count < (advanceBody rng b).nextPeriod; omega,
      fun h => by show (advanceBody rng b).lastPeriod ≤ count
                  rw [a4]; exact h⟩

/-- The first block of `advanceSamplingPeriod`: afterwards the start of the next period is
less than one period behind the cycle, and not beyond where it was or the cycle. -/
theorem skipMissedPeriods_spec (rng : Nat → Nat) (b : base_profiler) (count : Nat)
    (hP : 1 ≤ b.samplingPeriod) (hR : b.randomOffset ≤ b.samplingPeriod - 1)
    (hc : count < 2 ^ 64) :
    ∃ b1, skipMissedPeriods rng b count = some b1 ∧
      b1.samplingPeriod = b.samplingPeriod ∧ b1.randomOffset = b.randomOffset ∧
      count < b1.nextPeriodStart + b.samplingPeriod ∧
      (b1.nextPeriodStart ≤ b.nextPeriodStart ∨ b1.nextPeriodStart ≤ count) ∧
      (b.nextPeriod ≤ count → b1.nextPeriod ≤ count) := by
  unfold skipMissedPeriods
  dsimp only
  by_cases hlt : b.nextPeriodStart < count
  · rw [if_pos hlt, sub64_of_le _ _ (by omega) hc]
    by_cases hge : count - b.nextPeriodStart ≥ b.samplingPeriod
    · rw [if_pos hge, if_neg (by omega)]
      have h1 : (count - b.nextPeriodStart) / b.samplingPeriod * b.samplingPeriod ≤
          count - b.nextPeriodStart := Nat.div_mul_le_self _ _
      have h2 : count - b.nextPeriodStart <
          (count - b.nextPeriodStart) / b.samplingPeriod * b.samplingPeriod +
            b.samplingPeriod := Nat.lt_div_mul_add (by omega)
      have h3 : 1 ≤ (count - b.nextPeriodStart) / b.samplingPeriod :=
        Nat.div_pos hge (by omega)
      have h4 : b.samplingPeriod ≤
          (count - b.nextPeriodStart) / b.samplingPeriod * b.samplingPeriod :=
        Nat.le_mul_of_pos_left _ h3
      have hm : mul64 ((count - b.nextPeriodStart) / b.samplingPeriod) b.samplingPeriod =
          (count - b.nextPeriodStart) / b.samplingPeriod * b.samplingPeriod := by
        unfold mul64
        exact Nat.mod_eq_of_lt (by omega)
      rw [hm]
      generalize (count - b.nextPeriodStart) / b.samplingPeriod * b.samplingPeriod = m
        at h1 h2 h4
      have ha : add64 b.nextPeriodStart m = b.nextPeriodStart + m :=
        add64_of_lt _ _ (by omega)
      rw [ha]
      obtain ⟨d1, d2, d3, _, d5, _⟩ := ditherNextPeriod_spec rng
        { b with nextPeriodStart := b.nextPeriodStart + m, nextPeriod := b.nextPeriodStart + m }
        (by show b.nextPeriodStart + m < 2 ^ 64; omega)
        (by show b.randomOffset < b.nextPeriodStart + m; omega)
      refine ⟨_, rfl, d1, d2, ?_, Or.inr ?_, fun _ => ?_⟩
      · rw [d3]
        show count < b.nextPeriodStart + m + b.samplingPeriod
        omega
      · rw [d3]
        show b.nextPeriodStart + m ≤ count
        omega
      · have h5 : (ditherNextPeriod rng
            { b with nextPeriodStart := b.nextPeriodStart + m,
                     nextPeriod := b.nextPeriodStart + m }).nextPeriod ≤
            b.nextPeriodStart + m := d5
        omega
    · rw [if_neg hge]
      exact ⟨b, rfl, rfl, rfl, by omega, Or.inl (le_refl _), fun h => h⟩
  · rw [if_neg hlt, if_neg (by omega)]
    exact ⟨b, rfl, rfl, rfl, by omega, Or.inl (le_refl _), fun h => h⟩

/-- C18 (as amended). `advanceSamplingPeriod` catches up and terminates. For a sampling period
`1 <= P < 2^62`, a random offset `R <= P - 1`, any sequence of dither draws, any cycle
`c < 2^44` and a start of the next period below `2^63` (so that the 64-bit period arithmetic
does not wrap), `advanceSamplingPeriod(c)` terminates with `nextPeriod > c`
(`reachedSamplingPeriod(c)` is false afterwards), and when it is called with
`reachedSamplingPeriod(c)` true it also leaves `lastPeriod <= c`. -/
theorem advance_catches_up (rng : Nat → Nat) (b : base_profiler) (c : Nat)
    (hP : 1 ≤ b.samplingPeriod) (hP62 : b.samplingPeriod < 2 ^ 62)
    (hR : b.randomOffset ≤ b.samplingPeriod - 1) (hc : c < 2 ^ 44)
    (hs : b.nextPeriodStart < 2 ^ 63) :
    ∃ r, advanceSamplingPeriod rng b c = some r ∧ c < r.2.nextPeriod ∧
      reachedSamplingPeriod r.2 c = false ∧
      (reachedSamplingPeriod b c = true → r.2.lastPeriod ≤ c) := by
  obtain ⟨b1, e1, p1, r1, n1, m1, l1⟩ := skipMissedPeriods_spec rng b c hP hR (by omega)
  have hfuel : advanceFuel = (2 ^ 64 - 2) + 2 := by decide
  obtain ⟨r, e, hn, hl⟩ := advanceLoop_catches_up rng c (2 ^ 64 - 2) b1 0
    (by rw [p1]; exact hP) (by rw [p1, r1]; exact hR) (by rw [p1]; exact n1)
    (by rw [p1]; rcases m1 with h | h <;> omega)
  unfold advanceSamplingPeriod
  rw [e1]
  dsimp only
  rw [hfuel, e]
  refine ⟨r, rfl, hn, ?_, ?_⟩
  · unfold reachedSamplingPeriod
    simp only [decide_eq_false_iff_not, not_le]
    exact hn
  · intro hreach
    unfold reachedSamplingPeriod at hreach
    simp only [decide_eq_true_eq] at hreach
    exact hl (l1 hreach)

/-- Witness of `advance_catches_up`: period 1000 with dither up to 999, the sample point
1500 reached at cycle 4321 after two periods were missed. -/
theorem advance_catches_up_witness :
    ∃ r, advanceSamplingPeriod (fun k => 7 * k + 3)
        (restartSampling
          { base_profiler.initial with samplingPeriod := 1000, randomOffset := 999 } 500)
        4321 = some r ∧
      4321 < r.2.nextPeriod ∧ reachedSamplingPeriod r.2 4321 = false ∧
      (reachedSamplingPeriod (restartSampling
          { base_profiler.initial with samplingPeriod := 1000, randomOffset := 999 } 500)
        4321 = true → r.2.lastPeriod ≤ 4321) :=
  advance_catches_up (fun k => 7 * k + 3)
    (restartSampling
      { base_profiler.initial with samplingPeriod := 1000, randomOffset := 999 } 500)
    4321 (by decide) (by decide) (by decide) (by decide) (by decide)

theorem advanceBody_dither (rng : Nat → Nat) (b : base_profiler) (hR : b.randomOffset ≠ 0) :
    advanceBody rng b =
      { b with
        lastPeriod := b.nextPeriod
        nextPeriodStart := add64 b.nextPeriodStart b.samplingPeriod
        nextPeriod := sub64 (add64 b.nextPeriodStart b.samplingPeriod)
          (rng b.rngDraws % (b.randomOffset + 1))
        rngDraws := b.rngDraws + 1 } := by
  unfold advanceBody ditherNextPeriod
  rw [if_pos hR]

/-- With the period `2^63` and the draws `wrapDraws`, the loop of `advanceSamplingPeriod` at
cycle 1 never ends: the sample point alternates between 0 and 1. -/
theorem advanceLoop_wrap_forever (fuel : Nat) :
    ∀ (b : base_profiler) (p : Nat), b.samplingPeriod = 2 ^ 63 → b.randomOffset = 2 ^ 63 - 1 →
      (b.nextPeriodStart = 2 ^ 63 ∧ b.rngDraws % 2 = 0 ∨
        b.nextPeriodStart = 0 ∧ b.rngDraws % 2 = 1) →
      advanceLoop wrapDraws 1 fuel b p = none := by
  induction fuel with
  | zero => intro b p _ _ _; rfl
  | succ n ih =>
    intro b p hP hR hst
    have hR0 : b.randomOffset ≠ 0 := by rw [hR]; decide
    rw [advanceLoop_succ, advanceBody_dither wrapDraws b hR0]
    rcases hst with ⟨h1, h2⟩ | ⟨h1, h2⟩
    · have hd : wrapDraws b.rngDraws = 0 := by unfold wrapDraws; rw [if_pos h2]
      have hn : sub64 (add64 b.nextPeriodStart b.samplingPeriod)
          (wrapDraws b.rngDraws % (b.randomOffset + 1)) = 0 := by
        rw [hd, h1, hP, hR]
        decide
      rw [hn, if_pos (Nat.zero_le 1)]
      refine ih _ _ hP hR (Or.inr ⟨?_, ?_⟩)
      · show add64 b.nextPeriodStart b.samplingPeriod = 0
        rw [h1, hP]
        decide
      · show (b.rngDraws + 1) % 2 = 1
        omega
    · have hd : wrapDraws b.rngDraws = 2 ^ 63 - 1 := by
        unfold wrapDraws; rw [if_neg (by omega)]
      have hn : sub64 (add64 b.nextPeriodStart b.samplingPeriod)
          (wrapDraws b.rngDraws % (b.randomOffset + 1)) = 1 := by
        rw [hd, h1, hP, hR]
        decide
      rw [hn, if_pos (le_refl _)]
      refine ih _ _ hP hR (Or.inl ⟨?_, ?_⟩)
      · show add64 b.nextPeriodStart b.samplingPeriod = 2 ^ 63
        rw [h1, hP]
        decide
      · show (b.rngDraws + 1) % 2 = 0
        omega

/-- C18 (counterexample). With `samplingPeriod = 2^63`, `randomOffset = 2^63 - 1`, the members
as the constructor leaves them, dither draws that alternate between 0 and `2^63 - 1`, and the
cycle 1, the loop of `advanceSamplingPeriod` does not end: adding the period wraps, and the
sample point alternates between 0 and 1, never above the cycle. -/
theorem advance_catches_up_counterexample :
    base_profiler.ctor wrapDraws
        [["samplingPeriod", "9223372036854775808"], ["randomOffset", "9223372036854775807"]]
        64 = .ok wrapState ∧
    1 ≤ wrapState.samplingPeriod ∧ wrapState.randomOffset ≤ wrapState.samplingPeriod - 1 ∧
    (1 : Nat) < 2 ^ 44 ∧
    advanceSamplingPeriod wrapDraws wrapState 1 = none ∧
    ¬ ∃ fuel r, advanceLoop wrapDraws 1 fuel wrapState 0 = some r := by
  have hP : wrapState.samplingPeriod = 2 ^ 63 := rfl
  have hR : wrapState.randomOffset = 2 ^ 63 - 1 := rfl
  have hst : wrapState.nextPeriodStart = 2 ^ 63 ∧ wrapState.rngDraws % 2 = 0 ∨
      wrapState.nextPeriodStart = 0 ∧ wrapState.rngDraws % 2 = 1 :=
    Or.inl ⟨by decide, by decide⟩
  refine ⟨by decide, by decide, by decide, by decide, ?_, ?_⟩
  · have hskip : skipMissedPeriods wrapDraws wrapState 1 = some wrapState := by decide
    unfold advanceSamplingPeriod
    rw [hskip]
    exact advanceLoop_wrap_forever advanceFuel wrapState 0 hP hR hst
  · rintro ⟨fuel, r, h⟩
    rw [advanceLoop_wrap_forever fuel wrapState 0 hP hR hst] at h
    exact absurd h (by simp)

/-! ## TEA-gold: a pending OIR is finalised at the next POPULATED token -/

/-- The two blocks of the loop body of `tick` on a POPULATED token that is neither COMMITTING
nor EXCEPTION, when an OIR is pending. -/
theorem gold_finalise_core (t : tracedoctor_tea_gold) (token : robAnalysisToken)
    (hoir : t.lastInstructionRegister.oir = true)
    (hpop : hasBit token.rob ROB_POPULATED = true)
    (hnc : hasBit token.rob (ROB_COMMITTING ||| ROB_EXCEPTION) = false)
    (hlt : t.lastProgressCycle < token.tsc_cycle) (ht64 : token.tsc_cycle < 2 ^ 64)
    (hsev : t.lastInstructionRegister.severity +
      (token.tsc_cycle - t.lastProgressCycle - 1) + 1 < 2 ^ 64)
    (hsig : t.lastInstructionRegister.signature + 1 < 2 ^ 64) :
    ∃ s2, tracedoctor_tea_gold.populatedPart t token = some s2 ∧
      tracedoctor_tea_gold.progressPart s2 token = some s2 ∧
      s2.base = t.base ∧
      (∀ g a v, histCount (amapGet [] s2.severityHists g) a v =
        if g = t.lastInstructionRegister.signature ∧ a = t.lastInstructionRegister.address ∧
            v = t.lastInstructionRegister.severity +
              (token.tsc_cycle - t.lastProgressCycle - 1) then
          (histCount (amapGet [] t.severityHists g) a v + 1) % 2 ^ 64
        else histCount (amapGet [] t.severityHists g) a v) ∧
      (∀ a g, histCount s2.result a g =
        if a = t.lastInstructionRegister.address ∧ g = t.lastInstructionRegister.signature then
          (histCount t.result a g + (t.lastInstructionRegister.ilpLatency +
            24 * (t.lastInstructionRegister.severity +
              (token.tsc_cycle - t.lastProgressCycle - 1)))) % 2 ^ 64
        else histCount t.result a g) ∧
      s2.lastInstructionRegister = { t.lastInstructionRegister with oir := false } ∧
      s2.lastProgressCycle = token.tsc_cycle - 1 := by
  have hx : sub64 (sub64 token.tsc_cycle t.lastProgressCycle) 1 =
      token.tsc_cycle - t.lastProgressCycle - 1 := by
    rw [sub64_of_le _ _ (by omega) ht64, sub64_of_le _ _ (by omega) (by omega)]
  have hv : add64 t.lastInstructionRegister.severity
      (token.tsc_cycle - t.lastProgressCycle - 1) =
      t.lastInstructionRegister.severity + (token.tsc_cycle - t.lastProgressCycle - 1) :=
    add64_of_lt _ _ (by omega)
  have hl : sub64 token.tsc_cycle 1 = token.tsc_cycle - 1 :=
    sub64_of_le _ _ (by omega) ht64
  obtain ⟨h1, e1, g1⟩ := value2hist_spec
    (amapGet [] t.severityHists t.lastInstructionRegister.signature)
    t.lastInstructionRegister.address
    (t.lastInstructionRegister.severity + (token.tsc_cycle - t.lastProgressCycle - 1)) 1
    (by omega)
  obtain ⟨r1, e2, g2⟩ := value2hist_spec t.result t.lastInstructionRegister.address
    t.lastInstructionRegister.signature
    (add64 t.lastInstructionRegister.ilpLatency
      (mul64 (t.lastInstructionRegister.severity +
        (token.tsc_cycle - t.lastProgressCycle - 1)) 24)) hsig
  have hattr : tracedoctor_tea_gold.attributeOIR t
      (sub64 (sub64 token.tsc_cycle t.lastProgressCycle) 1) =
      some { t with
        severityHists := amapSet t.lastInstructionRegister.signature h1 t.severityHists
        result := r1
        lastInstructionRegister := { t.lastInstructionRegister with oir := false } } := by
    unfold tracedoctor_tea_gold.attributeOIR
    rw [if_pos hoir, hx, hv, e1, e2]
  refine ⟨{ t with
      severityHists := amapSet t.lastInstructionRegister.signature h1 t.severityHists
      result := r1
      lastInstructionRegister := { t.lastInstructionRegister with oir := false }
      lastProgressCycle := token.tsc_cycle - 1 }, ?_, ?_, rfl, ?_, ?_, rfl, rfl⟩
  · unfold tracedoctor_tea_gold.populatedPart
    rw [hpop, hoir, hattr, hl]
    rfl
  · unfold tracedoctor_tea_gold.progressPart
    rw [hnc]
    rfl
  · intro g a v
    show histCount (amapGet [] (amapSet t.lastInstructionRegister.signature h1
      t.severityHists) g) a v = _
    rw [amapGet_amapSet]
    by_cases hg : g = t.lastInstructionRegister.signature
    · rw [if_pos hg, g1 a v]
      by_cases hav : a = t.lastInstructionRegister.address ∧
          v = t.lastInstructionRegister.severity +
            (token.tsc_cycle - t.lastProgressCycle - 1)
      · rw [if_pos hav, if_pos ⟨hg, hav⟩, hg, hav.1, hav.2]
        rfl
      · rw [if_neg hav, if_neg (fun h => hav h.2), hg]
    · rw [if_neg hg, if_neg (fun h => hg h.1)]
  · intro a g
    show histCount r1 a g = _
    rw [g2 a g]
    by_cases hag : a = t.lastInstructionRegister.address ∧
        g = t.lastInstructionRegister.signature
    · rw [if_pos hag, if_pos hag, hag.1, hag.2]
      unfold add64 mul64
      rw [Nat.mul_comm _ 24]
      omega
    · rw [if_neg hag, if_neg hag]

/-- C20 (as amended). TEA-gold finalises a pending OIR at the next POPULATED token. For every
state with a pending OIR register (address `a`, signature `g`, stored severity `s`,
ilpLatency `l`) and every non-first token at cycle `t > lastProgressCycle` that is POPULATED
and neither COMMITTING nor EXCEPTION, and at which no flush is due, processing the token
increments `severityHists[g][a][s + (t - lastProgressCycle - 1)]` by 1 and `result[a][g]` by
`l + 24 * (s + t - lastProgressCycle - 1)` (64-bit counters), leaves every other counter as
it is, clears the pending mark, and sets `lastProgressCycle` to `t - 1`. -/
theorem gold_oir_finalised (s : tracedoctor_tea_gold) (token : robAnalysisToken)
    (hnf : s.base.firstToken = false)
    (hnoflush : (triggerDetection s.base token).1 = false)
    (hoir : s.lastInstructionRegister.oir = true)
    (hpop : hasBit token.rob ROB_POPULATED = true)
    (hnc : hasBit token.rob (ROB_COMMITTING ||| ROB_EXCEPTION) = false)
    (hlt : s.lastProgressCycle < token.tsc_cycle) (ht : token.tsc_cycle < 2 ^ 44)
    (hsev : s.lastInstructionRegister.severity +
      (token.tsc_cycle - s.lastProgressCycle - 1) + 1 < 2 ^ 64)
    (hsig : s.lastInstructionRegister.signature < 2 ^ 16) :
    ∃ s1, tracedoctor_tea_gold.step s token = some s1 ∧
      (∀ g a v, histCount (amapGet [] s1.severityHists g) a v =
        if g = s.lastInstructionRegister.signature ∧ a = s.lastInstructionRegister.address ∧
            v = s.lastInstructionRegister.severity +
              (token.tsc_cycle - s.lastProgressCycle - 1) then
          (histCount (amapGet [] s.severityHists g) a v + 1) % 2 ^ 64
        else histCount (amapGet [] s.severityHists g) a v) ∧
      (∀ a g, histCount s1.result a g =
        if a = s.lastInstructionRegister.address ∧ g = s.lastInstructionRegister.signature then
          (histCount s.result a g + (s.lastInstructionRegister.ilpLatency +
            24 * (s.lastInstructionRegister.severity +
              (token.tsc_cycle - s.lastProgressCycle - 1)))) % 2 ^ 64
        else histCount s.result a g) ∧
      s1.lastInstructionRegister.oir = false ∧
      s1.lastProgressCycle = token.tsc_cycle - 1 := by
  obtain ⟨t1, _⟩ := triggerDetection_notFirst s.base token hnf
  obtain ⟨s2, e1, e2, _, c1, c2, c3, c4⟩ := gold_finalise_core
    { s with base := (triggerDetection s.base token).2.2 } token hoir hpop hnc hlt
    (by omega) hsev (by show s.lastInstructionRegister.signature + 1 < 2 ^ 64; omega)
  refine ⟨s2, ?_, c1, c2, by rw [c3], c4⟩
  unfold tracedoctor_tea_gold.step
  dsimp only
  rw [hnoflush, t1]
  simp only [Bool.false_eq_true, if_false, e1, e2]

/-- Witness of `gold_oir_finalised`: the branch at `0x200`, pending since cycle 50, is
finalised by the POPULATED token of cycle 80. -/
theorem gold_oir_finalised_witness :
    ∃ s1, tracedoctor_tea_gold.step
        { goldStarted with
          lastInstructionRegister :=
            { address := 0x200, flags := INSTR_COMMITS ||| INSTR_VALID ||| INSTR_BR_MISS,
              signature := 1024, severity := 0, ilpLatency := 24, oir := true }
          lastProgressCycle := 50 } (populatedToken 80) = some s1 ∧
      histCount (amapGet [] s1.severityHists 1024) 0x200 29 = 1 ∧
      histCount s1.result 0x200 1024 = 24 + 24 * 29 ∧
      s1.lastInstructionRegister.oir = false ∧ s1.lastProgressCycle = 79 := by
  obtain ⟨s1, e, c1, c2, c3, c4⟩ := gold_oir_finalised
    { goldStarted with
      lastInstructionRegister :=
        { address := 0x200, flags := INSTR_COMMITS ||| INSTR_VALID ||| INSTR_BR_MISS,
          signature := 1024, severity := 0, ilpLatency := 24, oir := true }
      lastProgressCycle := 50 } (populatedToken 80)
    (by decide) (by decide) rfl (by decide) (by decide) (by decide) (by decide) (by decide)
    (by decide)
  refine ⟨s1, e, ?_, ?_, c3, c4⟩
  · rw [c1 1024 0x200 29]
    decide
  · rw [c2 0x200 1024]
    decide

/-- A POPULATED token at which a flush is due: the severity histograms are emptied before the
pending OIR is finalised, so afterwards its counter is 1 and all others are 0. -/
theorem gold_finalise_after_flush (s : tracedoctor_tea_gold) (token : robAnalysisToken)
    (hwf : goldWF s) (hnf : s.base.firstToken = false)
    (hflush : (triggerDetection s.base token).1 = true)
    (hoir : s.lastInstructionRegister.oir = true)
    (hpop : hasBit token.rob ROB_POPULATED = true)
    (hnc : hasBit token.rob (ROB_COMMITTING ||| ROB_EXCEPTION) = false)
    (hlt : s.lastProgressCycle < token.tsc_cycle) (ht : token.tsc_cycle < 2 ^ 44)
    (hsev : s.lastInstructionRegister.severity +
      (token.tsc_cycle - s.lastProgressCycle - 1) + 1 < 2 ^ 64)
    (hsig : s.lastInstructionRegister.signature < 2 ^ 16) :
    ∃ s1, tracedoctor_tea_gold.step s token = some s1 ∧
      histCount (amapGet [] s1.severityHists s.lastInstructionRegister.signature)
        s.lastInstructionRegister.address
        (s.lastInstructionRegister.severity + (token.tsc_cycle - s.lastProgressCycle - 1)) =
        1 := by
  obtain ⟨t1, _⟩ := triggerDetection_notFirst s.base token hnf
  obtain ⟨t, et, _, _, _, sv, lr, lp⟩ := gold_flushResult_spec
    { s with base := (triggerDetection s.base token).2.2 } hwf
  have lr1 : t.lastInstructionRegister = s.lastInstructionRegister := lr
  have lp1 : t.lastProgressCycle = s.lastProgressCycle := lp
  obtain ⟨s2, e1, e2, _, c1, _⟩ := gold_finalise_core t token (by rw [lr1]; exact hoir) hpop hnc
    (by rw [lp1]; exact hlt) (by omega) (by rw [lr1, lp1]; exact hsev) (by rw [lr1]; omega)
  refine ⟨s2, ?_, ?_⟩
  · unfold tracedoctor_tea_gold.step
    dsimp only
    rw [hflush, t1]
    simp only [if_true, et, Bool.false_eq_true, if_false, e1, e2]
  · rw [c1, lr1, lp1, if_pos ⟨rfl, rfl, rfl⟩, sv]
    rfl

/-- C20 (counterexample). A token that is POPULATED and also COMMITTING finalises the pending
branch and then attributes its own instruction: afterwards `lastProgressCycle` is the cycle
of the token, 80, not 79, and a pending mark is set again. And at a POPULATED token at which a
flush is due (`flushAfter:100`, cycle 112) the counter of the finalised observation, which was
1 before the token, is 1 afterwards, not 2. -/
theorem gold_oir_finalised_counterexample :
    hasBit populatedCommitToken.rob ROB_POPULATED = true ∧
    (tracedoctor_tea_gold.tick goldFresh goldBranchTokens).map
        (fun s => (s.lastInstructionRegister.oir, s.lastProgressCycle)) = some (true, 50) ∧
    (tracedoctor_tea_gold.tick goldFresh (goldBranchTokens ++ [populatedCommitToken])).map
        (fun s => (s.lastInstructionRegister.oir, s.lastProgressCycle)) = some (true, 80) ∧
    (∃ sA, tracedoctor_tea_gold.tick goldFlush100 goldRepeatTokens = some sA ∧
      sA.lastInstructionRegister.oir = true ∧
      sA.lastInstructionRegister.signature = 1024 ∧
      sA.lastInstructionRegister.address = 0x200 ∧
      sA.lastInstructionRegister.severity + (112 - sA.lastProgressCycle - 1) = 29 ∧
      histCount (amapGet [] sA.severityHists 1024) 0x200 29 = 1 ∧
      ∃ s1, tracedoctor_tea_gold.step sA (populatedToken 112) = some s1 ∧
        histCount (amapGet [] s1.severityHists 1024) 0x200 29 = 1) := by
  refine ⟨by decide, by decide!, by decide!, ?_⟩
  have h : (tracedoctor_tea_gold.tick goldFlush100 goldRepeatTokens).isSome = true := by
    decide!
  obtain ⟨sA, hs⟩ := Option.isSome_iff_exists.1 h
  have f1 : (tracedoctor_tea_gold.tick goldFlush100 goldRepeatTokens).map
      (fun s => s.lastInstructionRegister) =
      some { address := 0x200, flags := INSTR_COMMITS ||| INSTR_VALID ||| INSTR_BR_MISS,
             signature := 1024, severity := 0, ilpLatency := 24, oir := true } := by decide!
  have f2 : (tracedoctor_tea_gold.tick goldFlush100 goldRepeatTokens).map
      (fun s => s.lastProgressCycle) = some 82 := by decide!
  have f3 : (tracedoctor_tea_gold.tick goldFlush100 goldRepeatTokens).map (fun s => s.base) =
      some { base_profiler.initial with flushThreshold := 100, firstToken := false } := by
    decide!
  have f4 : (tracedoctor_tea_gold.tick goldFlush100 goldRepeatTokens).map
      (fun s => decide (goldWF s)) = some true := by decide!
  have f5 : (tracedoctor_tea_gold.tick goldFlush100 goldRepeatTokens).map
      (fun s => histCount (amapGet [] s.severityHists 1024) 0x200 29) = some 1 := by decide!
  rw [hs] at f1 f2 f3 f4 f5
  simp only [Option.map_some', Option.some.injEq, decide_eq_true_eq] at f1 f2 f3 f4 f5
  obtain ⟨s1, e1, c1⟩ := gold_finalise_after_flush sA (populatedToken 112) f4
    (by rw [f3]) (by rw [f3]; decide) (by rw [f1]) (by decide) (by decide)
    (by rw [f2]; decide) (by decide) (by rw [f1, f2]; decide) (by rw [f1]; decide)
  rw [f1, f2] at c1
  exact ⟨sA, hs, by rw [f1], by rw [f1], by rw [f1], by rw [f1, f2], f5, s1, e1, c1⟩

/-! ## Dispatcher: order preservation -/

theorem sum_range_congr (f g : Nat → Nat) (n : Nat) (h : ∀ i, i < n → g i = f i) :
    ((List.range n).map g).sum = ((List.range n).map f).sum := by
  congr 1
  apply List.map_congr_left
  intro i hi
  exact h i (List.mem_range.1 hi)

theorem sum_range_succ_each (f : Nat → Nat) (n : Nat) :
    ((List.range n).map (fun i => f i + 1)).sum = ((List.range n).map f).sum + n := by
  induction n with
  | zero => rfl
  | succ n ih =>
    rw [List.range_succ, List.map_append, List.map_append, List.sum_append, List.sum_append, ih]
    simp only [List.map_cons, List.map_nil, List.sum_cons, List.sum_nil]
    omega

theorem sum_range_point (f g : Nat → Nat) (w : Nat) :
    ∀ n, w < n → (∀ i, i < n → i ≠ w → g i = f i) → g w + 1 = f w →
      ((List.range n).map g).sum + 1 = ((List.range n).map f).sum := by
  intro n
  induction n with
  | zero => intro hw; omega
  | succ n ih =>
    intro hw hne hpt
    rw [List.range_succ, List.map_append, List.map_append, List.sum_append, List.sum_append]
    simp only [List.map_cons, List.map_nil, List.sum_cons, List.sum_nil, Nat.add_zero]
    by_cases hwn : w = n
    · have h1 := sum_range_congr f g n (fun i hi => hne i (by omega) (by omega))
      rw [h1, ← hwn]
      omega
    · have h1 := ih (by omega) (fun i hi hiw => hne i (by omega) hiw) hpt
      have h2 := hne n (by omega) (fun h => hwn h.symm)
      omega

theorem sum_range_zero (f : Nat → Nat) :
    ∀ n, ((List.range n).map f).sum = 0 → ∀ i, i < n → f i = 0 := by
  intro n
  induction n with
  | zero => intro _ i hi; omega
  | succ n ih =>
    intro h i hi
    rw [List.range_succ, List.map_append, List.sum_append] at h
    simp only [List.map_cons, List.map_nil, List.sum_cons, List.sum_nil, Nat.add_zero] at h
    by_cases hin : i = n
    · rw [hin]; omega
    · exact ih (by omega) i (by omega)

theorem getD_set_self {β : Type} (l : List β) (i : Nat) (v dflt : β) (h : i < l.length) :
    (l.set i v).getD i dflt = v := by
  rw [List.getD_eq_getElem?_getD, List.getElem?_set_self h]
  rfl

theorem getD_set_ne {β : Type} (l : List β) (i j : Nat) (v dflt : β) (h : i ≠ j) :
    (l.set i v).getD j dflt = l.getD j dflt := by
  rw [List.getD_eq_getElem?_getD, List.getD_eq_getElem?_getD, List.getElem?_set_ne h]

theorem getD_of_getElem_some {β : Type} (l : List β) (i : Nat) (v dflt : β)
    (h : l[i]? = some v) : l.getD i dflt = v := by
  rw [List.getD_eq_getElem?_getD, h]
  rfl

theorem take_write {β : Type} (data : List β) (i : Nat) (v : β) (h : i ≤ data.length) :
    (data.take i ++ [v] ++ data.drop (i + 1)).take (i + 1) = data.take i ++ [v] := by
  have hl : (data.take i ++ [v]).length = i + 1 := by
    rw [List.length_append, List.length_take, List.length_singleton]
    omega
  rw [← hl, List.take_left]

theorem dispatcher_acquire_some {α : Type} (d : dispatcher α) (b : referencedBuffer α)
    (h : d.acquireFillTarget = some b) : d.buffers[d.bufferIndex]? = some b ∧ b.refs = 0 := by
  unfold dispatcher.acquireFillTarget at h
  split at h
  · rename_i b1 hb
    split at h
    · rename_i hr
      simp only [Option.some.injEq] at h
      subst h
      exact ⟨hb, hr⟩
    · exact absurd h (by simp)
  · exact absurd h (by simp)

theorem dispatcher_pending_sub {α : Type} (d : dispatcher α) (i j : Nat)
    (h : j ∈ d.pending i) : j ∈ d.holds i := by
  unfold dispatcher.pending at h
  unfold dispatcher.holds
  cases ht : d.threads.getD i .waiting with
  | waiting => rw [ht] at h; exact h
  | popped buf => rw [ht] at h; exact h
  | ticked buf =>
    rw [ht] at h
    exact List.mem_append_right _ (by simpa [workerThread.unseen] using h)

theorem dispatcher_free_not_held {α : Type} (n : Nat) (d : dispatcher α) (j : Nat)
    (hq : d.workQueues.length = n) (h : d.subscribers j = 0) :
    ∀ i, i < n → j ∉ d.holds i := by
  intro i hi
  unfold dispatcher.subscribers at h
  rw [hq] at h
  have h0 := sum_range_zero _ n h i hi
  exact List.count_eq_zero.1 h0

theorem dispatcher_contentsOf_same {α : Type} (d d1 : dispatcher α) (k : Nat)
    (h : (d1.buffers[k]?).map (fun b => b.contents) =
      (d.buffers[k]?).map (fun b => b.contents)) : d1.contentsOf k = d.contentsOf k := by
  unfold dispatcher.contentsOf
  cases h1 : d1.buffers[k]? with
  | none =>
    cases h2 : d.buffers[k]? with
    | none => rfl
    | some b => rw [h1, h2] at h; exact absurd h (by simp)
  | some b1 =>
    cases h2 : d.buffers[k]? with
    | none => rw [h1, h2] at h; exact absurd h (by simp)
    | some b =>
      rw [h1, h2] at h
      simp only [Option.map_some', Option.some.injEq] at h
      exact h

theorem dispatchInv_init (α : Type) (n bufferDepth bufferTokenCapacity : Nat) :
    dispatchInv n (dispatcher.init α n bufferDepth bufferTokenCapacity) := by
  have hholds : ∀ i, (dispatcher.init α n bufferDepth bufferTokenCapacity).holds i = [] := by
    intro i
    unfold dispatcher.holds dispatcher.init
    by_cases hi : i < n
    · simp [List.getD_eq_getElem?_getD, List.getElem?_replicate, hi, workerThread.held]
    · simp [List.getD_eq_getElem?_getD, List.getElem?_replicate, hi, workerThread.held]
  have hpend : ∀ i, (dispatcher.init α n bufferDepth bufferTokenCapacity).pending i = [] := by
    intro i
    unfold dispatcher.pending dispatcher.init
    by_cases hi : i < n
    · simp [List.getD_eq_getElem?_getD, List.getElem?_replicate, hi, workerThread.unseen]
    · simp [List.getD_eq_getElem?_getD, List.getElem?_replicate, hi, workerThread.unseen]
  refine ⟨⟨by simp [dispatcher.init], by simp [dispatcher.init], by simp [dispatcher.init]⟩,
    ?_, ?_, ?_, ?_, ?_⟩
  · intro i hi
    rw [hpend i]
    simp [dispatcher.init, List.getD_eq_getElem?_getD, List.getElem?_replicate, hi]
  · intro j b hb
    have hb0 : b.refs = 0 := by
      simp only [dispatcher.init, List.getElem?_replicate] at hb
      split at hb
      · simp only [Option.some.injEq] at hb
        rw [← hb]
      · exact absurd hb (by simp)
    rw [hb0]
    unfold dispatcher.subscribers
    have hz := sum_range_congr (fun _ => 0)
      (fun worker => ((dispatcher.init α n bufferDepth bufferTokenCapacity).holds worker).count j)
      (dispatcher.init α n bufferDepth bufferTokenCapacity).workQueues.length
      (fun i _ => by show List.count j _ = 0; rw [hholds i]; rfl)
    rw [hz]
    simp
  · intro i _ j hj
    rw [hholds i] at hj
    exact absurd hj (List.not_mem_nil _)
  · show ([] : List α) = ([] : List (List α)).flatten ++ _
    unfold dispatcher.filling
    simp only [dispatcher.init]
    split <;> simp
  · intro b _
    exact Nat.zero_le _

theorem lt_of_getElem_some {β : Type} (l : List β) (i : Nat) (v : β) (h : l[i]? = some v) :
    i < l.length := by
  by_contra hn
  rw [List.getElem?_eq_none (by omega)] at h
  exact absurd h (by simp)

theorem dispatchInv_ingest {α : Type} (n : Nat) (d : dispatcher α) (token : α)
    (h : dispatchInv n d) : dispatchInv n (d.ingest token) := by
  unfold dispatcher.ingest
  cases ha : d.acquireFillTarget with
  | none => exact h
  | some b =>
    dsimp only
    by_cases hc : d.fillTokens < d.bufferTokenCapacity
    · rw [if_pos hc]
      obtain ⟨hb, hr⟩ := dispatcher_acquire_some d b ha
      obtain ⟨⟨q, t, o⟩, i2, i3, i4, i5, i6⟩ := h
      have hfree := dispatcher_free_not_held n d d.bufferIndex q
        (by rw [← i3 _ _ hb]; exact hr)
      have hlt := lt_of_getElem_some _ _ _ hb
      refine ⟨⟨q, t, o⟩, ?_, ?_, ?_, ?_, ?_⟩
      · intro i hi
        show d.observed.getD i [] ++ (d.pending i).map _ = d.published
        rw [← i2 i hi]
        congr 1
        apply List.map_congr_left
        intro k hk
        apply dispatcher_contentsOf_same
        have hne : d.bufferIndex ≠ k := by
          intro e
          apply hfree i hi
          rw [e]
          exact dispatcher_pending_sub d i k hk
        show ((d.buffers.set d.bufferIndex _)[k]?).map _ = _
        rw [List.getElem?_set_ne hne]
      · intro j b1 hb1
        show b1.refs = d.subscribers j
        replace hb1 : (d.buffers.set d.bufferIndex
          { b with data := b.data.take d.fillTokens ++ [token] ++
              b.data.drop (d.fillTokens + 1) })[j]? = some b1 := hb1
        by_cases hj : d.bufferIndex = j
        · rw [← hj, List.getElem?_set_self hlt] at hb1
          simp only [Option.some.injEq] at hb1
          rw [← hb1, ← hj]
          exact i3 _ b hb
        · rw [List.getElem?_set_ne hj] at hb1
          exact i3 j b1 hb1
      · intro i hi j hj
        show j < (d.buffers.set _ _).length
        rw [List.length_set]
        exact i4 i hi j hj
      · show d.produced ++ [token] = d.published.flatten ++
          (match (d.buffers.set d.bufferIndex
            { b with data := b.data.take d.fillTokens ++ [token] ++
                b.data.drop (d.fillTokens + 1) })[d.bufferIndex]? with
           | some b1 => b1.data.take (d.fillTokens + 1)
           | none => [])
        rw [List.getElem?_set_self hlt]
        dsimp only
        rw [take_write _ _ _ (i6 b hb), i5]
        unfold dispatcher.filling
        rw [hb]
        simp only [List.append_assoc]
      · intro b1 hb1
        replace hb1 : (d.buffers.set d.bufferIndex
          { b with data := b.data.take d.fillTokens ++ [token] ++
              b.data.drop (d.fillTokens + 1) })[d.bufferIndex]? = some b1 := hb1
        rw [List.getElem?_set_self hlt] at hb1
        simp only [Option.some.injEq] at hb1
        rw [← hb1]
        show d.fillTokens + 1 ≤ (b.data.take d.fillTokens ++ [token] ++
          b.data.drop (d.fillTokens + 1)).length
        have := i6 b hb
        simp only [List.length_append, List.length_take, List.length_singleton]
        omega
    · rw [if_neg hc]
      exact h

theorem getD_map_snoc (Q : List (List Nat)) (i idx : Nat) (hi : i < Q.length) :
    (Q.map (fun q => q ++ [idx])).getD i [] = Q.getD i [] ++ [idx] := by
  rw [List.getD_eq_getElem?_getD, List.getD_eq_getElem?_getD, List.getElem?_map,
    List.getElem?_eq_getElem hi]
  rfl

theorem dispatchInv_publish {α : Type} (n : Nat) (d : dispatcher α)
    (h : dispatchInv n d) : dispatchInv n d.publish := by
  unfold dispatcher.publish
  cases ha : d.acquireFillTarget with
  | none => exact h
  | some b =>
    dsimp only
    obtain ⟨hb, hr⟩ := dispatcher_acquire_some d b ha
    obtain ⟨⟨q, t, o⟩, i2, i3, i4, i5, i6⟩ := h
    have hsub0 : d.subscribers d.bufferIndex = 0 := by rw [← i3 _ _ hb]; exact hr
    have hfree := dispatcher_free_not_held n d d.bufferIndex q hsub0
    have hlt := lt_of_getElem_some _ _ _ hb
    have hholds : ∀ i, i < n →
        (d.threads.getD i .waiting).held ++
          (d.workQueues.map (fun q => q ++ [d.bufferIndex])).getD i [] =
          d.holds i ++ [d.bufferIndex] := by
      intro i hi
      rw [getD_map_snoc _ _ _ (by omega), ← List.append_assoc]
      rfl
    have hpend : ∀ i, i < n →
        (d.threads.getD i .waiting).unseen ++
          (d.workQueues.map (fun q => q ++ [d.bufferIndex])).getD i [] =
          d.pending i ++ [d.bufferIndex] := by
      intro i hi
      rw [getD_map_snoc _ _ _ (by omega), ← List.append_assoc]
      rfl
    refine ⟨⟨by simp [q], t, o⟩, ?_, ?_, ?_, ?_, ?_⟩
    · intro i hi
      show d.observed.getD i [] ++ ((d.threads.getD i .waiting).unseen ++
        (d.workQueues.map (fun q => q ++ [d.bufferIndex])).getD i []).map _ =
        d.published ++ [b.data.take d.fillTokens]
      rw [hpend i hi, List.map_append, ← List.append_assoc]
      congr 1
      · show d.observed.getD i [] ++ (d.pending i).map _ = d.published
        rw [← i2 i hi]
        congr 1
        apply List.map_congr_left
        intro k hk
        apply dispatcher_contentsOf_same
        have hne : d.bufferIndex ≠ k := by
          intro e
          apply hfree i hi
          rw [e]
          exact dispatcher_pending_sub d i k hk
        show ((d.buffers.set d.bufferIndex _)[k]?).map _ = _
        rw [List.getElem?_set_ne hne]
      · rw [List.map_singleton]
        congr 1
        show (match (d.buffers.set d.bufferIndex
            { b with tokens := d.fillTokens, refs := d.workQueues.length })[d.bufferIndex]? with
          | some b1 => b1.contents
          | none => []) = _
        rw [List.getElem?_set_self hlt]
        rfl
    · intro j b1 hb1
      replace hb1 : (d.buffers.set d.bufferIndex
        { b with tokens := d.fillTokens, refs := d.workQueues.length })[j]? = some b1 := hb1
      show b1.refs = ((List.range (d.workQueues.map (fun q => q ++ [d.bufferIndex])).length).map
        (fun worker => ((d.threads.getD worker .waiting).held ++
          (d.workQueues.map (fun q => q ++ [d.bufferIndex])).getD worker []).count j)).sum
      rw [List.length_map, q]
      by_cases hj : d.bufferIndex = j
      · rw [← hj, List.getElem?_set_self hlt] at hb1
        simp only [Option.some.injEq] at hb1
        rw [← hb1, ← hj]
        show d.workQueues.length = _
        rw [sum_range_congr (fun i => (d.holds i).count d.bufferIndex + 1) _ n
          (fun i hi => by
            show List.count _ _ = _
            rw [hholds i hi, List.count_append, List.count_singleton_self])]
        rw [sum_range_succ_each]
        have hs : ((List.range n).map (fun i => (d.holds i).count d.bufferIndex)).sum = 0 := by
          have := hsub0
          unfold dispatcher.subscribers at this
          rw [q] at this
          exact this
        rw [hs, q]
        omega
      · rw [List.getElem?_set_ne hj] at hb1
        rw [i3 j b1 hb1]
        unfold dispatcher.subscribers
        rw [q]
        symm
        apply sum_range_congr
        intro i hi
        show List.count _ _ = _
        rw [hholds i hi, List.count_append, List.count_singleton]
        have hji : (d.bufferIndex == j) = false := by simpa using hj
        rw [hji]
        rfl
    · intro i hi j hj
      replace hj : j ∈ (d.threads.getD i .waiting).held ++
        (d.workQueues.map (fun q => q ++ [d.bufferIndex])).getD i [] := hj
      rw [hholds i hi] at hj
      show j < (d.buffers.set _ _).length
      rw [List.length_set]
      rcases List.mem_append.1 hj with h1 | h1
      · exact i4 i hi j h1
      · rw [List.mem_singleton.1 h1]
        exact hlt
    · show d.produced = (d.published ++ [b.data.take d.fillTokens]).flatten ++
        (match (d.buffers.set d.bufferIndex
            { b with tokens := d.fillTokens, refs := d.workQueues.length })[
              (d.bufferIndex + 1) % d.buffers.length]? with
          | some b1 => b1.data.take 0
          | none => [])
      have hnil : (match (d.buffers.set d.bufferIndex
            { b with tokens := d.fillTokens, refs := d.workQueues.length })[
              (d.bufferIndex + 1) % d.buffers.length]? with
          | some b1 => b1.data.take 0
          | none => []) = ([] : List α) := by
        split <;> simp
      rw [hnil, i5]
      unfold dispatcher.filling
      rw [hb]
      simp
    · intro b1 _
      exact Nat.zero_le _

theorem dispatchInv_pop {α : Type} (n : Nat) (d : dispatcher α) (worker buf : Nat)
    (queue : List Nat) (h : dispatchInv n d)
    (hT : d.threads[worker]? = some .waiting)
    (hQ : d.workQueues[worker]? = some (buf :: queue)) :
    dispatchInv n
      { d with
        workQueues := d.workQueues.set worker queue
        threads := d.threads.set worker (.popped buf) } := by
  obtain ⟨⟨q, t, o⟩, i2, i3, i4, i5, i6⟩ := h
  have hwT := lt_of_getElem_some _ _ _ hT
  have hwQ := lt_of_getElem_some _ _ _ hQ
  have hholds : ∀ i, ((d.threads.set worker (.popped buf)).getD i .waiting).held ++
      (d.workQueues.set worker queue).getD i [] = d.holds i := by
    intro i
    unfold dispatcher.holds
    by_cases hi : worker = i
    · rw [← hi, getD_set_self _ _ _ _ hwT, getD_set_self _ _ _ _ hwQ,
        getD_of_getElem_some _ _ _ _ hT, getD_of_getElem_some _ _ _ _ hQ]
      rfl
    · rw [getD_set_ne _ _ _ _ _ hi, getD_set_ne _ _ _ _ _ hi]
  have hpend : ∀ i, ((d.threads.set worker (.popped buf)).getD i .waiting).unseen ++
      (d.workQueues.set worker queue).getD i [] = d.pending i := by
    intro i
    unfold dispatcher.pending
    by_cases hi : worker = i
    · rw [← hi, getD_set_self _ _ _ _ hwT, getD_set_self _ _ _ _ hwQ,
        getD_of_getElem_some _ _ _ _ hT, getD_of_getElem_some _ _ _ _ hQ]
      rfl
    · rw [getD_set_ne _ _ _ _ _ hi, getD_set_ne _ _ _ _ _ hi]
  refine ⟨⟨by simp [q], by simp [t], o⟩, ?_, ?_, ?_, i5, i6⟩
  · intro i hi
    show d.observed.getD i [] ++
      (((d.threads.set worker (.popped buf)).getD i .waiting).unseen ++
        (d.workQueues.set worker queue).getD i []).map d.contentsOf = d.published
    rw [hpend i]
    exact i2 i hi
  · intro j b hb
    show b.refs = ((List.range (d.workQueues.set worker queue).length).map
      (fun i => (((d.threads.set worker (.popped buf)).getD i .waiting).held ++
        (d.workQueues.set worker queue).getD i []).count j)).sum
    rw [List.length_set, i3 j b hb]
    unfold dispatcher.subscribers
    apply sum_range_congr
    intro i _
    show List.count _ _ = _
    rw [hholds i]
  · intro i hi j hj
    replace hj : j ∈ ((d.threads.set worker (.popped buf)).getD i .waiting).held ++
      (d.workQueues.set worker queue).getD i [] := hj
    rw [hholds i] at hj
    exact i4 i hi j hj

theorem dispatchInv_tick {α : Type} (n : Nat) (d : dispatcher α) (worker buf : Nat)
    (b : referencedBuffer α) (seen : List (List α)) (h : dispatchInv n d)
    (hT : d.threads[worker]? = some (.popped buf))
    (hB : d.buffers[buf]? = some b) (hO : d.observed[worker]? = some seen) :
    dispatchInv n
      { d with
        observed := d.observed.set worker (seen ++ [b.contents])
        threads := d.threads.set worker (.ticked buf) } := by
  obtain ⟨⟨q, t, o⟩, i2, i3, i4, i5, i6⟩ := h
  have hwT := lt_of_getElem_some _ _ _ hT
  have hwO := lt_of_getElem_some _ _ _ hO
  have hholds : ∀ i, ((d.threads.set worker (.ticked buf)).getD i .waiting).held ++
      d.workQueues.getD i [] = d.holds i := by
    intro i
    unfold dispatcher.holds
    by_cases hi : worker = i
    · rw [← hi, getD_set_self _ _ _ _ hwT, getD_of_getElem_some _ _ _ _ hT]
      rfl
    · rw [getD_set_ne _ _ _ _ _ hi]
  refine ⟨⟨q, by simp [t], by simp [o]⟩, ?_, ?_, ?_, i5, i6⟩
  · intro i hi
    show (d.observed.set worker (seen ++ [b.contents])).getD i [] ++
      (((d.threads.set worker (.ticked buf)).getD i .waiting).unseen ++
        d.workQueues.getD i []).map d.contentsOf = d.published
    by_cases hw : worker = i
    · rw [← hw, getD_set_self _ _ _ _ hwO, getD_set_self _ _ _ _ hwT]
      have h2 := i2 worker (by omega)
      unfold dispatcher.pending at h2
      rw [getD_of_getElem_some _ _ _ _ hT, getD_of_getElem_some _ _ _ _ hO] at h2
      rw [← h2]
      have hc : d.contentsOf buf = b.contents := by
        unfold dispatcher.contentsOf
        rw [hB]
      simp only [workerThread.unseen, List.nil_append, List.singleton_append, List.map_cons,
        hc, List.append_assoc]
    · rw [getD_set_ne _ _ _ _ _ hw, getD_set_ne _ _ _ _ _ hw]
      exact i2 i hi
  · intro j b1 hb1
    show b1.refs = ((List.range d.workQueues.length).map
      (fun i => (((d.threads.set worker (.ticked buf)).getD i .waiting).held ++
        d.workQueues.getD i []).count j)).sum
    rw [i3 j b1 hb1]
    unfold dispatcher.subscribers
    apply sum_range_congr
    intro i _
    show List.count _ _ = _
    rw [hholds i]
  · intro i hi j hj
    replace hj : j ∈ ((d.threads.set worker (.ticked buf)).getD i .waiting).held ++
      d.workQueues.getD i [] := hj
    rw [hholds i] at hj
    exact i4 i hi j hj

theorem dispatchInv_release {α : Type} (n : Nat) (d : dispatcher α) (worker buf : Nat)
    (h : dispatchInv n d) (hT : d.threads[worker]? = some (.ticked buf)) :
    dispatchInv n { d.release buf with threads := d.threads.set worker .waiting } := by
  obtain ⟨⟨q, t, o⟩, i2, i3, i4, i5, i6⟩ := h
  have hwT := lt_of_getElem_some _ _ _ hT
  have hw : worker < n := by omega
  have hhw : d.holds worker = buf :: d.workQueues.getD worker [] := by
    unfold dispatcher.holds
    rw [getD_of_getElem_some _ _ _ _ hT]
    rfl
  have hlt : buf < d.buffers.length :=
    i4 worker hw buf (by rw [hhw]; exact List.mem_cons_self _ _)
  obtain ⟨b, hB⟩ : ∃ b, d.buffers[buf]? = some b := ⟨_, List.getElem?_eq_getElem hlt⟩
  have hrel : d.release buf =
      { d with buffers := d.buffers.set buf { b with refs := b.refs - 1 } } := by
    unfold dispatcher.release
    rw [hB]
  rw [hrel]
  show dispatchInv n
    { d with
      buffers := d.buffers.set buf { b with refs := b.refs - 1 }
      threads := d.threads.set worker .waiting }
  have hholds : ∀ i, worker ≠ i → ((d.threads.set worker .waiting).getD i .waiting).held ++
      d.workQueues.getD i [] = d.holds i := by
    intro i hi
    unfold dispatcher.holds
    rw [getD_set_ne _ _ _ _ _ hi]
  have hholdw : ((d.threads.set worker .waiting).getD worker .waiting).held ++
      d.workQueues.getD worker [] = d.workQueues.getD worker [] := by
    rw [getD_set_self _ _ _ _ hwT]
    rfl
  have hpend : ∀ i, ((d.threads.set worker .waiting).getD i .waiting).unseen ++
      d.workQueues.getD i [] = d.pending i := by
    intro i
    unfold dispatcher.pending
    by_cases hi : worker = i
    · rw [← hi, getD_set_self _ _ _ _ hwT, getD_of_getElem_some _ _ _ _ hT]
      rfl
    · rw [getD_set_ne _ _ _ _ _ hi]
  have hbufs : ∀ k : Nat, ((d.buffers.set buf { b with refs := b.refs - 1 })[k]?).map
      (fun b1 : referencedBuffer α => (b1.data, b1.tokens)) =
      (d.buffers[k]?).map (fun b1 : referencedBuffer α => (b1.data, b1.tokens)) := by
    intro k
    by_cases hk : buf = k
    · rw [← hk, List.getElem?_set_self hlt, hB]
      rfl
    · rw [List.getElem?_set_ne hk]
  refine ⟨⟨q, by simp [t], o⟩, ?_, ?_, ?_, ?_, ?_⟩
  · intro i hi
    show d.observed.getD i [] ++
      (((d.threads.set worker .waiting).getD i .waiting).unseen ++
        d.workQueues.getD i []).map _ = d.published
    rw [hpend i, ← i2 i hi]
    congr 1
    apply List.map_congr_left
    intro k _
    apply dispatcher_contentsOf_same
    show ((d.buffers.set buf { b with refs := b.refs - 1 })[k]?).map _ = _
    by_cases hk : buf = k
    · rw [← hk, List.getElem?_set_self hlt, hB]
      rfl
    · rw [List.getElem?_set_ne hk]
  · intro j b1 hb1
    replace hb1 : (d.buffers.set buf { b with refs := b.refs - 1 })[j]? = some b1 := hb1
    show b1.refs = ((List.range d.workQueues.length).map
      (fun i => (((d.threads.set worker .waiting).getD i .waiting).held ++
        d.workQueues.getD i []).count j)).sum
    rw [q]
    by_cases hj : buf = j
    · rw [← hj, List.getElem?_set_self hlt] at hb1
      simp only [Option.some.injEq] at hb1
      rw [← hb1, ← hj]
      show b.refs - 1 = _
      have hpt := sum_range_point (fun i => (d.holds i).count buf)
        (fun i => (((d.threads.set worker .waiting).getD i .waiting).held ++
          d.workQueues.getD i []).count buf) worker n hw
        (fun i _ hi => by
          show List.count _ _ = _
          rw [hholds i (fun e => hi e.symm)])
        (by
          show List.count _ _ + 1 = List.count _ _
          rw [hholdw, hhw, List.count_cons_self])
      have h3 := i3 buf b hB
      unfold dispatcher.subscribers at h3
      rw [q] at h3
      omega
    · rw [List.getElem?_set_ne hj] at hb1
      rw [i3 j b1 hb1]
      unfold dispatcher.subscribers
      rw [q]
      apply sum_range_congr
      intro i _
      show List.count _ _ = _
      by_cases hi : worker = i
      · rw [← hi, hholdw, hhw, List.count_cons_of_ne (fun e => hj e.symm)]
      · rw [hholds i hi]
  · intro i hi j hj
    replace hj : j ∈ ((d.threads.set worker .waiting).getD i .waiting).held ++
      d.workQueues.getD i [] := hj
    show j < (d.buffers.set _ _).length
    rw [List.length_set]
    by_cases hiw : worker = i
    · rw [← hiw, hholdw] at hj
      exact i4 worker hw j (by rw [hhw]; exact List.mem_cons_of_mem _ hj)
    · rw [hholds i hiw] at hj
      exact i4 i hi j hj
  · show d.produced = d.published.flatten ++
      (match (d.buffers.set buf { b with refs := b.refs - 1 })[d.bufferIndex]? with
        | some b1 => b1.data.take d.fillTokens
        | none => [])
    rw [i5]
    congr 1
    unfold dispatcher.filling
    have hk := hbufs d.bufferIndex
    cases h1 : (d.buffers.set buf { b with refs := b.refs - 1 })[d.bufferIndex]? with
    | none =>
      cases h2 : d.buffers[d.bufferIndex]? with
      | none => rfl
      | some b2 => rw [h1, h2] at hk; exact absurd hk (by simp)
    | some b1 =>
      cases h2 : d.buffers[d.bufferIndex]? with
      | none => rw [h1, h2] at hk; exact absurd hk (by simp)
      | some b2 =>
        rw [h1, h2] at hk
        simp only [Option.map_some', Option.some.injEq, Prod.mk.injEq] at hk
        show b2.data.take d.fillTokens = b1.data.take d.fillTokens
        rw [hk.1]
  · intro b1 hb1
    replace hb1 : (d.buffers.set buf { b with refs := b.refs - 1 })[d.bufferIndex]? =
      some b1 := hb1
    have hk := hbufs d.bufferIndex
    rw [hb1] at hk
    cases h2 : d.buffers[d.bufferIndex]? with
    | none => rw [h2] at hk; exact absurd hk (by simp)
    | some b2 =>
      rw [h2] at hk
      simp only [Option.map_some', Option.some.injEq, Prod.mk.injEq] at hk
      show d.fillTokens ≤ b1.data.length
      rw [hk.1]
      exact i6 b2 h2

theorem dispatchInv_work {α : Type} (n : Nat) (d : dispatcher α) (worker : Nat)
    (h : dispatchInv n d) : dispatchInv n (d.work worker) := by
  unfold dispatcher.work
  cases hT : d.threads[worker]? with
  | none => exact h
  | some th =>
    cases th with
    | waiting =>
      dsimp only
      cases hQ : d.workQueues[worker]? with
      | none => exact h
      | some l =>
        cases l with
        | nil => exact h
        | cons buf queue => exact dispatchInv_pop n d worker buf queue h hT hQ
    | popped buf =>
      dsimp only
      cases hB : d.buffers[buf]? with
      | none => exact h
      | some b =>
        cases hO : d.observed[worker]? with
        | none => exact h
        | some seen => exact dispatchInv_tick n d worker buf b seen h hT hB hO
    | ticked buf => exact dispatchInv_release n d worker buf h hT

theorem dispatchInv_step {α : Type} (n : Nat) (d : dispatcher α) (e : dispatchEvent α)
    (h : dispatchInv n d) : dispatchInv n (d.step e) := by
  cases e with
  | ingest token => exact dispatchInv_ingest n d token h
  | publish => exact dispatchInv_publish n d h
  | work worker => exact dispatchInv_work n d worker h

theorem dispatchInv_run {α : Type} (n : Nat) (events : List (dispatchEvent α)) :
    ∀ d : dispatcher α, dispatchInv n d → dispatchInv n (d.run events) := by
  induction events with
  | nil => intro d h; exact h
  | cons e es ih =>
    intro d h
    exact ih (d.step e) (dispatchInv_step n d e h)

theorem dispatcher_run_append {α : Type} (a b : List (dispatchEvent α)) :
    ∀ d : dispatcher α, d.run (a ++ b) = (d.run a).run b := by
  induction a with
  | nil => intro d; rfl
  | cons e es ih => intro d; exact ih (d.step e)

theorem dispatcher_work_published {α : Type} (d : dispatcher α) (worker : Nat) :
    (d.work worker).published = d.published := by
  unfold dispatcher.work
  split
  · split <;> rfl
  · split <;> rfl
  · show (d.release _).published = d.published
    unfold dispatcher.release
    split <;> rfl
  · rfl

/-- A step of a worker thread that has something to do brings it one step closer to a drained
queue. -/
theorem dispatcher_work_stepsLeft {α : Type} (n : Nat) (d : dispatcher α) (worker : Nat)
    (h : dispatchInv n d) (hw : worker < n) (hs : 0 < d.stepsLeft worker) :
    (d.work worker).stepsLeft worker + 1 = d.stepsLeft worker := by
  obtain ⟨⟨q, t, o⟩, _, _, i4, _, _⟩ := h
  have hwT : worker < d.threads.length := by omega
  have hwQ : worker < d.workQueues.length := by omega
  have hwO : worker < d.observed.length := by omega
  have hT : d.threads[worker]? = some d.threads[worker] := List.getElem?_eq_getElem hwT
  have hQ : d.workQueues[worker]? = some d.workQueues[worker] := List.getElem?_eq_getElem hwQ
  have hO : d.observed[worker]? = some d.observed[worker] := List.getElem?_eq_getElem hwO
  generalize d.threads[worker] = th at hT
  generalize d.workQueues[worker] = qw at hQ
  generalize d.observed[worker] = seen at hO
  have hqd : d.workQueues.getD worker [] = qw := getD_of_getElem_some _ _ _ _ hQ
  have htd : d.threads.getD worker .waiting = th := getD_of_getElem_some _ _ _ _ hT
  unfold dispatcher.stepsLeft at hs ⊢
  rw [htd, hqd] at hs
  rw [htd, hqd]
  unfold dispatcher.work
  rw [hT]
  cases th with
  | waiting =>
    dsimp only at hs ⊢
    rw [hQ]
    cases qw with
    | nil => simp at hs
    | cons buf queue =>
      dsimp only
      rw [getD_set_self _ _ _ _ hwT, getD_set_self _ _ _ _ hwQ]
      simp only [List.length_cons]
      omega
  | popped buf =>
    have hlt : buf < d.buffers.length := by
      apply i4 worker hw buf
      unfold dispatcher.holds
      rw [htd]
      exact List.mem_append_left _ (List.mem_singleton.2 rfl)
    have hB : d.buffers[buf]? = some d.buffers[buf] := List.getElem?_eq_getElem hlt
    dsimp only
    rw [hB, hO]
    dsimp only
    rw [getD_set_self _ _ _ _ hwT, hqd]
  | ticked buf =>
    dsimp only
    rw [getD_set_self _ _ _ _ hwT]
    have hrq : (d.release buf).workQueues = d.workQueues := by
      unfold dispatcher.release
      split <;> rfl
    rw [hrq, hqd]

/-- A worker thread with a drained queue waits, and it has observed the published sequence. -/
theorem dispatcher_work_idle {α : Type} (n : Nat) (d : dispatcher α) (worker : Nat)
    (h : dispatchInv n d) (hw : worker < n) (hs : d.stepsLeft worker = 0) :
    d.work worker = d ∧ d.observed.getD worker [] = d.published := by
  obtain ⟨⟨q, t, o⟩, i2, _, _, _, _⟩ := h
  have hwT : worker < d.threads.length := by omega
  have hwQ : worker < d.workQueues.length := by omega
  have hT : d.threads[worker]? = some d.threads[worker] := List.getElem?_eq_getElem hwT
  have hQ : d.workQueues[worker]? = some d.workQueues[worker] := List.getElem?_eq_getElem hwQ
  generalize d.threads[worker] = th at hT
  generalize d.workQueues[worker] = qw at hQ
  have hqd : d.workQueues.getD worker [] = qw := getD_of_getElem_some _ _ _ _ hQ
  have htd : d.threads.getD worker .waiting = th := getD_of_getElem_some _ _ _ _ hT
  unfold dispatcher.stepsLeft at hs
  rw [htd, hqd] at hs
  cases th with
  | waiting =>
    dsimp only at hs
    have hnil : qw = [] := by
      cases qw with
      | nil => rfl
      | cons a l => simp at hs
    subst hnil
    refine ⟨?_, ?_⟩
    · unfold dispatcher.work
      rw [hT]
      dsimp only
      rw [hQ]
    · have h2 := i2 worker hw
      unfold dispatcher.pending at h2
      rw [htd, hqd] at h2
      simpa [workerThread.unseen] using h2
  | popped buf => dsimp only at hs; omega
  | ticked buf => dsimp only at hs; omega

theorem dispatcher_stepsLeft_le {α : Type} (n : Nat) (d : dispatcher α) (worker : Nat)
    (h : dispatchInv n d) (hw : worker < n) :
    d.stepsLeft worker ≤ 3 * d.published.length + 2 := by
  obtain ⟨_, i2, _, _, _, _⟩ := h
  have h2 := congrArg List.length (i2 worker hw)
  unfold dispatcher.pending at h2
  simp only [List.length_append, List.length_map] at h2
  unfold dispatcher.stepsLeft
  split <;> omega

theorem dispatcher_drain {α : Type} (n : Nat) (worker : Nat) (hw : worker < n) :
    ∀ (k : Nat) (d : dispatcher α), dispatchInv n d → d.stepsLeft worker ≤ k →
      (d.run (List.replicate k (.work worker))).observed.getD worker [] = d.published := by
  intro k
  induction k with
  | zero =>
    intro d h hs
    exact (dispatcher_work_idle n d worker h hw (by omega)).2
  | succ k ih =>
    intro d h hs
    show ((d.work worker).run (List.replicate k (.work worker))).observed.getD worker [] = _
    by_cases h0 : d.stepsLeft worker = 0
    · rw [(dispatcher_work_idle n d worker h hw h0).1]
      exact ih d h (by omega)
    · have h1 := dispatcher_work_stepsLeft n d worker h hw (by omega)
      rw [ih (d.work worker) (dispatchInv_work n d worker h) (by omega)]
      exact dispatcher_work_published d worker

/-- C19. Order preservation in the dispatcher. Let `d` be the dispatcher reached from the
initial one (`n` workers, a pool of `bufferDepth` buffers) by any schedule of steps of the
single ingest thread (append a token, publish the fill target, each stalling under
backpressure) and of the worker threads (pop under the lock, `tick` outside it, release).
What a worker has observed through its own queue, followed by the contents the pool holds now
for the buffers it has popped or has queued, is exactly the published sequence: no buffer is
rewritten before the worker has read it. When the thread of the worker is given enough steps
it has observed exactly the published sequence. Of any two workers, one has observed an
initial part of what the other has observed, so all workers observe the buffers in the same
order. The published sequence followed by the tokens of the fill target is the sequence of
tokens the ingest thread produced, and a publication on an acquired fill target appends those
tokens to the published sequence. -/
theorem dispatcher_order_preservation {α : Type} (n bufferDepth bufferTokenCapacity : Nat)
    (events : List (dispatchEvent α)) (d : dispatcher α) (worker other : Nat)
    (hreach : (dispatcher.init α n bufferDepth bufferTokenCapacity).run events = d)
    (hw : worker < n) (ho : other < n) :
    d.observed.getD worker [] ++ (d.pending worker).map d.contentsOf = d.published ∧
    (∀ k, 3 * d.published.length + 2 ≤ k →
      (d.run (List.replicate k (.work worker))).observed.getD worker [] = d.published) ∧
    ((∃ rest, d.observed.getD worker [] ++ rest = d.observed.getD other []) ∨
      (∃ rest, d.observed.getD other [] ++ rest = d.observed.getD worker [])) ∧
    d.produced = d.published.flatten ++ d.filling ∧
    (d.acquireFillTarget ≠ none → d.publish.published = d.published ++ [d.filling]) := by
  have hinv : dispatchInv n d := by
    rw [← hreach]
    exact dispatchInv_run n events _ (dispatchInv_init α n bufferDepth bufferTokenCapacity)
  have h2 := hinv.2.1
  refine ⟨h2 worker hw, ?_, ?_, hinv.2.2.2.2.1, ?_⟩
  · intro k hk
    exact dispatcher_drain n worker hw k d hinv
      (Nat.le_trans (dispatcher_stepsLeft_le n d worker hinv hw) hk)
  · rcases List.append_eq_append_iff.1 ((h2 worker hw).trans (h2 other ho).symm) with
      ⟨a, ha, _⟩ | ⟨c, hc, _⟩
    · exact Or.inl ⟨a, ha.symm⟩
    · exact Or.inr ⟨c, hc.symm⟩
  · intro ha
    cases hb : d.acquireFillTarget with
    | none => exact absurd hb ha
    | some b =>
      obtain ⟨hb1, _⟩ := dispatcher_acquire_some d b hb
      unfold dispatcher.publish dispatcher.filling
      rw [hb, hb1]

/-- Witness of `dispatcher_order_preservation`: two workers and a pool of two buffers. The
ingest thread publishes the tokens 1, 2 and then the token 3; worker 1 has observed the first
buffer and worker 0 none when both buffers are still referred to, so the token 4, the third
publication and the token 5 stall. -/
theorem dispatcher_order_preservation_witness :
    (1 : Nat) < 2 ∧ (0 : Nat) < 2 ∧
    ((dispatcher.init Nat 2 2 4).run dispatchSchedule).published = [[1, 2], [3]] ∧
    ((dispatcher.init Nat 2 2 4).run dispatchSchedule).observed = [[], [[1, 2]]] ∧
    ((dispatcher.init Nat 2 2 4).run dispatchSchedule).produced = [1, 2, 3] ∧
    (((dispatcher.init Nat 2 2 4).run dispatchSchedule).observed.getD 1 [] ++
      (((dispatcher.init Nat 2 2 4).run dispatchSchedule).pending 1).map
        ((dispatcher.init Nat 2 2 4).run dispatchSchedule).contentsOf =
      ((dispatcher.init Nat 2 2 4).run dispatchSchedule).published ∧
    (∀ k, 3 * ((dispatcher.init Nat 2 2 4).run dispatchSchedule).published.length + 2 ≤ k →
      (((dispatcher.init Nat 2 2 4).run dispatchSchedule).run
        (List.replicate k (.work 1))).observed.getD 1 [] =
        ((dispatcher.init Nat 2 2 4).run dispatchSchedule).published) ∧
    ((∃ rest, ((dispatcher.init Nat 2 2 4).run dispatchSchedule).observed.getD 1 [] ++ rest =
        ((dispatcher.init Nat 2 2 4).run dispatchSchedule).observed.getD 0 []) ∨
      (∃ rest, ((dispatcher.init Nat 2 2 4).run dispatchSchedule).observed.getD 0 [] ++ rest =
        ((dispatcher.init Nat 2 2 4).run dispatchSchedule).observed.getD 1 [])) ∧
    ((dispatcher.init Nat 2 2 4).run dispatchSchedule).produced =
      ((dispatcher.init Nat 2 2 4).run dispatchSchedule).published.flatten ++
        ((dispatcher.init Nat 2 2 4).run dispatchSchedule).filling ∧
    (((dispatcher.init Nat 2 2 4).run dispatchSchedule).acquireFillTarget ≠ none →
      ((dispatcher.init Nat 2 2 4).run dispatchSchedule).publish.published =
        ((dispatcher.init Nat 2 2 4).run dispatchSchedule).published ++
          [((dispatcher.init Nat 2 2 4).run dispatchSchedule).filling])) :=
  ⟨by decide, by decide, by decide, by decide, by decide,
    dispatcher_order_preservation 2 2 4 dispatchSchedule
      ((dispatcher.init Nat 2 2 4).run dispatchSchedule) 1 0 rfl (by decide) (by decide)⟩
/-! ## IBS sampler: the eviction tests, the second sample-point test, retirement -/

/-- The eviction condition of the block under `if (state == s_armed)` is the disjunction of
the four tests. -/
theorem ibs_armedPart_eq (s : tracedoctor_ibs_sampler) (token : robAnalysisToken)
    (harmed : s.state = tracedoctor_ibs_sampler.s_armed) (hw : s.coreWidth ≠ 0) :
    tracedoctor_ibs_sampler.armedPart s token =
      if ibsEvicted s token then
        some { s with evicted := add64 s.evicted 1, state := tracedoctor_ibs_sampler.s_idle }
      else if hasBit token.rob ROB_COMMITTING &&
          decide (s.tag ≥ ibsHead s.coreWidth token.rob_head) &&
          decide (s.tag < (ibsHead s.coreWidth token.rob_head + s.coreWidth) % 2 ^ 32) then
        some { s with
          out := s.out ++ [sampleRow.single s.samplingCycle
            (sub64 (sub64 token.tsc_cycle s.lastProgressCycle) 1) TEA_FLAG_VALID_0
            (getFirstCommitting token).address (getFirstCommitting token).isslat
            (getFirstCommitting token).memlat
            (genSignature s.lastInstructionRegister_flags (getFirstCommitting token).flags
              (getFirstCommitting token).memlat s.base.l2MissLatency s.base.l3MissLatency)]
          state := tracedoctor_ibs_sampler.s_idle }
      else some s := by
  unfold tracedoctor_ibs_sampler.armedPart
  rw [if_pos harmed, if_neg hw]
  rfl

/-- C28. The four IBS eviction tests are disjoint: for every tag, tail and head and every
value of `instr_valid`, at most one of `evict_1` (tail > head and tag >= tail), `evict_2`
(tail > head and tag < head), `evict_3` (tail < head and tail <= tag < head) and `evict_4`
(tail = head and no valid slot) holds. -/
theorem ibs_evict_disjoint (tail head tag : Nat) (instr_valid : Bool) :
    b2n (evict_1 tail head tag) + b2n (evict_2 tail head tag) + b2n (evict_3 tail head tag) +
      b2n (evict_4 tail head instr_valid) ≤ 1 := by
  unfold evict_1 evict_2 evict_3 evict_4 b2n
  by_cases h1 : tail > head <;> by_cases h2 : tail < head <;> by_cases h3 : tag ≥ tail <;>
    by_cases h4 : tag < head <;> by_cases h5 : tail = head <;> cases instr_valid <;>
    simp [h1, h2, h3, h4, h5] <;> omega

theorem advanceLoop_exit (rng : Nat → Nat) (count : Nat) :
    ∀ (fuel : Nat) (b : base_profiler) (p : Nat) (r : Nat × base_profiler),
      advanceLoop rng count fuel b p = some r → count < r.2.nextPeriod := by
  intro fuel
  induction fuel with
  | zero => intro b p r h; exact absurd h (by simp [advanceLoop])
  | succ n ih =>
    intro b p r h
    rw [advanceLoop_succ] at h
    by_cases hle : (advanceBody rng b).nextPeriod ≤ count
    · rw [if_pos hle] at h
      exact ih _ _ _ h
    · rw [if_neg hle] at h
      simp only [Option.some.injEq] at h
      rw [← h]
      exact Nat.lt_of_not_le hle

/-- When `advanceSamplingPeriod` returns, the next sample point lies after the cycle. -/
theorem advanceSamplingPeriod_exit (rng : Nat → Nat) (b : base_profiler) (count : Nat)
    (r : Nat × base_profiler) (h : advanceSamplingPeriod rng b count = some r) :
    count < r.2.nextPeriod := by
  unfold advanceSamplingPeriod at h
  cases hs : skipMissedPeriods rng b count with
  | none => rw [hs] at h; exact absurd h (by simp)
  | some b1 =>
    rw [hs] at h
    exact advanceLoop_exit rng count _ _ _ _ h

theorem ibs_samplePoint_after (rng : Nat → Nat) (s s3 : tracedoctor_ibs_sampler)
    (token : robAnalysisToken)
    (h : tracedoctor_ibs_sampler.samplePoint rng s token = some s3) :
    reachedSamplingPeriod s3.base token.tsc_cycle = false := by
  unfold tracedoctor_ibs_sampler.samplePoint at h
  by_cases hr : reachedSamplingPeriod s.base token.tsc_cycle = true
  · rw [if_pos hr] at h
    cases hadv : advanceSamplingPeriod rng s.base token.tsc_cycle with
    | none => rw [hadv] at h; exact absurd h (by simp)
    | some adv =>
      rw [hadv] at h
      simp only [Option.some.injEq] at h
      rw [← h]
      have := advanceSamplingPeriod_exit rng s.base token.tsc_cycle adv hadv
      unfold reachedSamplingPeriod
      simp only [decide_eq_false_iff_not, not_le]
      exact this
  · rw [if_neg hr] at h
    simp only [Option.some.injEq] at h
    rw [← h]
    simpa using hr

theorem ibs_samplePoint_idle (rng : Nat → Nat) (s : tracedoctor_ibs_sampler)
    (token : robAnalysisToken) (h : reachedSamplingPeriod s.base token.tsc_cycle = false) :
    tracedoctor_ibs_sampler.samplePoint rng s token = some s := by
  unfold tracedoctor_ibs_sampler.samplePoint
  rw [h]
  rfl

theorem ibs_body_single (rng : Nat → Nat) (s : tracedoctor_ibs_sampler)
    (token : robAnalysisToken) :
    tracedoctor_ibs_sampler.body rng s token =
      tracedoctor_ibs_sampler.bodySingle rng s token := by
  unfold tracedoctor_ibs_sampler.body tracedoctor_ibs_sampler.bodySingle
  cases h3 : tracedoctor_ibs_sampler.samplePoint rng
      (tracedoctor_ibs_sampler.oirGap s token) token with
  | none => rfl
  | some s3 =>
    dsimp only
    cases h4 : tracedoctor_ibs_sampler.armedPart s3 token with
    | none => rfl
    | some s4 =>
      dsimp only
      have hb := ibs_armedPart_base s3 s4 token h4
      have hr := ibs_samplePoint_after rng _ s3 token h3
      rw [ibs_samplePoint_idle rng s4 token (by rw [hb]; exact hr)]

theorem ibs_step_single (rng : Nat → Nat) (s : tracedoctor_ibs_sampler)
    (token : robAnalysisToken) :
    tracedoctor_ibs_sampler.step rng s token =
      tracedoctor_ibs_sampler.stepSingle rng s token := by
  unfold tracedoctor_ibs_sampler.step tracedoctor_ibs_sampler.stepSingle
  rw [ibs_body_single]

/-- C29. The double evaluation of `reachedSamplingPeriod` in the IBS `tick` is behaviourally
a single evaluation. In one iteration the second test is never true: when the block under
`if (state == s_armed)` has been passed, the next sample point lies after the cycle of the
token. So the IBS `tick` with the second block removed gives, on every state, every token
sequence and every dither sequence, the same result as the original: the same members, the
same evicted count and the same rows, and it fails to return in the same cases. -/
theorem ibs_second_test_redundant (rng : Nat → Nat) (s : tracedoctor_ibs_sampler)
    (toks : List robAnalysisToken) :
    tracedoctor_ibs_sampler.tick rng s toks = tracedoctor_ibs_sampler.tickSingle rng s toks ∧
    ∀ token, ((tracedoctor_ibs_sampler.samplePoint rng
        (tracedoctor_ibs_sampler.oirGap s token) token).bind
        (fun s3 => tracedoctor_ibs_sampler.armedPart s3 token)).map
        (fun s4 => reachedSamplingPeriod s4.base token.tsc_cycle) ≠ some true := by
  constructor
  · induction toks generalizing s with
    | nil => rfl
    | cons t ts ih =>
      simp only [tracedoctor_ibs_sampler.tick, tracedoctor_ibs_sampler.tickSingle]
      rw [ibs_step_single]
      cases tracedoctor_ibs_sampler.stepSingle rng s t with
      | none => rfl
      | some s1 => exact ih s1
  · intro token
    cases h3 : tracedoctor_ibs_sampler.samplePoint rng
        (tracedoctor_ibs_sampler.oirGap s token) token with
    | none => simp
    | some s3 =>
      cases h4 : tracedoctor_ibs_sampler.armedPart s3 token with
      | none => simp [h4]
      | some s4 =>
        have hb := ibs_armedPart_base s3 s4 token h4
        have hr := ibs_samplePoint_after rng _ s3 token h3
        simp [h4, hb, hr]

/-- The members `triggerDetection` leaves: only `lastFlushPeriod` and `firstToken` change. -/
theorem triggerDetection_members (b : base_profiler) (token : robAnalysisToken) :
    ∃ lf, (triggerDetection b token).2.2 =
      { b with lastFlushPeriod := lf, firstToken := false } := by
  unfold triggerDetection
  dsimp only
  by_cases hfl : (decide (b.flushThreshold ≠ 0) &&
      decide (sub64 token.tsc_cycle b.lastFlushPeriod ≥ b.flushThreshold)) = true
  · rw [if_pos hfl]
    cases hf : b.firstToken
    · refine ⟨token.tsc_cycle, ?_⟩
      simp only [hf, Bool.false_eq_true, if_false]
    · refine ⟨token.tsc_cycle, ?_⟩
      simp only [hf, if_true]
  · rw [if_neg hfl]
    cases hf : b.firstToken
    · refine ⟨b.lastFlushPeriod, ?_⟩
      simp only [hf, Bool.false_eq_true, if_false]
      cases b
      simp_all
    · refine ⟨b.lastFlushPeriod, ?_⟩
      simp only [hf, if_true]

theorem ibs_tagPart_not_tagging (s : tracedoctor_ibs_sampler) (token : robAnalysisToken)
    (h : s.state ≠ tracedoctor_ibs_sampler.s_tagging) :
    tracedoctor_ibs_sampler.tagPart s token = s := by
  unfold tracedoctor_ibs_sampler.tagPart
  rw [if_neg (fun hc => h hc.1)]

theorem ibs_oirGap_members (s : tracedoctor_ibs_sampler) (token : robAnalysisToken) :
    tracedoctor_ibs_sampler.oirGap s token =
      { s with lastProgressCycle := ibsProgressCycle s token } := by
  unfold tracedoctor_ibs_sampler.oirGap ibsProgressCycle
  split <;> rfl

/-- Within `advanceBounds`, `advanceSamplingPeriod` returns. -/
theorem advanceSamplingPeriod_returns (rng : Nat → Nat) (b : base_profiler) (c : Nat)
    (hb : advanceBounds b c) : ∃ r, advanceSamplingPeriod rng b c = some r := by
  obtain ⟨hP, hP62, hR, hc, hs⟩ := hb
  obtain ⟨b1, e1, p1, r1, n1, m1, _⟩ := skipMissedPeriods_spec rng b c hP hR (by omega)
  have hfuel : advanceFuel = (2 ^ 64 - 2) + 2 := by decide
  obtain ⟨r, e, _, _⟩ := advanceLoop_catches_up rng c (2 ^ 64 - 2) b1 0
    (by rw [p1]; exact hP) (by rw [p1, r1]; exact hR) (by rw [p1]; exact n1)
    (by rw [p1]; rcases m1 with h | h <;> omega)
  unfold advanceSamplingPeriod
  rw [e1]
  dsimp only
  rw [hfuel, e]
  exact ⟨r, rfl⟩

theorem advanceBounds_trigger (b : base_profiler) (token : robAnalysisToken) (c : Nat)
    (hb : advanceBounds b c) : advanceBounds (triggerDetection b token).2.2 c := by
  obtain ⟨lf, hlf⟩ := triggerDetection_members b token
  rw [hlf]
  exact hb

theorem hasBit_shift (x k : Nat) : hasBit x (1 <<< k) = x.testBit k := by
  unfold hasBit
  rw [Nat.one_shiftLeft, Nat.and_two_pow]
  cases h : x.testBit k
  · simp
  · simp

theorem fillSlot_testBit (l2 l3 flags address isslat memlat k : Nat) (rb : tracedoctor_tea_sampler.rowBuilder)
    (hk : k < 16) (h : rb.teaflags.testBit k = true) :
    (tracedoctor_tea_sampler.fillSlot l2 l3 flags address isslat memlat rb).teaflags.testBit k
      = true := by
  unfold tracedoctor_tea_sampler.fillSlot
  split
  · show ((rb.teaflags ||| (1 <<< rb.index)) % 2 ^ 16).testBit k = true
    rw [Nat.testBit_mod_two_pow, Nat.testBit_or, h]
    simp [hk]
  · exact h

/-- The block that writes the row of a sample: one row, its flag byte, and the state OFF. -/
theorem tea_emitPart_row (s : tracedoctor_tea_sampler) (token : robAnalysisToken)
    (hon : s.state ≠ tracedoctor_tea_sampler.s_off)
    (hce : hasBit token.rob (ROB_COMMITTING ||| ROB_EXCEPTION) = true) :
    ∃ row, tracedoctor_tea_sampler.emitPart s token =
        { s with out := s.out ++ [row], state := tracedoctor_tea_sampler.s_off } ∧
      (hasBit token.rob ROB_EXCEPTION = true → row.teaflags = TEA_FLAG_VALID_0) ∧
      (hasBit token.rob ROB_EXCEPTION = false → s.state = tracedoctor_tea_sampler.s_stalled →
        hasBit row.teaflags TEA_FLAG_STALLED = true) ∧
      (hasBit token.rob ROB_EXCEPTION = false → s.state = tracedoctor_tea_sampler.s_deferred →
        hasBit row.teaflags TEA_FLAG_DEFERRED = true) := by
  unfold tracedoctor_tea_sampler.emitPart
  rw [if_pos ⟨hon, hce⟩]
  refine ⟨_, rfl, ?_, ?_, ?_⟩
  · intro he
    simp only [he, if_true]
  · intro he hst
    simp only [he, Bool.false_eq_true, if_false]
    show hasBit _ (1 <<< 4) = true
    rw [hasBit_shift]
    refine fillSlot_testBit _ _ _ _ _ _ 4 _ (by decide)
      (fillSlot_testBit _ _ _ _ _ _ 4 _ (by decide)
        (fillSlot_testBit _ _ _ _ _ _ 4 _ (by decide)
          (fillSlot_testBit _ _ _ _ _ _ 4 _ (by decide) ?_)))
    show ((if s.state = tracedoctor_tea_sampler.s_stalled then TEA_FLAG_STALLED else 0) |||
      (if s.state = tracedoctor_tea_sampler.s_deferred then TEA_FLAG_DEFERRED else 0)).testBit 4
        = true
    rw [if_pos hst, Nat.testBit_or]
    have : TEA_FLAG_STALLED.testBit 4 = true := by decide
    rw [this]
    rfl
  · intro he hst
    simp only [he, Bool.false_eq_true, if_false]
    show hasBit _ (1 <<< 5) = true
    rw [hasBit_shift]
    refine fillSlot_testBit _ _ _ _ _ _ 5 _ (by decide)
      (fillSlot_testBit _ _ _ _ _ _ 5 _ (by decide)
        (fillSlot_testBit _ _ _ _ _ _ 5 _ (by decide)
          (fillSlot_testBit _ _ _ _ _ _ 5 _ (by decide) ?_)))
    show ((if s.state = tracedoctor_tea_sampler.s_stalled then TEA_FLAG_STALLED else 0) |||
      (if s.state = tracedoctor_tea_sampler.s_deferred then TEA_FLAG_DEFERRED else 0)).testBit 5
        = true
    rw [if_pos hst, Nat.testBit_or]
    have : TEA_FLAG_DEFERRED.testBit 5 = true := by decide
    rw [this]
    simp

/-- An iteration of the TEA sampler `tick` on a later token with COMMITTING, EXCEPTION or
POPULATED, in terms of its blocks. -/
theorem tea_step_blocks (rng : Nat → Nat) (s s3 : tracedoctor_tea_sampler)
    (token : robAnalysisToken) (hnf : s.base.firstToken = false)
    (hg : hasBit token.rob (ROB_COMMITTING ||| ROB_EXCEPTION ||| ROB_POPULATED) = true)
    (h3 : teaAtEmit rng s token = some s3) :
    tracedoctor_tea_sampler.step rng s token =
      some (tracedoctor_tea_sampler.registerPart
        (tracedoctor_tea_sampler.emitPart s3 token) token) := by
  rw [tea_step_later rng s token (triggerDetection_notFirst s.base token hnf).1]
  unfold tracedoctor_tea_sampler.body
  rw [if_pos hg]
  unfold teaAtEmit at h3
  rw [h3]

/-- Within `advanceBounds` the sample-point block returns. -/
theorem teaAtEmit_returns (rng : Nat → Nat) (s : tracedoctor_tea_sampler)
    (token : robAnalysisToken) (hb : advanceBounds s.base token.tsc_cycle) :
    ∃ s3, teaAtEmit rng s token = some s3 := by
  obtain ⟨p1, _, _⟩ := tea_oirGap_fields
    { s with base := (triggerDetection s.base token).2.2 } token
  obtain ⟨r, hr⟩ := advanceSamplingPeriod_returns rng (triggerDetection s.base token).2.2
    token.tsc_cycle (advanceBounds_trigger s.base token _ hb)
  unfold teaAtEmit tracedoctor_tea_sampler.samplePoint
  rw [p1]
  dsimp only
  rw [hr]
  dsimp only
  split_ifs <;> exact ⟨_, rfl⟩

theorem tea_emitPart_skip (s : tracedoctor_tea_sampler) (token : robAnalysisToken)
    (hnce : hasBit token.rob (ROB_COMMITTING ||| ROB_EXCEPTION) = false) :
    tracedoctor_tea_sampler.emitPart s token = s := by
  unfold tracedoctor_tea_sampler.emitPart
  rw [if_neg]
  intro h
  rw [hnce] at h
  exact absurd h.2 (by simp)

theorem tea_registerPart_skip (s : tracedoctor_tea_sampler) (token : robAnalysisToken)
    (hnce : hasBit token.rob (ROB_COMMITTING ||| ROB_EXCEPTION) = false) :
    tracedoctor_tea_sampler.registerPart s token = s := by
  have h : hasBit token.rob (ROB_EXCEPTION ||| ROB_COMMITTING) = false := by
    rw [hasBit_or] at hnce ⊢
    rw [Bool.or_comm]
    exact hnce
  unfold tracedoctor_tea_sampler.registerPart
  rw [h]
  rfl

/-- The sample-point block on a POPULATED-only token. -/
theorem tea_samplePoint_populatedOnly (rng : Nat → Nat) (s : tracedoctor_tea_sampler)
    (token : robAnalysisToken) (r : Nat × base_profiler)
    (hreach : reachedSamplingPeriod s.base token.tsc_cycle = true)
    (hadv : advanceSamplingPeriod rng s.base token.tsc_cycle = some r)
    (hpop : hasBit token.rob ROB_POPULATED = true)
    (hnce : hasBit token.rob (ROB_COMMITTING ||| ROB_EXCEPTION) = false) :
    ∃ s3, tracedoctor_tea_sampler.samplePoint rng s token = some s3 ∧
      (s.base.nextPeriod = token.tsc_cycle →
        s3.state = tracedoctor_tea_sampler.s_stalled ∧ s3.out = s.out) ∧
      (s.base.nextPeriod ≠ token.tsc_cycle →
        hasBit s.lastInstructionRegister.flags INSTR_OIR = false →
        s3.state = tracedoctor_tea_sampler.s_deferred ∧ s3.out = s.out) ∧
      (s.base.nextPeriod ≠ token.tsc_cycle →
        hasBit s.lastInstructionRegister.flags INSTR_OIR = true →
        s3.state = tracedoctor_tea_sampler.s_off ∧
        ∃ row, s3.out = s.out ++ [row] ∧ row.teaflags = TEA_FLAG_VALID_0 ||| TEA_FLAG_OIR) := by
  unfold tracedoctor_tea_sampler.samplePoint
  rw [hreach, hadv]
  simp only [if_true, hpop, hnce]
  by_cases hx : s.base.nextPeriod = token.tsc_cycle
  · simp only [hx, decide_True, Bool.not_true, Bool.false_and, Bool.false_eq_true, if_false,
      Bool.not_false, Bool.and_self, Bool.or_true, if_true]
    exact ⟨_, rfl, fun _ => ⟨rfl, rfl⟩, fun h => absurd rfl h, fun h => absurd rfl h⟩
  · simp only [hx, decide_False, Bool.not_false, Bool.and_self, if_true]
    cases ho : hasBit s.lastInstructionRegister.flags INSTR_OIR
    · simp only [Bool.false_eq_true, if_false]
      exact ⟨_, rfl, fun h => h.elim, fun _ _ => ⟨rfl, rfl⟩,
        fun _ h => absurd h (by simp)⟩
    · simp only [if_true]
      exact ⟨_, rfl, fun h => h.elim, fun _ h => absurd h (by simp),
        fun _ _ => ⟨rfl, _, rfl, rfl⟩⟩

/-- C25 (as amended). TEA sampler, POPULATED-only sample point. For a TEA sampler past its
first token, with sampling members and cycle in the range where `advanceSamplingPeriod`
returns, on a token whose rob is POPULATED-only and that reaches a sample point, the
iteration of `tick` returns and: if the sample point is hit exactly
(`nextPeriod == tsc_cycle`), the state after the token is STALLED and no row is written; if
the sample point was passed (`nextPeriod < tsc_cycle`), the state after the token is DEFERRED
with no row written, or, when the last instruction register has an OIR flag, OFF with the row
of the offending instruction written. -/
theorem tea_populated_only_sample_point (rng : Nat → Nat) (s : tracedoctor_tea_sampler)
    (token : robAnalysisToken)
    (hnf : s.base.firstToken = false)
    (hb : advanceBounds s.base token.tsc_cycle)
    (hreach : reachedSamplingPeriod s.base token.tsc_cycle = true)
    (hpop : hasBit token.rob ROB_POPULATED = true)
    (hnce : hasBit token.rob (ROB_COMMITTING ||| ROB_EXCEPTION) = false) :
    ∃ s1, tracedoctor_tea_sampler.step rng s token = some s1 ∧
      (s.base.nextPeriod = token.tsc_cycle →
        s1.state = tracedoctor_tea_sampler.s_stalled ∧ s1.out = s.out) ∧
      (s.base.nextPeriod < token.tsc_cycle →
        hasBit s.lastInstructionRegister.flags INSTR_OIR = false →
        s1.state = tracedoctor_tea_sampler.s_deferred ∧ s1.out = s.out) ∧
      (s.base.nextPeriod < token.tsc_cycle →
        hasBit s.lastInstructionRegister.flags INSTR_OIR = true →
        s1.state = tracedoctor_tea_sampler.s_off ∧
        ∃ row, s1.out = s.out ++ [row] ∧ row.teaflags = TEA_FLAG_VALID_0 ||| TEA_FLAG_OIR) := by
  have hg : hasBit token.rob (ROB_COMMITTING ||| ROB_EXCEPTION ||| ROB_POPULATED) = true := by
    rw [hasBit_or, hpop]
    simp
  obtain ⟨lf, hlf⟩ := triggerDetection_members s.base token
  obtain ⟨r, hr⟩ := advanceSamplingPeriod_returns rng (triggerDetection s.base token).2.2
    token.tsc_cycle (advanceBounds_trigger s.base token _ hb)
  have hgap : ∃ lp, tracedoctor_tea_sampler.oirGap
      { s with base := (triggerDetection s.base token).2.2 } token =
      { s with base := (triggerDetection s.base token).2.2, lastProgressCycle := lp } := by
    unfold tracedoctor_tea_sampler.oirGap
    split
    · exact ⟨_, rfl⟩
    · exact ⟨_, rfl⟩
  obtain ⟨lp, hlp⟩ := hgap
  obtain ⟨s3, h3, c1, c2, c3⟩ := tea_samplePoint_populatedOnly rng
    { s with base := (triggerDetection s.base token).2.2, lastProgressCycle := lp } token r
    (by show reachedSamplingPeriod (triggerDetection s.base token).2.2 _ = true
        rw [hlf]; exact hreach)
    hr hpop hnce
  have hstep := tea_step_blocks rng s s3 token hnf hg (by unfold teaAtEmit; rw [hlp]; exact h3)
  rw [tea_emitPart_skip s3 token hnce, tea_registerPart_skip s3 token hnce] at hstep
  have hnp : ({ s with base := (triggerDetection s.base token).2.2, lastProgressCycle := lp } :
      tracedoctor_tea_sampler).base.nextPeriod = s.base.nextPeriod := by
    show (triggerDetection s.base token).2.2.nextPeriod = _
    rw [hlf]
  rw [hnp] at c1 c2 c3
  exact ⟨s3, hstep, c1, fun h => c2 (by omega), fun h => c3 (by omega)⟩

/-- Witness of `tea_populated_only_sample_point`: the POPULATED-only token of cycle 100 hits
the sample point 100 exactly and leaves the state STALLED. -/
theorem tea_populated_only_sample_point_witness :
    teaStarted.base.nextPeriod = (populatedToken 100).tsc_cycle ∧
    ∃ s1, tracedoctor_tea_sampler.step (fun _ => 0) teaStarted (populatedToken 100) = some s1 ∧
      (teaStarted.base.nextPeriod = (populatedToken 100).tsc_cycle →
        s1.state = tracedoctor_tea_sampler.s_stalled ∧ s1.out = teaStarted.out) ∧
      (teaStarted.base.nextPeriod < (populatedToken 100).tsc_cycle →
        hasBit teaStarted.lastInstructionRegister.flags INSTR_OIR = false →
        s1.state = tracedoctor_tea_sampler.s_deferred ∧ s1.out = teaStarted.out) ∧
      (teaStarted.base.nextPeriod < (populatedToken 100).tsc_cycle →
        hasBit teaStarted.lastInstructionRegister.flags INSTR_OIR = true →
        s1.state = tracedoctor_tea_sampler.s_off ∧
        ∃ row, s1.out = teaStarted.out ++ [row] ∧
          row.teaflags = TEA_FLAG_VALID_0 ||| TEA_FLAG_OIR) :=
  ⟨by decide, tea_populated_only_sample_point (fun _ => 0) teaStarted (populatedToken 100)
    (by decide) (by decide) (by decide) (by decide) (by decide)⟩

/-- C25 (counterexample). The TEA sampler constructed with `samplingPeriod:100` and fed a
first token at cycle 0 has its sample point at cycle 100. The POPULATED-only token of cycle
101 reaches that sample point (it was passed by one cycle), and the state after the token is
DEFERRED, not STALLED. -/
theorem tea_populated_only_counterexample :
    tracedoctor_tea_sampler.step (fun _ => 0) teaFresh100 (populatedToken 0) =
      some teaStarted ∧
    reachedSamplingPeriod teaStarted.base (populatedToken 101).tsc_cycle = true ∧
    hasBit (populatedToken 101).rob ROB_POPULATED = true ∧
    hasBit (populatedToken 101).rob (ROB_COMMITTING ||| ROB_EXCEPTION) = false ∧
    (tracedoctor_tea_sampler.tick (fun _ => 0) teaFresh100
        [populatedToken 0, populatedToken 101]).map (fun s => s.state) =
      some tracedoctor_tea_sampler.s_deferred ∧
    tracedoctor_tea_sampler.s_deferred ≠ tracedoctor_tea_sampler.s_stalled := by
  refine ⟨by decide, by decide, by decide, by decide, by decide!, by decide⟩

/-- C26 (as amended). TEA sampler flag byte. On a later token with COMMITTING or EXCEPTION,
when the block that writes the sample is reached with the state not OFF (`s3` is the sampler
at that point), the iteration of `tick` appends exactly one row to the rows written so far,
and: on a token without EXCEPTION the row has TEA_FLAG_STALLED set in `teaflags` when the
state is STALLED and TEA_FLAG_DEFERRED set when the state is DEFERRED; on a token with
EXCEPTION the flag byte is `TEA_FLAG_VALID_0` alone, whatever the state. -/
theorem tea_flag_byte (rng : Nat → Nat) (s s3 : tracedoctor_tea_sampler)
    (token : robAnalysisToken)
    (hnf : s.base.firstToken = false)
    (hce : hasBit token.rob (ROB_COMMITTING ||| ROB_EXCEPTION) = true)
    (h3 : teaAtEmit rng s token = some s3)
    (hon : s3.state ≠ tracedoctor_tea_sampler.s_off) :
    ∃ s1 row, tracedoctor_tea_sampler.step rng s token = some s1 ∧
      s1.out = s3.out ++ [row] ∧
      (hasBit token.rob ROB_EXCEPTION = true → row.teaflags = TEA_FLAG_VALID_0) ∧
      (hasBit token.rob ROB_EXCEPTION = false → s3.state = tracedoctor_tea_sampler.s_stalled →
        hasBit row.teaflags TEA_FLAG_STALLED = true) ∧
      (hasBit token.rob ROB_EXCEPTION = false → s3.state = tracedoctor_tea_sampler.s_deferred →
        hasBit row.teaflags TEA_FLAG_DEFERRED = true) := by
  have hg : hasBit token.rob (ROB_COMMITTING ||| ROB_EXCEPTION ||| ROB_POPULATED) = true := by
    rw [hasBit_or, hce]
    rfl
  obtain ⟨row, he, f1, f2, f3⟩ := tea_emitPart_row s3 token hon hce
  obtain ⟨_, _, q3⟩ := tea_registerPart_fields (tracedoctor_tea_sampler.emitPart s3 token) token
  refine ⟨_, row, tea_step_blocks rng s s3 token hnf hg h3, ?_, f1, f2, f3⟩
  rw [q3, he]

/-- Witness of `tea_flag_byte`: the sampler in state STALLED with the sample of cycle 100
outstanding, on the COMMITTING token of cycle 105. -/
theorem tea_flag_byte_witness :
    teaStalled.state = tracedoctor_tea_sampler.s_stalled ∧
    hasBit (commitToken 105).rob ROB_EXCEPTION = false ∧
    ∃ s1 row, tracedoctor_tea_sampler.step (fun _ => 0) teaStalled (commitToken 105) = some s1 ∧
      s1.out = teaStalled.out ++ [row] ∧
      (hasBit (commitToken 105).rob ROB_EXCEPTION = true → row.teaflags = TEA_FLAG_VALID_0) ∧
      (hasBit (commitToken 105).rob ROB_EXCEPTION = false →
        teaStalled.state = tracedoctor_tea_sampler.s_stalled →
        hasBit row.teaflags TEA_FLAG_STALLED = true) ∧
      (hasBit (commitToken 105).rob ROB_EXCEPTION = false →
        teaStalled.state = tracedoctor_tea_sampler.s_deferred →
        hasBit row.teaflags TEA_FLAG_DEFERRED = true) :=
  ⟨by decide, by decide,
    tea_flag_byte (fun _ => 0) teaStalled teaStalled (commitToken 105) (by decide) (by decide)
      (by decide) (by decide)⟩

/-- C26 (counterexample). The sampler `teaStarted` is left in state STALLED by the
POPULATED-only token of cycle 100. The EXCEPTION token of cycle 105 is then processed while
the state is STALLED and one row is written, whose flag byte is `TEA_FLAG_VALID_0`:
TEA_FLAG_STALLED is not set in it. -/
theorem tea_flag_byte_counterexample :
    tracedoctor_tea_sampler.step (fun _ => 0) teaStarted (populatedToken 100) =
      some teaStalled ∧
    teaStalled.state = tracedoctor_tea_sampler.s_stalled ∧
    hasBit (exceptionToken 105).rob (ROB_COMMITTING ||| ROB_EXCEPTION) = true ∧
    teaAtEmit (fun _ => 0) teaStalled (exceptionToken 105) = some teaStalled ∧
    (tracedoctor_tea_sampler.step (fun _ => 0) teaStalled (exceptionToken 105)).map
        (fun s => s.out.map (fun row => row.teaflags)) = some [TEA_FLAG_VALID_0] ∧
    hasBit TEA_FLAG_VALID_0 TEA_FLAG_STALLED = false := by
  refine ⟨by decide!, by decide, by decide, by decide, by decide, by decide⟩

/-- C27. TEA sampler returns to OFF. For a TEA sampler past its first token, with sampling
members and cycle in the range where `advanceSamplingPeriod` returns, on a token whose rob
has COMMITTING or EXCEPTION, the iteration of `tick` returns with the state OFF; and with `s3`
the sampler when the block that writes the sample is reached, exactly one row is appended to
the rows of `s3` if the state of `s3` is not OFF, and none if it is OFF. -/
theorem tea_returns_to_off (rng : Nat → Nat) (s : tracedoctor_tea_sampler)
    (token : robAnalysisToken)
    (hnf : s.base.firstToken = false)
    (hce : hasBit token.rob (ROB_COMMITTING ||| ROB_EXCEPTION) = true)
    (hb : advanceBounds s.base token.tsc_cycle) :
    ∃ s3 s1, teaAtEmit rng s token = some s3 ∧
      tracedoctor_tea_sampler.step rng s token = some s1 ∧
      s1.state = tracedoctor_tea_sampler.s_off ∧
      (s3.state ≠ tracedoctor_tea_sampler.s_off → ∃ row, s1.out = s3.out ++ [row]) ∧
      (s3.state = tracedoctor_tea_sampler.s_off → s1.out = s3.out) := by
  have hg : hasBit token.rob (ROB_COMMITTING ||| ROB_EXCEPTION ||| ROB_POPULATED) = true := by
    rw [hasBit_or, hce]
    rfl
  obtain ⟨s3, h3⟩ := teaAtEmit_returns rng s token hb
  obtain ⟨_, q2, q3⟩ := tea_registerPart_fields (tracedoctor_tea_sampler.emitPart s3 token) token
  refine ⟨s3, _, h3, tea_step_blocks rng s s3 token hnf hg h3, ?_, ?_, ?_⟩
  · rw [q2]
    by_cases hoff : s3.state = tracedoctor_tea_sampler.s_off
    · rw [tea_emitPart_off s3 token hoff]
      exact hoff
    · obtain ⟨row, he, _⟩ := tea_emitPart_row s3 token hoff hce
      rw [he]
  · intro hon
    obtain ⟨row, he, _⟩ := tea_emitPart_row s3 token hon hce
    exact ⟨row, by rw [q3, he]⟩
  · intro hoff
    rw [q3, tea_emitPart_off s3 token hoff]

/-- Witness of `tea_returns_to_off`: the COMMITTING token of cycle 100 hits the sample point
of `teaStarted`. -/
theorem tea_returns_to_off_witness :
    ∃ s3 s1, teaAtEmit (fun _ => 0) teaStarted (commitToken 100) = some s3 ∧
      tracedoctor_tea_sampler.step (fun _ => 0) teaStarted (commitToken 100) = some s1 ∧
      s1.state = tracedoctor_tea_sampler.s_off ∧
      (s3.state ≠ tracedoctor_tea_sampler.s_off → ∃ row, s1.out = s3.out ++ [row]) ∧
      (s3.state = tracedoctor_tea_sampler.s_off → s1.out = s3.out) :=
  tea_returns_to_off (fun _ => 0) teaStarted (commitToken 100) (by decide) (by decide)
    (by decide)

/-! ## Oracle: counters per address and in total -/

theorem amapGet_resultUpd (r : List (Nat × flatSample)) (a : Nat)
    (f : flatSample → flatSample) (x : Nat) :
    amapGet flatSample.zero (resultUpd r a f) x =
      if x = a then f (amapGet flatSample.zero r a) else amapGet flatSample.zero r x := by
  unfold resultUpd
  exact amapGet_amapSet _ _ _ _ _

theorem fieldAt_le_fieldTotal (φ : flatSample → Nat) (hz : φ flatSample.zero = 0)
    (r : List (Nat × flatSample)) (a : Nat) : fieldAt φ r a ≤ fieldTotal φ r := by
  induction r with
  | nil => simp [fieldAt, amapGet, hz]
  | cons e r ih =>
    simp only [fieldAt, amapGet, fieldTotal, List.map_cons, List.sum_cons] at ih ⊢
    split
    · omega
    · omega

theorem fieldTotal_amapSet (φ : flatSample → Nat) (hz : φ flatSample.zero = 0)
    (r : List (Nat × flatSample)) (a : Nat) (v : flatSample) :
    fieldTotal φ (amapSet a v r) + fieldAt φ r a = fieldTotal φ r + φ v := by
  induction r with
  | nil => simp [amapSet, amapGet, fieldTotal, fieldAt, hz]
  | cons e r ih =>
    simp only [fieldAt, amapGet, amapSet, fieldTotal] at ih ⊢
    split
    · simp only [List.map_cons, List.sum_cons]
      omega
    · simp only [List.map_cons, List.sum_cons]
      omega

/-- An in-place update that adds `d` to the counter of `result[a]`. -/
theorem fieldAdds_resultUpd (φ : flatSample → Nat) (hz : φ flatSample.zero = 0)
    (r : List (Nat × flatSample)) (a d : Nat) (f : flatSample → flatSample)
    (hf : ∀ t : flatSample, φ (f t) = add64 (φ t) d)
    (hb : fieldTotal φ r + d < 2 ^ 64) :
    fieldAdds φ r (resultUpd r a f) (fun x => if x = a then d else 0) d := by
  have hle := fieldAt_le_fieldTotal φ hz r a
  have hv : φ (f (amapGet flatSample.zero r a)) = fieldAt φ r a + d := by
    rw [hf]
    unfold add64 fieldAt at *
    exact Nat.mod_eq_of_lt (by omega)
  constructor
  · intro x
    show φ (amapGet flatSample.zero (resultUpd r a f) x) =
      φ (amapGet flatSample.zero r x) + (if x = a then d else 0)
    rw [amapGet_resultUpd]
    by_cases hx : x = a
    · rw [if_pos hx, if_pos hx, hx]
      exact hv
    · rw [if_neg hx, if_neg hx]
      rfl
  · have h1 := fieldTotal_amapSet φ hz r a (f (amapGet flatSample.zero r a))
    unfold resultUpd
    omega

/-- An in-place update that leaves the counter alone. -/
theorem fieldAdds_resultUpd_keep (φ : flatSample → Nat) (hz : φ flatSample.zero = 0)
    (r : List (Nat × flatSample)) (a : Nat) (f : flatSample → flatSample)
    (hf : ∀ t : flatSample, φ (f t) = φ t) :
    fieldAdds φ r (resultUpd r a f) (fun _ => 0) 0 := by
  constructor
  · intro x
    unfold fieldAt
    rw [amapGet_resultUpd]
    by_cases hx : x = a
    · rw [if_pos hx, hf, hx]
      rfl
    · rw [if_neg hx]
      rfl
  · have h1 := fieldTotal_amapSet φ hz r a (f (amapGet flatSample.zero r a))
    rw [hf] at h1
    unfold resultUpd
    unfold fieldAt at h1
    omega

theorem fieldAdds_refl (φ : flatSample → Nat) (r : List (Nat × flatSample)) :
    fieldAdds φ r r (fun _ => 0) 0 := ⟨fun _ => rfl, rfl⟩

theorem fieldAdds_trans (φ : flatSample → Nat) (r r1 r2 : List (Nat × flatSample))
    (δ1 δ2 : Nat → Nat) (D1 D2 : Nat) (h1 : fieldAdds φ r r1 δ1 D1)
    (h2 : fieldAdds φ r1 r2 δ2 D2) :
    fieldAdds φ r r2 (fun x => δ1 x + δ2 x) (D1 + D2) := by
  constructor
  · intro x
    show fieldAt φ r2 x = fieldAt φ r x + (δ1 x + δ2 x)
    rw [h2.1 x, h1.1 x]
    omega
  · rw [h2.2, h1.2]
    omega

theorem commitField_tCommit : commitField (fun t => t.tCommit) (fun ilp _ _ => ilp) :=
  ⟨rfl, fun _ _ => rfl, fun _ _ _ _ _ => rfl, fun _ _ => rfl, fun _ _ => rfl,
    fun _ _ _ _ _ _ => rfl⟩

theorem commitField_cStall : commitField (fun t => t.cStall) (fun _ st _ => b2n st) :=
  ⟨rfl, fun _ _ => rfl, fun _ _ _ _ _ => rfl, fun _ _ => rfl, fun _ _ => rfl,
    fun _ _ _ _ _ _ => rfl⟩

theorem commitField_cDeferred : commitField (fun t => t.cDeferred) (fun _ _ df => b2n df) :=
  ⟨rfl, fun _ _ => rfl, fun _ _ _ _ _ => rfl, fun _ _ => rfl, fun _ _ => rfl,
    fun _ _ _ _ _ _ => rfl⟩

/-- The POPULATED block leaves a counter of the commit accounting alone. -/
theorem populatedPart_keeps (φ : flatSample → Nat) (inc : Nat → Bool → Bool → Nat)
    (hφ : commitField φ inc) (r : List (Nat × flatSample)) (lastToken token : robAnalysisToken)
    (rem : Nat) :
    fieldAdds φ r (tracedoctor_oracle.populatedPart r lastToken token rem) (fun _ => 0) 0 := by
  obtain ⟨hz, k1, k2, k3, _, _⟩ := hφ
  unfold tracedoctor_oracle.populatedPart
  dsimp only
  split
  · exact fieldAdds_resultUpd_keep φ hz r _ _ (fun t => k1 t _)
  · split
    · exact fieldAdds_resultUpd_keep φ hz r _ _ (fun t => k2 t _ _ _ _)
    · exact fieldAdds_resultUpd_keep φ hz r _ _ (fun t => k3 t _)

/-- The stall block leaves a counter of the commit accounting alone. -/
theorem stallPart_keeps (φ : flatSample → Nat) (inc : Nat → Bool → Bool → Nat)
    (hφ : commitField φ inc) (r : List (Nat × flatSample)) (token : robAnalysisToken)
    (rem : Nat) :
    fieldAdds φ r (tracedoctor_oracle.stallPart r token rem) (fun _ => 0) 0 := by
  obtain ⟨hz, _, _, _, k4, _⟩ := hφ
  unfold tracedoctor_oracle.stallPart
  dsimp only
  split
  · exact fieldAdds_resultUpd_keep φ hz r _ _ (fun t => k4 t _)
  · exact fieldAdds_refl φ r

/-- One committing slot adds its increment at its address. -/
theorem commitSlot_adds (φ : flatSample → Nat) (inc : Nat → Bool → Bool → Nat)
    (hφ : commitField φ inc) (r : List (Nat × flatSample))
    (address isslat memlat ilpCycles : Nat) (stalled deferred : Bool)
    (hb : fieldTotal φ r + inc ilpCycles stalled deferred < 2 ^ 64) :
    fieldAdds φ r
      (tracedoctor_oracle.commitSlot r address isslat memlat ilpCycles stalled deferred)
      (slotInc true address (inc ilpCycles stalled deferred))
      (inc ilpCycles stalled deferred) := by
  obtain ⟨hz, _, _, _, _, k5⟩ := hφ
  have h := fieldAdds_resultUpd φ hz r address (inc ilpCycles stalled deferred)
    (fun t => { t with
        tCommit := add64 t.tCommit ilpCycles
        tIssueLatency := add64 t.tIssueLatency isslat
        tMemoryLatency := add64 t.tMemoryLatency memlat
        cCommit := add64 t.cCommit 1
        cStall := add64 t.cStall (b2n stalled)
        cDeferred := add64 t.cDeferred (b2n deferred) })
    (fun t => k5 t ilpCycles isslat memlat stalled deferred) hb
  unfold tracedoctor_oracle.commitSlot
  refine ⟨fun x => ?_, h.2⟩
  rw [h.1 x]
  unfold slotInc
  simp

/-- One `if (instrN_commits)` block: the increment, and `stalled`/`deferred` afterwards. -/
theorem commitBlock_adds (φ : flatSample → Nat) (inc : Nat → Bool → Bool → Nat)
    (hφ : commitField φ inc) (c : Bool) (address isslat memlat ilpCycles : Nat)
    (st : List (Nat × flatSample) × Bool × Bool)
    (hb : fieldTotal φ st.1 + b2n c * inc ilpCycles st.2.1 st.2.2 < 2 ^ 64) :
    fieldAdds φ st.1
      (tracedoctor_oracle.commitBlock c address isslat memlat ilpCycles st).1
      (slotInc c address (inc ilpCycles st.2.1 st.2.2))
      (b2n c * inc ilpCycles st.2.1 st.2.2) ∧
    (tracedoctor_oracle.commitBlock c address isslat memlat ilpCycles st).2.1 = (!c && st.2.1) ∧
    (tracedoctor_oracle.commitBlock c address isslat memlat ilpCycles st).2.2 = (!c && st.2.2) := by
  unfold tracedoctor_oracle.commitBlock
  cases c
  · simp only [Bool.false_eq_true, if_false, Bool.not_false, Bool.true_and]
    refine ⟨⟨fun x => ?_, ?_⟩, trivial, trivial⟩
    · simp [slotInc]
    · simp [b2n]
  · simp only [if_true, Bool.not_true, Bool.false_and]
    refine ⟨?_, trivial, trivial⟩
    have h := commitSlot_adds φ inc hφ st.1 address isslat memlat ilpCycles st.2.1 st.2.2
      (by simpa [b2n] using hb)
    simpa [b2n] using h

theorem commitBlock_last (c : Bool) (address isslat memlat ilpCycles : Nat)
    (st : List (Nat × flatSample) × Bool × Bool) :
    (if c = true then
        tracedoctor_oracle.commitSlot st.1 address isslat memlat ilpCycles st.2.1 st.2.2
      else st.1) =
      (tracedoctor_oracle.commitBlock c address isslat memlat ilpCycles st).1 := by
  unfold tracedoctor_oracle.commitBlock
  cases c <;> rfl

/-- The block under `if (token.state.rob & ROB_COMMITTING)`: what it adds to a counter. -/
theorem commitPart_adds (φ : flatSample → Nat) (inc : Nat → Bool → Bool → Nat)
    (hφ : commitField φ inc) (r : List (Nat × flatSample)) (lastToken token : robAnalysisToken)
    (ilp : Nat) (hilp : ilp_magic (sub32 (nCommitting token) 1) = some ilp)
    (hb : fieldTotal φ r + commitIncTotal inc ilp lastToken token < 2 ^ 64) :
    ∃ r1, tracedoctor_oracle.commitPart r lastToken token = some r1 ∧
      fieldAdds φ r r1 (commitIncAt inc ilp lastToken token)
        (commitIncTotal inc ilp lastToken token) := by
  unfold commitIncTotal at hb
  dsimp only at hb
  unfold tracedoctor_oracle.commitPart
  dsimp only
  have hn : b2n (hasBit token.instr0_flags INSTR_COMMITS) +
      b2n (hasBit token.instr1_flags INSTR_COMMITS) +
      b2n (hasBit token.instr2_flags INSTR_COMMITS) +
      b2n (hasBit token.instr3_flags INSTR_COMMITS) = nCommitting token := rfl
  rw [hn, hilp]
  dsimp only
  rw [commitBlock_last]
  have hst : (!hasBit token.rob ROB_POPULATED &&
      (hasBit lastToken.rob ROB_POPULATED &&
        !hasBit lastToken.rob (ROB_COMMITTING ||| ROB_EXCEPTION))) =
      oracleStalled lastToken token := rfl
  have hdf : (hasBit token.rob ROB_POPULATED ||
      (hasBit lastToken.rob ROB_POPULATED &&
        !hasBit lastToken.rob (ROB_COMMITTING ||| ROB_EXCEPTION))) =
      oracleDeferred lastToken token := rfl
  rw [hst, hdf]
  obtain ⟨A0, S0, D0⟩ := commitBlock_adds φ inc hφ (hasBit token.instr0_flags INSTR_COMMITS)
    token.instr0_address token.instr0_isslat token.instr0_memlat ilp
    (r, oracleStalled lastToken token, oracleDeferred lastToken token)
    (by
      show fieldTotal φ r + b2n (hasBit token.instr0_flags INSTR_COMMITS) *
        inc ilp (oracleStalled lastToken token) (oracleDeferred lastToken token) < 2 ^ 64
      omega)
  generalize tracedoctor_oracle.commitBlock (hasBit token.instr0_flags INSTR_COMMITS)
    token.instr0_address token.instr0_isslat token.instr0_memlat ilp
    (r, oracleStalled lastToken token, oracleDeferred lastToken token) = st0 at A0 S0 D0 ⊢
  dsimp only at A0 S0 D0
  obtain ⟨A1, S1, D1⟩ := commitBlock_adds φ inc hφ (hasBit token.instr1_flags INSTR_COMMITS)
    token.instr1_address token.instr1_isslat token.instr1_memlat ilp st0
    (by rw [A0.2, S0, D0]; omega)
  generalize tracedoctor_oracle.commitBlock (hasBit token.instr1_flags INSTR_COMMITS)
    token.instr1_address token.instr1_isslat token.instr1_memlat ilp st0 = st1 at A1 S1 D1 ⊢
  simp only [S0, D0] at A1 S1 D1
  obtain ⟨A2, S2, D2⟩ := commitBlock_adds φ inc hφ (hasBit token.instr2_flags INSTR_COMMITS)
    token.instr2_address token.instr2_isslat token.instr2_memlat ilp st1
    (by rw [A1.2, A0.2, S1, D1]; omega)
  generalize tracedoctor_oracle.commitBlock (hasBit token.instr2_flags INSTR_COMMITS)
    token.instr2_address token.instr2_isslat token.instr2_memlat ilp st1 = st2 at A2 S2 D2 ⊢
  simp only [S1, D1] at A2 S2 D2
  obtain ⟨A3, _, _⟩ := commitBlock_adds φ inc hφ (hasBit token.instr3_flags INSTR_COMMITS)
    token.instr3_address token.instr3_isslat token.instr3_memlat ilp st2
    (by rw [A2.2, A1.2, A0.2, S2, D2]; omega)
  simp only [S2, D2] at A3
  refine ⟨_, rfl, ?_⟩
  have h := fieldAdds_trans φ _ _ _ _ _ _ _
    (fieldAdds_trans φ _ _ _ _ _ _ _ (fieldAdds_trans φ _ _ _ _ _ _ _ A0 A1) A2) A3
  exact h

/-! ## Oracle: what a COMMITTING token adds to `tCommit`, `cStall` and `cDeferred` -/

/-- The accounting of a COMMITTING token: what it adds to a counter of the commit blocks. -/
theorem account_commit_adds (φ : flatSample → Nat) (inc : Nat → Bool → Bool → Nat)
    (hφ : commitField φ inc) (r : List (Nat × flatSample)) (lastToken token : robAnalysisToken)
    (ilp : Nat) (hc : hasBit token.rob ROB_COMMITTING = true)
    (hilp : ilp_magic (sub32 (nCommitting token) 1) = some ilp)
    (hb : fieldTotal φ r + commitIncTotal inc ilp lastToken token < 2 ^ 64) :
    ∃ r1, tracedoctor_oracle.account r lastToken token = some r1 ∧
      fieldAdds φ r r1 (commitIncAt inc ilp lastToken token)
        (commitIncTotal inc ilp lastToken token) := by
  have hce : hasBit token.rob (ROB_COMMITTING ||| ROB_EXCEPTION) = true := by
    rw [hasBit_or, hc]
    rfl
  unfold tracedoctor_oracle.account
  dsimp only
  have h1 : fieldAdds φ r
      (if hasBit token.rob ROB_POPULATED = true then
        tracedoctor_oracle.populatedPart r lastToken token
          (sub64 token.tsc_cycle lastToken.tsc_cycle)
      else r) (fun _ => 0) 0 := by
    split
    · exact populatedPart_keeps φ inc hφ r lastToken token _
    · exact fieldAdds_refl φ r
  generalize (if hasBit token.rob ROB_POPULATED = true then
        tracedoctor_oracle.populatedPart r lastToken token
          (sub64 token.tsc_cycle lastToken.tsc_cycle)
      else r) = r1 at h1 ⊢
  have h2 := stallPart_keeps φ inc hφ r1 token
    (if hasBit token.rob ROB_POPULATED = true then 1
      else sub64 token.tsc_cycle lastToken.tsc_cycle)
  generalize tracedoctor_oracle.stallPart r1 token
    (if hasBit token.rob ROB_POPULATED = true then 1
      else sub64 token.tsc_cycle lastToken.tsc_cycle) = r2 at h2 ⊢
  have ht : fieldTotal φ r2 = fieldTotal φ r := by
    have a := h2.2
    have b := h1.2
    omega
  obtain ⟨r3, e3, h3⟩ := commitPart_adds φ inc hφ r2 lastToken token ilp hilp
    (by rw [ht]; exact hb)
  unfold tracedoctor_oracle.attributePart
  rw [if_pos hce, if_pos hc, e3]
  refine ⟨r3, rfl, fun x => ?_, ?_⟩
  · have a := h3.1 x
    have b := h2.1 x
    have c := h1.1 x
    dsimp only at b c
    omega
  · rw [h3.2, ht]

/-- An iteration of the Oracle `tick` on a later COMMITTING token: what it adds to a counter
of the commit blocks. -/
theorem oracle_step_commit_adds (φ : flatSample → Nat) (inc : Nat → Bool → Bool → Nat)
    (hφ : commitField φ inc) (s : tracedoctor_oracle) (token : robAnalysisToken) (ilp : Nat)
    (hnf : s.base.firstToken = false) (hc : hasBit token.rob ROB_COMMITTING = true)
    (hilp : ilp_magic (sub32 (nCommitting token) 1) = some ilp)
    (hb : fieldTotal φ (oracleResultBefore s token) +
      commitIncTotal inc ilp s.lastToken token < 2 ^ 64) :
    ∃ s1, tracedoctor_oracle.step s token = some s1 ∧
      fieldAdds φ (oracleResultBefore s token) s1.result
        (commitIncAt inc ilp s.lastToken token) (commitIncTotal inc ilp s.lastToken token) := by
  have htd := (triggerDetection_notFirst s.base token hnf).1
  have hg : hasBit token.rob (ROB_POPULATED ||| ROB_COMMITTING ||| ROB_EXCEPTION) = true := by
    rw [hasBit_or, hasBit_or, hc]
    simp
  unfold oracleResultBefore at hb ⊢
  unfold tracedoctor_oracle.step
  dsimp only
  rw [htd]
  simp only [Bool.false_eq_true, if_false, hg, if_true]
  cases hfl : (triggerDetection s.base token).1
  · rw [hfl] at hb
    simp only [Bool.false_eq_true, if_false] at hb ⊢
    obtain ⟨r1, e1, h1⟩ := account_commit_adds φ inc hφ s.result s.lastToken token ilp hc hilp hb
    rw [e1]
    exact ⟨_, rfl, h1⟩
  · rw [hfl] at hb
    simp only [if_true] at hb ⊢
    obtain ⟨r1, e1, h1⟩ := account_commit_adds φ inc hφ [] s.lastToken token ilp hc hilp hb
    unfold tracedoctor_oracle.flushResult
    dsimp only
    rw [e1]
    exact ⟨_, rfl, h1⟩

theorem slotInc_eq (c : Bool) (a d x : Nat) :
    slotInc c a d x = b2n (c && decide (a = x)) * d := by
  unfold slotInc b2n
  cases c
  · simp
  · by_cases h : a = x
    · simp [h]
    · have h1 : ¬ x = a := fun e => h e.symm
      simp [h, h1]

theorem commitIncAt_tCommit (ilp : Nat) (lastToken token : robAnalysisToken) (x : Nat) :
    commitIncAt (fun ilp _ _ => ilp) ilp lastToken token x = commitsAt token x * ilp := by
  unfold commitIncAt commitsAt
  dsimp only
  simp only [slotInc_eq, Nat.add_mul]

theorem commitIncTotal_tCommit (ilp : Nat) (lastToken token : robAnalysisToken) :
    commitIncTotal (fun ilp _ _ => ilp) ilp lastToken token = nCommitting token * ilp := by
  unfold commitIncTotal nCommitting
  dsimp only
  simp only [Nat.add_mul]

theorem commitIncAt_first (f : Bool → Nat) (hf : f false = 0) (inc : Nat → Bool → Bool → Nat)
    (sel : Bool → Bool → Bool) (hinc : ∀ i st df, inc i st df = f (sel st df))
    (hsel : ∀ c st df, sel (!c && st) (!c && df) = (!c && sel st df))
    (ilp : Nat) (lastToken token : robAnalysisToken) (x : Nat) (hn : anyCommits token = true) :
    commitIncAt inc ilp lastToken token x =
      (if x = (getFirstCommitting token).address then
        f (sel (oracleStalled lastToken token) (oracleDeferred lastToken token)) else 0) ∧
    commitIncTotal inc ilp lastToken token =
      f (sel (oracleStalled lastToken token) (oracleDeferred lastToken token)) := by
  unfold commitIncAt commitIncTotal slotInc getFirstCommitting
  unfold anyCommits at hn
  dsimp only
  simp only [hinc, hsel]
  cases h0 : hasBit token.instr0_flags INSTR_COMMITS <;>
  cases h1 : hasBit token.instr1_flags INSTR_COMMITS <;>
  cases h2 : hasBit token.instr2_flags INSTR_COMMITS <;>
  cases h3 : hasBit token.instr3_flags INSTR_COMMITS <;>
  simp [h0, h1, h2, h3, b2n, hf] at hn ⊢

/-- C22. ILP table keeps commit accounting integral. The table is `{24, 12, 8, 6}` and
`n * ILP[n-1] = 24` for every `n` in `{1,2,3,4}`. For an Oracle past its first token, a
COMMITTING token with `n >= 1` committing slots is processed, and (64-bit additions not
wrapping) the iteration adds `ILP[n-1]` to `tCommit` of the address of each committing slot
(for every address `a`, `tCommit` of `a` grows by `ILP[n-1]` times the number of committing
slots at `a`) and exactly 24 to the sum of `tCommit` over all addresses, counted from the map
the accounting starts from. -/
theorem oracle_commit_integral (s : tracedoctor_oracle) (token : robAnalysisToken)
    (hnf : s.base.firstToken = false) (hc : hasBit token.rob ROB_COMMITTING = true)
    (hn : anyCommits token = true)
    (hb : fieldTotal (fun t => t.tCommit) (oracleResultBefore s token) + 24 < 2 ^ 64) :
    (ilp_magic 0 = some 24 ∧ ilp_magic 1 = some 12 ∧ ilp_magic 2 = some 8 ∧
      ilp_magic 3 = some 6) ∧
    (∀ n ilp, 1 ≤ n → n ≤ 4 → ilp_magic (n - 1) = some ilp → n * ilp = 24) ∧
    1 ≤ nCommitting token ∧ nCommitting token ≤ 4 ∧
    ∃ s1 ilp, tracedoctor_oracle.step s token = some s1 ∧
      ilp_magic (nCommitting token - 1) = some ilp ∧
      (∀ a, fieldAt (fun t => t.tCommit) s1.result a =
        fieldAt (fun t => t.tCommit) (oracleResultBefore s token) a +
          commitsAt token a * ilp) ∧
      fieldTotal (fun t => t.tCommit) s1.result =
        fieldTotal (fun t => t.tCommit) (oracleResultBefore s token) + 24 := by
  obtain ⟨ilp, hilp, hmul⟩ := ilp_magic_lookup _ _ _ _ hn
  have hilp1 : ilp_magic (sub32 (nCommitting token) 1) = some ilp := hilp
  have hmul1 : nCommitting token * ilp = 24 := hmul
  have hn1 : 1 ≤ nCommitting token := by
    rcases Nat.eq_zero_or_pos (nCommitting token) with h | h
    · rw [h] at hmul1
      omega
    · exact h
  have hn4 : nCommitting token ≤ 4 := by
    unfold nCommitting
    have a := b2n_le_one (hasBit token.instr0_flags INSTR_COMMITS)
    have b := b2n_le_one (hasBit token.instr1_flags INSTR_COMMITS)
    have c := b2n_le_one (hasBit token.instr2_flags INSTR_COMMITS)
    have d := b2n_le_one (hasBit token.instr3_flags INSTR_COMMITS)
    omega
  have hsub : sub32 (nCommitting token) 1 = nCommitting token - 1 := by
    unfold sub32
    rw [Nat.mod_eq_of_lt (by omega : nCommitting token < 2 ^ 32)]
    simp only [Nat.reducePow, Nat.one_mod]
    rw [if_pos hn1]
  obtain ⟨s1, e1, h1⟩ := oracle_step_commit_adds (fun t => t.tCommit) (fun ilp _ _ => ilp)
    commitField_tCommit s token ilp hnf hc hilp1
    (by rw [commitIncTotal_tCommit, hmul1]; exact hb)
  refine ⟨⟨rfl, rfl, rfl, rfl⟩, ?_, hn1, hn4, s1, ilp, e1, by rw [← hsub]; exact hilp1, ?_, ?_⟩
  · intro n ilp0 h1 h4 h
    have : n = 1 ∨ n = 2 ∨ n = 3 ∨ n = 4 := by omega
    rcases this with e | e | e | e <;> subst e <;>
      simp [ilp_magic] at h <;> omega
  · intro a
    rw [h1.1 a, commitIncAt_tCommit]
  · rw [h1.2, commitIncTotal_tCommit, hmul1]

/-- Witness of `oracle_commit_integral`: two slots commit, each address receives 12. -/
theorem oracle_commit_integral_witness :
    commitsAt twoCommitToken 0x10 = 1 ∧ commitsAt twoCommitToken 0x20 = 1 ∧
    (ilp_magic 0 = some 24 ∧ ilp_magic 1 = some 12 ∧ ilp_magic 2 = some 8 ∧
      ilp_magic 3 = some 6) ∧
    (∀ n ilp, 1 ≤ n → n ≤ 4 → ilp_magic (n - 1) = some ilp → n * ilp = 24) ∧
    1 ≤ nCommitting twoCommitToken ∧ nCommitting twoCommitToken ≤ 4 ∧
    ∃ s1 ilp, tracedoctor_oracle.step oracleStarted twoCommitToken = some s1 ∧
      ilp_magic (nCommitting twoCommitToken - 1) = some ilp ∧
      (∀ a, fieldAt (fun t => t.tCommit) s1.result a =
        fieldAt (fun t => t.tCommit) (oracleResultBefore oracleStarted twoCommitToken) a +
          commitsAt twoCommitToken a * ilp) ∧
      fieldTotal (fun t => t.tCommit) s1.result =
        fieldTotal (fun t => t.tCommit) (oracleResultBefore oracleStarted twoCommitToken) +
          24 :=
  ⟨by decide, by decide,
    oracle_commit_integral oracleStarted twoCommitToken (by decide) (by decide) (by decide)
      (by decide)⟩

/-- C23. Oracle stalled/deferred counts go to the first committing slot only. For an Oracle
past its first token and a COMMITTING token with a committing slot (64-bit additions not
wrapping), the iteration of `tick` returns and, counted from the map the accounting starts
from: `cStall` of the address of the lowest-index slot with COMMITS grows by the value of
`stalled` (0 or 1), `cStall` of every other address is unchanged, and the sum of `cStall`
over all addresses grows by that value, so by at most 1; the same holds for `cDeferred`
with the value of `deferred`. -/
theorem oracle_stall_first_slot (s : tracedoctor_oracle) (token : robAnalysisToken)
    (hnf : s.base.firstToken = false) (hc : hasBit token.rob ROB_COMMITTING = true)
    (hn : anyCommits token = true)
    (hbS : fieldTotal (fun t => t.cStall) (oracleResultBefore s token) + 1 < 2 ^ 64)
    (hbD : fieldTotal (fun t => t.cDeferred) (oracleResultBefore s token) + 1 < 2 ^ 64) :
    ∃ s1, tracedoctor_oracle.step s token = some s1 ∧
      (∀ a, fieldAt (fun t => t.cStall) s1.result a =
        fieldAt (fun t => t.cStall) (oracleResultBefore s token) a +
          (if a = (getFirstCommitting token).address then
            b2n (oracleStalled s.lastToken token) else 0)) ∧
      fieldTotal (fun t => t.cStall) s1.result =
        fieldTotal (fun t => t.cStall) (oracleResultBefore s token) +
          b2n (oracleStalled s.lastToken token) ∧
      (∀ a, fieldAt (fun t => t.cDeferred) s1.result a =
        fieldAt (fun t => t.cDeferred) (oracleResultBefore s token) a +
          (if a = (getFirstCommitting token).address then
            b2n (oracleDeferred s.lastToken token) else 0)) ∧
      fieldTotal (fun t => t.cDeferred) s1.result =
        fieldTotal (fun t => t.cDeferred) (oracleResultBefore s token) +
          b2n (oracleDeferred s.lastToken token) ∧
      b2n (oracleStalled s.lastToken token) ≤ 1 ∧
      b2n (oracleDeferred s.lastToken token) ≤ 1 := by
  obtain ⟨ilp, hilp, _⟩ := ilp_magic_lookup _ _ _ _ hn
  have hilp1 : ilp_magic (sub32 (nCommitting token) 1) = some ilp := hilp
  have hS1 := b2n_le_one (oracleStalled s.lastToken token)
  have hD1 := b2n_le_one (oracleDeferred s.lastToken token)
  have fS := fun x => commitIncAt_first b2n rfl (fun _ st _ => b2n st) (fun st _ => st)
    (fun _ _ _ => rfl) (fun _ _ _ => rfl) ilp s.lastToken token x hn
  have fD := fun x => commitIncAt_first b2n rfl (fun _ _ df => b2n df) (fun _ df => df)
    (fun _ _ _ => rfl) (fun _ _ _ => rfl) ilp s.lastToken token x hn
  obtain ⟨s1, e1, h1⟩ := oracle_step_commit_adds (fun t => t.cStall) (fun _ st _ => b2n st)
    commitField_cStall s token ilp hnf hc hilp1 (by rw [(fS 0).2]; omega)
  obtain ⟨s2, e2, h2⟩ := oracle_step_commit_adds (fun t => t.cDeferred) (fun _ _ df => b2n df)
    commitField_cDeferred s token ilp hnf hc hilp1 (by rw [(fD 0).2]; omega)
  have hs : s2 = s1 := by
    rw [e1] at e2
    exact (Option.some.inj e2).symm
  rw [hs] at h2
  refine ⟨s1, e1, fun a => ?_, ?_, fun a => ?_, ?_, hS1, hD1⟩
  · rw [h1.1 a, (fS a).1]
  · rw [h1.2, (fS 0).2]
  · rw [h2.1 a, (fD a).1]
  · rw [h2.2, (fD 0).2]

/-- Witness of `oracle_stall_first_slot`: the token follows a POPULATED-only token and is
not POPULATED itself, so `stalled` and `deferred` are both set; they are counted at `0x10`,
the address of slot 0, and not at `0x20`, the address of slot 2. -/
theorem oracle_stall_first_slot_witness :
    oracleStalled oracleStarted.lastToken twoCommitToken = true ∧
    oracleDeferred oracleStarted.lastToken twoCommitToken = true ∧
    (getFirstCommitting twoCommitToken).address = 0x10 ∧
    ∃ s1, tracedoctor_oracle.step oracleStarted twoCommitToken = some s1 ∧
      (∀ a, fieldAt (fun t => t.cStall) s1.result a =
        fieldAt (fun t => t.cStall) (oracleResultBefore oracleStarted twoCommitToken) a +
          (if a = (getFirstCommitting twoCommitToken).address then
            b2n (oracleStalled oracleStarted.lastToken twoCommitToken) else 0)) ∧
      fieldTotal (fun t => t.cStall) s1.result =
        fieldTotal (fun t => t.cStall) (oracleResultBefore oracleStarted twoCommitToken) +
          b2n (oracleStalled oracleStarted.lastToken twoCommitToken) ∧
      (∀ a, fieldAt (fun t => t.cDeferred) s1.result a =
        fieldAt (fun t => t.cDeferred) (oracleResultBefore oracleStarted twoCommitToken) a +
          (if a = (getFirstCommitting twoCommitToken).address then
            b2n (oracleDeferred oracleStarted.lastToken twoCommitToken) else 0)) ∧
      fieldTotal (fun t => t.cDeferred) s1.result =
        fieldTotal (fun t => t.cDeferred) (oracleResultBefore oracleStarted twoCommitToken) +
          b2n (oracleDeferred oracleStarted.lastToken twoCommitToken) ∧
      b2n (oracleStalled oracleStarted.lastToken twoCommitToken) ≤ 1 ∧
      b2n (oracleDeferred oracleStarted.lastToken twoCommitToken) ≤ 1 :=
  ⟨by decide, by decide, by decide,
    oracle_stall_first_slot oracleStarted twoCommitToken (by decide) (by decide) (by decide)
      (by decide) (by decide)⟩

/-! ## Oracle: the pure stall bridge -/

theorem getLastCommitting_none (t : robAnalysisToken) (hnc : anyCommits t = false) :
    (getLastCommitting t).flags = t.instr0_flags := by
  unfold anyCommits at hnc
  simp only [Bool.or_eq_false_iff] at hnc
  obtain ⟨⟨⟨_, h1⟩, h2⟩, h3⟩ := hnc
  unfold getLastCommitting
  rw [h3, h2, h1]
  rfl

/-- C24 (as amended). Oracle pure stall bridge. For a token with POPULATED set and a cycle
gap `D >= 1` to the previous processed token, if the previous token was not EXCEPTION,
committed nothing (no slot with COMMITS) and its slot-0 flags carry neither BR_MISS nor
FLUSHS, then the POPULATED block, which the accounting of the token starts with, adds the
`D - 1` deferred cycles to `tDeferred` of the first-VALID address of the current token and
changes no other counter of that row and no other row. -/
theorem oracle_pure_stall_bridge (r : List (Nat × flatSample))
    (lastToken token : robAnalysisToken)
    (hpop : hasBit token.rob ROB_POPULATED = true)
    (hD : 1 ≤ sub64 token.tsc_cycle lastToken.tsc_cycle)
    (hne : hasBit lastToken.rob ROB_EXCEPTION = false)
    (hnc : anyCommits lastToken = false)
    (h0 : hasBit lastToken.instr0_flags (INSTR_BR_MISS ||| INSTR_FLUSHS) = false) :
    tracedoctor_oracle.account r lastToken token =
      tracedoctor_oracle.attributePart
        (tracedoctor_oracle.stallPart
          (tracedoctor_oracle.populatedPart r lastToken token
            (sub64 token.tsc_cycle lastToken.tsc_cycle)) token 1) lastToken token ∧
    ∀ x, amapGet flatSample.zero
        (tracedoctor_oracle.populatedPart r lastToken token
          (sub64 token.tsc_cycle lastToken.tsc_cycle)) x =
      if x = (getFirstValid token).address then
        { amapGet flatSample.zero r x with
          tDeferred := add64 (amapGet flatSample.zero r x).tDeferred
            (sub64 token.tsc_cycle lastToken.tsc_cycle - 1) }
      else amapGet flatSample.zero r x := by
  constructor
  · unfold tracedoctor_oracle.account
    simp only [hpop, if_true]
  · intro x
    have hret : getLastCommittingRet lastToken = false := by
      unfold getLastCommittingRet
      rw [getLastCommitting_none lastToken hnc]
      exact h0
    have hlt := sub64_lt token.tsc_cycle lastToken.tsc_cycle
    have hsub : sub64 (sub64 token.tsc_cycle lastToken.tsc_cycle) 1 =
        sub64 token.tsc_cycle lastToken.tsc_cycle - 1 := by
      generalize sub64 token.tsc_cycle lastToken.tsc_cycle = D at hD hlt
      unfold sub64
      rw [Nat.mod_eq_of_lt hlt]
      simp only [Nat.reducePow, Nat.one_mod]
      rw [if_pos hD]
    unfold tracedoctor_oracle.populatedPart
    simp only [hne, hret, Bool.false_eq_true, if_false, hsub]
    rw [amapGet_resultUpd]
    by_cases hx : x = (getFirstValid token).address
    · rw [if_pos hx, if_pos hx, hx]
    · rw [if_neg hx, if_neg hx]

/-- Witness of `oracle_pure_stall_bridge`: the previous token is POPULATED-only at cycle 100
with no flags set, the current token POPULATED at cycle 110. -/
theorem oracle_pure_stall_bridge_witness :
    sub64 bridgeToken.tsc_cycle (populatedToken 100).tsc_cycle = 10 ∧
    (getFirstValid bridgeToken).address = 0x20 ∧
    (tracedoctor_oracle.account [] (populatedToken 100) bridgeToken =
      tracedoctor_oracle.attributePart
        (tracedoctor_oracle.stallPart
          (tracedoctor_oracle.populatedPart [] (populatedToken 100) bridgeToken
            (sub64 bridgeToken.tsc_cycle (populatedToken 100).tsc_cycle)) bridgeToken 1)
        (populatedToken 100) bridgeToken ∧
    ∀ x, amapGet flatSample.zero
        (tracedoctor_oracle.populatedPart [] (populatedToken 100) bridgeToken
          (sub64 bridgeToken.tsc_cycle (populatedToken 100).tsc_cycle)) x =
      if x = (getFirstValid bridgeToken).address then
        { amapGet flatSample.zero [] x with
          tDeferred := add64 (amapGet flatSample.zero [] x).tDeferred
            (sub64 bridgeToken.tsc_cycle (populatedToken 100).tsc_cycle - 1) }
      else amapGet flatSample.zero [] x) :=
  ⟨by decide, by decide,
    oracle_pure_stall_bridge [] (populatedToken 100) bridgeToken (by decide) (by decide)
      (by decide) (by decide) (by decide)⟩

/-- C24 (counterexample). The Oracle as constructed, fed a first token at cycle 90, then the
POPULATED-only token of cycle 100, in which nothing commits and no EXCEPTION is raised but
whose slot 0 holds a valid instruction at `0x10` flagged BR_MISS, then the POPULATED token
of cycle 110 whose first valid slot is at `0x20`. `getLastCommitting` falls back to slot 0 of
the previous token and returns true, so the `110 - 100 - 1 = 9` deferred cycles go to
`tBrMiss` of `0x10` (and `cBrMiss` of `0x10` is incremented), and `tDeferred` of `0x20`
stays 0. -/
theorem oracle_pure_stall_bridge_counterexample :
    hasBit bridgeToken.rob ROB_POPULATED = true ∧
    sub64 bridgeToken.tsc_cycle bridgeLastToken.tsc_cycle = 10 ∧
    hasBit bridgeLastToken.rob ROB_EXCEPTION = false ∧
    anyCommits bridgeLastToken = false ∧
    (tracedoctor_oracle.tick oracleFresh [populatedToken 90, bridgeLastToken]).map
        (fun s => (s.lastToken, (amapGet flatSample.zero s.result 0x10).tBrMiss,
          (amapGet flatSample.zero s.result 0x10).cBrMiss,
          (amapGet flatSample.zero s.result 0x20).tDeferred)) =
      some (bridgeLastToken, 0, 0, 0) ∧
    (tracedoctor_oracle.tick oracleFresh
        [populatedToken 90, bridgeLastToken, bridgeToken]).map
        (fun s => ((amapGet flatSample.zero s.result 0x10).tBrMiss,
          (amapGet flatSample.zero s.result 0x10).cBrMiss,
          (amapGet flatSample.zero s.result 0x20).tDeferred)) =
      some (9, 1, 0) := by
  refine ⟨by decide, by decide, by decide, by decide, by decide, by decide⟩

/-! ## TEA-gold: counters and totals of a histogram after `value2hist` -/

theorem list_sum_set (l : List Nat) :
    ∀ (i y : Nat), i < l.length → (l.set i y).sum + l.getD i 0 = l.sum + y := by
  induction l with
  | nil => intro i y h; exact absurd h (by simp)
  | cons x l ih =>
    intro i y h
    cases i with
    | zero =>
      simp only [List.set_cons_zero, List.sum_cons, List.getD_cons_zero]
      omega
    | succ j =>
      have := ih j y (by simpa using h)
      simp only [List.set_cons_succ, List.sum_cons, List.getD_cons_succ]
      omega

theorem vecResize_sum (vec : List Nat) (n : Nat) (h : vec.length ≤ n) :
    (vecResize vec n).sum = vec.sum := by
  unfold vecResize
  rw [List.take_of_length_le h]
  simp

theorem value2histVec_total (vec : List Nat) (value increment : Nat)
    (hv : value + 1 < 2 ^ 64) :
    ∃ vec1, value2histVec vec value increment = some vec1 ∧
      vec1.sum + vec.getD value 0 = vec.sum + add64 (vec.getD value 0) increment := by
  unfold value2histVec
  dsimp only
  rw [Nat.mod_eq_of_lt hv]
  by_cases hl : vec.length ≤ value
  · rw [if_pos hl]
    have hlen := vecResize_length vec (value + 1)
    rw [if_pos (by rw [hlen]; omega)]
    refine ⟨_, rfl, ?_⟩
    have h1 := list_sum_set (vecResize vec (value + 1)) value
      (add64 ((vecResize vec (value + 1)).getD value 0) increment) (by rw [hlen]; omega)
    rw [vecResize_getD vec (value + 1) value (by omega),
      vecResize_sum vec (value + 1) (by omega)] at h1
    rw [vecResize_getD vec (value + 1) value (by omega)]
    exact h1
  · rw [if_neg hl, if_pos (by omega)]
    exact ⟨_, rfl, list_sum_set vec value _ (by omega)⟩

theorem histTotal_amapSet (h : histogram) (a : Nat) (v : List Nat) :
    histTotal (amapSet a v h) + (amapGet [] h a).sum = histTotal h + v.sum := by
  induction h with
  | nil => simp [amapSet, amapGet, histTotal]
  | cons e h ih =>
    simp only [amapGet, amapSet, histTotal] at ih ⊢
    split
    · simp only [List.map_cons, List.sum_cons]
      omega
    · simp only [List.map_cons, List.sum_cons]
      omega

/-- The histogram `value2hist` leaves when the counter does not wrap: the counter of
`(address, value)` grows by the increment, all other counters are unchanged, and the sum of
all counters grows by the increment. -/
theorem value2hist_adds (hist : histogram) (address value increment : Nat)
    (hv : value + 1 < 2 ^ 64)
    (hb : histCount hist address value + increment < 2 ^ 64) :
    ∃ hist1, value2hist hist address value increment = some hist1 ∧
      (∀ a v, histCount hist1 a v =
        histCount hist a v + (if a = address ∧ v = value then increment else 0)) ∧
      histTotal hist1 = histTotal hist + increment := by
  obtain ⟨hist1, e1, p1⟩ := value2hist_spec hist address value increment hv
  have hadd : add64 (histCount hist address value) increment =
      histCount hist address value + increment := Nat.mod_eq_of_lt hb
  refine ⟨hist1, e1, fun a v => ?_, ?_⟩
  · rw [p1 a v]
    by_cases h : a = address ∧ v = value
    · rw [if_pos h, if_pos h, hadd, h.1, h.2]
    · rw [if_neg h, if_neg h]
      rfl
  · obtain ⟨vec1, ev, hs⟩ := value2histVec_total (amapGet [] hist address) value increment hv
    unfold value2hist at e1
    rw [ev] at e1
    simp only [Option.some.injEq] at e1
    rw [← e1]
    have ht := histTotal_amapSet hist address vec1
    unfold histCount at hadd
    rw [hadd] at hs
    omega

/-! ## TEA-gold: immediate attribution of the committing slots -/

theorem genSignature_lt (lastFlags flags memlat l2 l3 : Nat) :
    genSignature lastFlags flags memlat l2 l3 < 2 ^ 16 := by
  unfold genSignature
  exact Nat.mod_lt _ (by decide)

/-- The method `attribute` on an instruction without OIR flag, when no counter wraps. -/
theorem gold_attributeInstr_adds (s : tracedoctor_tea_gold)
    (address flags memlat severity ilp : Nat)
    (hno : flags &&& INSTR_OIR = 0)
    (hsv : severity + 1 < 2 ^ 64)
    (hw : ilp + 24 * severity < 2 ^ 64)
    (hbS : histCount (amapGet [] s.severityHists
        (genSignature s.lastInstructionRegister.flags flags memlat s.base.l2MissLatency
          s.base.l3MissLatency)) address severity + 1 < 2 ^ 64)
    (hbR : histCount s.result address
        (genSignature s.lastInstructionRegister.flags flags memlat s.base.l2MissLatency
          s.base.l3MissLatency) + (ilp + 24 * severity) < 2 ^ 64) :
    ∃ s1, tracedoctor_tea_gold.attributeInstr s address flags memlat severity ilp = some s1 ∧
      s1.base = s.base ∧
      s1.lastInstructionRegister = { s.lastInstructionRegister with flags := flags } ∧
      s1.lastProgressCycle = s.lastProgressCycle ∧
      (∀ g a v, histCount (amapGet [] s1.severityHists g) a v =
        histCount (amapGet [] s.severityHists g) a v +
          (if (address, genSignature s.lastInstructionRegister.flags flags memlat
              s.base.l2MissLatency s.base.l3MissLatency, severity) = (a, g, v) then 1 else 0)) ∧
      (∀ a g, histCount s1.result a g =
        histCount s.result a g +
          (if address = a ∧ genSignature s.lastInstructionRegister.flags flags memlat
              s.base.l2MissLatency s.base.l3MissLatency = g then ilp + 24 * severity
            else 0)) ∧
      histTotal s1.result = histTotal s.result + (ilp + 24 * severity) := by
  obtain ⟨sig, hdef⟩ : ∃ sig, genSignature s.lastInstructionRegister.flags flags memlat
      s.base.l2MissLatency s.base.l3MissLatency = sig := ⟨_, rfl⟩
  have hsig : sig < 2 ^ 16 := by
    rw [← hdef]
    exact genSignature_lt _ _ _ _ _
  rw [hdef] at hbS hbR ⊢
  have hinc : add64 ilp (mul64 severity 24) = ilp + 24 * severity := by
    unfold add64 mul64
    rw [Nat.mod_eq_of_lt (by omega : severity * 24 < 2 ^ 64)]
    rw [Nat.mod_eq_of_lt (by omega)]
    omega
  obtain ⟨h1, e1, p1, _⟩ := value2hist_adds (amapGet [] s.severityHists sig) address severity 1
    hsv hbS
  obtain ⟨r1, e2, p2, t2⟩ := value2hist_adds s.result address sig (ilp + 24 * severity)
    (by omega) hbR
  have hu : tracedoctor_tea_gold.attributeInstr s address flags memlat severity ilp =
      some { s with
        severityHists := amapSet sig h1 s.severityHists
        result := r1
        lastInstructionRegister := { s.lastInstructionRegister with flags := flags } } := by
    unfold tracedoctor_tea_gold.attributeInstr
    dsimp only
    rw [if_pos hno, hdef, hinc, e1, e2]
  refine ⟨_, hu, rfl, rfl, rfl, fun g a v => ?_, fun a g => ?_, t2⟩
  · show histCount (amapGet [] (amapSet sig h1 s.severityHists) g) a v = _
    rw [amapGet_amapSet]
    by_cases hg : g = sig
    · rw [if_pos hg, p1 a v, hg]
      by_cases hav : a = address ∧ v = severity
      · rw [if_pos hav, if_pos (by rw [hav.1, hav.2])]
      · rw [if_neg hav, if_neg]
        intro h
        simp only [Prod.mk.injEq] at h
        exact hav ⟨h.1.symm, h.2.2.symm⟩
    · rw [if_neg hg, if_neg]
      · rfl
      · intro h
        simp only [Prod.mk.injEq] at h
        exact hg h.2.1.symm
  · show histCount r1 a g = _
    rw [p2 a g]
    by_cases hag : a = address ∧ g = sig
    · rw [if_pos hag, if_pos ⟨hag.1.symm, hag.2.symm⟩]
    · rw [if_neg hag, if_neg]
      intro h
      exact hag ⟨h.1.symm, h.2.symm⟩

theorem goldWeight_le (ilp : Nat) (obs : List (Nat × Nat × Nat)) (a g : Nat) :
    goldWeight ilp obs a g ≤ goldTotalWeight ilp obs := by
  unfold goldWeight goldTotalWeight
  induction obs with
  | nil => simp
  | cons e obs ih =>
    simp only [List.filter_cons, List.map_cons, List.sum_cons]
    split
    · simp only [List.map_cons, List.sum_cons]
      omega
    · omega

theorem goldWeight_append (ilp : Nat) (obs : List (Nat × Nat × Nat)) (e : Nat × Nat × Nat)
    (a g : Nat) :
    goldWeight ilp (obs ++ [e]) a g =
      goldWeight ilp obs a g + (if e.1 = a ∧ e.2.1 = g then ilp + 24 * e.2.2 else 0) := by
  unfold goldWeight
  rw [List.filter_append, List.map_append, List.sum_append]
  by_cases h : e.1 = a ∧ e.2.1 = g
  · simp [h]
  · simp [h]

theorem goldTotalWeight_append (ilp : Nat) (obs : List (Nat × Nat × Nat))
    (e : Nat × Nat × Nat) :
    goldTotalWeight ilp (obs ++ [e]) = goldTotalWeight ilp obs + (ilp + 24 * e.2.2) := by
  unfold goldTotalWeight
  simp

theorem count_append_one (obs : List (Nat × Nat × Nat)) (e x : Nat × Nat × Nat) :
    (obs ++ [e]).count x = obs.count x + (if e = x then 1 else 0) := by
  rw [List.count_append, List.count_singleton]
  by_cases h : e = x
  · simp [h]
  · simp [h]

/-- One `if (token.instrN_flags & INSTR_COMMITS)` block of the TEA-gold `tick` on a slot
without OIR flag: the observation it attributes. -/
theorem gold_commitBlock_adds (sev0 : List (Nat × histogram)) (r0 : histogram)
    (ilp B flags address memlat : Nat) (st : tracedoctor_tea_gold × Nat)
    (acc : List (Nat × Nat × Nat) × Nat × Nat)
    (hflags : st.1.lastInstructionRegister.flags = acc.2.1) (hsev : st.2 = acc.2.2)
    (hinv : goldAttributed sev0 r0 ilp st.1 acc.1)
    (hno : hasBit flags INSTR_COMMITS = true → flags &&& INSTR_OIR = 0)
    (hlen : (goldSlot st.1.base.l2MissLatency st.1.base.l3MissLatency flags address memlat
      acc).1.length ≤ 4)
    (hw : goldTotalWeight ilp (goldSlot st.1.base.l2MissLatency st.1.base.l3MissLatency flags
      address memlat acc).1 ≤ B)
    (hS : ∀ g a v, histCount (amapGet [] sev0 g) a v + 4 < 2 ^ 64)
    (hR : ∀ a g, histCount r0 a g + B < 2 ^ 64)
    (hsv : acc.2.2 + 1 < 2 ^ 64) :
    ∃ st1, tracedoctor_tea_gold.commitBlock flags address memlat ilp st = some st1 ∧
      st1.1.base = st.1.base ∧
      st1.1.lastInstructionRegister.oir = st.1.lastInstructionRegister.oir ∧
      st1.1.lastInstructionRegister.flags =
        (goldSlot st.1.base.l2MissLatency st.1.base.l3MissLatency flags address memlat
          acc).2.1 ∧
      st1.2 = (goldSlot st.1.base.l2MissLatency st.1.base.l3MissLatency flags address memlat
          acc).2.2 ∧
      goldAttributed sev0 r0 ilp st1.1
        (goldSlot st.1.base.l2MissLatency st.1.base.l3MissLatency flags address memlat
          acc).1 := by
  unfold tracedoctor_tea_gold.commitBlock
  unfold goldSlot at hlen hw ⊢
  cases hc : hasBit flags INSTR_COMMITS
  · simp only [Bool.false_eq_true, if_false]
    exact ⟨st, rfl, rfl, rfl, hflags, hsev, hinv⟩
  · rw [hc] at hlen hw
    simp only [if_true] at hlen hw ⊢
    rw [goldTotalWeight_append] at hw
    simp only [List.length_append, List.length_singleton] at hlen
    obtain ⟨i1, i2, i3⟩ := hinv
    have hB := hR 0 0
    rw [← hflags] at hw ⊢
    rw [← hsev] at hw hsv ⊢
    obtain ⟨s1, e1, b1, l1, _, q1, q2, q3⟩ := gold_attributeInstr_adds st.1 address flags memlat
      st.2 ilp (hno hc) hsv (by omega)
      (by
        rw [i1]
        have := List.count_le_length (a := (address, genSignature
          st.1.lastInstructionRegister.flags flags memlat st.1.base.l2MissLatency
          st.1.base.l3MissLatency, st.2)) (l := acc.1)
        have := hS (genSignature st.1.lastInstructionRegister.flags flags memlat
          st.1.base.l2MissLatency st.1.base.l3MissLatency) address st.2
        omega)
      (by
        rw [i2]
        have := goldWeight_le ilp acc.1 address (genSignature
          st.1.lastInstructionRegister.flags flags memlat st.1.base.l2MissLatency
          st.1.base.l3MissLatency)
        have := hR address (genSignature st.1.lastInstructionRegister.flags flags memlat
          st.1.base.l2MissLatency st.1.base.l3MissLatency)
        omega)
    rw [e1]
    refine ⟨(s1, 0), rfl, b1, by rw [l1], by rw [l1], rfl, fun g a v => ?_, fun a g => ?_, ?_⟩
    · show histCount (amapGet [] s1.severityHists g) a v = _
      rw [q1 g a v, i1 g a v, count_append_one]
      omega
    · show histCount s1.result a g = _
      rw [q2 a g, i2 a g, goldWeight_append]
      dsimp only
      omega
    · show histTotal s1.result = _
      rw [q3, i3, goldTotalWeight_append]
      dsimp only
      omega

theorem goldSlot_mono (ilp l2 l3 flags address memlat : Nat)
    (acc : List (Nat × Nat × Nat) × Nat × Nat) :
    acc.1.length ≤ (goldSlot l2 l3 flags address memlat acc).1.length ∧
    (goldSlot l2 l3 flags address memlat acc).1.length ≤ acc.1.length + 1 ∧
    goldTotalWeight ilp acc.1 ≤ goldTotalWeight ilp (goldSlot l2 l3 flags address memlat acc).1 ∧
    (goldSlot l2 l3 flags address memlat acc).2.2 ≤ acc.2.2 := by
  unfold goldSlot
  split
  · simp only [List.length_append, List.length_singleton, goldTotalWeight_append]
    omega
  · omega

/-- The block lemma with the members of `base_profiler` named. -/
theorem gold_commitBlock_chain (b : base_profiler) (sev0 : List (Nat × histogram))
    (r0 : histogram) (ilp B flags address memlat : Nat) (oir : Bool)
    (st : tracedoctor_tea_gold × Nat) (acc : List (Nat × Nat × Nat) × Nat × Nat)
    (hbase : st.1.base = b) (hoir : st.1.lastInstructionRegister.oir = oir)
    (hflags : st.1.lastInstructionRegister.flags = acc.2.1) (hsev : st.2 = acc.2.2)
    (hinv : goldAttributed sev0 r0 ilp st.1 acc.1)
    (hno : hasBit flags INSTR_COMMITS = true → flags &&& INSTR_OIR = 0)
    (hlen : (goldSlot b.l2MissLatency b.l3MissLatency flags address memlat acc).1.length ≤ 4)
    (hw : goldTotalWeight ilp (goldSlot b.l2MissLatency b.l3MissLatency flags address memlat
      acc).1 ≤ B)
    (hS : ∀ g a v, histCount (amapGet [] sev0 g) a v + 4 < 2 ^ 64)
    (hR : ∀ a g, histCount r0 a g + B < 2 ^ 64)
    (hsv : acc.2.2 + 1 < 2 ^ 64) :
    ∃ st1, tracedoctor_tea_gold.commitBlock flags address memlat ilp st = some st1 ∧
      st1.1.base = b ∧ st1.1.lastInstructionRegister.oir = oir ∧
      st1.1.lastInstructionRegister.flags =
        (goldSlot b.l2MissLatency b.l3MissLatency flags address memlat acc).2.1 ∧
      st1.2 = (goldSlot b.l2MissLatency b.l3MissLatency flags address memlat acc).2.2 ∧
      goldAttributed sev0 r0 ilp st1.1
        (goldSlot b.l2MissLatency b.l3MissLatency flags address memlat acc).1 := by
  subst hbase
  subst hoir
  obtain ⟨st1, e, p1, p2, p3, p4, p5⟩ := gold_commitBlock_adds sev0 r0 ilp B flags address
    memlat st acc hflags hsev hinv hno hlen hw hS hR hsv
  exact ⟨st1, e, p1, p2, p3, p4, p5⟩

theorem gold_commitBlock_last (flags address memlat ilp : Nat)
    (st : tracedoctor_tea_gold × Nat) :
    (if hasBit flags INSTR_COMMITS = true then
        tracedoctor_tea_gold.attributeInstr st.1 address flags memlat st.2 ilp
      else some st.1) =
      (tracedoctor_tea_gold.commitBlock flags address memlat ilp st).map (fun st1 => st1.1) := by
  unfold tracedoctor_tea_gold.commitBlock
  split
  · cases tracedoctor_tea_gold.attributeInstr st.1 address flags memlat st.2 ilp <;> rfl
  · rfl

/-- The block of the TEA-gold `tick` under `if (token.state.rob & ROB_COMMITTING)` when no
committing slot has an OIR flag: the observations it attributes. -/
theorem gold_commitPart_adds (s : tracedoctor_tea_gold) (token : robAnalysisToken)
    (severity ilp : Nat)
    (hn : anyCommits token = true) (hno : goldNoOIR token = true)
    (hilp : ilp_magic (nCommitting token - 1) = some ilp)
    (hS : ∀ g a v, histCount (amapGet [] s.severityHists g) a v + 4 < 2 ^ 64)
    (hR : ∀ a g, histCount s.result a g +
      goldTotalWeight ilp (goldSlots s.lastInstructionRegister.flags severity
        s.base.l2MissLatency s.base.l3MissLatency token) < 2 ^ 64)
    (hsv : severity + 1 < 2 ^ 64) :
    ∃ s1, tracedoctor_tea_gold.commitPart s token severity = some s1 ∧
      s1.base = s.base ∧
      s1.lastInstructionRegister.oir = s.lastInstructionRegister.oir ∧
      goldAttributed s.severityHists s.result ilp s1
        (goldSlots s.lastInstructionRegister.flags severity
          s.base.l2MissLatency s.base.l3MissLatency token) := by
  have hnz : nCommitting token ≠ 0 := by
    unfold anyCommits at hn
    unfold nCommitting
    cases h0 : hasBit token.instr0_flags INSTR_COMMITS <;>
    cases h1 : hasBit token.instr1_flags INSTR_COMMITS <;>
    cases h2 : hasBit token.instr2_flags INSTR_COMMITS <;>
    cases h3 : hasBit token.instr3_flags INSTR_COMMITS <;>
    simp [h0, h1, h2, h3, b2n] at hn ⊢
  unfold goldNoOIR at hno
  simp only [Bool.and_eq_true, Bool.or_eq_true, Bool.not_eq_true', decide_eq_true_eq] at hno
  obtain ⟨⟨⟨n0, n1⟩, n2⟩, n3⟩ := hno
  have m0 : hasBit token.instr0_flags INSTR_COMMITS = true → token.instr0_flags &&& INSTR_OIR = 0 :=
    fun h => n0.resolve_left (by rw [h]; simp)
  have m1 : hasBit token.instr1_flags INSTR_COMMITS = true → token.instr1_flags &&& INSTR_OIR = 0 :=
    fun h => n1.resolve_left (by rw [h]; simp)
  have m2 : hasBit token.instr2_flags INSTR_COMMITS = true → token.instr2_flags &&& INSTR_OIR = 0 :=
    fun h => n2.resolve_left (by rw [h]; simp)
  have m3 : hasBit token.instr3_flags INSTR_COMMITS = true → token.instr3_flags &&& INSTR_OIR = 0 :=
    fun h => n3.resolve_left (by rw [h]; simp)
  unfold goldSlots at hR ⊢
  obtain ⟨A0, hA0⟩ : ∃ A0 : List (Nat × Nat × Nat) × Nat × Nat,
      A0 = ([], s.lastInstructionRegister.flags, severity) := ⟨_, rfl⟩
  rw [← hA0] at hR ⊢
  have k0 := goldSlot_mono ilp s.base.l2MissLatency s.base.l3MissLatency token.instr0_flags
    token.instr0_address token.instr0_memlat A0
  generalize hA1 : goldSlot s.base.l2MissLatency s.base.l3MissLatency token.instr0_flags
    token.instr0_address token.instr0_memlat A0 = A1 at hR k0 ⊢
  have k1 := goldSlot_mono ilp s.base.l2MissLatency s.base.l3MissLatency token.instr1_flags
    token.instr1_address token.instr1_memlat A1
  generalize hA2 : goldSlot s.base.l2MissLatency s.base.l3MissLatency token.instr1_flags
    token.instr1_address token.instr1_memlat A1 = A2 at hR k1 ⊢
  have k2 := goldSlot_mono ilp s.base.l2MissLatency s.base.l3MissLatency token.instr2_flags
    token.instr2_address token.instr2_memlat A2
  generalize hA3 : goldSlot s.base.l2MissLatency s.base.l3MissLatency token.instr2_flags
    token.instr2_address token.instr2_memlat A2 = A3 at hR k2 ⊢
  have k3 := goldSlot_mono ilp s.base.l2MissLatency s.base.l3MissLatency token.instr3_flags
    token.instr3_address token.instr3_memlat A3
  generalize hA4 : goldSlot s.base.l2MissLatency s.base.l3MissLatency token.instr3_flags
    token.instr3_address token.instr3_memlat A3 = A4 at hR k3 ⊢
  have hlen0 : A0.1.length = 0 := by rw [hA0]; rfl
  have hsev0 : A0.2.2 = severity := by rw [hA0]
  have hinv0 : goldAttributed s.severityHists s.result ilp s A0.1 := by
    rw [hA0]
    exact ⟨fun _ _ _ => by simp, fun _ _ => by simp [goldWeight], by simp [goldTotalWeight]⟩
  obtain ⟨st0, e0, b0, o0, f0, v0, i0⟩ := gold_commitBlock_chain s.base s.severityHists s.result
    ilp (goldTotalWeight ilp A4.1) token.instr0_flags token.instr0_address token.instr0_memlat
    s.lastInstructionRegister.oir (s, severity) A0 rfl rfl (by rw [hA0]) (by rw [hA0]) hinv0 m0
    (by rw [hA1]; omega) (by rw [hA1]; omega) hS hR (by omega)
  rw [hA1] at f0 v0 i0
  obtain ⟨st1, e1, b1, o1, f1, v1, i1⟩ := gold_commitBlock_chain s.base s.severityHists s.result
    ilp (goldTotalWeight ilp A4.1) token.instr1_flags token.instr1_address token.instr1_memlat
    s.lastInstructionRegister.oir st0 A1 b0 o0 f0 v0 i0 m1
    (by rw [hA2]; omega) (by rw [hA2]; omega) hS hR (by omega)
  rw [hA2] at f1 v1 i1
  obtain ⟨st2, e2, b2, o2, f2, v2, i2⟩ := gold_commitBlock_chain s.base s.severityHists s.result
    ilp (goldTotalWeight ilp A4.1) token.instr2_flags token.instr2_address token.instr2_memlat
    s.lastInstructionRegister.oir st1 A2 b1 o1 f1 v1 i1 m2
    (by rw [hA3]; omega) (by rw [hA3]; omega) hS hR (by omega)
  rw [hA3] at f2 v2 i2
  obtain ⟨st3, e3, b3, o3, _, _, i3⟩ := gold_commitBlock_chain s.base s.severityHists s.result
    ilp (goldTotalWeight ilp A4.1) token.instr3_flags token.instr3_address token.instr3_memlat
    s.lastInstructionRegister.oir st2 A3 b2 o2 f2 v2 i2 m3
    (by rw [hA4]; omega) (by rw [hA4]) hS hR (by omega)
  rw [hA4] at i3
  unfold tracedoctor_tea_gold.commitPart
  dsimp only
  have hnn : b2n (hasBit token.instr0_flags INSTR_COMMITS) +
      b2n (hasBit token.instr1_flags INSTR_COMMITS) +
      b2n (hasBit token.instr2_flags INSTR_COMMITS) +
      b2n (hasBit token.instr3_flags INSTR_COMMITS) = nCommitting token := rfl
  rw [hnn, if_neg hnz, hilp]
  dsimp only
  rw [e0]
  dsimp only
  rw [e1]
  dsimp only
  rw [e2]
  dsimp only
  rw [gold_commitBlock_last, e3]
  exact ⟨st3.1, rfl, b3, o3, i3⟩

/-! ## TEA-gold: a COMMITTING token without OIR -/

theorem goldSlots_shape (ilp lastFlags severity l2 l3 : Nat) (token : robAnalysisToken)
    (hn : anyCommits token = true) :
    (goldSlots lastFlags severity l2 l3 token).length = nCommitting token ∧
    (goldSlots lastFlags severity l2 l3 token).map (fun e => e.2.2) =
      severity :: List.replicate (nCommitting token - 1) 0 ∧
    goldTotalWeight ilp (goldSlots lastFlags severity l2 l3 token) =
      nCommitting token * ilp + 24 * severity := by
  unfold anyCommits at hn
  unfold goldSlots goldSlot nCommitting goldTotalWeight
  cases h0 : hasBit token.instr0_flags INSTR_COMMITS <;>
  cases h1 : hasBit token.instr1_flags INSTR_COMMITS <;>
  cases h2 : hasBit token.instr2_flags INSTR_COMMITS <;>
  cases h3 : hasBit token.instr3_flags INSTR_COMMITS <;>
  simp [h0, h1, h2, h3, b2n, List.replicate] at hn ⊢ <;> omega

/-- The worker after `triggerDetection` and the flush it may call. -/
theorem gold_trigger_exact (s : tracedoctor_tea_gold) (token : robAnalysisToken)
    (hwf : goldWF s) :
    ∃ s1, (if (triggerDetection s.base token).1 then
          tracedoctor_tea_gold.flushResult { s with base := (triggerDetection s.base token).2.2 }
        else some { s with base := (triggerDetection s.base token).2.2 }) = some s1 ∧
      s1.base = (triggerDetection s.base token).2.2 ∧ s1.result = s.result ∧
      s1.severityHists = goldSeverityBefore s token ∧
      s1.lastInstructionRegister = s.lastInstructionRegister ∧
      s1.lastProgressCycle = s.lastProgressCycle := by
  unfold goldSeverityBefore
  cases hfl : (triggerDetection s.base token).1
  · simp only [Bool.false_eq_true, if_false]
    exact ⟨_, rfl, rfl, rfl, rfl, rfl, rfl⟩
  · simp only [if_true]
    obtain ⟨s1, e, _, b, r, sv, l, p⟩ := gold_flushResult_spec
      { s with base := (triggerDetection s.base token).2.2 } hwf
    exact ⟨s1, e, b, r, sv, l, p⟩

/-- C21. TEA-gold immediate attribution. For a TEA-gold worker past its first token with no
OIR pending, a COMMITTING token at cycle `t > lastProgressCycle` with `n >= 1` committing
slots none of which has an OIR flag is processed (no counter wrapping), and with
`ilp = ILP[n-1]` (so `n * ilp = 24`): each committing slot, taken in slot order with address
`a`, signature `g` computed against the flags of the previously attributed instruction and
severity `sev` (`t - lastProgressCycle - 1` for the lowest-index committing slot, 0 for the
others), adds 1 to `severityHists[g][a][sev]` and `ilp + 24 * sev` to `result[a][g]`; no
other counter changes; and the sum of all counters of `result` grows by exactly
`24 * (t - lastProgressCycle)`. The severity histograms are counted from their state after
the flush that may be due. -/
theorem gold_immediate_attribution (s : tracedoctor_tea_gold) (token : robAnalysisToken)
    (hwf : goldWF s) (hnf : s.base.firstToken = false)
    (hoir : s.lastInstructionRegister.oir = false)
    (hc : hasBit token.rob ROB_COMMITTING = true)
    (hn : anyCommits token = true) (hno : goldNoOIR token = true)
    (hlt : s.lastProgressCycle < token.tsc_cycle) (ht : token.tsc_cycle < 2 ^ 44)
    (hS : ∀ g a v, histCount (amapGet [] (goldSeverityBefore s token) g) a v + 4 < 2 ^ 64)
    (hR : ∀ a g, histCount s.result a g + 24 * (token.tsc_cycle - s.lastProgressCycle) <
      2 ^ 64) :
    ∃ s1 ilp, tracedoctor_tea_gold.step s token = some s1 ∧
      ilp_magic (nCommitting token - 1) = some ilp ∧ nCommitting token * ilp = 24 ∧
      goldAttributed (goldSeverityBefore s token) s.result ilp s1
        (goldSlots s.lastInstructionRegister.flags
          (token.tsc_cycle - s.lastProgressCycle - 1)
          s.base.l2MissLatency s.base.l3MissLatency token) ∧
      (goldSlots s.lastInstructionRegister.flags (token.tsc_cycle - s.lastProgressCycle - 1)
          s.base.l2MissLatency s.base.l3MissLatency token).length = nCommitting token ∧
      (goldSlots s.lastInstructionRegister.flags (token.tsc_cycle - s.lastProgressCycle - 1)
          s.base.l2MissLatency s.base.l3MissLatency token).map (fun e => e.2.2) =
        (token.tsc_cycle - s.lastProgressCycle - 1) ::
          List.replicate (nCommitting token - 1) 0 ∧
      histTotal s1.result =
        histTotal s.result + 24 * (token.tsc_cycle - s.lastProgressCycle) ∧
      s1.lastProgressCycle = token.tsc_cycle := by
  obtain ⟨ilp, hilp, hmul⟩ := ilp_magic_lookup _ _ _ _ hn
  have hmul1 : nCommitting token * ilp = 24 := hmul
  have hn1 : 1 ≤ nCommitting token := by
    rcases Nat.eq_zero_or_pos (nCommitting token) with h | h
    · rw [h] at hmul1
      omega
    · exact h
  have hn4 : nCommitting token ≤ 4 := by
    unfold nCommitting
    have a := b2n_le_one (hasBit token.instr0_flags INSTR_COMMITS)
    have b := b2n_le_one (hasBit token.instr1_flags INSTR_COMMITS)
    have c := b2n_le_one (hasBit token.instr2_flags INSTR_COMMITS)
    have d := b2n_le_one (hasBit token.instr3_flags INSTR_COMMITS)
    omega
  have hilp1 : ilp_magic (nCommitting token - 1) = some ilp := by
    have hsub : sub32 (nCommitting token) 1 = nCommitting token - 1 := by
      unfold sub32
      rw [Nat.mod_eq_of_lt (by omega : nCommitting token < 2 ^ 32)]
      simp only [Nat.reducePow, Nat.one_mod]
      rw [if_pos hn1]
    rw [← hsub]
    exact hilp
  obtain ⟨lf, hlf⟩ := triggerDetection_members s.base token
  have htd := (triggerDetection_notFirst s.base token hnf).1
  obtain ⟨sA, eA, bA, rA, svA, lA, pA⟩ := gold_trigger_exact s token hwf
  have hsevEq : sub64 (sub64 token.tsc_cycle sA.lastProgressCycle) 1 =
      token.tsc_cycle - s.lastProgressCycle - 1 := by
    have h1 : sub64 token.tsc_cycle s.lastProgressCycle =
        token.tsc_cycle - s.lastProgressCycle := sub64_of_le _ _ (by omega) (by omega)
    rw [pA, h1]
    exact sub64_of_le _ _ (by omega) (by omega)
  have hl2 : sA.base.l2MissLatency = s.base.l2MissLatency := by rw [bA, hlf]
  have hl3 : sA.base.l3MissLatency = s.base.l3MissLatency := by rw [bA, hlf]
  obtain ⟨sh1, sh2, sh3⟩ := goldSlots_shape ilp s.lastInstructionRegister.flags
    (token.tsc_cycle - s.lastProgressCycle - 1) s.base.l2MissLatency s.base.l3MissLatency
    token hn
  have hW : goldTotalWeight ilp (goldSlots s.lastInstructionRegister.flags
      (token.tsc_cycle - s.lastProgressCycle - 1) s.base.l2MissLatency s.base.l3MissLatency
      token) = 24 * (token.tsc_cycle - s.lastProgressCycle) := by
    rw [sh3, hmul1]
    omega
  obtain ⟨sB, eB, _, _, iB⟩ := gold_commitPart_adds sA token
    (token.tsc_cycle - s.lastProgressCycle - 1) ilp hn hno hilp1
    (by rw [svA]; exact hS)
    (by rw [rA, lA, hl2, hl3, hW]; exact hR)
    (by omega)
  rw [svA, rA, lA, hl2, hl3] at iB
  have hpop : tracedoctor_tea_gold.populatedPart sA token = some sA := by
    unfold tracedoctor_tea_gold.populatedPart
    rw [lA, hoir]
    simp
  have hce : hasBit token.rob (ROB_COMMITTING ||| ROB_EXCEPTION) = true := by
    rw [hasBit_or, hc]
    rfl
  have hao : tracedoctor_tea_gold.attributeOIR sA 0 = some sA := by
    unfold tracedoctor_tea_gold.attributeOIR
    rw [lA, hoir]
    rfl
  have hprog : tracedoctor_tea_gold.progressPart sA token =
      some { sB with lastProgressCycle := token.tsc_cycle } := by
    unfold tracedoctor_tea_gold.progressPart
    rw [if_pos hce]
    dsimp only
    rw [hao]
    dsimp only
    rw [if_pos hc, hsevEq, eB]
  have hstep : tracedoctor_tea_gold.step s token =
      some { sB with lastProgressCycle := token.tsc_cycle } := by
    unfold tracedoctor_tea_gold.step
    dsimp only
    rw [eA]
    dsimp only
    rw [htd]
    simp only [Bool.false_eq_true, if_false]
    rw [hpop]
    dsimp only
    exact hprog
  refine ⟨_, ilp, hstep, hilp1, hmul1, iB, sh1, sh2, ?_, rfl⟩
  show histTotal sB.result = _
  rw [iB.2.2, hW]

/-- Witness of `gold_immediate_attribution`: TEA-gold with its last progress at cycle 49 and
the token of cycle 100 whose slots 0 and 2 commit at `0x10` and `0x20`: the observations are
`(0x10, 0, 50)` and `(0x20, 0, 0)`, and `result` grows by `24 * 51` in total. -/
theorem gold_immediate_attribution_witness :
    goldSlots goldStarted.lastInstructionRegister.flags
        (twoCommitToken.tsc_cycle - goldStarted.lastProgressCycle - 1)
        goldStarted.base.l2MissLatency goldStarted.base.l3MissLatency twoCommitToken =
      [(0x10, 0, 50), (0x20, 0, 0)] ∧
    ∃ s1 ilp, tracedoctor_tea_gold.step goldStarted twoCommitToken = some s1 ∧
      ilp_magic (nCommitting twoCommitToken - 1) = some ilp ∧
      nCommitting twoCommitToken * ilp = 24 ∧
      goldAttributed (goldSeverityBefore goldStarted twoCommitToken) goldStarted.result ilp s1
        (goldSlots goldStarted.lastInstructionRegister.flags
          (twoCommitToken.tsc_cycle - goldStarted.lastProgressCycle - 1)
          goldStarted.base.l2MissLatency goldStarted.base.l3MissLatency twoCommitToken) ∧
      (goldSlots goldStarted.lastInstructionRegister.flags
          (twoCommitToken.tsc_cycle - goldStarted.lastProgressCycle - 1)
          goldStarted.base.l2MissLatency goldStarted.base.l3MissLatency twoCommitToken).length =
        nCommitting twoCommitToken ∧
      (goldSlots goldStarted.lastInstructionRegister.flags
          (twoCommitToken.tsc_cycle - goldStarted.lastProgressCycle - 1)
          goldStarted.base.l2MissLatency goldStarted.base.l3MissLatency twoCommitToken).map
          (fun e => e.2.2) =
        (twoCommitToken.tsc_cycle - goldStarted.lastProgressCycle - 1) ::
          List.replicate (nCommitting twoCommitToken - 1) 0 ∧
      histTotal s1.result =
        histTotal goldStarted.result +
          24 * (twoCommitToken.tsc_cycle - goldStarted.lastProgressCycle) ∧
      s1.lastProgressCycle = twoCommitToken.tsc_cycle :=
  ⟨by decide,
    gold_immediate_attribution goldStarted twoCommitToken (by decide) (by decide) (by decide)
      (by decide) (by decide) (by decide) (by decide) (by decide)
      (fun _ _ _ => by show 0 + 4 < 2 ^ 64; decide)
      (fun _ _ => by show 0 + 24 * (100 - 49) < 2 ^ 64; decide)⟩

/-! ## Samplers: the rows written over a run -/

/-- One iteration keeps the invariant of the rows. -/
theorem rowInv_step {σ : Type} (step : σ → robAnalysisToken → Option σ)
    (base : σ → base_profiler) (out : σ → List sampleRow) (samplingCycle : σ → Nat)
    (active : σ → Bool) (hS : rowSampler step base out samplingCycle active)
    (s s1 : σ) (t : robAnalysisToken) (c : Nat)
    (hinv : rowInv base out samplingCycle active c s) (hc : c ≤ t.tsc_cycle)
    (hstep : step s t = some s1) :
    rowInv base out samplingCycle active t.tsc_cycle s1 ∧
    ∃ rows, out s1 = out s ++ rows ∧ rows.length ≤ 1 := by
  obtain ⟨i0, i1, i2, i3⟩ := hinv
  cases hf : (base s).firstToken
  · obtain ⟨f1, rows, ho, hl, hcy, hoff, hcase⟩ := hS.2 s t s1 hf hstep
    refine ⟨?_, rows, ho, hl⟩
    have hrows : rows = [] ∨ ∃ r, rows = [r] := by
      cases rows with
      | nil => exact Or.inl rfl
      | cons r rs =>
        cases rs with
        | nil => exact Or.inr ⟨r, rfl⟩
        | cons r2 rs2 => simp at hl
    rcases hcase with ⟨a1, a2, a3⟩ | ⟨b1, b2, b3, b4⟩
    · refine ⟨fun h => absurd h (by rw [f1]; simp), ?_, ?_, ?_⟩
      · rw [ho, List.map_append, List.pairwise_append]
        refine ⟨i1, ?_, ?_⟩
        · rcases hrows with e | ⟨r, e⟩ <;> rw [e] <;> simp
        · intro x hx y hy
          obtain ⟨rx, hrx, ex⟩ := List.mem_map.1 hx
          obtain ⟨ry, hry, ey⟩ := List.mem_map.1 hy
          have := (i2 rx hrx).2
          have := hcy ry hry
          omega
      · intro r hr
        rw [ho, List.mem_append] at hr
        rcases hr with hr | hr
        · have := i2 r hr
          omega
        · have := hcy r hr
          omega
      · intro hact
        refine ⟨by omega, by omega, ?_⟩
        intro r hr
        rw [ho, List.mem_append] at hr
        rcases hr with hr | hr
        · have := (i2 r hr).2
          omega
        · have hne : rows ≠ [] := fun e => by rw [e] at hr; simp at hr
          rw [hoff hne] at hact
          exact absurd hact (by simp)
    · refine ⟨fun h => absurd h (by rw [f1]; simp), ?_, ?_, ?_⟩
      · rw [ho, List.map_append, List.pairwise_append]
        refine ⟨i1, ?_, ?_⟩
        · rcases hrows with e | ⟨r, e⟩ <;> rw [e] <;> simp
        · intro x hx y hy
          obtain ⟨rx, hrx, ex⟩ := List.mem_map.1 hx
          obtain ⟨ry, hry, ey⟩ := List.mem_map.1 hy
          have hne : rows ≠ [] := fun e => by rw [e] at hry; simp at hry
          have := (i3 (b3 hne)).2.2 rx hrx
          have := hcy ry hry
          omega
      · intro r hr
        rw [ho, List.mem_append] at hr
        rcases hr with hr | hr
        · have := i2 r hr
          omega
        · have hne : rows ≠ [] := fun e => by rw [e] at hr; simp at hr
          have := i3 (b3 hne)
          have := hcy r hr
          omega
      · intro hact
        have hacts : active s = true := by
          cases ha : active s
          · rw [b4 ha] at hact
            exact absurd hact (by simp)
          · rfl
        obtain ⟨j1, j2, j3⟩ := i3 hacts
        refine ⟨by omega, by omega, ?_⟩
        intro r hr
        rw [ho, List.mem_append] at hr
        rcases hr with hr | hr
        · have := j3 r hr
          omega
        · have hne : rows ≠ [] := fun e => by rw [e] at hr; simp at hr
          rw [hoff hne] at hact
          exact absurd hact (by simp)
  · obtain ⟨f1, f2, f3⟩ := hS.1 s t s1 hf hstep
    obtain ⟨e1, e2⟩ := i0 hf
    refine ⟨⟨fun h => absurd h (by rw [f1]; simp), ?_, ?_, ?_⟩, [], by rw [f2]; simp, by simp⟩
    · rw [f2, e1]
      simp
    · intro r hr
      rw [f2, e1] at hr
      simp at hr
    · intro hact
      rw [f3, e2] at hact
      exact absurd hact (by simp)

/-- Over a run on tokens with non-decreasing cycles, every row written has a sample cycle that
is not after the cycle of its token and lies after the sample cycles of all rows written
before, and the sample cycles of the rows of the run are strictly increasing. -/
theorem rowSampler_log {σ : Type} (step : σ → robAnalysisToken → Option σ)
    (base : σ → base_profiler) (out : σ → List sampleRow) (samplingCycle : σ → Nat)
    (active : σ → Bool) (hS : rowSampler step base out samplingCycle active)
    (toks : List robAnalysisToken) :
    ∀ (s : σ) (c : Nat) (log : List (Nat × sampleRow)),
      rowInv base out samplingCycle active c s →
      List.Chain (fun a b : Nat => a ≤ b) c (toks.map (fun t => t.tsc_cycle)) →
      emitLog step out s toks = some log →
      (∀ e ∈ log, e.2.cycle ≤ e.1 ∧ ∀ r ∈ out s, r.cycle < e.2.cycle) ∧
      List.Pairwise (fun a b : Nat => a < b) (log.map (fun e => e.2.cycle)) := by
  induction toks with
  | nil =>
    intro s c log _ _ h
    simp only [emitLog, Option.some.injEq] at h
    rw [← h]
    simp
  | cons t ts ih =>
    intro s c log hinv hch h
    simp only [List.map_cons, List.chain_cons] at hch
    simp only [emitLog] at h
    cases hs : step s t with
    | none => rw [hs] at h; exact absurd h (by simp)
    | some s1 =>
      rw [hs] at h
      dsimp only at h
      cases hl : emitLog step out s1 ts with
      | none => rw [hl] at h; exact absurd h (by simp)
      | some log1 =>
        rw [hl] at h
        simp only [Option.some.injEq] at h
        obtain ⟨hinv1, rows, ho, hlen⟩ := rowInv_step step base out samplingCycle active hS
          s s1 t c hinv hch.1 hs
        obtain ⟨p1, p2⟩ := ih s1 t.tsc_cycle log1 hinv1 hch.2 hl
        have hdrop : (out s1).drop (out s).length = rows := by
          rw [ho]
          simp
        rw [hdrop] at h
        obtain ⟨_, j1, j2, _⟩ := hinv1
        rw [ho, List.map_append, List.pairwise_append] at j1
        rw [← h]
        constructor
        · intro e he
          rw [List.mem_append] at he
          rcases he with he | he
          · obtain ⟨r, hr, er⟩ := List.mem_map.1 he
            rw [← er]
            refine ⟨(j2 r (by rw [ho]; exact List.mem_append_right _ hr)).1, ?_⟩
            intro r0 hr0
            exact j1.2.2 _ (List.mem_map_of_mem _ hr0) _ (List.mem_map_of_mem _ hr)
          · refine ⟨(p1 e he).1, ?_⟩
            intro r0 hr0
            exact (p1 e he).2 r0 (by rw [ho]; exact List.mem_append_left _ hr0)
        · rw [List.map_append, List.pairwise_append]
          refine ⟨?_, p2, ?_⟩
          · rw [List.map_map]
            exact j1.2.1
          · intro x hx y hy
            rw [List.map_map] at hx
            obtain ⟨r, hr, er⟩ := List.mem_map.1 hx
            obtain ⟨e, he, ee⟩ := List.mem_map.1 hy
            rw [← er, ← ee]
            exact (p1 e he).2 r (by rw [ho]; exact List.mem_append_right _ hr)

/-! ## PEBS and IBS samplers: one iteration and the rows -/

theorem restartSampling_firstToken (b : base_profiler) (c : Nat) :
    (restartSampling b c).firstToken = b.firstToken := rfl

theorem pebs_samplePoint_cases (rng : Nat → Nat) (s s3 : tracedoctor_pebs_sampler)
    (token : robAnalysisToken)
    (h : tracedoctor_pebs_sampler.samplePoint rng s token = some s3) :
    s3.out = s.out ∧
    ((s3.samplingCycle = s.base.nextPeriod ∧ s.base.nextPeriod ≤ token.tsc_cycle ∧
        token.tsc_cycle < s3.base.nextPeriod) ∨ s3 = s) := by
  unfold tracedoctor_pebs_sampler.samplePoint at h
  by_cases hr : reachedSamplingPeriod s.base token.tsc_cycle = true
  · rw [if_pos hr] at h
    cases hadv : advanceSamplingPeriod rng s.base token.tsc_cycle with
    | none => rw [hadv] at h; exact absurd h (by simp)
    | some adv =>
      rw [hadv] at h
      simp only [Option.some.injEq] at h
      have hex := advanceSamplingPeriod_exit rng s.base token.tsc_cycle adv hadv
      unfold reachedSamplingPeriod at hr
      simp only [decide_eq_true_eq] at hr
      rw [← h]
      exact ⟨rfl, Or.inl ⟨rfl, hr, hex⟩⟩
  · rw [if_neg hr] at h
    simp only [Option.some.injEq] at h
    rw [← h]
    exact ⟨rfl, Or.inr rfl⟩

theorem pebs_emitPart_rows (s : tracedoctor_pebs_sampler) (token : robAnalysisToken) :
    ∃ rows, (tracedoctor_pebs_sampler.emitPart s token).out = s.out ++ rows ∧
      rows.length ≤ 1 ∧ (∀ r ∈ rows, r.cycle = s.samplingCycle) ∧
      (tracedoctor_pebs_sampler.emitPart s token).samplingCycle = s.samplingCycle ∧
      (tracedoctor_pebs_sampler.emitPart s token).base = s.base ∧
      (rows ≠ [] → (tracedoctor_pebs_sampler.emitPart s token).state =
        tracedoctor_pebs_sampler.s_idle ∧ s.state = tracedoctor_pebs_sampler.s_armed) ∧
      (rows = [] → tracedoctor_pebs_sampler.emitPart s token = s) := by
  unfold tracedoctor_pebs_sampler.emitPart
  by_cases hc : s.state = tracedoctor_pebs_sampler.s_armed ∧
      hasBit token.rob ROB_COMMITTING = true
  · rw [if_pos hc]
    refine ⟨[_], rfl, by simp, ?_, rfl, rfl, fun _ => ⟨rfl, hc.1⟩, fun h => absurd h (by simp)⟩
    intro r hr
    simp only [List.mem_singleton] at hr
    rw [hr]
    rfl
  · rw [if_neg hc]
    exact ⟨[], by simp, by simp, by simp, rfl, rfl, fun h => absurd rfl h, fun _ => rfl⟩

theorem pebs_registerPart_members (s : tracedoctor_pebs_sampler) (token : robAnalysisToken) :
    (tracedoctor_pebs_sampler.registerPart s token).base = s.base ∧
    (tracedoctor_pebs_sampler.registerPart s token).state = s.state ∧
    (tracedoctor_pebs_sampler.registerPart s token).out = s.out ∧
    (tracedoctor_pebs_sampler.registerPart s token).samplingCycle = s.samplingCycle := by
  unfold tracedoctor_pebs_sampler.registerPart
  split <;> exact ⟨rfl, rfl, rfl, rfl⟩

theorem pebs_oirGap_members (s : tracedoctor_pebs_sampler) (token : robAnalysisToken) :
    (tracedoctor_pebs_sampler.oirGap s token).base = s.base ∧
    (tracedoctor_pebs_sampler.oirGap s token).state = s.state ∧
    (tracedoctor_pebs_sampler.oirGap s token).out = s.out ∧
    (tracedoctor_pebs_sampler.oirGap s token).samplingCycle = s.samplingCycle := by
  unfold tracedoctor_pebs_sampler.oirGap
  split <;> exact ⟨rfl, rfl, rfl, rfl⟩

/-- The PEBS sampler is a row sampler: a sample is outstanding when the state is not IDLE. -/
theorem pebs_rowSampler (rng : Nat → Nat) :
    rowSampler (tracedoctor_pebs_sampler.step rng) (fun s => s.base) (fun s => s.out)
      (fun s => s.samplingCycle)
      (fun s => decide (s.state ≠ tracedoctor_pebs_sampler.s_idle)) := by
  constructor
  · intro s t s1 hf h
    rw [pebs_step_first rng s t hf] at h
    simp only [Option.some.injEq] at h
    rw [← h]
    exact ⟨triggerDetection_firstToken s.base t, rfl, rfl⟩
  · intro s t s1 hf h
    refine ⟨pebs_step_firstToken rng s s1 t h, ?_⟩
    obtain ⟨lf, hlf⟩ := triggerDetection_members s.base t
    rw [pebs_step_later rng s t (triggerDetection_notFirst s.base t hf).1] at h
    unfold tracedoctor_pebs_sampler.body at h
    obtain ⟨g1, g2, g3, g4⟩ := pebs_oirGap_members
      { s with base := (triggerDetection s.base t).2.2 } t
    cases h3 : tracedoctor_pebs_sampler.samplePoint rng
        (tracedoctor_pebs_sampler.oirGap { s with base := (triggerDetection s.base t).2.2 } t)
        t with
    | none => rw [h3] at h; exact absurd h (by simp)
    | some s3 =>
      rw [h3] at h
      simp only [Option.some.injEq] at h
      obtain ⟨o3, c3⟩ := pebs_samplePoint_cases rng _ s3 t h3
      obtain ⟨rows, eo, el, ec, es, eb, en, ee⟩ := pebs_emitPart_rows s3 t
      obtain ⟨r1, r2, r3, r4⟩ := pebs_registerPart_members
        (tracedoctor_pebs_sampler.emitPart s3 t) t
      have hnp : (tracedoctor_pebs_sampler.oirGap
          { s with base := (triggerDetection s.base t).2.2 } t).base.nextPeriod =
          s.base.nextPeriod := by
        rw [g1]
        show (triggerDetection s.base t).2.2.nextPeriod = _
        rw [hlf]
      rw [← h]
      refine ⟨rows, ?_, el, ?_, ?_, ?_⟩
      · show (tracedoctor_pebs_sampler.registerPart _ t).out = s.out ++ rows
        rw [r3, eo, o3, g3]
      · intro r hr
        show r.cycle = (tracedoctor_pebs_sampler.registerPart _ t).samplingCycle
        rw [r4, es]
        exact ec r hr
      · intro hne
        show decide ((tracedoctor_pebs_sampler.registerPart _ t).state ≠ _) = false
        rw [r2, (en hne).1]
        simp
      · rcases c3 with ⟨a1, a2, a3⟩ | e3
        · left
          refine ⟨?_, ?_, ?_⟩
          · show (tracedoctor_pebs_sampler.registerPart _ t).samplingCycle = _
            rw [r4, es, a1, hnp]
          · rw [← hnp]
            exact a2
          · show t.tsc_cycle < (tracedoctor_pebs_sampler.registerPart _ t).base.nextPeriod
            rw [r1, eb]
            exact a3
        · right
          refine ⟨?_, ?_, ?_, ?_⟩
          · show (tracedoctor_pebs_sampler.registerPart _ t).samplingCycle = _
            rw [r4, es, e3, g4]
          · show (tracedoctor_pebs_sampler.registerPart _ t).base.nextPeriod = _
            rw [r1, eb, e3, hnp]
          · intro hne
            have := (en hne).2
            rw [e3, g2] at this
            show decide (s.state ≠ _) = true
            rw [this]
            decide
          · intro hidle
            show decide ((tracedoctor_pebs_sampler.registerPart _ t).state ≠ _) = false
            rw [r2]
            have hs : s.state = tracedoctor_pebs_sampler.s_idle := by
              simpa using hidle
            have hrows : rows = [] := by
              by_contra hne
              have := (en hne).2
              rw [e3, g2] at this
              rw [hs] at this
              exact absurd this (by decide)
            rw [ee hrows, e3, g2]
            simpa using hs

theorem ibs_samplePoint_cases (rng : Nat → Nat) (s s3 : tracedoctor_ibs_sampler)
    (token : robAnalysisToken)
    (h : tracedoctor_ibs_sampler.samplePoint rng s token = some s3) :
    s3.out = s.out ∧
    ((s3.samplingCycle = s.base.nextPeriod ∧ s.base.nextPeriod ≤ token.tsc_cycle ∧
        token.tsc_cycle < s3.base.nextPeriod ∧
        s3.state = tracedoctor_ibs_sampler.s_tagging) ∨ s3 = s) := by
  unfold tracedoctor_ibs_sampler.samplePoint at h
  by_cases hr : reachedSamplingPeriod s.base token.tsc_cycle = true
  · rw [if_pos hr] at h
    cases hadv : advanceSamplingPeriod rng s.base token.tsc_cycle with
    | none => rw [hadv] at h; exact absurd h (by simp)
    | some adv =>
      rw [hadv] at h
      simp only [Option.some.injEq] at h
      have hex := advanceSamplingPeriod_exit rng s.base token.tsc_cycle adv hadv
      unfold reachedSamplingPeriod at hr
      simp only [decide_eq_true_eq] at hr
      rw [← h]
      exact ⟨rfl, Or.inl ⟨rfl, hr, hex, rfl⟩⟩
  · rw [if_neg hr] at h
    simp only [Option.some.injEq] at h
    rw [← h]
    exact ⟨rfl, Or.inr rfl⟩

theorem ibs_armedPart_rows (s s4 : tracedoctor_ibs_sampler) (token : robAnalysisToken)
    (h : tracedoctor_ibs_sampler.armedPart s token = some s4) :
    ∃ rows, s4.out = s.out ++ rows ∧ rows.length ≤ 1 ∧
      (∀ r ∈ rows, r.cycle = s.samplingCycle) ∧
      s4.samplingCycle = s.samplingCycle ∧ s4.base = s.base ∧
      (rows ≠ [] → s4.state = tracedoctor_ibs_sampler.s_idle ∧
        s.state = tracedoctor_ibs_sampler.s_armed) ∧
      (s.state ≠ tracedoctor_ibs_sampler.s_armed → rows = [] ∧ s4 = s) ∧
      (s4.state = s.state ∨ s4.state = tracedoctor_ibs_sampler.s_idle) := by
  by_cases harmed : s.state = tracedoctor_ibs_sampler.s_armed
  · by_cases hw : s.coreWidth = 0
    · unfold tracedoctor_ibs_sampler.armedPart at h
      rw [if_pos harmed, if_pos hw] at h
      exact absurd h (by simp)
    · rw [ibs_armedPart_eq s token harmed hw] at h
      split at h
      · simp only [Option.some.injEq] at h
        rw [← h]
        exact ⟨[], by simp, by simp, by simp, rfl, rfl, fun e => absurd rfl e,
          fun e => absurd harmed e, Or.inr rfl⟩
      · split at h
        · simp only [Option.some.injEq] at h
          rw [← h]
          refine ⟨[_], rfl, by simp, ?_, rfl, rfl, fun _ => ⟨rfl, harmed⟩,
            fun e => absurd harmed e, Or.inr rfl⟩
          intro r hr
          simp only [List.mem_singleton] at hr
          rw [hr]
          rfl
        · simp only [Option.some.injEq] at h
          rw [← h]
          exact ⟨[], by simp, by simp, by simp, rfl, rfl, fun e => absurd rfl e,
            fun e => absurd harmed e, Or.inl rfl⟩
  · unfold tracedoctor_ibs_sampler.armedPart at h
    rw [if_neg harmed] at h
    simp only [Option.some.injEq] at h
    rw [← h]
    exact ⟨[], by simp, by simp, by simp, rfl, rfl, fun e => absurd rfl e,
      fun _ => ⟨rfl, rfl⟩, Or.inl rfl⟩

theorem ibs_tagPart_members (s : tracedoctor_ibs_sampler) (token : robAnalysisToken) :
    (tracedoctor_ibs_sampler.tagPart s token).base = s.base ∧
    (tracedoctor_ibs_sampler.tagPart s token).out = s.out ∧
    (tracedoctor_ibs_sampler.tagPart s token).samplingCycle = s.samplingCycle := by
  unfold tracedoctor_ibs_sampler.tagPart
  split <;> exact ⟨rfl, rfl, rfl⟩

theorem ibs_registerPart_members (s : tracedoctor_ibs_sampler) (token : robAnalysisToken) :
    (tracedoctor_ibs_sampler.registerPart s token).base = s.base ∧
    (tracedoctor_ibs_sampler.registerPart s token).state = s.state ∧
    (tracedoctor_ibs_sampler.registerPart s token).out = s.out ∧
    (tracedoctor_ibs_sampler.registerPart s token).samplingCycle = s.samplingCycle := by
  unfold tracedoctor_ibs_sampler.registerPart
  split <;> exact ⟨rfl, rfl, rfl, rfl⟩

/-- The IBS sampler is a row sampler: a sample is outstanding when the state is not IDLE. -/
theorem ibs_rowSampler (rng : Nat → Nat) :
    rowSampler (tracedoctor_ibs_sampler.step rng) (fun s => s.base) (fun s => s.out)
      (fun s => s.samplingCycle)
      (fun s => decide (s.state ≠ tracedoctor_ibs_sampler.s_idle)) := by
  constructor
  · intro s t s1 hf h
    unfold tracedoctor_ibs_sampler.step at h
    rw [triggerDetection_ret, hf] at h
    simp only [if_true, Option.some.injEq] at h
    rw [← h]
    exact ⟨triggerDetection_firstToken s.base t, rfl, rfl⟩
  · intro s t s1 hf h
    refine ⟨ibs_step_firstToken rng s s1 t h, ?_⟩
    obtain ⟨lf, hlf⟩ := triggerDetection_members s.base t
    unfold tracedoctor_ibs_sampler.step at h
    rw [triggerDetection_ret, hf] at h
    simp only [Bool.false_eq_true, if_false] at h
    rw [ibs_body_single] at h
    unfold tracedoctor_ibs_sampler.bodySingle at h
    have hg := ibs_oirGap_members { s with base := (triggerDetection s.base t).2.2 } t
    cases h3 : tracedoctor_ibs_sampler.samplePoint rng
        (tracedoctor_ibs_sampler.oirGap { s with base := (triggerDetection s.base t).2.2 } t)
        t with
    | none => rw [h3] at h; exact absurd h (by simp)
    | some s3 =>
      rw [h3] at h
      dsimp only at h
      cases h4 : tracedoctor_ibs_sampler.armedPart s3 t with
      | none => rw [h4] at h; exact absurd h (by simp)
      | some s4 =>
        rw [h4] at h
        simp only [Option.some.injEq] at h
        obtain ⟨o3, c3⟩ := ibs_samplePoint_cases rng _ s3 t h3
        obtain ⟨rows, eo, el, ec, es, eb, en, ena, est⟩ := ibs_armedPart_rows s3 s4 t h4
        obtain ⟨t1, t2, t3⟩ := ibs_tagPart_members s4 t
        obtain ⟨r1, r2, r3, r4⟩ := ibs_registerPart_members
          (tracedoctor_ibs_sampler.tagPart s4 t) t
        have hnp : (tracedoctor_ibs_sampler.oirGap
            { s with base := (triggerDetection s.base t).2.2 } t).base.nextPeriod =
            s.base.nextPeriod := by
          rw [hg]
          show (triggerDetection s.base t).2.2.nextPeriod = _
          rw [hlf]
        have hgo : (tracedoctor_ibs_sampler.oirGap
            { s with base := (triggerDetection s.base t).2.2 } t).out = s.out := by
          rw [hg]
        have hgs : (tracedoctor_ibs_sampler.oirGap
            { s with base := (triggerDetection s.base t).2.2 } t).state = s.state := by
          rw [hg]
        have hgc : (tracedoctor_ibs_sampler.oirGap
            { s with base := (triggerDetection s.base t).2.2 } t).samplingCycle =
            s.samplingCycle := by
          rw [hg]
        rw [← h]
        refine ⟨rows, ?_, el, ?_, ?_, ?_⟩
        · show (tracedoctor_ibs_sampler.registerPart _ t).out = s.out ++ rows
          rw [r3, t2, eo, o3, hgo]
        · intro r hr
          show r.cycle = (tracedoctor_ibs_sampler.registerPart _ t).samplingCycle
          rw [r4, t3, es]
          exact ec r hr
        · intro hne
          show decide ((tracedoctor_ibs_sampler.registerPart _ t).state ≠ _) = false
          rw [r2, ibs_tagPart_not_tagging s4 t (by rw [(en hne).1]; decide), (en hne).1]
          simp
        · rcases c3 with ⟨a1, a2, a3, a4⟩ | e3
          · left
            refine ⟨?_, ?_, ?_⟩
            · show (tracedoctor_ibs_sampler.registerPart _ t).samplingCycle = _
              rw [r4, t3, es, a1, hnp]
            · rw [← hnp]
              exact a2
            · show t.tsc_cycle < (tracedoctor_ibs_sampler.registerPart _ t).base.nextPeriod
              rw [r1, t1, eb]
              exact a3
          · right
            refine ⟨?_, ?_, ?_, ?_⟩
            · show (tracedoctor_ibs_sampler.registerPart _ t).samplingCycle = _
              rw [r4, t3, es, e3, hgc]
            · show (tracedoctor_ibs_sampler.registerPart _ t).base.nextPeriod = _
              rw [r1, t1, eb, e3, hnp]
            · intro hne
              have := (en hne).2
              rw [e3, hgs] at this
              show decide (s.state ≠ _) = true
              rw [this]
              decide
            · intro hidle
              show decide ((tracedoctor_ibs_sampler.registerPart _ t).state ≠ _) = false
              have hs : s.state = tracedoctor_ibs_sampler.s_idle := by
                simpa using hidle
              have h3s : s3.state = tracedoctor_ibs_sampler.s_idle := by
                rw [e3, hgs, hs]
              have h4s := (ena (by rw [h3s]; decide)).2
              rw [r2, h4s, ibs_tagPart_not_tagging s3 t (by rw [h3s]; decide), h3s]
              simp

/-! ## TEA sampler: one iteration and the rows -/

theorem tea_samplePoint_rows (rng : Nat → Nat) (s s3 : tracedoctor_tea_sampler)
    (token : robAnalysisToken)
    (h : tracedoctor_tea_sampler.samplePoint rng s token = some s3) :
    ∃ rows, s3.out = s.out ++ rows ∧ rows.length ≤ 1 ∧
      (∀ r ∈ rows, r.cycle = s3.samplingCycle) ∧
      (rows ≠ [] → s3.state = tracedoctor_tea_sampler.s_off) ∧
      ((s3.samplingCycle = s.base.nextPeriod ∧ s.base.nextPeriod ≤ token.tsc_cycle ∧
          token.tsc_cycle < s3.base.nextPeriod) ∨ (s3 = s ∧ rows = [])) := by
  unfold tracedoctor_tea_sampler.samplePoint at h
  by_cases hr : reachedSamplingPeriod s.base token.tsc_cycle = true
  · rw [if_pos hr] at h
    cases hadv : advanceSamplingPeriod rng s.base token.tsc_cycle with
    | none => rw [hadv] at h; exact absurd h (by simp)
    | some adv =>
      rw [hadv] at h
      have hex := advanceSamplingPeriod_exit rng s.base token.tsc_cycle adv hadv
      unfold reachedSamplingPeriod at hr
      simp only [decide_eq_true_eq] at hr
      dsimp only at h
      split at h
      · split at h
        · simp only [Option.some.injEq] at h
          rw [← h]
          refine ⟨[_], rfl, by simp, ?_, fun _ => rfl, Or.inl ⟨rfl, hr, hex⟩⟩
          intro r hr1
          simp only [List.mem_singleton] at hr1
          rw [hr1]
          rfl
        · simp only [Option.some.injEq] at h
          rw [← h]
          exact ⟨[], by simp, by simp, by simp, fun e => absurd rfl e, Or.inl ⟨rfl, hr, hex⟩⟩
      · split at h
        · simp only [Option.some.injEq] at h
          rw [← h]
          exact ⟨[], by simp, by simp, by simp, fun e => absurd rfl e, Or.inl ⟨rfl, hr, hex⟩⟩
        · simp only [Option.some.injEq] at h
          rw [← h]
          exact ⟨[], by simp, by simp, by simp, fun e => absurd rfl e, Or.inl ⟨rfl, hr, hex⟩⟩
  · rw [if_neg hr] at h
    simp only [Option.some.injEq] at h
    rw [← h]
    exact ⟨[], by simp, by simp, by simp, fun e => absurd rfl e, Or.inr ⟨rfl, rfl⟩⟩

theorem tea_emitPart_rows (s : tracedoctor_tea_sampler) (token : robAnalysisToken) :
    ∃ rows, (tracedoctor_tea_sampler.emitPart s token).out = s.out ++ rows ∧
      rows.length ≤ 1 ∧ (∀ r ∈ rows, r.cycle = s.samplingCycle) ∧
      (tracedoctor_tea_sampler.emitPart s token).samplingCycle = s.samplingCycle ∧
      (tracedoctor_tea_sampler.emitPart s token).base = s.base ∧
      (rows ≠ [] → (tracedoctor_tea_sampler.emitPart s token).state =
        tracedoctor_tea_sampler.s_off ∧ s.state ≠ tracedoctor_tea_sampler.s_off) ∧
      (rows = [] → tracedoctor_tea_sampler.emitPart s token = s) := by
  unfold tracedoctor_tea_sampler.emitPart
  by_cases hc : s.state ≠ 0 ∧ hasBit token.rob (ROB_COMMITTING ||| ROB_EXCEPTION) = true
  · rw [if_pos hc]
    refine ⟨[_], rfl, by simp, ?_, rfl, rfl, fun _ => ⟨rfl, hc.1⟩, fun h => absurd h (by simp)⟩
    intro r hr
    simp only [List.mem_singleton] at hr
    rw [hr]
    first
      | rfl
      | (split <;> rfl)
  · rw [if_neg hc]
    exact ⟨[], by simp, by simp, by simp, rfl, rfl, fun h => absurd rfl h, fun _ => rfl⟩

theorem tea_registerPart_members (s : tracedoctor_tea_sampler) (token : robAnalysisToken) :
    (tracedoctor_tea_sampler.registerPart s token).base = s.base ∧
    (tracedoctor_tea_sampler.registerPart s token).state = s.state ∧
    (tracedoctor_tea_sampler.registerPart s token).out = s.out ∧
    (tracedoctor_tea_sampler.registerPart s token).samplingCycle = s.samplingCycle := by
  unfold tracedoctor_tea_sampler.registerPart
  split <;> exact ⟨rfl, rfl, rfl, rfl⟩

theorem tea_oirGap_members (s : tracedoctor_tea_sampler) (token : robAnalysisToken) :
    (tracedoctor_tea_sampler.oirGap s token).base = s.base ∧
    (tracedoctor_tea_sampler.oirGap s token).state = s.state ∧
    (tracedoctor_tea_sampler.oirGap s token).out = s.out ∧
    (tracedoctor_tea_sampler.oirGap s token).samplingCycle = s.samplingCycle := by
  unfold tracedoctor_tea_sampler.oirGap
  split <;> exact ⟨rfl, rfl, rfl, rfl⟩

/-- The TEA sampler is a row sampler: a sample is outstanding when the state is not OFF. -/
theorem tea_rowSampler (rng : Nat → Nat) :
    rowSampler (tracedoctor_tea_sampler.step rng) (fun s => s.base) (fun s => s.out)
      (fun s => s.samplingCycle)
      (fun s => decide (s.state ≠ tracedoctor_tea_sampler.s_off)) := by
  constructor
  · intro s t s1 hf h
    rw [tea_step_first rng s t hf] at h
    simp only [Option.some.injEq] at h
    rw [← h]
    exact ⟨triggerDetection_firstToken s.base t, rfl, rfl⟩
  · intro s t s1 hf h
    refine ⟨tea_step_firstToken rng s s1 t h, ?_⟩
    obtain ⟨lf, hlf⟩ := triggerDetection_members s.base t
    rw [tea_step_later rng s t (triggerDetection_notFirst s.base t hf).1] at h
    unfold tracedoctor_tea_sampler.body at h
    by_cases hg : hasBit t.rob (ROB_COMMITTING ||| ROB_EXCEPTION ||| ROB_POPULATED) = true
    · rw [if_pos hg] at h
      obtain ⟨g1, g2, g3, g4⟩ := tea_oirGap_members
        { s with base := (triggerDetection s.base t).2.2 } t
      cases h3 : tracedoctor_tea_sampler.samplePoint rng
          (tracedoctor_tea_sampler.oirGap { s with base := (triggerDetection s.base t).2.2 } t)
          t with
      | none => rw [h3] at h; exact absurd h (by simp)
      | some s3 =>
        rw [h3] at h
        simp only [Option.some.injEq] at h
        obtain ⟨rows1, so, sl, sc, soff, c3⟩ := tea_samplePoint_rows rng _ s3 t h3
        obtain ⟨rows2, eo, el, ec, es, eb, en, ee⟩ := tea_emitPart_rows s3 t
        obtain ⟨r1, r2, r3, r4⟩ := tea_registerPart_members
          (tracedoctor_tea_sampler.emitPart s3 t) t
        have hnp : (tracedoctor_tea_sampler.oirGap
            { s with base := (triggerDetection s.base t).2.2 } t).base.nextPeriod =
            s.base.nextPeriod := by
          rw [g1]
          show (triggerDetection s.base t).2.2.nextPeriod = _
          rw [hlf]
        have hone : rows1 = [] ∨ rows2 = [] := by
          by_cases h1 : rows1 = []
          · exact Or.inl h1
          · right
            by_contra h2
            exact (en h2).2 (soff h1)
        rw [← h]
        refine ⟨rows1 ++ rows2, ?_, ?_, ?_, ?_, ?_⟩
        · show (tracedoctor_tea_sampler.registerPart _ t).out = s.out ++ (rows1 ++ rows2)
          rw [r3, eo, so, g3, List.append_assoc]
        · rcases hone with e | e <;> rw [e] <;> simp <;> assumption
        · intro r hr
          show r.cycle = (tracedoctor_tea_sampler.registerPart _ t).samplingCycle
          rw [r4, es]
          rw [List.mem_append] at hr
          rcases hr with hr | hr
          · exact sc r hr
          · exact ec r hr
        · intro hne
          show decide ((tracedoctor_tea_sampler.registerPart _ t).state ≠ _) = false
          rw [r2]
          by_cases h2 : rows2 = []
          · have h1 : rows1 ≠ [] := fun e => hne (by rw [e, h2]; rfl)
            rw [ee h2, soff h1]
            simp
          · rw [(en h2).1]
            simp
        · rcases c3 with ⟨a1, a2, a3⟩ | ⟨e3, e1⟩
          · left
            refine ⟨?_, ?_, ?_⟩
            · show (tracedoctor_tea_sampler.registerPart _ t).samplingCycle = _
              rw [r4, es, a1, hnp]
            · rw [← hnp]
              exact a2
            · show t.tsc_cycle < (tracedoctor_tea_sampler.registerPart _ t).base.nextPeriod
              rw [r1, eb]
              exact a3
          · right
            refine ⟨?_, ?_, ?_, ?_⟩
            · show (tracedoctor_tea_sampler.registerPart _ t).samplingCycle = _
              rw [r4, es, e3, g4]
            · show (tracedoctor_tea_sampler.registerPart _ t).base.nextPeriod = _
              rw [r1, eb, e3, hnp]
            · intro hne
              have h2 : rows2 ≠ [] := fun e => hne (by rw [e1, e]; rfl)
              have := (en h2).2
              rw [e3, g2] at this
              show decide (s.state ≠ _) = true
              simpa using this
            · intro hidle
              show decide ((tracedoctor_tea_sampler.registerPart _ t).state ≠ _) = false
              rw [r2]
              have hs : s.state = tracedoctor_tea_sampler.s_off := by
                simpa using hidle
              have hrows : rows2 = [] := by
                by_contra hne
                have := (en hne).2
                rw [e3, g2] at this
                exact this hs
              rw [ee hrows, e3, g2]
              simpa using hs
    · rw [if_neg hg] at h
      simp only [Option.some.injEq] at h
      rw [← h]
      refine ⟨[], by simp, by simp, by simp, fun e => absurd rfl e, Or.inr ⟨rfl, ?_, fun e => absurd rfl e, fun e => e⟩⟩
      show (triggerDetection s.base t).2.2.nextPeriod = _
      rw [hlf]

/-! ## Samplers: at most one row per token -/

theorem ibs_tick_eq_run (rng : Nat → Nat) (toks : List robAnalysisToken) :
    ∀ s : tracedoctor_ibs_sampler,
      tracedoctor_ibs_sampler.tick rng s toks =
        runTokens (tracedoctor_ibs_sampler.step rng) s toks := by
  induction toks with
  | nil => intro s; rfl
  | cons t ts ih =>
    intro s
    simp only [tracedoctor_ibs_sampler.tick, runTokens]
    cases tracedoctor_ibs_sampler.step rng s t with
    | none => rfl
    | some s1 => exact ih s1

/-- One iteration of a row sampler appends at most one row. -/
theorem rowSampler_step {σ : Type} (step : σ → robAnalysisToken → Option σ)
    (base : σ → base_profiler) (out : σ → List sampleRow) (samplingCycle : σ → Nat)
    (active : σ → Bool) (hS : rowSampler step base out samplingCycle active)
    (s s1 : σ) (t : robAnalysisToken) (hstep : step s t = some s1) :
    ∃ rows, out s1 = out s ++ rows ∧ rows.length ≤ 1 := by
  cases hf : (base s).firstToken
  · obtain ⟨_, rows, ho, hl, _⟩ := hS.2 s t s1 hf hstep
    exact ⟨rows, ho, hl⟩
  · obtain ⟨_, f2, _⟩ := hS.1 s t s1 hf hstep
    exact ⟨[], by rw [f2]; simp, by simp⟩

/-- The log of a run that returns: its rows are the rows the run has appended. -/
theorem rowSampler_run {σ : Type} (step : σ → robAnalysisToken → Option σ)
    (base : σ → base_profiler) (out : σ → List sampleRow) (samplingCycle : σ → Nat)
    (active : σ → Bool) (hS : rowSampler step base out samplingCycle active)
    (toks : List robAnalysisToken) :
    ∀ (s s1 : σ), runTokens step s toks = some s1 →
      ∃ log, emitLog step out s toks = some log ∧ out s1 = out s ++ log.map (fun e => e.2) := by
  induction toks with
  | nil =>
    intro s s1 h
    simp only [runTokens, Option.some.injEq] at h
    rw [← h]
    exact ⟨[], rfl, by simp⟩
  | cons t ts ih =>
    intro s s1 h
    simp only [runTokens] at h
    cases hs : step s t with
    | none => rw [hs] at h; exact absurd h (by simp)
    | some s2 =>
      rw [hs] at h
      dsimp only at h
      obtain ⟨log, hl, ho⟩ := ih s2 s1 h
      obtain ⟨rows, hr, _⟩ := rowSampler_step step base out samplingCycle active hS s s2 t hs
      have hdrop : (out s2).drop (out s).length = rows := by
        rw [hr]
        simp
      refine ⟨rows.map (fun r => (t.tsc_cycle, r)) ++ log, ?_, ?_⟩
      · simp only [emitLog, hs, hl, hdrop]
      · rw [ho, hr, List.map_append, List.map_map, List.append_assoc]
        have hid : rows.map ((fun e : Nat × sampleRow => e.2) ∘ fun r => (t.tsc_cycle, r)) =
            rows := by
          simp [Function.comp]
        rw [hid]

/-- A run of a row sampler from a state that has written no row and has no sample
outstanding, on tokens with non-decreasing cycles. -/
theorem rowSampler_fresh_run {σ : Type} (step : σ → robAnalysisToken → Option σ)
    (base : σ → base_profiler) (out : σ → List sampleRow) (samplingCycle : σ → Nat)
    (active : σ → Bool) (hS : rowSampler step base out samplingCycle active)
    (toks : List robAnalysisToken) (s s1 : σ)
    (hout : out s = []) (hact : active s = false)
    (hmono : List.Chain' (fun a b : Nat => a ≤ b) (toks.map (fun t => t.tsc_cycle)))
    (hrun : runTokens step s toks = some s1) :
    ∃ log, emitLog step out s toks = some log ∧ out s1 = log.map (fun e => e.2) ∧
      (∀ e ∈ log, e.2.cycle ≤ e.1) ∧
      List.Pairwise (fun a b : Nat => a < b) ((out s1).map (fun r => r.cycle)) := by
  obtain ⟨log, hl, ho⟩ := rowSampler_run step base out samplingCycle active hS toks s s1 hrun
  have hinv : rowInv base out samplingCycle active 0 s := by
    refine ⟨fun _ => ⟨hout, hact⟩, by rw [hout]; simp, by rw [hout]; simp, ?_⟩
    intro h
    rw [hact] at h
    exact absurd h (by simp)
  have hch : List.Chain (fun a b : Nat => a ≤ b) 0 (toks.map (fun t => t.tsc_cycle)) := by
    cases toks with
    | nil => exact List.Chain.nil
    | cons t ts => exact List.Chain.cons (Nat.zero_le _) hmono
  obtain ⟨p1, p2⟩ := rowSampler_log step base out samplingCycle active hS toks s 0 log
    hinv hch hl
  rw [hout, List.nil_append] at ho
  refine ⟨log, hl, ho, fun e he => (p1 e he).1, ?_⟩
  rw [ho, List.map_map]
  exact p2

/-- C37. At most one row per token. For each of the TEA, IBS and PEBS samplers, every state
and every token, an iteration of `tick` that returns has appended at most one row to the rows
written before (so the TEA sampler never writes both the OIR row and a commit row for one
token). -/
theorem at_most_one_row_per_token (rng : Nat → Nat) (token : robAnalysisToken) :
    (∀ s s1 : tracedoctor_tea_sampler, tracedoctor_tea_sampler.step rng s token = some s1 →
      ∃ rows, s1.out = s.out ++ rows ∧ rows.length ≤ 1) ∧
    (∀ s s1 : tracedoctor_ibs_sampler, tracedoctor_ibs_sampler.step rng s token = some s1 →
      ∃ rows, s1.out = s.out ++ rows ∧ rows.length ≤ 1) ∧
    (∀ s s1 : tracedoctor_pebs_sampler, tracedoctor_pebs_sampler.step rng s token = some s1 →
      ∃ rows, s1.out = s.out ++ rows ∧ rows.length ≤ 1) :=
  ⟨fun s s1 h => rowSampler_step _ _ _ _ _ (tea_rowSampler rng) s s1 token h,
   fun s s1 h => rowSampler_step _ _ _ _ _ (ibs_rowSampler rng) s s1 token h,
   fun s s1 h => rowSampler_step _ _ _ _ _ (pebs_rowSampler rng) s s1 token h⟩

/-- Witness of `at_most_one_row_per_token`: the COMMITTING token of cycle 100 on the TEA
sampler `teaStarted`, whose sample point it is; the iteration returns and has written one
row. -/
theorem at_most_one_row_per_token_witness :
    (tracedoctor_tea_sampler.step (fun _ => 0) teaStarted (commitToken 100)).map
        (fun s => s.out.length) = some 1 ∧
    ∃ s1 rows, tracedoctor_tea_sampler.step (fun _ => 0) teaStarted (commitToken 100) =
        some s1 ∧ s1.out = teaStarted.out ++ rows ∧ rows.length ≤ 1 := by
  refine ⟨by decide, ?_⟩
  obtain ⟨s1, h⟩ : ∃ s1, tracedoctor_tea_sampler.step (fun _ => 0) teaStarted
      (commitToken 100) = some s1 := Option.isSome_iff_exists.1 (by decide)
  obtain ⟨rows, ho, hl⟩ :=
    (at_most_one_row_per_token (fun _ => 0) (commitToken 100)).1 teaStarted s1 h
  exact ⟨s1, rows, h, ho, hl⟩

/-! ## Cycle differences do not wrap on strictly increasing cycles -/

theorem gapExact_of_lt (tsc mark : Nat) (h : mark < tsc) (ht : tsc < 2 ^ 64) :
    gapExact tsc mark := by
  refine ⟨h, ?_⟩
  have h1 : sub64 tsc mark = tsc - mark := sub64_of_le _ _ (by omega) ht
  rw [h1, sub64_of_le _ _ (by omega) (by omega)]
  omega

theorem gapExact_pred (tsc : Nat) (h : 1 ≤ tsc) (ht : tsc < 2 ^ 64) :
    gapExact tsc (sub64 tsc 1) := by
  have h1 : sub64 tsc 1 = tsc - 1 := sub64_of_le _ _ h ht
  rw [h1]
  exact gapExact_of_lt _ _ (by omega) ht

/-- Over a run from a worker past its first token, `mark` stays behind the cycle of the next
token. -/
theorem markSampler_run {σ : Type} (step : σ → robAnalysisToken → Option σ)
    (first : σ → Bool) (mark : σ → Nat) (hS : markSampler step first mark)
    (pre : List robAnalysisToken) :
    ∀ (s s1 : σ) (c : Nat) (t : robAnalysisToken), first s = false → mark s ≤ c →
      List.Chain (fun a b : Nat => a < b) c ((pre ++ [t]).map (fun x => x.tsc_cycle)) →
      (∀ x ∈ pre, x.tsc_cycle < 2 ^ 64) →
      runTokens step s pre = some s1 → first s1 = false ∧ mark s1 < t.tsc_cycle := by
  induction pre with
  | nil =>
    intro s s1 c t hf hm hch _ hrun
    simp only [runTokens, Option.some.injEq] at hrun
    simp only [List.nil_append, List.map_cons, List.map_nil, List.chain_cons] at hch
    rw [← hrun]
    exact ⟨hf, by omega⟩
  | cons p ps ih =>
    intro s s1 c t hf hm hch hb hrun
    simp only [List.cons_append, List.map_cons, List.chain_cons] at hch
    simp only [runTokens] at hrun
    cases hs : step s p with
    | none => rw [hs] at hrun; exact absurd hrun (by simp)
    | some s2 =>
      rw [hs] at hrun
      dsimp only at hrun
      obtain ⟨f2, m2⟩ := hS.2 s p s2 hf hs
      have hp := hb p (List.mem_cons_self _ _)
      have hle : mark s2 ≤ p.tsc_cycle := by
        rcases m2 with e | e | e
        · omega
        · omega
        · rw [e, sub64_of_le _ _ (by omega) hp]
          omega
      exact ih s2 s1 p.tsc_cycle t f2 hle hch.2
        (fun x hx => hb x (List.mem_cons_of_mem _ hx)) hrun

/-- Over a run that starts with the first token, on strictly increasing cycles, `mark` lies
before the cycle of the token after the run. -/
theorem markSampler_fresh {σ : Type} (step : σ → robAnalysisToken → Option σ)
    (first : σ → Bool) (mark : σ → Nat) (hS : markSampler step first mark)
    (pre : List robAnalysisToken) (t : robAnalysisToken) (s0 s : σ) (hpre : pre ≠ [])
    (hmono : List.Chain' (fun a b : Nat => a < b) ((pre ++ [t]).map (fun x => x.tsc_cycle)))
    (hb : ∀ x ∈ pre, x.tsc_cycle < 2 ^ 64)
    (hfirst : first s0 = true) (hrun : runTokens step s0 pre = some s) :
    first s = false ∧ mark s < t.tsc_cycle := by
  cases pre with
  | nil => exact absurd rfl hpre
  | cons p ps =>
    simp only [runTokens] at hrun
    cases hs : step s0 p with
    | none => rw [hs] at hrun; exact absurd hrun (by simp)
    | some s2 =>
      rw [hs] at hrun
      dsimp only at hrun
      obtain ⟨f2, m2⟩ := hS.1 s0 p s2 hfirst hs
      simp only [List.cons_append, List.map_cons] at hmono
      exact markSampler_run step first mark hS ps s2 s p.tsc_cycle t f2 (by omega) hmono
        (fun x hx => hb x (List.mem_cons_of_mem _ hx)) hrun

theorem oracle_tick_eq_run (toks : List robAnalysisToken) :
    ∀ s : tracedoctor_oracle,
      tracedoctor_oracle.tick s toks = runTokens tracedoctor_oracle.step s toks := by
  induction toks with
  | nil => intro s; rfl
  | cons t ts ih =>
    intro s
    simp only [tracedoctor_oracle.tick, runTokens]
    cases tracedoctor_oracle.step s t with
    | none => rfl
    | some s1 => exact ih s1

theorem gold_tick_eq_run (toks : List robAnalysisToken) :
    ∀ s : tracedoctor_tea_gold,
      tracedoctor_tea_gold.tick s toks = runTokens tracedoctor_tea_gold.step s toks := by
  induction toks with
  | nil => intro s; rfl
  | cons t ts ih =>
    intro s
    simp only [tracedoctor_tea_gold.tick, runTokens]
    cases tracedoctor_tea_gold.step s t with
    | none => rfl
    | some s1 => exact ih s1

/-- The Oracle subtracts the cycle of `lastToken`. -/
theorem oracle_markSampler :
    markSampler tracedoctor_oracle.step (fun s => s.base.firstToken)
      (fun s => s.lastToken.tsc_cycle) := by
  have hlast : ∀ (s : tracedoctor_oracle) (t : robAnalysisToken),
      (if (triggerDetection s.base t).1 = true then
        tracedoctor_oracle.flushResult { s with base := (triggerDetection s.base t).2.2 }
      else { s with base := (triggerDetection s.base t).2.2 }).lastToken = s.lastToken := by
    intro s t
    split <;> rfl
  constructor
  · intro s t s1 hf h
    replace hf : s.base.firstToken = true := hf
    refine ⟨oracle_step_firstToken s s1 t h, ?_⟩
    unfold tracedoctor_oracle.step at h
    dsimp only at h
    rw [triggerDetection_ret, hf] at h
    simp only [if_true, Option.some.injEq] at h
    rw [← h]
  · intro s t s1 hf h
    replace hf : s.base.firstToken = false := hf
    refine ⟨oracle_step_firstToken s s1 t h, ?_⟩
    unfold tracedoctor_oracle.step at h
    dsimp only at h
    rw [triggerDetection_ret, hf] at h
    simp only [Bool.false_eq_true, if_false] at h
    split at h
    · split at h
      · exact absurd h (by simp)
      · simp only [Option.some.injEq] at h
        rw [← h]
        exact Or.inr (Or.inl rfl)
    · simp only [Option.some.injEq] at h
      rw [← h]
      exact Or.inl (congrArg (fun x => x.tsc_cycle) (hlast s t))

theorem gold_attributeOIR_progress (s s1 : tracedoctor_tea_gold) (x : Nat)
    (h : tracedoctor_tea_gold.attributeOIR s x = some s1) :
    s1.lastProgressCycle = s.lastProgressCycle ∧ s1.base = s.base := by
  unfold tracedoctor_tea_gold.attributeOIR at h
  split at h
  · split at h
    · simp only [Option.some.injEq] at h
      rw [← h]
      exact ⟨rfl, rfl⟩
    · exact absurd h (by simp)
  · simp only [Option.some.injEq] at h
    rw [← h]
    exact ⟨rfl, rfl⟩

theorem gold_attributeInstr_progress (s s1 : tracedoctor_tea_gold)
    (address flags memlat severity ilpLatency : Nat)
    (h : tracedoctor_tea_gold.attributeInstr s address flags memlat severity ilpLatency =
      some s1) :
    s1.lastProgressCycle = s.lastProgressCycle ∧ s1.base = s.base := by
  unfold tracedoctor_tea_gold.attributeInstr at h
  dsimp only at h
  split at h
  · split at h
    · simp only [Option.some.injEq] at h
      rw [← h]
      exact ⟨rfl, rfl⟩
    · exact absurd h (by simp)
  · simp only [Option.some.injEq] at h
    rw [← h]
    exact ⟨rfl, rfl⟩

theorem gold_commitBlock_progress (flags address memlat ilpLatency : Nat)
    (st st1 : tracedoctor_tea_gold × Nat)
    (h : tracedoctor_tea_gold.commitBlock flags address memlat ilpLatency st = some st1) :
    st1.1.lastProgressCycle = st.1.lastProgressCycle ∧ st1.1.base = st.1.base := by
  unfold tracedoctor_tea_gold.commitBlock at h
  split at h
  · cases ha : tracedoctor_tea_gold.attributeInstr st.1 address flags memlat st.2 ilpLatency with
    | none => rw [ha] at h; exact absurd h (by simp)
    | some s1 =>
      rw [ha] at h
      simp only [Option.some.injEq] at h
      rw [← h]
      exact gold_attributeInstr_progress _ _ _ _ _ _ _ ha
  · simp only [Option.some.injEq] at h
    rw [← h]
    exact ⟨rfl, rfl⟩

theorem gold_commitPart_progress (s s1 : tracedoctor_tea_gold) (token : robAnalysisToken)
    (severity : Nat) (h : tracedoctor_tea_gold.commitPart s token severity = some s1) :
    s1.lastProgressCycle = s.lastProgressCycle ∧ s1.base = s.base := by
  unfold tracedoctor_tea_gold.commitPart at h
  dsimp only at h
  split at h
  · exact absurd h (by simp)
  · split at h
    · exact absurd h (by simp)
    · rename_i ilp _
      cases h0 : tracedoctor_tea_gold.commitBlock token.instr0_flags token.instr0_address
          token.instr0_memlat ilp (s, severity) with
      | none => rw [h0] at h; exact absurd h (by simp)
      | some st0 =>
        rw [h0] at h
        dsimp only at h
        cases h1 : tracedoctor_tea_gold.commitBlock token.instr1_flags token.instr1_address
            token.instr1_memlat ilp st0 with
        | none => rw [h1] at h; exact absurd h (by simp)
        | some st1 =>
          rw [h1] at h
          dsimp only at h
          cases h2 : tracedoctor_tea_gold.commitBlock token.instr2_flags token.instr2_address
              token.instr2_memlat ilp st1 with
          | none => rw [h2] at h; exact absurd h (by simp)
          | some st2 =>
            rw [h2] at h
            dsimp only at h
            obtain ⟨a0, b0⟩ := gold_commitBlock_progress _ _ _ _ _ _ h0
            obtain ⟨a1, b1⟩ := gold_commitBlock_progress _ _ _ _ _ _ h1
            obtain ⟨a2, b2⟩ := gold_commitBlock_progress _ _ _ _ _ _ h2
            dsimp only at a0 b0
            split at h
            · obtain ⟨a3, b3⟩ := gold_attributeInstr_progress _ _ _ _ _ _ _ h
              exact ⟨by rw [a3, a2, a1, a0], by rw [b3, b2, b1, b0]⟩
            · simp only [Option.some.injEq] at h
              rw [← h]
              exact ⟨by rw [a2, a1, a0], by rw [b2, b1, b0]⟩

theorem gold_populatedPart_progress (s s2 : tracedoctor_tea_gold) (token : robAnalysisToken)
    (h : tracedoctor_tea_gold.populatedPart s token = some s2) :
    (s2.lastProgressCycle = s.lastProgressCycle ∨
      s2.lastProgressCycle = sub64 token.tsc_cycle 1) ∧ s2.base = s.base := by
  unfold tracedoctor_tea_gold.populatedPart at h
  split at h
  · cases ha : tracedoctor_tea_gold.attributeOIR s
        (sub64 (sub64 token.tsc_cycle s.lastProgressCycle) 1) with
    | none => rw [ha] at h; exact absurd h (by simp)
    | some s1 =>
      rw [ha] at h
      simp only [Option.some.injEq] at h
      rw [← h]
      exact ⟨Or.inr rfl, (gold_attributeOIR_progress _ _ _ ha).2⟩
  · simp only [Option.some.injEq] at h
    rw [← h]
    exact ⟨Or.inl rfl, rfl⟩

theorem gold_progressPart_progress (s s3 : tracedoctor_tea_gold) (token : robAnalysisToken)
    (h : tracedoctor_tea_gold.progressPart s token = some s3) :
    (s3.lastProgressCycle = s.lastProgressCycle ∨ s3.lastProgressCycle = token.tsc_cycle) ∧
      s3.base = s.base := by
  unfold tracedoctor_tea_gold.progressPart at h
  split at h
  · dsimp only at h
    cases ha : tracedoctor_tea_gold.attributeOIR s 0 with
    | none => rw [ha] at h; exact absurd h (by simp)
    | some s1 =>
      rw [ha] at h
      dsimp only at h
      obtain ⟨_, b1⟩ := gold_attributeOIR_progress _ _ _ ha
      split at h
      · exact absurd h (by simp)
      · rename_i s2 h2
        simp only [Option.some.injEq] at h
        rw [← h]
        refine ⟨Or.inr rfl, ?_⟩
        show s2.base = s.base
        rw [← b1]
        split at h2
        · exact (gold_commitPart_progress _ _ _ _ h2).2
        · exact (gold_attributeInstr_progress _ _ _ _ _ _ _ h2).2
  · simp only [Option.some.injEq] at h
    rw [← h]
    exact ⟨Or.inl rfl, rfl⟩

theorem gold_flushResult_progress (s s1 : tracedoctor_tea_gold)
    (h : tracedoctor_tea_gold.flushResult s = some s1) :
    s1.lastProgressCycle = s.lastProgressCycle ∧ s1.base = s.base := by
  unfold tracedoctor_tea_gold.flushResult at h
  split at h
  · simp only [Option.some.injEq] at h
    rw [← h]
    exact ⟨rfl, rfl⟩
  · exact absurd h (by simp)

theorem goldAtPopulated_progress (s s1 : tracedoctor_tea_gold) (token : robAnalysisToken)
    (h : goldAtPopulated s token = some s1) :
    s1.lastProgressCycle = s.lastProgressCycle ∧
      s1.base = (triggerDetection s.base token).2.2 := by
  unfold goldAtPopulated at h
  split at h
  · exact gold_flushResult_progress _ _ h
  · simp only [Option.some.injEq] at h
    rw [← h]
    exact ⟨rfl, rfl⟩

theorem gold_step_unfold (s : tracedoctor_tea_gold) (token : robAnalysisToken) :
    tracedoctor_tea_gold.step s token =
      match goldAtPopulated s token with
      | none => none
      | some s1 =>
        if (triggerDetection s.base token).2.1 then
          some { s1 with
            lastInstructionRegister := goldInstrInfo.zero
            lastProgressCycle := token.tsc_cycle }
        else
          match tracedoctor_tea_gold.populatedPart s1 token with
          | none => none
          | some s2 => tracedoctor_tea_gold.progressPart s2 token := rfl

/-- TEA-gold subtracts `lastProgressCycle`. -/
theorem gold_markSampler :
    markSampler tracedoctor_tea_gold.step (fun s => s.base.firstToken)
      (fun s => s.lastProgressCycle) := by
  have hfirst : ∀ (s s1 : tracedoctor_tea_gold) (t : robAnalysisToken),
      tracedoctor_tea_gold.step s t = some s1 → s1.base.firstToken = false := by
    intro s s1 t h
    rw [gold_step_unfold] at h
    cases h0 : goldAtPopulated s t with
    | none => rw [h0] at h; exact absurd h (by simp)
    | some sa =>
      rw [h0] at h
      dsimp only at h
      obtain ⟨_, ba⟩ := goldAtPopulated_progress s sa t h0
      split at h
      · simp only [Option.some.injEq] at h
        rw [← h]
        show sa.base.firstToken = false
        rw [ba]
        exact triggerDetection_firstToken s.base t
      · cases h1 : tracedoctor_tea_gold.populatedPart sa t with
        | none => rw [h1] at h; exact absurd h (by simp)
        | some sb =>
          rw [h1] at h
          dsimp only at h
          rw [(gold_progressPart_progress _ _ _ h).2, (gold_populatedPart_progress _ _ _ h1).2,
            ba]
          exact triggerDetection_firstToken s.base t
  constructor
  · intro s t s1 hf h
    replace hf : s.base.firstToken = true := hf
    refine ⟨hfirst s s1 t h, ?_⟩
    rw [gold_step_unfold] at h
    cases h0 : goldAtPopulated s t with
    | none => rw [h0] at h; exact absurd h (by simp)
    | some sa =>
      rw [h0] at h
      dsimp only at h
      rw [triggerDetection_ret, hf] at h
      simp only [if_true, Option.some.injEq] at h
      rw [← h]
  · intro s t s1 hf h
    replace hf : s.base.firstToken = false := hf
    refine ⟨hfirst s s1 t h, ?_⟩
    rw [gold_step_unfold] at h
    cases h0 : goldAtPopulated s t with
    | none => rw [h0] at h; exact absurd h (by simp)
    | some sa =>
      rw [h0] at h
      dsimp only at h
      rw [triggerDetection_ret, hf] at h
      simp only [Bool.false_eq_true, if_false] at h
      obtain ⟨pa, _⟩ := goldAtPopulated_progress s sa t h0
      cases h1 : tracedoctor_tea_gold.populatedPart sa t with
      | none => rw [h1] at h; exact absurd h (by simp)
      | some sb =>
        rw [h1] at h
        dsimp only at h
        obtain ⟨pb, _⟩ := gold_populatedPart_progress _ _ _ h1
        obtain ⟨pc, _⟩ := gold_progressPart_progress _ _ _ h
        show s1.lastProgressCycle = s.lastProgressCycle ∨
          s1.lastProgressCycle = t.tsc_cycle ∨ s1.lastProgressCycle = sub64 t.tsc_cycle 1
        rcases pc with e | e
        · rcases pb with e2 | e2
          · exact Or.inl (by rw [e, e2, pa])
          · exact Or.inr (Or.inr (by rw [e, e2]))
        · exact Or.inr (Or.inl e)

/-! ## Cycle differences of the samplers -/

theorem tea_samplePoint_progress (rng : Nat → Nat) (s s3 : tracedoctor_tea_sampler)
    (token : robAnalysisToken)
    (h : tracedoctor_tea_sampler.samplePoint rng s token = some s3) :
    s3.lastProgressCycle = s.lastProgressCycle := by
  unfold tracedoctor_tea_sampler.samplePoint at h
  split at h
  · dsimp only at h
    split at h
    · exact absurd h (by simp)
    · split at h
      · split at h <;>
        · simp only [Option.some.injEq] at h
          rw [← h]
      · split at h <;>
        · simp only [Option.some.injEq] at h
          rw [← h]
  · simp only [Option.some.injEq] at h
    rw [← h]

theorem tea_oirGap_progress (s : tracedoctor_tea_sampler) (token : robAnalysisToken) :
    (tracedoctor_tea_sampler.oirGap s token).lastProgressCycle = s.lastProgressCycle ∨
    (tracedoctor_tea_sampler.oirGap s token).lastProgressCycle = sub64 token.tsc_cycle 1 := by
  unfold tracedoctor_tea_sampler.oirGap
  split
  · exact Or.inr rfl
  · exact Or.inl rfl

theorem tea_emitPart_progress (s : tracedoctor_tea_sampler) (token : robAnalysisToken) :
    (tracedoctor_tea_sampler.emitPart s token).lastProgressCycle = s.lastProgressCycle := by
  unfold tracedoctor_tea_sampler.emitPart
  split <;> rfl

theorem tea_registerPart_progress (s : tracedoctor_tea_sampler) (token : robAnalysisToken) :
    (tracedoctor_tea_sampler.registerPart s token).lastProgressCycle = s.lastProgressCycle ∨
    (tracedoctor_tea_sampler.registerPart s token).lastProgressCycle = token.tsc_cycle := by
  unfold tracedoctor_tea_sampler.registerPart
  split
  · exact Or.inr rfl
  · exact Or.inl rfl

theorem teaAtEmit_progress (rng : Nat → Nat) (s s3 : tracedoctor_tea_sampler)
    (token : robAnalysisToken) (h : teaAtEmit rng s token = some s3) :
    s3.lastProgressCycle = s.lastProgressCycle ∨
      s3.lastProgressCycle = sub64 token.tsc_cycle 1 := by
  unfold teaAtEmit at h
  rw [tea_samplePoint_progress rng _ s3 token h]
  exact tea_oirGap_progress _ token

/-- The TEA sampler subtracts `lastProgressCycle`. -/
theorem tea_markSampler (rng : Nat → Nat) :
    markSampler (tracedoctor_tea_sampler.step rng) (fun s => s.base.firstToken)
      (fun s => s.lastProgressCycle) := by
  constructor
  · intro s t s1 hf h
    replace hf : s.base.firstToken = true := hf
    refine ⟨tea_step_firstToken rng s s1 t h, ?_⟩
    rw [tea_step_first rng s t hf] at h
    simp only [Option.some.injEq] at h
    rw [← h]
  · intro s t s1 hf h
    replace hf : s.base.firstToken = false := hf
    refine ⟨tea_step_firstToken rng s s1 t h, ?_⟩
    show s1.lastProgressCycle = s.lastProgressCycle ∨
      s1.lastProgressCycle = t.tsc_cycle ∨ s1.lastProgressCycle = sub64 t.tsc_cycle 1
    rw [tea_step_later rng s t (triggerDetection_notFirst s.base t hf).1] at h
    unfold tracedoctor_tea_sampler.body at h
    split at h
    · cases h3 : tracedoctor_tea_sampler.samplePoint rng
          (tracedoctor_tea_sampler.oirGap { s with base := (triggerDetection s.base t).2.2 } t)
          t with
      | none => rw [h3] at h; exact absurd h (by simp)
      | some s3 =>
        rw [h3] at h
        simp only [Option.some.injEq] at h
        have p3 := teaAtEmit_progress rng s s3 t h3
        have pe := tea_emitPart_progress s3 t
        have pr := tea_registerPart_progress (tracedoctor_tea_sampler.emitPart s3 t) t
        rw [h] at pr
        rcases pr with e | e
        · rcases p3 with e3 | e3
          · exact Or.inl (by rw [e, pe, e3])
          · exact Or.inr (Or.inr (by rw [e, pe, e3]))
        · exact Or.inr (Or.inl e)
    · simp only [Option.some.injEq] at h
      rw [← h]
      exact Or.inl rfl

theorem pebs_samplePoint_progress (rng : Nat → Nat) (s s3 : tracedoctor_pebs_sampler)
    (token : robAnalysisToken)
    (h : tracedoctor_pebs_sampler.samplePoint rng s token = some s3) :
    s3.lastProgressCycle = s.lastProgressCycle := by
  unfold tracedoctor_pebs_sampler.samplePoint at h
  split at h
  · split at h
    · exact absurd h (by simp)
    · simp only [Option.some.injEq] at h
      rw [← h]
  · simp only [Option.some.injEq] at h
    rw [← h]

theorem pebs_oirGap_progress (s : tracedoctor_pebs_sampler) (token : robAnalysisToken) :
    (tracedoctor_pebs_sampler.oirGap s token).lastProgressCycle = s.lastProgressCycle ∨
    (tracedoctor_pebs_sampler.oirGap s token).lastProgressCycle = sub64 token.tsc_cycle 1 := by
  unfold tracedoctor_pebs_sampler.oirGap
  split
  · exact Or.inr rfl
  · exact Or.inl rfl

theorem pebs_emitPart_progress (s : tracedoctor_pebs_sampler) (token : robAnalysisToken) :
    (tracedoctor_pebs_sampler.emitPart s token).lastProgressCycle = s.lastProgressCycle := by
  unfold tracedoctor_pebs_sampler.emitPart
  split <;> rfl

theorem pebs_registerPart_progress (s : tracedoctor_pebs_sampler) (token : robAnalysisToken) :
    (tracedoctor_pebs_sampler.registerPart s token).lastProgressCycle = s.lastProgressCycle ∨
    (tracedoctor_pebs_sampler.registerPart s token).lastProgressCycle = token.tsc_cycle := by
  unfold tracedoctor_pebs_sampler.registerPart
  split
  · exact Or.inr rfl
  · exact Or.inl rfl

theorem pebsAtEmit_progress (rng : Nat → Nat) (s s3 : tracedoctor_pebs_sampler)
    (token : robAnalysisToken) (h : pebsAtEmit rng s token = some s3) :
    s3.lastProgressCycle = s.lastProgressCycle ∨
      s3.lastProgressCycle = sub64 token.tsc_cycle 1 := by
  unfold pebsAtEmit at h
  rw [pebs_samplePoint_progress rng _ s3 token h]
  exact pebs_oirGap_progress _ token

/-- The PEBS sampler subtracts `lastProgressCycle`. -/
theorem pebs_markSampler (rng : Nat → Nat) :
    markSampler (tracedoctor_pebs_sampler.step rng) (fun s => s.base.firstToken)
      (fun s => s.lastProgressCycle) := by
  constructor
  · intro s t s1 hf h
    replace hf : s.base.firstToken = true := hf
    refine ⟨pebs_step_firstToken rng s s1 t h, ?_⟩
    rw [pebs_step_first rng s t hf] at h
    simp only [Option.some.injEq] at h
    rw [← h]
  · intro s t s1 hf h
    replace hf : s.base.firstToken = false := hf
    refine ⟨pebs_step_firstToken rng s s1 t h, ?_⟩
    show s1.lastProgressCycle = s.lastProgressCycle ∨
      s1.lastProgressCycle = t.tsc_cycle ∨ s1.lastProgressCycle = sub64 t.tsc_cycle 1
    rw [pebs_step_later rng s t (triggerDetection_notFirst s.base t hf).1] at h
    unfold tracedoctor_pebs_sampler.body at h
    cases h3 : tracedoctor_pebs_sampler.samplePoint rng
        (tracedoctor_pebs_sampler.oirGap { s with base := (triggerDetection s.base t).2.2 } t)
        t with
    | none => rw [h3] at h; exact absurd h (by simp)
    | some s3 =>
      rw [h3] at h
      simp only [Option.some.injEq] at h
      have p3 := pebsAtEmit_progress rng s s3 t h3
      have pe := pebs_emitPart_progress s3 t
      have pr := pebs_registerPart_progress (tracedoctor_pebs_sampler.emitPart s3 t) t
      rw [h] at pr
      rcases pr with e | e
      · rcases p3 with e3 | e3
        · exact Or.inl (by rw [e, pe, e3])
        · exact Or.inr (Or.inr (by rw [e, pe, e3]))
      · exact Or.inr (Or.inl e)

theorem ibs_samplePoint_progress (rng : Nat → Nat) (s s3 : tracedoctor_ibs_sampler)
    (token : robAnalysisToken)
    (h : tracedoctor_ibs_sampler.samplePoint rng s token = some s3) :
    s3.lastProgressCycle = s.lastProgressCycle := by
  unfold tracedoctor_ibs_sampler.samplePoint at h
  split at h
  · split at h
    · exact absurd h (by simp)
    · simp only [Option.some.injEq] at h
      rw [← h]
  · simp only [Option.some.injEq] at h
    rw [← h]

theorem ibs_oirGap_progress (s : tracedoctor_ibs_sampler) (token : robAnalysisToken) :
    (tracedoctor_ibs_sampler.oirGap s token).lastProgressCycle = s.lastProgressCycle ∨
    (tracedoctor_ibs_sampler.oirGap s token).lastProgressCycle = sub64 token.tsc_cycle 1 := by
  unfold tracedoctor_ibs_sampler.oirGap
  split
  · exact Or.inr rfl
  · exact Or.inl rfl

theorem ibs_armedPart_progress (s s4 : tracedoctor_ibs_sampler) (token : robAnalysisToken)
    (h : tracedoctor_ibs_sampler.armedPart s token = some s4) :
    s4.lastProgressCycle = s.lastProgressCycle := by
  unfold tracedoctor_ibs_sampler.armedPart at h
  split at h
  · split at h
    · exact absurd h (by simp)
    · dsimp only at h
      split at h
      · simp only [Option.some.injEq] at h
        rw [← h]
      · split at h <;>
        · simp only [Option.some.injEq] at h
          rw [← h]
  · simp only [Option.some.injEq] at h
    rw [← h]

theorem ibs_tagPart_progress (s : tracedoctor_ibs_sampler) (token : robAnalysisToken) :
    (tracedoctor_ibs_sampler.tagPart s token).lastProgressCycle = s.lastProgressCycle := by
  unfold tracedoctor_ibs_sampler.tagPart
  split <;> rfl

theorem ibs_registerPart_progress (s : tracedoctor_ibs_sampler) (token : robAnalysisToken) :
    (tracedoctor_ibs_sampler.registerPart s token).lastProgressCycle = s.lastProgressCycle ∨
    (tracedoctor_ibs_sampler.registerPart s token).lastProgressCycle = token.tsc_cycle := by
  unfold tracedoctor_ibs_sampler.registerPart
  split
  · exact Or.inr rfl
  · exact Or.inl rfl

theorem ibsAtArmed_progress (rng : Nat → Nat) (s s3 : tracedoctor_ibs_sampler)
    (token : robAnalysisToken) (h : ibsAtArmed rng s token = some s3) :
    s3.lastProgressCycle = s.lastProgressCycle ∨
      s3.lastProgressCycle = sub64 token.tsc_cycle 1 := by
  unfold ibsAtArmed at h
  rw [ibs_samplePoint_progress rng _ s3 token h]
  exact ibs_oirGap_progress _ token

theorem ibs_step_first (rng : Nat → Nat) (s : tracedoctor_ibs_sampler)
    (token : robAnalysisToken) (hf : s.base.firstToken = true) :
    tracedoctor_ibs_sampler.step rng s token =
      some { s with
        lastInstructionRegister_flags := 0
        lastProgressCycle := token.tsc_cycle
        base := restartSampling (triggerDetection s.base token).2.2 token.tsc_cycle } := by
  unfold tracedoctor_ibs_sampler.step
  rw [if_pos (by rw [triggerDetection_ret, hf])]

theorem ibs_step_later (rng : Nat → Nat) (s : tracedoctor_ibs_sampler)
    (token : robAnalysisToken) (hf : s.base.firstToken = false) :
    tracedoctor_ibs_sampler.step rng s token =
      tracedoctor_ibs_sampler.body rng { s with base := (triggerDetection s.base token).2.2 }
        token := by
  unfold tracedoctor_ibs_sampler.step
  rw [if_neg (by rw [triggerDetection_ret, hf]; simp)]

/-- The IBS sampler subtracts `lastProgressCycle`. -/
theorem ibs_markSampler (rng : Nat → Nat) :
    markSampler (tracedoctor_ibs_sampler.step rng) (fun s => s.base.firstToken)
      (fun s => s.lastProgressCycle) := by
  constructor
  · intro s t s1 hf h
    replace hf : s.base.firstToken = true := hf
    refine ⟨ibs_step_firstToken rng s s1 t h, ?_⟩
    rw [ibs_step_first rng s t hf] at h
    simp only [Option.some.injEq] at h
    rw [← h]
  · intro s t s1 hf h
    replace hf : s.base.firstToken = false := hf
    refine ⟨ibs_step_firstToken rng s s1 t h, ?_⟩
    show s1.lastProgressCycle = s.lastProgressCycle ∨
      s1.lastProgressCycle = t.tsc_cycle ∨ s1.lastProgressCycle = sub64 t.tsc_cycle 1
    rw [ibs_step_later rng s t hf] at h
    unfold tracedoctor_ibs_sampler.body at h
    cases h3 : tracedoctor_ibs_sampler.samplePoint rng
        (tracedoctor_ibs_sampler.oirGap { s with base := (triggerDetection s.base t).2.2 } t)
        t with
    | none => rw [h3] at h; exact absurd h (by simp)
    | some s3 =>
      rw [h3] at h
      dsimp only at h
      cases h4 : tracedoctor_ibs_sampler.armedPart s3 t with
      | none => rw [h4] at h; exact absurd h (by simp)
      | some s4 =>
        rw [h4] at h
        dsimp only at h
        cases h5 : tracedoctor_ibs_sampler.samplePoint rng s4 t with
        | none => rw [h5] at h; exact absurd h (by simp)
        | some s5 =>
          rw [h5] at h
          simp only [Option.some.injEq] at h
          have p3 := ibsAtArmed_progress rng s s3 t h3
          have p4 := ibs_armedPart_progress s3 s4 t h4
          have p5 := ibs_samplePoint_progress rng s4 s5 t h5
          have pt := ibs_tagPart_progress s5 t
          have pr := ibs_registerPart_progress (tracedoctor_ibs_sampler.tagPart s5 t) t
          rw [h] at pr
          rcases pr with e | e
          · rcases p3 with e3 | e3
            · exact Or.inl (by rw [e, pt, p5, p4, e3])
            · exact Or.inr (Or.inr (by rw [e, pt, p5, p4, e3]))
          · exact Or.inr (Or.inl e)

/-- C35. No unsigned wrap on cycle differences, on strictly increasing cycles. For every
buffer `pre ++ [t]` of tokens with strictly increasing 44-bit cycles, `pre` not empty, and
every worker that is given `pre` before its first token and has returned: the value
`(tsc_cycle - lastToken.tsc_cycle) - 1` of the Oracle for `t`, and the values
`tsc_cycle - lastProgressCycle - 1` of TEA-gold (in the block for an outstanding OIR
instruction and in the block for a COMMITTING or EXCEPTION token) and of the TEA, IBS and
PEBS samplers (where the row is written) for `t`, do not wrap below zero. -/
theorem cycle_differences_no_wrap (rng : Nat → Nat) (pre : List robAnalysisToken)
    (t : robAnalysisToken) (hpre : pre ≠ [])
    (hmono : List.Chain' (fun a b : Nat => a < b) ((pre ++ [t]).map (fun x => x.tsc_cycle)))
    (h44 : ∀ x ∈ pre ++ [t], x.tsc_cycle < 2 ^ 44) :
    (∀ s0 s : tracedoctor_oracle, s0.base.firstToken = true →
      tracedoctor_oracle.tick s0 pre = some s →
      gapExact t.tsc_cycle s.lastToken.tsc_cycle) ∧
    (∀ s0 s : tracedoctor_tea_gold, s0.base.firstToken = true →
      tracedoctor_tea_gold.tick s0 pre = some s →
      (∀ s1, goldAtPopulated s t = some s1 → gapExact t.tsc_cycle s1.lastProgressCycle) ∧
      (∀ s2, goldAtProgress s t = some s2 → gapExact t.tsc_cycle s2.lastProgressCycle)) ∧
    (∀ s0 s : tracedoctor_tea_sampler, s0.base.firstToken = true →
      tracedoctor_tea_sampler.tick rng s0 pre = some s →
      ∀ s3, teaAtEmit rng s t = some s3 → gapExact t.tsc_cycle s3.lastProgressCycle) ∧
    (∀ s0 s : tracedoctor_ibs_sampler, s0.base.firstToken = true →
      tracedoctor_ibs_sampler.tick rng s0 pre = some s →
      ∀ s3, ibsAtArmed rng s t = some s3 → gapExact t.tsc_cycle s3.lastProgressCycle) ∧
    (∀ s0 s : tracedoctor_pebs_sampler, s0.base.firstToken = true →
      tracedoctor_pebs_sampler.tick rng s0 pre = some s →
      ∀ s3, pebsAtEmit rng s t = some s3 → gapExact t.tsc_cycle s3.lastProgressCycle) := by
  have ht : t.tsc_cycle < 2 ^ 64 := by
    have := h44 t (by simp)
    omega
  have hb : ∀ x ∈ pre, x.tsc_cycle < 2 ^ 64 := by
    intro x hx
    have := h44 x (List.mem_append_left _ hx)
    omega
  have hcase : ∀ m v : Nat, m < t.tsc_cycle → (v = m ∨ v = sub64 t.tsc_cycle 1) →
      gapExact t.tsc_cycle v := by
    intro m v hm hv
    rcases hv with e | e
    · rw [e]
      exact gapExact_of_lt _ _ hm ht
    · rw [e]
      exact gapExact_pred _ (by omega) ht
  refine ⟨?_, ?_, ?_, ?_, ?_⟩
  · intro s0 s hf hrun
    rw [oracle_tick_eq_run] at hrun
    obtain ⟨_, hm⟩ := markSampler_fresh _ _ _ oracle_markSampler pre t s0 s hpre hmono hb
      hf hrun
    exact gapExact_of_lt _ _ hm ht
  · intro s0 s hf hrun
    rw [gold_tick_eq_run] at hrun
    obtain ⟨_, hm⟩ := markSampler_fresh _ _ _ gold_markSampler pre t s0 s hpre hmono hb
      hf hrun
    constructor
    · intro s1 h1
      rw [(goldAtPopulated_progress s s1 t h1).1]
      exact gapExact_of_lt _ _ hm ht
    · intro s2 h2
      unfold goldAtProgress at h2
      cases h1 : goldAtPopulated s t with
      | none => rw [h1] at h2; exact absurd h2 (by simp)
      | some s1 =>
        rw [h1] at h2
        dsimp only at h2
        have p1 := (goldAtPopulated_progress s s1 t h1).1
        have p2 := (gold_populatedPart_progress s1 s2 t h2).1
        rw [p1] at p2
        exact hcase _ _ hm p2
  · intro s0 s hf hrun s3 h3
    rw [tea_tick_eq_run] at hrun
    obtain ⟨_, hm⟩ := markSampler_fresh _ _ _ (tea_markSampler rng) pre t s0 s hpre hmono hb
      hf hrun
    exact hcase _ _ hm (teaAtEmit_progress rng s s3 t h3)
  · intro s0 s hf hrun s3 h3
    rw [ibs_tick_eq_run] at hrun
    obtain ⟨_, hm⟩ := markSampler_fresh _ _ _ (ibs_markSampler rng) pre t s0 s hpre hmono hb
      hf hrun
    exact hcase _ _ hm (ibsAtArmed_progress rng s s3 t h3)
  · intro s0 s hf hrun s3 h3
    rw [pebs_tick_eq_run] at hrun
    obtain ⟨_, hm⟩ := markSampler_fresh _ _ _ (pebs_markSampler rng) pre t s0 s hpre hmono hb
      hf hrun
    exact hcase _ _ hm (pebsAtEmit_progress rng s s3 t h3)

/-- Witness of `cycle_differences_no_wrap`: the Oracle as constructed, given a POPULATED token
at cycle 5, and then a POPULATED token at cycle 9, for which it computes `9 - 5 - 1 = 3`. -/
theorem cycle_differences_no_wrap_witness :
    [populatedToken 5] ≠ [] ∧
    List.Chain' (fun a b : Nat => a < b)
      (([populatedToken 5] ++ [populatedToken 9]).map (fun x => x.tsc_cycle)) ∧
    (tracedoctor_oracle.tick oracleFresh [populatedToken 5]).map
      (fun s => s.lastToken.tsc_cycle) = some 5 ∧
    sub64 (sub64 (populatedToken 9).tsc_cycle 5) 1 = 3 ∧
    ∃ s, tracedoctor_oracle.tick oracleFresh [populatedToken 5] = some s ∧
      gapExact (populatedToken 9).tsc_cycle s.lastToken.tsc_cycle := by
  have hm : List.Chain' (fun a b : Nat => a < b)
      (([populatedToken 5] ++ [populatedToken 9]).map (fun x => x.tsc_cycle)) := by
    simp [populatedToken]
  have hb : ∀ x ∈ [populatedToken 5] ++ [populatedToken 9], x.tsc_cycle < 2 ^ 44 := by
    decide
  refine ⟨by simp, hm, by decide, by decide, ?_⟩
  obtain ⟨s, h⟩ : ∃ s, tracedoctor_oracle.tick oracleFresh [populatedToken 5] = some s :=
    Option.isSome_iff_exists.1 (by decide)
  exact ⟨s, h, (cycle_differences_no_wrap (fun _ => 0) [populatedToken 5] (populatedToken 9)
    (by simp) hm hb).1 oracleFresh s (by decide) h⟩

/-- Counterexample to C35 as stated, for cycles that are only non-decreasing: the Oracle as
constructed is given two POPULATED tokens at the same cycle 5. For the second token,
`(tsc_cycle - lastToken.tsc_cycle) - 1` is `0 - 1`, which wraps to `2^64 - 1`, and that value
is added to `tDeferred`. -/
theorem cycle_differences_wrap_counterexample :
    List.Chain' (fun a b : Nat => a ≤ b)
      ([populatedToken 5, populatedToken 5].map (fun x => x.tsc_cycle)) ∧
    (tracedoctor_oracle.tick oracleFresh [populatedToken 5]).map
      (fun s => s.lastToken.tsc_cycle) = some 5 ∧
    ¬ gapExact (populatedToken 5).tsc_cycle 5 ∧
    sub64 (sub64 (populatedToken 5).tsc_cycle 5) 1 = 2 ^ 64 - 1 ∧
    (tracedoctor_oracle.tick oracleFresh [populatedToken 5, populatedToken 5]).map
      (fun s => s.result.map (fun e => (e.1, e.2.tDeferred))) = some [(0, 2 ^ 64 - 1)] := by
  refine ⟨by simp [populatedToken], by decide, by decide, by decide, by decide⟩

/-! ## Oracle: every accounted token adds its cycle gap -/

/-- The block for a POPULATED token adds the deferred cycles once, where the last token was
an EXCEPTION token or its last committing slot is not flagged both BR_MISS and FLUSHS. -/
theorem total24_populatedPart_cond (r : List (Nat × flatSample))
    (lastToken token : robAnalysisToken)
    (D : Nat) (hD1 : 1 ≤ D) (hD : D < 2 ^ 44) (hr : total24 r ≤ 24 * 2 ^ 44)
    (hexcl : hasBit lastToken.rob ROB_EXCEPTION = false →
      ¬ (hasBit (getLastCommitting lastToken).flags INSTR_BR_MISS = true ∧
        hasBit (getLastCommitting lastToken).flags INSTR_FLUSHS = true)) :
    total24 (tracedoctor_oracle.populatedPart r lastToken token D) = total24 r + 24 * (D - 1) := by
  cases he : hasBit lastToken.rob ROB_EXCEPTION
  · exact total24_populatedPart r lastToken token D hD1 hD hr (hexcl he)
  · unfold tracedoctor_oracle.populatedPart
    have hsub : sub64 D 1 = D - 1 := by unfold sub64; split <;> omega
    simp only [hsub, he, if_true]
    apply total24_resultUpd
    intro t ht
    simp only [flatSample.cycles24, add64] at ht ⊢
    omega

theorem total24_account_cond (r : List (Nat × flatSample)) (lastToken token : robAnalysisToken)
    (hlt : lastToken.tsc_cycle < token.tsc_cycle) (htsc : token.tsc_cycle < 2 ^ 44)
    (hr : total24 r + 24 * (token.tsc_cycle - lastToken.tsc_cycle) ≤ 24 * 2 ^ 44)
    (hn : hasBit token.rob ROB_COMMITTING = true → anyCommits token = true)
    (hexcl : hasBit token.rob ROB_POPULATED = true →
      hasBit lastToken.rob ROB_EXCEPTION = false →
      ¬ (hasBit (getLastCommitting lastToken).flags INSTR_BR_MISS = true ∧
        hasBit (getLastCommitting lastToken).flags INSTR_FLUSHS = true)) :
    ∃ r1, tracedoctor_oracle.account r lastToken token = some r1 ∧
      total24 r1 = total24 r + 24 * (token.tsc_cycle - lastToken.tsc_cycle) := by
  unfold tracedoctor_oracle.account
  dsimp only
  have hD : sub64 token.tsc_cycle lastToken.tsc_cycle =
      token.tsc_cycle - lastToken.tsc_cycle := by
    unfold sub64; split <;> omega
  rw [hD]
  have hb := b2n_le_one (hasBit token.rob (ROB_COMMITTING ||| ROB_EXCEPTION))
  cases hp : hasBit token.rob ROB_POPULATED
  · simp only [Bool.false_eq_true, if_false]
    have hs := total24_stallPart r token (token.tsc_cycle - lastToken.tsc_cycle)
      (by omega) (by omega) (by omega)
    obtain ⟨r1, h1, h2⟩ := total24_attributePart
      (tracedoctor_oracle.stallPart r token (token.tsc_cycle - lastToken.tsc_cycle))
      lastToken token (by rw [hs]; omega) hn
    refine ⟨r1, h1, ?_⟩
    rw [h2, hs]
    omega
  · simp only [if_true]
    have hpp := total24_populatedPart_cond r lastToken token
      (token.tsc_cycle - lastToken.tsc_cycle) (by omega) (by omega) (by omega) (hexcl hp)
    have hs := total24_stallPart (tracedoctor_oracle.populatedPart r lastToken token
      (token.tsc_cycle - lastToken.tsc_cycle)) token 1 (by omega) (by omega)
      (by rw [hpp]; omega)
    obtain ⟨r1, h1, h2⟩ := total24_attributePart _ lastToken token
      (show total24 (tracedoctor_oracle.stallPart (tracedoctor_oracle.populatedPart r lastToken
        token (token.tsc_cycle - lastToken.tsc_cycle)) token 1) ≤ 24 * 2 ^ 44 by
        rw [hs, hpp]; omega) hn
    refine ⟨r1, h1, ?_⟩
    rw [h2, hs, hpp]
    omega

/-- C31. Oracle per-token cycle conservation. For an Oracle past its first token and a token
whose rob touches POPULATED, COMMITTING or EXCEPTION, with the cycle gap
`D = tsc_cycle - lastToken.tsc_cycle >= 1` to the previous accounted token (44-bit cycles), at
least one slot with COMMITS if COMMITTING is set, and, when POPULATED is set and the previous
token was not an EXCEPTION token, a previous last committing slot whose flags do not carry both
BR_MISS and FLUSHS, the counters staying in the range of the 44-bit cycle counter: the
iteration of `tick` returns and the sum over all addresses of
`tCommit + 24 * (tStall + tDeferred + tBrMiss + tFlush + tExcpt)` has grown by exactly
`24 * D` over the map the accounting started from. -/
theorem oracle_token_conservation (s : tracedoctor_oracle) (token : robAnalysisToken)
    (hnf : s.base.firstToken = false)
    (hg : hasBit token.rob (ROB_POPULATED ||| ROB_COMMITTING ||| ROB_EXCEPTION) = true)
    (hlt : s.lastToken.tsc_cycle < token.tsc_cycle) (htsc : token.tsc_cycle < 2 ^ 44)
    (hn : hasBit token.rob ROB_COMMITTING = true → anyCommits token = true)
    (hexcl : hasBit token.rob ROB_POPULATED = true →
      hasBit s.lastToken.rob ROB_EXCEPTION = false → lastBrMissAndFlush s.lastToken = false)
    (hr : total24 (oracleResultBefore s token) +
      24 * (token.tsc_cycle - s.lastToken.tsc_cycle) ≤ 24 * 2 ^ 44) :
    ∃ s1, tracedoctor_oracle.step s token = some s1 ∧
      total24 s1.result = total24 (oracleResultBefore s token) +
        24 * (token.tsc_cycle - s.lastToken.tsc_cycle) := by
  have htd := (triggerDetection_notFirst s.base token hnf).1
  have hex : hasBit token.rob ROB_POPULATED = true →
      hasBit s.lastToken.rob ROB_EXCEPTION = false →
      ¬ (hasBit (getLastCommitting s.lastToken).flags INSTR_BR_MISS = true ∧
        hasBit (getLastCommitting s.lastToken).flags INSTR_FLUSHS = true) := by
    intro hp he h
    have := hexcl hp he
    simp [lastBrMissAndFlush, h.1, h.2] at this
  unfold oracleResultBefore at hr ⊢
  unfold tracedoctor_oracle.step
  dsimp only
  rw [htd]
  simp only [Bool.false_eq_true, if_false, hg, if_true]
  cases hfl : (triggerDetection s.base token).1
  · rw [hfl] at hr
    simp only [Bool.false_eq_true, if_false] at hr ⊢
    obtain ⟨r1, e1, h1⟩ := total24_account_cond s.result s.lastToken token hlt htsc hr hn hex
    rw [e1]
    exact ⟨_, rfl, h1⟩
  · rw [hfl] at hr
    simp only [if_true] at hr ⊢
    obtain ⟨r1, e1, h1⟩ := total24_account_cond [] s.lastToken token hlt htsc hr hn hex
    unfold tracedoctor_oracle.flushResult
    dsimp only
    rw [e1]
    exact ⟨_, rfl, h1⟩

/-- Witness of `oracle_token_conservation`: the Oracle past a first token at cycle 90, on the
COMMITTING token of cycle 100 in which two slots commit; the gap is 10 cycles and the sum
grows from 0 to 240. -/
theorem oracle_token_conservation_witness :
    twoCommitToken.tsc_cycle - oracleStarted.lastToken.tsc_cycle = 10 ∧
    total24 (oracleResultBefore oracleStarted twoCommitToken) = 0 ∧
    (tracedoctor_oracle.step oracleStarted twoCommitToken).map (fun s => total24 s.result) =
      some 240 ∧
    ∃ s1, tracedoctor_oracle.step oracleStarted twoCommitToken = some s1 ∧
      total24 s1.result = total24 (oracleResultBefore oracleStarted twoCommitToken) +
        24 * (twoCommitToken.tsc_cycle - oracleStarted.lastToken.tsc_cycle) :=
  ⟨by decide, by decide, by decide,
    oracle_token_conservation oracleStarted twoCommitToken (by decide) (by decide) (by decide)
      (by decide) (by decide) (by decide) (by decide)⟩

/-! ## The index of the ILP table -/

theorem nCommitting_bounds (token : robAnalysisToken) :
    nCommitting token ≤ 4 ∧ (anyCommits token = true → 1 ≤ nCommitting token) := by
  unfold nCommitting anyCommits
  cases hasBit token.instr0_flags INSTR_COMMITS <;>
    cases hasBit token.instr1_flags INSTR_COMMITS <;>
    cases hasBit token.instr2_flags INSTR_COMMITS <;>
    cases hasBit token.instr3_flags INSTR_COMMITS <;> simp [b2n]

theorem ilp_magic_some (i : Nat) (h : i ≤ 3) : ∃ ilp, ilp_magic i = some ilp := by
  have h4 : i = 0 ∨ i = 1 ∨ i = 2 ∨ i = 3 := by omega
  rcases h4 with e | e | e | e <;> rw [e] <;> exact ⟨_, rfl⟩

/-- C32. The ILP table lookup is in bounds for a token with a committing slot. For every
token with at least one slot with COMMITS, the number `nCommitting` of slots with COMMITS is
between 1 and 4, so the index `nCommitting - 1` that the Oracle (in `unsigned int`) and
TEA-gold (in `int`) use to read the 4-entry table `__ilp_magic` lies in 0..3, the read
returns an entry, and the COMMITTING block of the Oracle returns. -/
theorem ilp_index_in_bounds (token : robAnalysisToken) (hn : anyCommits token = true) :
    1 ≤ nCommitting token ∧ nCommitting token ≤ 4 ∧
    sub32 (nCommitting token) 1 = nCommitting token - 1 ∧ nCommitting token - 1 ≤ 3 ∧
    (∃ ilp, ilp_magic (sub32 (nCommitting token) 1) = some ilp) ∧
    (∃ ilp, ilp_magic (nCommitting token - 1) = some ilp) ∧
    (∀ result lastToken, ∃ r1,
      tracedoctor_oracle.commitPart result lastToken token = some r1) := by
  obtain ⟨h4, h1⟩ := nCommitting_bounds token
  have h1 := h1 hn
  have hs : sub32 (nCommitting token) 1 = nCommitting token - 1 := by
    unfold sub32
    split <;> omega
  refine ⟨h1, h4, hs, by omega, ?_, ilp_magic_some _ (by omega), ?_⟩
  · rw [hs]
    exact ilp_magic_some _ (by omega)
  · intro result lastToken
    obtain ⟨ilp, hilp⟩ := ilp_magic_some (nCommitting token - 1) (by omega)
    rw [← hs] at hilp
    unfold nCommitting at hilp
    unfold tracedoctor_oracle.commitPart
    dsimp only
    rw [hilp]
    exact ⟨_, rfl⟩

/-- Witness of `ilp_index_in_bounds`: the token whose slots 0 and 2 commit reads entry 1 of
the table, 12. -/
theorem ilp_index_in_bounds_witness :
    nCommitting twoCommitToken = 2 ∧ ilp_magic (nCommitting twoCommitToken - 1) = some 12 ∧
    (1 ≤ nCommitting twoCommitToken ∧ nCommitting twoCommitToken ≤ 4 ∧
    sub32 (nCommitting twoCommitToken) 1 = nCommitting twoCommitToken - 1 ∧
    nCommitting twoCommitToken - 1 ≤ 3 ∧
    (∃ ilp, ilp_magic (sub32 (nCommitting twoCommitToken) 1) = some ilp) ∧
    (∃ ilp, ilp_magic (nCommitting twoCommitToken - 1) = some ilp) ∧
    (∀ result lastToken, ∃ r1,
      tracedoctor_oracle.commitPart result lastToken twoCommitToken = some r1)) :=
  ⟨by decide, by decide, ilp_index_in_bounds twoCommitToken (by decide)⟩

/-- Counterexample to C32 as stated: a token whose rob has COMMITTING while no slot has
COMMITS. The number of committing slots is 0, the Oracle computes the index `0 - 1` in
`unsigned int`, which is `2^32 - 1`, TEA-gold computes the `int` index `-1`, neither lies in
0..3, and the iteration of `tick` of either worker has no defined result. -/
theorem ilp_index_out_of_bounds_counterexample :
    hasBit emptyCommitToken.rob ROB_COMMITTING = true ∧
    nCommitting emptyCommitToken = 0 ∧
    sub32 (nCommitting emptyCommitToken) 1 = 2 ^ 32 - 1 ∧
    ilp_magic (sub32 (nCommitting emptyCommitToken) 1) = none ∧
    oracleStarted.base.firstToken = false ∧
    tracedoctor_oracle.step oracleStarted emptyCommitToken = none ∧
    goldStarted.base.firstToken = false ∧
    tracedoctor_tea_gold.step goldStarted emptyCommitToken = none := by
  refine ⟨by decide, by decide, by decide, by decide, by decide, by decide, by decide,
    by decide⟩

/-! ## IBS: the constructor and `coreWidth` -/

/-- C33 (failing input). The IBS constructor accepts the arguments `samplingPeriod:100` and
`coreWidth:0` and leaves `coreWidth = 0`. Fed a first token, the DISPATCHING token of the
sample point (which arms the sampler) and one more token, `tick` reaches
`rob_head % coreWidth` with `coreWidth = 0`, which has no defined result. -/
theorem ibs_coreWidth_zero_accepted :
    tracedoctor_ibs_sampler.ctor (fun _ => 0) [["samplingPeriod", "100"], ["coreWidth", "0"]]
      64 = .ok ibsWidth0 ∧
    ibsWidth0.coreWidth = 0 ∧
    (tracedoctor_ibs_sampler.tick (fun _ => 0) ibsWidth0 ibsTagTokens).map
      (fun s => (s.state, s.coreWidth)) = some (tracedoctor_ibs_sampler.s_armed, 0) ∧
    (tracedoctor_ibs_sampler.tick (fun _ => 0) ibsWidth0 ibsTagTokens).map
      (fun s => tracedoctor_ibs_sampler.armedPart s ibsRetireToken) = some none ∧
    tracedoctor_ibs_sampler.tick (fun _ => 0) ibsWidth0 (ibsTagTokens ++ [ibsRetireToken]) =
      none := by
  refine ⟨by decide, by decide, by decide, by decide, by decide⟩

/-! ## Histograms built by `value2hist` -/

theorem value2histVec_length (vec : List Nat) (value increment : Nat) (vec1 : List Nat)
    (hv : value + 1 < 2 ^ 64) (h : value2histVec vec value increment = some vec1) :
    vec1.length = max vec.length (value + 1) := by
  unfold value2histVec at h
  dsimp only at h
  rw [Nat.mod_eq_of_lt hv] at h
  by_cases hl : vec.length ≤ value
  · rw [if_pos hl] at h
    have hlen := vecResize_length vec (value + 1)
    rw [if_pos (by rw [hlen]; omega)] at h
    simp only [Option.some.injEq] at h
    rw [← h, List.length_set, hlen]
    omega
  · rw [if_neg hl] at h
    rw [if_pos (by omega)] at h
    simp only [Option.some.injEq] at h
    rw [← h, List.length_set]
    omega

/-- The vector `value2hist` leaves is not empty and ends in a non-zero counter, when the
vector it found was empty or ended in a non-zero counter. -/
theorem value2histVec_last (vec : List Nat) (value increment : Nat) (vec1 : List Nat)
    (hv : value + 1 < 2 ^ 64) (hi : 1 ≤ increment)
    (hb : vec.getD value 0 + increment < 2 ^ 64)
    (hlast : vec = [] ∨ vec.getD (vec.length - 1) 0 ≠ 0)
    (h : value2histVec vec value increment = some vec1) :
    vec1 ≠ [] ∧ vec1.getD (vec1.length - 1) 0 ≠ 0 := by
  refine ⟨value2histVec_ne_nil vec value increment vec1 h, ?_⟩
  have hlen := value2histVec_length vec value increment vec1 hv h
  obtain ⟨vec2, e2, hget⟩ := value2histVec_spec vec value increment hv
  rw [h] at e2
  simp only [Option.some.injEq] at e2
  rw [← e2] at hget
  have hadd : add64 (vec.getD value 0) increment = vec.getD value 0 + increment :=
    Nat.mod_eq_of_lt hb
  rw [hget]
  by_cases hx : vec1.length - 1 = value
  · rw [if_pos hx, hadd]
    omega
  · rw [if_neg hx]
    have hgt : value + 1 < vec.length := by
      rw [hlen] at hx
      omega
    have hl1 : vec1.length = vec.length := by
      rw [hlen]
      omega
    rw [hl1]
    rcases hlast with e | e
    · rw [e] at hgt
      simp at hgt
    · exact e

theorem value2hist_lastNonzero (hist : histogram) (address value increment : Nat)
    (hist1 : histogram) (hv : value + 1 < 2 ^ 64) (hi : 1 ≤ increment)
    (hb : histCount hist address value + increment < 2 ^ 64)
    (hwf : histLastNonzero hist)
    (h : value2hist hist address value increment = some hist1) :
    histLastNonzero hist1 := by
  unfold value2hist at h
  cases hvec : value2histVec (amapGet [] hist address) value increment with
  | none => rw [hvec] at h; exact absurd h (by simp)
  | some vec1 =>
    rw [hvec] at h
    simp only [Option.some.injEq] at h
    have hlast : amapGet [] hist address = [] ∨
        (amapGet [] hist address).getD ((amapGet [] hist address).length - 1) 0 ≠ 0 := by
      rcases amapGet_mem ([] : List Nat) hist address with e | ⟨e, he, ee⟩
      · exact Or.inl e
      · right
        rw [← ee]
        exact (hwf e he).2
    have hnew := value2histVec_last _ value increment vec1 hv hi hb hlast hvec
    rw [← h]
    intro e he
    rcases amapSet_mem address vec1 hist e he with h1 | h1
    · rw [h1]
      exact hnew
    · exact hwf e h1

theorem value2hist_size (hist : histogram) (address value increment : Nat)
    (hist1 : histogram) (hv : value + 1 < 2 ^ 64)
    (hsz : ∀ e ∈ hist, e.2.length < 2 ^ 64)
    (h : value2hist hist address value increment = some hist1) :
    ∀ e ∈ hist1, e.2.length < 2 ^ 64 := by
  unfold value2hist at h
  cases hvec : value2histVec (amapGet [] hist address) value increment with
  | none => rw [hvec] at h; exact absurd h (by simp)
  | some vec1 =>
    rw [hvec] at h
    simp only [Option.some.injEq] at h
    have hlen := value2histVec_length _ value increment vec1 hv hvec
    have hold : (amapGet [] hist address).length < 2 ^ 64 := by
      rcases amapGet_mem ([] : List Nat) hist address with e | ⟨e, he, ee⟩
      · rw [e]
        simp
      · rw [← ee]
        exact hsz e he
    rw [← h]
    intro e he
    rcases amapSet_mem address vec1 hist e he with h1 | h1
    · rw [h1, hlen]
      omega
    · exact hsz e h1

/-- A sequence of calls within `value2histCallsOk` returns and keeps `histLastNonzero`. -/
theorem value2histRun_lastNonzero (calls : List (Nat × Nat × Nat)) :
    ∀ h0 : histogram, histLastNonzero h0 → (∀ e ∈ h0, e.2.length < 2 ^ 64) →
      value2histCallsOk h0 calls = true →
      ∃ h, value2histRun h0 calls = some h ∧ histLastNonzero h ∧
        ∀ e ∈ h, e.2.length < 2 ^ 64 := by
  induction calls with
  | nil => intro h0 hwf hsz _; exact ⟨h0, rfl, hwf, hsz⟩
  | cons c cs ih =>
    intro h0 hwf hsz hok
    simp only [value2histCallsOk, Bool.and_eq_true, decide_eq_true_eq] at hok
    obtain ⟨⟨⟨hv, hi⟩, hb⟩, hrest⟩ := hok
    obtain ⟨h1, e1, _⟩ := value2hist_spec h0 c.1 c.2.1 c.2.2 (by omega)
    rw [e1] at hrest
    obtain ⟨h, e, w, z⟩ := ih h1
      (value2hist_lastNonzero h0 c.1 c.2.1 c.2.2 h1 (by omega) hi hb hwf e1)
      (value2hist_size h0 c.1 c.2.1 c.2.2 h1 (by omega) hsz e1) hrest
    exact ⟨h, by simp only [value2histRun, e1, e], w, z⟩

/-- C38. Histogram well-formedness. A call of `value2hist` with `value < 2^64 - 1` returns,
changes only the counter `[address][value]` (which grows by the increment in 64 bits), leaves
the vector of `address` with the length `max(old length, value + 1)`, a counter read beyond
the old length being 0 before, and leaves the vectors of the other keys as they are. Starting
from the empty histogram, a sequence of such calls with `increment >= 1` and no counter
overflow returns a histogram in which every key present maps to a non-empty vector whose
last element is non-zero, so that `size - 1` in `hist2file` does not wrap below zero and
`hist2file` returns. -/
theorem histogram_well_formed (calls : List (Nat × Nat × Nat))
    (hok : value2histCallsOk [] calls = true) :
    (∀ (hist : histogram) (address value increment : Nat), value < 2 ^ 64 - 1 →
      ∃ hist1, value2hist hist address value increment = some hist1 ∧
        (∀ a v, histCount hist1 a v =
          if a = address ∧ v = value then add64 (histCount hist address value) increment
          else histCount hist a v) ∧
        (amapGet [] hist1 address).length = max (amapGet [] hist address).length (value + 1) ∧
        (∀ v, (amapGet [] hist address).length ≤ v → histCount hist address v = 0) ∧
        (∀ a, a ≠ address → amapGet [] hist1 a = amapGet [] hist a)) ∧
    ∃ h, value2histRun [] calls = some h ∧ histLastNonzero h ∧
      (∀ e ∈ h, 1 ≤ e.2.length ∧ sub64 e.2.length 1 + 1 = e.2.length) ∧
      ∀ (w : Nat) (pfx : List Char), ∃ lines, hist2file w pfx h = some lines := by
  constructor
  · intro hist address value increment hv
    obtain ⟨hist1, e1, p1⟩ := value2hist_spec hist address value increment (by omega)
    refine ⟨hist1, e1, p1, ?_, ?_, ?_⟩
    · unfold value2hist at e1
      cases hvec : value2histVec (amapGet [] hist address) value increment with
      | none => rw [hvec] at e1; exact absurd e1 (by simp)
      | some vec1 =>
        rw [hvec] at e1
        simp only [Option.some.injEq] at e1
        rw [← e1, amapGet_amapSet, if_pos rfl]
        exact value2histVec_length _ value increment vec1 (by omega) hvec
    · intro v hlen
      unfold histCount
      rw [List.getD_eq_getElem?_getD, List.getElem?_eq_none hlen]
      rfl
    · intro a ha
      unfold value2hist at e1
      cases hvec : value2histVec (amapGet [] hist address) value increment with
      | none => rw [hvec] at e1; exact absurd e1 (by simp)
      | some vec1 =>
        rw [hvec] at e1
        simp only [Option.some.injEq] at e1
        rw [← e1, amapGet_amapSet, if_neg ha]
  · obtain ⟨h, e, hwf, hsz⟩ := value2histRun_lastNonzero calls []
      (fun e he => absurd he (List.not_mem_nil _))
      (fun e he => absurd he (List.not_mem_nil _)) hok
    refine ⟨h, e, hwf, ?_, ?_⟩
    · intro x hx
      have hne := (hwf x hx).1
      have hlen : 1 ≤ x.2.length := by
        cases hx2 : x.2 with
        | nil => exact absurd hx2 hne
        | cons a l => simp
      refine ⟨hlen, ?_⟩
      rw [sub64_of_le _ _ hlen (hsz x hx)]
      omega
    · intro w pfx
      exact hist2file_some w pfx h (fun x hx => (hwf x hx).1)

/-- Witness of `histogram_well_formed`: three calls that leave the vector `[0, 2, 0, 1]` for
`0x100` and `[5]` for `0x200`. -/
theorem histogram_well_formed_witness :
    value2histCallsOk [] histCalls = true ∧
    value2histRun [] histCalls = some [(0x100, [0, 2, 0, 1]), (0x200, [5])] ∧
    ∃ h, value2histRun [] histCalls = some h ∧ histLastNonzero h ∧
      (∀ e ∈ h, 1 ≤ e.2.length ∧ sub64 e.2.length 1 + 1 = e.2.length) ∧
      ∀ (w : Nat) (pfx : List Char), ∃ lines, hist2file w pfx h = some lines :=
  ⟨by decide, by decide, (histogram_well_formed histCalls (by decide)).2⟩

/-! ## TEA-gold: counting the attributed instructions -/

theorem sevTotal_amapSet (sev : List (Nat × histogram)) (g : Nat) (h : histogram) :
    sevTotal (amapSet g h sev) + histTotal (amapGet [] sev g) = sevTotal sev + histTotal h := by
  induction sev with
  | nil => simp [amapSet, amapGet, sevTotal, histTotal]
  | cons e sev ih =>
    simp only [amapGet, amapSet, sevTotal] at ih ⊢
    split
    · simp only [List.map_cons, List.sum_cons]
      omega
    · simp only [List.map_cons, List.sum_cons]
      omega

theorem list_getD_le_sum (l : List Nat) : ∀ i, l.getD i 0 ≤ l.sum := by
  induction l with
  | nil => intro i; simp
  | cons x l ih =>
    intro i
    cases i with
    | zero => simp
    | succ j =>
      have := ih j
      simp only [List.getD_cons_succ, List.sum_cons]
      omega

theorem amapGet_sum_le_histTotal (h : histogram) (a : Nat) :
    (amapGet [] h a).sum ≤ histTotal h := by
  induction h with
  | nil => simp [amapGet]
  | cons e h ih =>
    simp only [amapGet, histTotal] at ih ⊢
    split
    · simp only [List.map_cons, List.sum_cons]
      omega
    · simp only [List.map_cons, List.sum_cons]
      omega

theorem histCount_le_histTotal (h : histogram) (a v : Nat) : histCount h a v ≤ histTotal h := by
  unfold histCount
  exact Nat.le_trans (list_getD_le_sum _ v) (amapGet_sum_le_histTotal h a)

theorem histTotal_le_sevTotal (sev : List (Nat × histogram)) (g : Nat) :
    histTotal (amapGet [] sev g) ≤ sevTotal sev := by
  induction sev with
  | nil => simp [amapGet, histTotal]
  | cons e sev ih =>
    simp only [amapGet, sevTotal] at ih ⊢
    split
    · simp only [List.map_cons, List.sum_cons]
      omega
    · simp only [List.map_cons, List.sum_cons]
      omega

/-- One observation added to a severity histogram. -/
theorem sev_value2hist (sev : List (Nat × histogram)) (g a value : Nat)
    (hv : value + 1 < 2 ^ 64) (hb : sevTotal sev + 1 < 2 ^ 64) :
    ∃ h, value2hist (amapGet [] sev g) a value 1 = some h ∧
      sevTotal (amapSet g h sev) = sevTotal sev + 1 := by
  have h1 := histCount_le_histTotal (amapGet [] sev g) a value
  have h2 := histTotal_le_sevTotal sev g
  obtain ⟨h, e, _, ht⟩ := value2hist_adds (amapGet [] sev g) a value 1 hv (by omega)
  refine ⟨h, e, ?_⟩
  have := sevTotal_amapSet sev g h
  omega

theorem gold_attributeOIR_count (n : Nat) (s : tracedoctor_tea_gold) (x : Nat)
    (hinv : goldCounted n s) (hx : x < 2 ^ 44) (hn : n < 2 ^ 64) :
    ∃ s1, tracedoctor_tea_gold.attributeOIR s x = some s1 ∧ goldCounted n s1 ∧
      s1.lastInstructionRegister.oir = false ∧
      s1.lastProgressCycle = s.lastProgressCycle ∧ s1.base = s.base := by
  obtain ⟨hwf, hf, hfl, hsev, hsig, hcount⟩ := hinv
  cases hoir : s.lastInstructionRegister.oir
  · refine ⟨s, ?_, ⟨hwf, hf, hfl, hsev, hsig, hcount⟩, hoir, rfl, rfl⟩
    unfold tracedoctor_tea_gold.attributeOIR
    rw [if_neg (by rw [hoir]; simp)]
  · rw [hoir] at hcount
    have hb1 : b2n true = 1 := rfl
    rw [hb1] at hcount
    have hadd : add64 s.lastInstructionRegister.severity x =
        s.lastInstructionRegister.severity + x := Nat.mod_eq_of_lt (by omega)
    obtain ⟨h, eh, th⟩ := sev_value2hist s.severityHists s.lastInstructionRegister.signature
      s.lastInstructionRegister.address (add64 s.lastInstructionRegister.severity x)
      (by rw [hadd]; omega) (by omega)
    obtain ⟨r, er, _⟩ := value2hist_spec s.result s.lastInstructionRegister.address
      s.lastInstructionRegister.signature
      (add64 s.lastInstructionRegister.ilpLatency
        (mul64 (add64 s.lastInstructionRegister.severity x) 24)) (by omega)
    have hs : tracedoctor_tea_gold.attributeOIR s x = some
        { s with
          severityHists := amapSet s.lastInstructionRegister.signature h s.severityHists
          result := r
          lastInstructionRegister := { s.lastInstructionRegister with oir := false } } := by
      unfold tracedoctor_tea_gold.attributeOIR
      rw [if_pos hoir, eh, er]
    obtain ⟨w1, _⟩ := gold_attributeOIR_WF s _ x hwf hs
    refine ⟨_, hs, ⟨w1, hf, hfl, hsev, hsig, ?_⟩, rfl, rfl, rfl⟩
    show sevTotal (amapSet s.lastInstructionRegister.signature h s.severityHists) +
      b2n false = n
    rw [th]
    show sevTotal s.severityHists + 1 + 0 = n
    omega

theorem gold_attributeInstr_count (n : Nat) (s : tracedoctor_tea_gold)
    (address flags memlat severity ilpLatency : Nat)
    (hinv : goldCounted n s) (hsv : severity < 2 ^ 44)
    (hone : hasBit flags INSTR_OIR = true → s.lastInstructionRegister.oir = false)
    (hn : n + 1 < 2 ^ 64) :
    ∃ s1, tracedoctor_tea_gold.attributeInstr s address flags memlat severity ilpLatency =
        some s1 ∧ goldCounted (n + 1) s1 ∧
      b2n s1.lastInstructionRegister.oir =
        b2n s.lastInstructionRegister.oir + b2n (hasBit flags INSTR_OIR) ∧
      s1.lastProgressCycle = s.lastProgressCycle ∧ s1.base = s.base := by
  obtain ⟨hwf, hf, hfl, hsev, hsig, hcount⟩ := hinv
  have hbo := b2n_le_one s.lastInstructionRegister.oir
  by_cases hz : (flags &&& INSTR_OIR) = 0
  · have hb : hasBit flags INSTR_OIR = false := by simp [hasBit, hz]
    obtain ⟨h, eh, th⟩ := sev_value2hist s.severityHists
      (genSignature s.lastInstructionRegister.flags flags memlat s.base.l2MissLatency
        s.base.l3MissLatency) address severity (by omega) (by omega)
    have hg := genSignature_lt_16 s.lastInstructionRegister.flags flags memlat
      s.base.l2MissLatency s.base.l3MissLatency
    obtain ⟨r, er, _⟩ := value2hist_spec s.result address
      (genSignature s.lastInstructionRegister.flags flags memlat s.base.l2MissLatency
        s.base.l3MissLatency) (add64 ilpLatency (mul64 severity 24)) (by omega)
    have hs : tracedoctor_tea_gold.attributeInstr s address flags memlat severity ilpLatency =
        some { s with
          severityHists := amapSet (genSignature s.lastInstructionRegister.flags flags memlat
            s.base.l2MissLatency s.base.l3MissLatency) h s.severityHists
          result := r
          lastInstructionRegister := { s.lastInstructionRegister with flags := flags } } := by
      unfold tracedoctor_tea_gold.attributeInstr
      dsimp only
      rw [if_pos hz, eh, er]
    obtain ⟨w1, _⟩ := gold_attributeInstr_WF s _ address flags memlat severity ilpLatency hwf hs
    refine ⟨_, hs, ⟨w1, hf, hfl, hsev, hsig, ?_⟩, ?_, rfl, rfl⟩
    · show sevTotal (amapSet _ h s.severityHists) + b2n s.lastInstructionRegister.oir = n + 1
      rw [th]
      omega
    · show b2n s.lastInstructionRegister.oir = _
      rw [hb]
      show _ = _ + 0
      omega
  · have hb : hasBit flags INSTR_OIR = true := by simp [hasBit, hz]
    have hoir := hone hb
    rw [hoir] at hcount
    have hs : tracedoctor_tea_gold.attributeInstr s address flags memlat severity ilpLatency =
        some { s with
          lastInstructionRegister :=
            { address := address, flags := flags,
              signature := genSignature s.lastInstructionRegister.flags flags memlat
                s.base.l2MissLatency s.base.l3MissLatency,
              severity := severity, ilpLatency := ilpLatency, oir := true } } := by
      unfold tracedoctor_tea_gold.attributeInstr
      dsimp only
      rw [if_neg hz]
    refine ⟨_, hs, ⟨hwf, hf, hfl, hsv, genSignature_lt_16 _ _ _ _ _, ?_⟩, ?_, rfl, rfl⟩
    · show sevTotal s.severityHists + b2n true = n + 1
      have h0 : b2n false = 0 := rfl
      have h1 : b2n true = 1 := rfl
      rw [h0] at hcount
      rw [h1]
      omega
    · show b2n true = _
      rw [hoir, hb]
      rfl

theorem gold_commitBlock_count (n : Nat) (flags address memlat ilpLatency : Nat)
    (st : tracedoctor_tea_gold × Nat)
    (hinv : goldCounted n st.1) (hsv : st.2 < 2 ^ 44)
    (hone : b2n st.1.lastInstructionRegister.oir + goldOirSlot flags ≤ 1)
    (hn : n + 1 < 2 ^ 64) :
    ∃ st1, tracedoctor_tea_gold.commitBlock flags address memlat ilpLatency st = some st1 ∧
      goldCounted (n + b2n (hasBit flags INSTR_COMMITS)) st1.1 ∧ st1.2 < 2 ^ 44 ∧
      b2n st1.1.lastInstructionRegister.oir =
        b2n st.1.lastInstructionRegister.oir + goldOirSlot flags ∧
      st1.1.lastProgressCycle = st.1.lastProgressCycle ∧ st1.1.base = st.1.base := by
  unfold tracedoctor_tea_gold.commitBlock
  cases hc : hasBit flags INSTR_COMMITS
  · simp only [Bool.false_eq_true, if_false]
    refine ⟨st, rfl, hinv, hsv, ?_, rfl, rfl⟩
    unfold goldOirSlot
    rw [hc]
    rfl
  · simp only [if_true]
    have hslot : goldOirSlot flags = b2n (hasBit flags INSTR_OIR) := by
      unfold goldOirSlot
      rw [hc]
      rfl
    rw [hslot] at hone ⊢
    obtain ⟨s1, e1, c1, o1, p1, b1⟩ := gold_attributeInstr_count n st.1 address flags memlat
      st.2 ilpLatency hinv hsv
      (by
        intro hb
        rw [hb] at hone
        cases ho : st.1.lastInstructionRegister.oir
        · rfl
        · rw [ho] at hone
          exact absurd hone (by decide)) hn
    rw [e1]
    exact ⟨(s1, 0), rfl, c1, Nat.two_pow_pos 44, o1, p1, b1⟩

theorem b2n_eq_zero (c : Bool) (h : b2n c = 0) : c = false := by
  cases c
  · rfl
  · exact absurd h (by decide)

theorem goldOirSlot_le_one (flags : Nat) : goldOirSlot flags ≤ 1 := b2n_le_one _

theorem gold_commitPart_count (n : Nat) (s : tracedoctor_tea_gold) (token : robAnalysisToken)
    (severity : Nat) (hinv : goldCounted n s) (hoir : s.lastInstructionRegister.oir = false)
    (hsv : severity < 2 ^ 44) (hany : anyCommits token = true)
    (hone : goldOirSlots token ≤ 1) (hn : n + 4 < 2 ^ 64) :
    ∃ s1, tracedoctor_tea_gold.commitPart s token severity = some s1 ∧
      goldCounted (n + nCommitting token) s1 ∧
      s1.lastProgressCycle = s.lastProgressCycle := by
  obtain ⟨h4, h1⟩ := nCommitting_bounds token
  have h1 := h1 hany
  obtain ⟨ilp, hilp⟩ := ilp_magic_some (nCommitting token - 1) (by omega)
  unfold nCommitting at hilp h1 h4 ⊢
  unfold goldOirSlots at hone
  have hb0 := b2n_le_one (hasBit token.instr0_flags INSTR_COMMITS)
  have hb1 := b2n_le_one (hasBit token.instr1_flags INSTR_COMMITS)
  have hb2 := b2n_le_one (hasBit token.instr2_flags INSTR_COMMITS)
  have ho0 : b2n s.lastInstructionRegister.oir = 0 := by rw [hoir]; rfl
  unfold tracedoctor_tea_gold.commitPart
  dsimp only
  rw [if_neg (by omega), hilp]
  dsimp only
  obtain ⟨st0, e0, c0, v0, o0, p0, _⟩ := gold_commitBlock_count n token.instr0_flags
    token.instr0_address token.instr0_memlat ilp (s, severity) hinv hsv
    (by show b2n s.lastInstructionRegister.oir + _ ≤ 1; omega) (by omega)
  rw [e0]
  dsimp only
  replace o0 : b2n st0.1.lastInstructionRegister.oir =
      b2n s.lastInstructionRegister.oir + goldOirSlot token.instr0_flags := o0
  replace p0 : st0.1.lastProgressCycle = s.lastProgressCycle := p0
  obtain ⟨st1, e1, c1, v1, o1, p1, _⟩ := gold_commitBlock_count _ token.instr1_flags
    token.instr1_address token.instr1_memlat ilp st0 c0 v0 (by omega) (by omega)
  rw [e1]
  dsimp only
  obtain ⟨st2, e2, c2, v2, o2, p2, _⟩ := gold_commitBlock_count _ token.instr2_flags
    token.instr2_address token.instr2_memlat ilp st1 c1 v1 (by omega) (by omega)
  rw [e2]
  dsimp only
  cases hc3 : hasBit token.instr3_flags INSTR_COMMITS
  · simp only [Bool.false_eq_true, if_false]
    refine ⟨st2.1, rfl, ?_, by rw [p2, p1, p0]⟩
    have h0 : b2n false = 0 := rfl
    obtain ⟨w, f, fl, sv, sg, cnt⟩ := c2
    exact ⟨w, f, fl, sv, sg, by omega⟩
  · simp only [if_true]
    have hslot : goldOirSlot token.instr3_flags = b2n (hasBit token.instr3_flags INSTR_OIR) := by
      unfold goldOirSlot
      rw [hc3]
      rfl
    obtain ⟨s3, e3, c3, _, p3, _⟩ := gold_attributeInstr_count _ st2.1 token.instr3_address
      token.instr3_flags token.instr3_memlat st2.2 ilp c2 v2
      (by
        intro hb
        rw [hb] at hslot
        have h1 : b2n true = 1 := rfl
        rw [h1] at hslot
        exact b2n_eq_zero _ (by omega)) (by omega)
    rw [e3]
    refine ⟨s3, rfl, ?_, by rw [p3, p2, p1, p0]⟩
    have h1 : b2n true = 1 := rfl
    obtain ⟨w, f, fl, sv, sg, cnt⟩ := c3
    exact ⟨w, f, fl, sv, sg, by omega⟩

theorem gold_populatedPart_count (n : Nat) (s : tracedoctor_tea_gold)
    (token : robAnalysisToken) (hinv : goldCounted n s)
    (hlt : s.lastProgressCycle < token.tsc_cycle) (htsc : token.tsc_cycle < 2 ^ 44)
    (hn : n < 2 ^ 64) :
    ∃ s2, tracedoctor_tea_gold.populatedPart s token = some s2 ∧ goldCounted n s2 ∧
      s2.lastProgressCycle < token.tsc_cycle := by
  unfold tracedoctor_tea_gold.populatedPart
  by_cases hc : (hasBit token.rob ROB_POPULATED && s.lastInstructionRegister.oir) = true
  · rw [if_pos hc]
    have h1 : sub64 token.tsc_cycle s.lastProgressCycle =
        token.tsc_cycle - s.lastProgressCycle := sub64_of_le _ _ (by omega) (by omega)
    have h2 : sub64 (sub64 token.tsc_cycle s.lastProgressCycle) 1 =
        token.tsc_cycle - s.lastProgressCycle - 1 := by
      rw [h1]
      exact sub64_of_le _ _ (by omega) (by omega)
    obtain ⟨s1, e1, c1, _, _, _⟩ := gold_attributeOIR_count n s
      (sub64 (sub64 token.tsc_cycle s.lastProgressCycle) 1) hinv (by rw [h2]; omega) hn
    rw [e1]
    refine ⟨_, rfl, c1, ?_⟩
    show sub64 token.tsc_cycle 1 < token.tsc_cycle
    rw [sub64_of_le _ _ (by omega) (by omega)]
    omega
  · rw [if_neg hc]
    exact ⟨s, rfl, hinv, hlt⟩

theorem goldRetired_le (token : robAnalysisToken) : goldRetired token ≤ 4 := by
  unfold goldRetired
  have := (nCommitting_bounds token).1
  split
  · exact this
  · split <;> omega

theorem gold_progressPart_count (n : Nat) (s : tracedoctor_tea_gold)
    (token : robAnalysisToken) (hinv : goldCounted n s)
    (hlt : s.lastProgressCycle < token.tsc_cycle) (htsc : token.tsc_cycle < 2 ^ 44)
    (hc : hasBit token.rob ROB_COMMITTING = true →
      anyCommits token = true ∧ goldOirSlots token ≤ 1)
    (hn : n + 4 < 2 ^ 64) :
    ∃ s3, tracedoctor_tea_gold.progressPart s token = some s3 ∧
      goldCounted (n + goldRetired token) s3 ∧ s3.lastProgressCycle ≤ token.tsc_cycle := by
  unfold tracedoctor_tea_gold.progressPart
  by_cases hce : hasBit token.rob (ROB_COMMITTING ||| ROB_EXCEPTION) = true
  · rw [if_pos hce]
    dsimp only
    have h1 : sub64 token.tsc_cycle s.lastProgressCycle =
        token.tsc_cycle - s.lastProgressCycle := sub64_of_le _ _ (by omega) (by omega)
    have h2 : sub64 (sub64 token.tsc_cycle s.lastProgressCycle) 1 =
        token.tsc_cycle - s.lastProgressCycle - 1 := by
      rw [h1]
      exact sub64_of_le _ _ (by omega) (by omega)
    obtain ⟨s1, e1, c1, o1, _, _⟩ := gold_attributeOIR_count n s 0 hinv (by decide) (by omega)
    rw [e1]
    dsimp only
    cases hcm : hasBit token.rob ROB_COMMITTING
    · simp only [Bool.false_eq_true, if_false]
      have hex : hasBit token.rob ROB_EXCEPTION = true := by
        rw [hasBit_or, hcm] at hce
        simpa using hce
      obtain ⟨s2, e2, c2, _, _, _⟩ := gold_attributeInstr_count n s1
        (getFirstValid token).address INSTR_EXCPT 0
        (sub64 (sub64 token.tsc_cycle s.lastProgressCycle) 1) 24 c1 (by rw [h2]; omega)
        (fun _ => o1) (by omega)
      rw [e2]
      refine ⟨_, rfl, ?_, Nat.le_refl _⟩
      have hr : goldRetired token = 1 := by
        unfold goldRetired
        rw [hcm, hex]
        rfl
      rw [hr]
      exact c2
    · simp only [if_true]
      obtain ⟨a1, a2⟩ := hc hcm
      obtain ⟨s2, e2, c2, _⟩ := gold_commitPart_count n s1 token
        (sub64 (sub64 token.tsc_cycle s.lastProgressCycle) 1) c1 o1 (by rw [h2]; omega)
        a1 a2 hn
      rw [e2]
      refine ⟨_, rfl, ?_, Nat.le_refl _⟩
      have hr : goldRetired token = nCommitting token := by
        unfold goldRetired
        rw [hcm]
        rfl
      rw [hr]
      exact c2
  · rw [if_neg hce]
    refine ⟨s, rfl, ?_, by omega⟩
    have hce1 : hasBit token.rob (ROB_COMMITTING ||| ROB_EXCEPTION) = false := by
      simpa using hce
    rw [hasBit_or] at hce1
    simp only [Bool.or_eq_false_iff] at hce1
    have hr : goldRetired token = 0 := by
      unfold goldRetired
      rw [hce1.1, hce1.2]
      rfl
    rw [hr]
    exact hinv

theorem gold_step_count (n : Nat) (s : tracedoctor_tea_gold) (token : robAnalysisToken)
    (hinv : goldCounted n s)
    (hlt : s.lastProgressCycle < token.tsc_cycle) (htsc : token.tsc_cycle < 2 ^ 44)
    (hc : hasBit token.rob ROB_COMMITTING = true →
      anyCommits token = true ∧ goldOirSlots token ≤ 1)
    (hn : n + 4 < 2 ^ 64) :
    ∃ s1, tracedoctor_tea_gold.step s token = some s1 ∧
      goldCounted (n + goldRetired token) s1 ∧ s1.lastProgressCycle ≤ token.tsc_cycle := by
  obtain ⟨s2, e2, c2, l2⟩ := gold_populatedPart_count n s token hinv hlt htsc (by omega)
  obtain ⟨s3, e3, c3, l3⟩ := gold_progressPart_count n s2 token c2 l2 htsc hc hn
  refine ⟨s3, ?_, c3, l3⟩
  have htd := triggerDetection_later s.base token hinv.2.1 hinv.2.2.1
  have hs : ({ s with base := s.base } : tracedoctor_tea_gold) = s := rfl
  unfold tracedoctor_tea_gold.step
  dsimp only
  rw [htd]
  simp only [Bool.false_eq_true, if_false]
  rw [hs, e2]
  exact e3

/-- A run of TEA-gold past its first token, without flushing, on tokens with strictly
increasing cycles in which every COMMITTING token has a committing slot and at most one
committing slot with an OIR flag: `tick` returns and has accounted for every retired
instruction once. -/
theorem gold_run_count (toks : List robAnalysisToken) :
    ∀ (s : tracedoctor_tea_gold) (n c : Nat), goldCounted n s → s.lastProgressCycle ≤ c →
      List.Chain (fun a b : Nat => a < b) c (toks.map (fun t => t.tsc_cycle)) →
      (∀ t ∈ toks, t.tsc_cycle < 2 ^ 44 ∧ (hasBit t.rob ROB_COMMITTING = true →
        anyCommits t = true ∧ goldOirSlots t ≤ 1)) →
      n + 4 * toks.length < 2 ^ 64 →
      ∃ s1, tracedoctor_tea_gold.tick s toks = some s1 ∧
        goldCounted (n + (toks.map goldRetired).sum) s1 := by
  induction toks with
  | nil =>
    intro s n c hinv _ _ _ _
    exact ⟨s, rfl, hinv⟩
  | cons t ts ih =>
    intro s n c hinv hl hch ht hn
    simp only [List.map_cons, List.chain_cons] at hch
    simp only [List.length_cons] at hn
    obtain ⟨t44, tc⟩ := ht t (List.mem_cons_self _ _)
    obtain ⟨s1, e1, c1, l1⟩ := gold_step_count n s t hinv (by omega) t44 tc (by omega)
    have hr := goldRetired_le t
    obtain ⟨s2, e2, c2⟩ := ih s1 (n + goldRetired t) t.tsc_cycle c1 l1 hch.2
      (fun x hx => ht x (List.mem_cons_of_mem _ hx)) (by omega)
    refine ⟨s2, by simp only [tracedoctor_tea_gold.tick, e1, e2], ?_⟩
    simp only [List.map_cons, List.sum_cons]
    rw [← Nat.add_assoc]
    exact c2

/-- A strictly increasing list of values below `N` that follows `c` has less than `N - c`
elements. -/
theorem chain_length_lt (l : List Nat) :
    ∀ (c N : Nat), List.Chain (fun a b : Nat => a < b) c l → (∀ x ∈ l, x < N) → l ≠ [] →
      c + l.length < N := by
  induction l with
  | nil => intro c N _ _ h; exact absurd rfl h
  | cons x xs ih =>
    intro c N hch hb _
    simp only [List.chain_cons] at hch
    have hx := hb x (List.mem_cons_self _ _)
    cases hxs : xs with
    | nil =>
      simp only [List.length_cons, List.length_nil]
      omega
    | cons y ys =>
      have := ih x N hch.2 (fun z hz => hb z (List.mem_cons_of_mem _ hz))
        (by rw [hxs]; simp)
      rw [hxs] at this
      simp only [List.length_cons] at this ⊢
      omega

theorem goldRetired_le_sum (toks : List robAnalysisToken) :
    (toks.map goldRetired).sum ≤ 4 * toks.length := by
  induction toks with
  | nil => simp
  | cons t ts ih =>
    have := goldRetired_le t
    simp only [List.map_cons, List.sum_cons, List.length_cons]
    omega

/-- C34. TEA-gold attributes every retired instruction exactly once, when no token commits
two instructions with an OIR flag. For TEA-gold as constructed (no token seen, empty
histograms) without flushing, a first token and then tokens with strictly increasing 44-bit
cycles in which every COMMITTING token has at least one slot with COMMITS and at most one
committing slot with an OIR flag: `tick` returns, the teardown (`attributeOIR(0)` and
`flushResult()`) returns, and when `flushResult` writes the severity histograms the total of
all their counters equals the number of slots with COMMITS in the non-first COMMITTING tokens
plus the number of non-first EXCEPTION tokens without COMMITTING. -/
theorem gold_attributes_once (s0 : tracedoctor_tea_gold) (first : robAnalysisToken)
    (toks : List robAnalysisToken)
    (hfresh : s0.base.firstToken = true) (hflush : s0.base.flushThreshold = 0)
    (hsev : s0.severityHists = []) (hres : s0.result = [])
    (hmono : List.Chain' (fun a b : Nat => a < b)
      ((first :: toks).map (fun t => t.tsc_cycle)))
    (h44 : ∀ t ∈ toks, t.tsc_cycle < 2 ^ 44)
    (hc : ∀ t ∈ toks, hasBit t.rob ROB_COMMITTING = true →
      anyCommits t = true ∧ goldOirSlots t ≤ 1) :
    ∃ s1 s2 s3, tracedoctor_tea_gold.tick s0 (first :: toks) = some s1 ∧
      tracedoctor_tea_gold.attributeOIR s1 0 = some s2 ∧
      tracedoctor_tea_gold.flushResult s2 = some s3 ∧
      tracedoctor_tea_gold.teardown s1 = some s3 ∧
      sevTotal s2.severityHists = (toks.map goldRetired).sum := by
  have hstep : tracedoctor_tea_gold.step s0 first = some
      { s0 with
        base := { s0.base with firstToken := false }
        lastInstructionRegister := goldInstrInfo.zero
        lastProgressCycle := first.tsc_cycle } := by
    unfold tracedoctor_tea_gold.step
    dsimp only
    rw [triggerDetection_first s0.base first hfresh hflush]
    rfl
  have hinv : goldCounted 0
      { s0 with
        base := { s0.base with firstToken := false }
        lastInstructionRegister := goldInstrInfo.zero
        lastProgressCycle := first.tsc_cycle } := by
    refine ⟨⟨?_, ?_⟩, rfl, hflush, Nat.two_pow_pos 44, Nat.two_pow_pos 16, ?_⟩
    · show histWF s0.result
      rw [hres]
      intro e he
      exact absurd he (List.not_mem_nil _)
    · show ∀ e ∈ s0.severityHists, histWF e.2
      rw [hsev]
      intro e he
      exact absurd he (List.not_mem_nil _)
    · show sevTotal s0.severityHists + b2n false = 0
      rw [hsev]
      rfl
  simp only [List.map_cons] at hmono
  have hch : List.Chain (fun a b : Nat => a < b) first.tsc_cycle
      (toks.map (fun t => t.tsc_cycle)) := hmono
  have hlen : 4 * toks.length < 2 ^ 64 := by
    cases htk : toks with
    | nil => simp
    | cons x xs =>
      have := chain_length_lt (toks.map (fun t => t.tsc_cycle)) first.tsc_cycle (2 ^ 44) hch
        (by
          intro v hv
          obtain ⟨t, ht, e⟩ := List.mem_map.1 hv
          rw [← e]
          exact h44 t ht)
        (by rw [htk]; simp)
      rw [List.length_map, htk] at this
      omega
  obtain ⟨s1, e1, c1⟩ := gold_run_count toks _ 0 first.tsc_cycle hinv (Nat.le_refl _) hch
    (fun t ht => ⟨h44 t ht, hc t ht⟩) (by omega)
  have hcnt := (goldRetired_le_sum toks)
  obtain ⟨s2, e2, c2, o2, _, _⟩ := gold_attributeOIR_count _ s1 0 c1 (by decide) (by omega)
  obtain ⟨s3, e3, _⟩ := gold_flushResult_spec s2 c2.1
  refine ⟨s1, s2, s3, by simp only [tracedoctor_tea_gold.tick, hstep, e1], e2, e3, ?_, ?_⟩
  · unfold tracedoctor_tea_gold.teardown
    rw [e2]
    exact e3
  · have := c2.2.2.2.2.2
    rw [o2] at this
    have h0 : b2n false = 0 := rfl
    omega

/-- Witness of `gold_attributes_once`: TEA-gold as constructed, a first token at cycle 49, a
COMMITTING token at cycle 50 that commits a mispredicted branch and one more instruction, and
an EXCEPTION token at cycle 60: three instructions retire and the severity histograms hold
three observations at teardown. -/
theorem gold_attributes_once_witness :
    (goldCountRest.map goldRetired).sum = 3 ∧
    (goldCountRest.map goldOirSlots) = [1, 0] ∧
    ((tracedoctor_tea_gold.tick goldFresh (goldFirst49 :: goldCountRest)).bind
      (fun s => tracedoctor_tea_gold.attributeOIR s 0)).map
        (fun s => sevTotal s.severityHists) = some 3 ∧
    ∃ s1 s2 s3, tracedoctor_tea_gold.tick goldFresh (goldFirst49 :: goldCountRest) = some s1 ∧
      tracedoctor_tea_gold.attributeOIR s1 0 = some s2 ∧
      tracedoctor_tea_gold.flushResult s2 = some s3 ∧
      tracedoctor_tea_gold.teardown s1 = some s3 ∧
      sevTotal s2.severityHists = (goldCountRest.map goldRetired).sum :=
  ⟨by decide, by decide, by decide!,
    gold_attributes_once goldFresh goldFirst49 goldCountRest (by decide) (by decide)
      (by decide) (by decide)
      (by simp [goldFirst49, goldCountRest, slot0Token, exceptionToken])
      (by decide) (by decide)⟩

/-- Counterexample to C34 as stated: TEA-gold as constructed, a first token at cycle 49 and a
COMMITTING token at cycle 50 in which slots 0 and 1 both commit a mispredicted branch (an OIR
flag). Two instructions retire; the second call of `attribute` overwrites the pending
register of the first, and at teardown the severity histograms hold one observation, that of
the branch at `0x204`. -/
theorem gold_attributes_once_counterexample :
    goldFresh.base.firstToken = true ∧ goldFresh.base.flushThreshold = 0 ∧
    (goldFirst49 :: goldTwoBranchRest).map (fun t => t.tsc_cycle) = [49, 50] ∧
    goldTwoBranchRest.map (fun t => (hasBit t.rob ROB_COMMITTING, anyCommits t)) =
      [(true, true)] ∧
    goldTwoBranchRest.map goldOirSlots = [2] ∧
    (goldTwoBranchRest.map goldRetired).sum = 2 ∧
    ((tracedoctor_tea_gold.tick goldFresh (goldFirst49 :: goldTwoBranchRest)).bind
      (fun s => tracedoctor_tea_gold.attributeOIR s 0)).map
        (fun s => (sevTotal s.severityHists,
          s.severityHists.map (fun e => e.2.map (fun x => x.1)))) =
      some (1, [[0x204]]) := by
  refine ⟨by decide, by decide, by decide, by decide, by decide, by decide, by decide!⟩

/-! ## The runs of the samplers return -/

theorem advanceBody_bounds (rng : Nat → Nat) (b : base_profiler)
    (hP : 1 ≤ b.samplingPeriod) (hR : b.randomOffset ≤ b.samplingPeriod - 1)
    (hs : b.nextPeriodStart + b.samplingPeriod < 2 ^ 64) :
    (advanceBody rng b).nextPeriodStart ≤ (advanceBody rng b).nextPeriod + b.randomOffset := by
  have ha : add64 b.nextPeriodStart b.samplingPeriod = b.nextPeriodStart + b.samplingPeriod :=
    add64_of_lt _ _ hs
  unfold advanceBody
  generalize add64 b.nextPeriodStart b.samplingPeriod = x at ha
  obtain ⟨_, _, d3, _, _, d6⟩ := ditherNextPeriod_spec rng
    { b with lastPeriod := b.nextPeriod, nextPeriodStart := x, nextPeriod := x }
    (by show x < 2 ^ 64; omega) (by show b.randomOffset < x; omega)
  rw [d3]
  exact d6

/-- The loop of `advanceSamplingPeriod` within the bounds: it ends after at most two passes
and leaves the start of the next period at most two periods ahead. -/
theorem advanceLoop_bounds (rng : Nat → Nat) (count fuel : Nat) (b : base_profiler)
    (p : Nat) (hP : 1 ≤ b.samplingPeriod) (hR : b.randomOffset ≤ b.samplingPeriod - 1)
    (hnear : count < b.nextPeriodStart + b.samplingPeriod)
    (hs : b.nextPeriodStart + 2 * b.samplingPeriod < 2 ^ 64) :
    ∃ r, advanceLoop rng count (fuel + 2) b p = some r ∧
      r.2.samplingPeriod = b.samplingPeriod ∧ r.2.randomOffset = b.randomOffset ∧
      r.2.nextPeriodStart ≤ b.nextPeriodStart + 2 * b.samplingPeriod ∧
      r.2.nextPeriodStart ≤ r.2.nextPeriod + b.randomOffset := by
  obtain ⟨a1, a2, a3, a4, a5, a6⟩ := advanceBody_spec rng b hP hR (by omega)
  have a7 := advanceBody_bounds rng b hP hR (by omega)
  rw [advanceLoop_succ]
  by_cases h1 : (advanceBody rng b).nextPeriod ≤ count
  · rw [if_pos h1]
    obtain ⟨c1, c2, c3, c4, c5, c6⟩ := advanceBody_spec rng (advanceBody rng b)
      (by rw [a1]; exact hP) (by rw [a1, a2]; exact hR) (by rw [a1, a3]; omega)
    have c7 := advanceBody_bounds rng (advanceBody rng b)
      (by rw [a1]; exact hP) (by rw [a1, a2]; exact hR) (by rw [a1, a3]; omega)
    rw [advanceLoop_succ, if_neg (by rw [a3] at c5; omega)]
    refine ⟨_, rfl, ?_, ?_, ?_, ?_⟩
    · show (advanceBody rng (advanceBody rng b)).samplingPeriod = _
      rw [c1, a1]
    · show (advanceBody rng (advanceBody rng b)).randomOffset = _
      rw [c2, a2]
    · show (advanceBody rng (advanceBody rng b)).nextPeriodStart ≤ _
      rw [c3, a3, a1]
      omega
    · show (advanceBody rng (advanceBody rng b)).nextPeriodStart ≤
        (advanceBody rng (advanceBody rng b)).nextPeriod + _
      rw [a2] at c7
      exact c7
  · rw [if_neg h1]
    refine ⟨_, rfl, a1, a2, ?_, a7⟩
    show (advanceBody rng b).nextPeriodStart ≤ _
    rw [a3]
    omega

/-- Within `periodBounds`, `advanceSamplingPeriod` at a sample point that is reached returns
and keeps `periodBounds`. -/
theorem advanceSamplingPeriod_bounds (rng : Nat → Nat) (b : base_profiler) (c : Nat)
    (hb : periodBounds b) (hc : c < 2 ^ 44) (hreach : b.nextPeriod ≤ c) :
    ∃ r, advanceSamplingPeriod rng b c = some r ∧ periodBounds r.2 := by
  obtain ⟨hP, hP61, hR, hK, hs⟩ := hb
  obtain ⟨b1, e1, p1, r1, n1, m1, _⟩ := skipMissedPeriods_spec rng b c hP hR (by omega)
  have hfuel : advanceFuel = (2 ^ 64 - 2) + 2 := by decide
  have hb1 : b1.nextPeriodStart ≤ c + b.randomOffset := by
    rcases m1 with h | h <;> omega
  obtain ⟨r, e, q1, q2, q3, q4⟩ := advanceLoop_bounds rng c (2 ^ 64 - 2) b1 0
    (by rw [p1]; exact hP) (by rw [p1, r1]; exact hR) (by rw [p1]; exact n1)
    (by rw [p1]; omega)
  unfold advanceSamplingPeriod
  rw [e1]
  dsimp only
  rw [hfuel, e]
  refine ⟨r, rfl, ?_, ?_, ?_, ?_, ?_⟩
  · rw [q1, p1]; exact hP
  · rw [q1, p1]; exact hP61
  · rw [q1, q2, p1, r1]; exact hR
  · rw [q2, r1]
    rw [r1] at q4
    exact q4
  · rw [p1] at q3
    omega

theorem periodBounds_trigger (b : base_profiler) (token : robAnalysisToken)
    (hb : periodBounds b) : periodBounds (triggerDetection b token).2.2 := by
  obtain ⟨lf, hlf⟩ := triggerDetection_members b token
  rw [hlf]
  exact hb

theorem periodBounds_restart (b : base_profiler) (token : robAnalysisToken)
    (hb : startBounds b) (hc : token.tsc_cycle < 2 ^ 44) :
    periodBounds (restartSampling (triggerDetection b token).2.2 token.tsc_cycle) := by
  obtain ⟨lf, hlf⟩ := triggerDetection_members b token
  obtain ⟨hP, hP61, hR, hS⟩ := hb
  rw [hlf]
  unfold restartSampling
  have h1 : add64 token.tsc_cycle b.samplingPeriod = token.tsc_cycle + b.samplingPeriod :=
    add64_of_lt _ _ (by omega)
  have h2 : add64 (add64 token.tsc_cycle b.samplingPeriod) b.randomStartOffset =
      token.tsc_cycle + b.samplingPeriod + b.randomStartOffset := by
    rw [h1]
    exact add64_of_lt _ _ (by omega)
  refine ⟨hP, hP61, hR, ?_, ?_⟩
  · show add64 (add64 token.tsc_cycle b.samplingPeriod) b.randomStartOffset ≤
      add64 (add64 token.tsc_cycle b.samplingPeriod) b.randomStartOffset + b.randomOffset
    omega
  · show add64 (add64 token.tsc_cycle b.samplingPeriod) b.randomStartOffset < 2 ^ 63
    rw [h2]
    omega

/-- A run of a sampler within the bounds returns. -/
theorem totalSampler_run {σ : Type} (step : σ → robAnalysisToken → Option σ)
    (base : σ → base_profiler) (ok : σ → Prop) (hS : totalSampler step base ok)
    (toks : List robAnalysisToken) :
    ∀ s : σ, ok s →
      (((base s).firstToken = true ∧ startBounds (base s)) ∨
        ((base s).firstToken = false ∧ periodBounds (base s))) →
      (∀ t ∈ toks, t.tsc_cycle < 2 ^ 44) → ∃ s1, runTokens step s toks = some s1 := by
  induction toks with
  | nil => intro s _ _ _; exact ⟨s, rfl⟩
  | cons t ts ih =>
    intro s hok hb h44
    have ht := h44 t (List.mem_cons_self _ _)
    have hnext : ∃ s1, step s t = some s1 ∧ ok s1 ∧ (base s1).firstToken = false ∧
        periodBounds (base s1) := by
      rcases hb with ⟨hf, hb⟩ | ⟨hf, hb⟩
      · exact hS.1 s t hok hf hb ht
      · exact hS.2 s t hok hf hb ht
    obtain ⟨s1, e1, ok1, f1, b1⟩ := hnext
    obtain ⟨s2, e2⟩ := ih s1 ok1 (Or.inr ⟨f1, b1⟩)
      (fun x hx => h44 x (List.mem_cons_of_mem _ hx))
    exact ⟨s2, by simp only [runTokens, e1, e2]⟩

theorem tea_samplePoint_returns (rng : Nat → Nat) (s : tracedoctor_tea_sampler)
    (token : robAnalysisToken) (hb : periodBounds s.base) (hc : token.tsc_cycle < 2 ^ 44) :
    ∃ s3, tracedoctor_tea_sampler.samplePoint rng s token = some s3 ∧
      periodBounds s3.base := by
  unfold tracedoctor_tea_sampler.samplePoint
  by_cases hr : reachedSamplingPeriod s.base token.tsc_cycle = true
  · rw [if_pos hr]
    dsimp only
    have hreach : s.base.nextPeriod ≤ token.tsc_cycle := by
      unfold reachedSamplingPeriod at hr
      simpa using hr
    obtain ⟨r, e, hbr⟩ := advanceSamplingPeriod_bounds rng s.base token.tsc_cycle hb hc hreach
    rw [e]
    dsimp only
    split
    · split
      · exact ⟨_, rfl, hbr⟩
      · exact ⟨_, rfl, hbr⟩
    · split
      · exact ⟨_, rfl, hbr⟩
      · exact ⟨_, rfl, hbr⟩
  · rw [if_neg hr]
    exact ⟨s, rfl, hb⟩

theorem tea_totalSampler (rng : Nat → Nat) :
    totalSampler (tracedoctor_tea_sampler.step rng) (fun s => s.base) (fun _ => True) := by
  constructor
  · intro s t _ hf hb hc
    replace hf : s.base.firstToken = true := hf
    rw [tea_step_first rng s t hf]
    exact ⟨_, rfl, trivial, triggerDetection_firstToken s.base t, periodBounds_restart s.base t hb hc⟩
  · intro s t _ hf hb hc
    replace hf : s.base.firstToken = false := hf
    have hb1 := periodBounds_trigger s.base t hb
    rw [tea_step_later rng s t (triggerDetection_notFirst s.base t hf).1]
    unfold tracedoctor_tea_sampler.body
    split
    · obtain ⟨g1, _, _⟩ := tea_oirGap_fields
        { s with base := (triggerDetection s.base t).2.2 } t
      obtain ⟨s3, e3, b3⟩ := tea_samplePoint_returns rng
        (tracedoctor_tea_sampler.oirGap { s with base := (triggerDetection s.base t).2.2 } t) t
        (by rw [g1]; exact hb1) hc
      rw [e3]
      have hbase : (tracedoctor_tea_sampler.registerPart
          (tracedoctor_tea_sampler.emitPart s3 t) t).base = s3.base := by
        rw [(tea_registerPart_fields _ t).1, tea_emitPart_base]
      refine ⟨_, rfl, trivial, ?_, ?_⟩
      · exact tea_step_firstToken rng s _ t (by
          rw [tea_step_later rng s t (triggerDetection_notFirst s.base t hf).1]
          unfold tracedoctor_tea_sampler.body
          rw [if_pos (by assumption), e3])
      · show periodBounds (tracedoctor_tea_sampler.registerPart
          (tracedoctor_tea_sampler.emitPart s3 t) t).base
        rw [hbase]
        exact b3
    · exact ⟨_, rfl, trivial, triggerDetection_firstToken s.base t, hb1⟩

theorem pebs_samplePoint_returns (rng : Nat → Nat) (s : tracedoctor_pebs_sampler)
    (token : robAnalysisToken) (hb : periodBounds s.base) (hc : token.tsc_cycle < 2 ^ 44) :
    ∃ s3, tracedoctor_pebs_sampler.samplePoint rng s token = some s3 ∧
      periodBounds s3.base := by
  unfold tracedoctor_pebs_sampler.samplePoint
  by_cases hr : reachedSamplingPeriod s.base token.tsc_cycle = true
  · rw [if_pos hr]
    have hreach : s.base.nextPeriod ≤ token.tsc_cycle := by
      unfold reachedSamplingPeriod at hr
      simpa using hr
    obtain ⟨r, e, hbr⟩ := advanceSamplingPeriod_bounds rng s.base token.tsc_cycle hb hc hreach
    rw [e]
    exact ⟨_, rfl, hbr⟩
  · rw [if_neg hr]
    exact ⟨s, rfl, hb⟩

theorem pebs_totalSampler (rng : Nat → Nat) :
    totalSampler (tracedoctor_pebs_sampler.step rng) (fun s => s.base) (fun _ => True) := by
  constructor
  · intro s t _ hf hb hc
    replace hf : s.base.firstToken = true := hf
    rw [pebs_step_first rng s t hf]
    exact ⟨_, rfl, trivial, triggerDetection_firstToken s.base t, periodBounds_restart s.base t hb hc⟩
  · intro s t _ hf hb hc
    replace hf : s.base.firstToken = false := hf
    have hb1 := periodBounds_trigger s.base t hb
    have hstep := pebs_step_later rng s t (triggerDetection_notFirst s.base t hf).1
    obtain ⟨g1, _, _⟩ := pebs_oirGap_fields
      { s with base := (triggerDetection s.base t).2.2 } t
    obtain ⟨s3, e3, b3⟩ := pebs_samplePoint_returns rng
      (tracedoctor_pebs_sampler.oirGap { s with base := (triggerDetection s.base t).2.2 } t) t
      (by rw [g1]; exact hb1) hc
    have hs : tracedoctor_pebs_sampler.step rng s t = some
        (tracedoctor_pebs_sampler.registerPart (tracedoctor_pebs_sampler.emitPart s3 t) t) := by
      rw [hstep]
      unfold tracedoctor_pebs_sampler.body
      rw [e3]
    refine ⟨_, hs, trivial, pebs_step_firstToken rng s _ t hs, ?_⟩
    show periodBounds (tracedoctor_pebs_sampler.registerPart
      (tracedoctor_pebs_sampler.emitPart s3 t) t).base
    rw [(pebs_registerPart_fields _ t).1, pebs_emitPart_base]
    exact b3

theorem ibs_samplePoint_returns (rng : Nat → Nat) (s : tracedoctor_ibs_sampler)
    (token : robAnalysisToken) (hb : periodBounds s.base) (hc : token.tsc_cycle < 2 ^ 44) :
    ∃ s3, tracedoctor_ibs_sampler.samplePoint rng s token = some s3 ∧
      periodBounds s3.base ∧ s3.coreWidth = s.coreWidth := by
  unfold tracedoctor_ibs_sampler.samplePoint
  by_cases hr : reachedSamplingPeriod s.base token.tsc_cycle = true
  · rw [if_pos hr]
    have hreach : s.base.nextPeriod ≤ token.tsc_cycle := by
      unfold reachedSamplingPeriod at hr
      simpa using hr
    obtain ⟨r, e, hbr⟩ := advanceSamplingPeriod_bounds rng s.base token.tsc_cycle hb hc hreach
    rw [e]
    exact ⟨_, rfl, hbr, rfl⟩
  · rw [if_neg hr]
    exact ⟨s, rfl, hb, rfl⟩

theorem ibs_armedPart_returns (s : tracedoctor_ibs_sampler) (token : robAnalysisToken)
    (hw : s.coreWidth ≠ 0) :
    ∃ s4, tracedoctor_ibs_sampler.armedPart s token = some s4 ∧ s4.base = s.base ∧
      s4.coreWidth = s.coreWidth := by
  unfold tracedoctor_ibs_sampler.armedPart
  by_cases harmed : s.state = tracedoctor_ibs_sampler.s_armed
  · rw [if_pos harmed, if_neg hw]
    dsimp only
    split
    · exact ⟨_, rfl, rfl, rfl⟩
    · split
      · exact ⟨_, rfl, rfl, rfl⟩
      · exact ⟨_, rfl, rfl, rfl⟩
  · rw [if_neg harmed]
    exact ⟨_, rfl, rfl, rfl⟩

theorem ibs_tail_members (s : tracedoctor_ibs_sampler) (token : robAnalysisToken) :
    (tracedoctor_ibs_sampler.registerPart (tracedoctor_ibs_sampler.tagPart s token)
      token).base = s.base ∧
    (tracedoctor_ibs_sampler.registerPart (tracedoctor_ibs_sampler.tagPart s token)
      token).coreWidth = s.coreWidth := by
  unfold tracedoctor_ibs_sampler.registerPart tracedoctor_ibs_sampler.tagPart
  split <;> split <;> exact ⟨rfl, rfl⟩

theorem ibs_totalSampler (rng : Nat → Nat) :
    totalSampler (tracedoctor_ibs_sampler.step rng) (fun s => s.base)
      (fun s => s.coreWidth ≠ 0) := by
  constructor
  · intro s t hw hf hb hc
    replace hf : s.base.firstToken = true := hf
    rw [ibs_step_first rng s t hf]
    exact ⟨_, rfl, hw, triggerDetection_firstToken s.base t, periodBounds_restart s.base t hb hc⟩
  · intro s t hw hf hb hc
    replace hf : s.base.firstToken = false := hf
    have hb1 := periodBounds_trigger s.base t hb
    have hstep := ibs_step_later rng s t hf
    have hg := ibs_oirGap_members { s with base := (triggerDetection s.base t).2.2 } t
    obtain ⟨s3, e3, b3, w3⟩ := ibs_samplePoint_returns rng
      (tracedoctor_ibs_sampler.oirGap { s with base := (triggerDetection s.base t).2.2 } t) t
      (by rw [hg]; exact hb1) hc
    rw [hg] at w3
    replace w3 : s3.coreWidth = s.coreWidth := w3
    obtain ⟨s4, e4, b4, w4⟩ := ibs_armedPart_returns s3 t (by rw [w3]; exact hw)
    obtain ⟨s5, e5, b5, w5⟩ := ibs_samplePoint_returns rng s4 t (by rw [b4]; exact b3) hc
    obtain ⟨t1, t2⟩ := ibs_tail_members s5 t
    have hs : tracedoctor_ibs_sampler.step rng s t = some
        (tracedoctor_ibs_sampler.registerPart (tracedoctor_ibs_sampler.tagPart s5 t) t) := by
      rw [hstep]
      unfold tracedoctor_ibs_sampler.body
      rw [e3]
      dsimp only
      rw [e4]
      dsimp only
      rw [e5]
    refine ⟨_, hs, ?_, ibs_step_firstToken rng s _ t hs, ?_⟩
    · show (tracedoctor_ibs_sampler.registerPart (tracedoctor_ibs_sampler.tagPart s5 t)
        t).coreWidth ≠ 0
      rw [t2, w5, w4, w3]
      exact hw
    · show periodBounds (tracedoctor_ibs_sampler.registerPart
        (tracedoctor_ibs_sampler.tagPart s5 t) t).base
      rw [t1]
      exact b5

/-! ## Samplers: sample points are never reused -/

/-- C36. Sample points are never reused. For each of the TEA, IBS and PEBS samplers, any
dither sequence, a sampler that has written no row and is in its rest state (as it is when
constructed), and tokens whose cycles are non-decreasing (in particular strictly
increasing): when `tick` returns, the rows written are those of the log of the run, every
row's `samplingCycle` is at most the `tsc_cycle` of the token whose iteration wrote it, and
the `samplingCycle` values of the rows are strictly increasing. And `tick` returns for a
sampler that waits for its first token when the cycles are 44-bit values and the sampling
members are in the range where the 64-bit period arithmetic does not wrap (period
`1 <= P < 2^61`, dither `R <= P - 1`, start offset below `2^61`; for IBS `coreWidth >= 1`). -/
theorem sample_points_never_reused (rng : Nat → Nat) (toks : List robAnalysisToken)
    (hmono : List.Chain' (fun a b : Nat => a ≤ b) (toks.map (fun t => t.tsc_cycle))) :
    (∀ s s1 : tracedoctor_tea_sampler, s.out = [] →
      s.state = tracedoctor_tea_sampler.s_off →
      tracedoctor_tea_sampler.tick rng s toks = some s1 →
      ∃ log, emitLog (tracedoctor_tea_sampler.step rng) (fun s => s.out) s toks = some log ∧
        s1.out = log.map (fun e => e.2) ∧ (∀ e ∈ log, e.2.cycle ≤ e.1) ∧
        List.Pairwise (fun a b : Nat => a < b) (s1.out.map (fun r => r.cycle))) ∧
    (∀ s s1 : tracedoctor_ibs_sampler, s.out = [] →
      s.state = tracedoctor_ibs_sampler.s_idle →
      tracedoctor_ibs_sampler.tick rng s toks = some s1 →
      ∃ log, emitLog (tracedoctor_ibs_sampler.step rng) (fun s => s.out) s toks = some log ∧
        s1.out = log.map (fun e => e.2) ∧ (∀ e ∈ log, e.2.cycle ≤ e.1) ∧
        List.Pairwise (fun a b : Nat => a < b) (s1.out.map (fun r => r.cycle))) ∧
    (∀ s s1 : tracedoctor_pebs_sampler, s.out = [] →
      s.state = tracedoctor_pebs_sampler.s_idle →
      tracedoctor_pebs_sampler.tick rng s toks = some s1 →
      ∃ log, emitLog (tracedoctor_pebs_sampler.step rng) (fun s => s.out) s toks = some log ∧
        s1.out = log.map (fun e => e.2) ∧ (∀ e ∈ log, e.2.cycle ≤ e.1) ∧
        List.Pairwise (fun a b : Nat => a < b) (s1.out.map (fun r => r.cycle))) ∧
    ((∀ t ∈ toks, t.tsc_cycle < 2 ^ 44) →
      (∀ s : tracedoctor_tea_sampler, s.base.firstToken = true → startBounds s.base →
        ∃ s1, tracedoctor_tea_sampler.tick rng s toks = some s1) ∧
      (∀ s : tracedoctor_ibs_sampler, s.base.firstToken = true → startBounds s.base →
        1 ≤ s.coreWidth → ∃ s1, tracedoctor_ibs_sampler.tick rng s toks = some s1) ∧
      (∀ s : tracedoctor_pebs_sampler, s.base.firstToken = true → startBounds s.base →
        ∃ s1, tracedoctor_pebs_sampler.tick rng s toks = some s1)) := by
  refine ⟨?_, ?_, ?_, ?_⟩
  · intro s s1 ho hs hrun
    rw [tea_tick_eq_run] at hrun
    exact rowSampler_fresh_run _ _ _ _ _ (tea_rowSampler rng) toks s s1 ho
      (by simp [hs]) hmono hrun
  · intro s s1 ho hs hrun
    rw [ibs_tick_eq_run] at hrun
    exact rowSampler_fresh_run _ _ _ _ _ (ibs_rowSampler rng) toks s s1 ho
      (by simp [hs]) hmono hrun
  · intro s s1 ho hs hrun
    rw [pebs_tick_eq_run] at hrun
    exact rowSampler_fresh_run _ _ _ _ _ (pebs_rowSampler rng) toks s s1 ho
      (by simp [hs]) hmono hrun
  · intro h44
    refine ⟨?_, ?_, ?_⟩
    · intro s hf hb
      rw [tea_tick_eq_run]
      exact totalSampler_run _ _ _ (tea_totalSampler rng) toks s trivial (Or.inl ⟨hf, hb⟩) h44
    · intro s hf hb hw
      rw [ibs_tick_eq_run]
      exact totalSampler_run _ _ _ (ibs_totalSampler rng) toks s (by omega)
        (Or.inl ⟨hf, hb⟩) h44
    · intro s hf hb
      rw [pebs_tick_eq_run]
      exact totalSampler_run _ _ _ (pebs_totalSampler rng) toks s trivial (Or.inl ⟨hf, hb⟩) h44

/-- Witness of `sample_points_never_reused`: the TEA sampler with `samplingPeriod:100` on a
first token at cycle 0 and COMMITTING tokens at the cycles 100 and 250; it writes the rows
of the sample points 100 and 200. -/
theorem sample_points_never_reused_witness :
    List.Chain' (fun a b : Nat => a ≤ b) (teaRowTokens.map (fun t => t.tsc_cycle)) ∧
    (∀ t ∈ teaRowTokens, t.tsc_cycle < 2 ^ 44) ∧ startBounds teaFresh100.base ∧
    (tracedoctor_tea_sampler.tick (fun _ => 0) teaFresh100 teaRowTokens).map
        (fun s => s.out.map (fun r => r.cycle)) = some [100, 200] ∧
    ∃ s1 log, tracedoctor_tea_sampler.tick (fun _ => 0) teaFresh100 teaRowTokens = some s1 ∧
      emitLog (tracedoctor_tea_sampler.step (fun _ => 0)) (fun s => s.out) teaFresh100
        teaRowTokens = some log ∧
      s1.out = log.map (fun e => e.2) ∧ (∀ e ∈ log, e.2.cycle ≤ e.1) ∧
      List.Pairwise (fun a b : Nat => a < b) (s1.out.map (fun r => r.cycle)) := by
  have hm : List.Chain' (fun a b : Nat => a ≤ b) (teaRowTokens.map (fun t => t.tsc_cycle)) := by
    simp [teaRowTokens, commitToken, slot0Token]
  have h44 : ∀ t ∈ teaRowTokens, t.tsc_cycle < 2 ^ 44 := by decide
  refine ⟨hm, h44, by decide, by decide, ?_⟩
  obtain ⟨s1, h⟩ := ((sample_points_never_reused (fun _ => 0) teaRowTokens hm).2.2.2 h44).1
    teaFresh100 (by decide) (by decide)
  obtain ⟨log, h1, h2, h3, h4⟩ :=
    (sample_points_never_reused (fun _ => 0) teaRowTokens hm).1 teaFresh100 s1
      (by decide) (by decide) h
  exact ⟨s1, log, h, h1, h2, h3, h4⟩

/-! ## TEA-gold: the deferred attribution is made -/

theorem amapMem_amapSet_self {α : Type} (k : Nat) (v : α) (m : List (Nat × α)) :
    amapMem (amapSet k v m) k = true := by
  induction m with
  | nil => simp [amapSet, amapMem]
  | cons x m ih =>
    unfold amapSet
    split
    · rename_i hx
      simp [amapMem, hx]
    · unfold amapMem at ih ⊢
      rw [List.any_cons, ih]
      simp

theorem amapMem_amapSet_of_mem {α : Type} (k k1 : Nat) (v : α) (m : List (Nat × α))
    (h : amapMem m k1 = true) : amapMem (amapSet k v m) k1 = true := by
  induction m with
  | nil => simp [amapMem] at h
  | cons x m ih =>
    unfold amapSet
    unfold amapMem at h ih ⊢
    rw [List.any_cons] at h
    split
    · rw [List.any_cons]
      exact h
    · rw [List.any_cons]
      rcases Bool.or_eq_true_iff.1 h with h1 | h1
      · rw [h1]; rfl
      · rw [ih h1]; simp

theorem value2hist_mem (hist : histogram) (address value increment : Nat) (hist1 : histogram)
    (h : value2hist hist address value increment = some hist1) :
    amapMem hist1 address = true ∧ ∀ k, amapMem hist k = true → amapMem hist1 k = true := by
  unfold value2hist at h
  split at h
  · exact absurd h (by simp)
  · simp only [Option.some.injEq] at h
    rw [← h]
    exact ⟨amapMem_amapSet_self _ _ _, fun k hk => amapMem_amapSet_of_mem _ _ _ _ hk⟩

/-- The function `attributeOIR` on a pending register: the attribution it makes. -/
theorem gold_attributeOIR_exact (t : tracedoctor_tea_gold) (x : Nat)
    (hoir : t.lastInstructionRegister.oir = true)
    (hsev : t.lastInstructionRegister.severity + x + 1 < 2 ^ 64)
    (hsig : t.lastInstructionRegister.signature + 1 < 2 ^ 64) :
    ∃ s, tracedoctor_tea_gold.attributeOIR t x = some s ∧
      goldFinalised t.lastInstructionRegister x t s ∧
      goldHasEntry s t.lastInstructionRegister.signature t.lastInstructionRegister.address ∧
      s.base = t.base ∧ s.lastProgressCycle = t.lastProgressCycle := by
  have hv : add64 t.lastInstructionRegister.severity x =
      t.lastInstructionRegister.severity + x := add64_of_lt _ _ (by omega)
  obtain ⟨h1, e1, g1⟩ := value2hist_spec
    (amapGet [] t.severityHists t.lastInstructionRegister.signature)
    t.lastInstructionRegister.address (t.lastInstructionRegister.severity + x) 1 (by omega)
  obtain ⟨r1, e2, g2⟩ := value2hist_spec t.result t.lastInstructionRegister.address
    t.lastInstructionRegister.signature
    (add64 t.lastInstructionRegister.ilpLatency
      (mul64 (t.lastInstructionRegister.severity + x) 24)) hsig
  have hattr : tracedoctor_tea_gold.attributeOIR t x =
      some { t with
        severityHists := amapSet t.lastInstructionRegister.signature h1 t.severityHists
        result := r1
        lastInstructionRegister := { t.lastInstructionRegister with oir := false } } := by
    unfold tracedoctor_tea_gold.attributeOIR
    rw [if_pos hoir, hv, e1, e2]
  refine ⟨_, hattr, ⟨?_, ?_, rfl⟩, ⟨?_, ?_⟩, rfl, rfl⟩
  · intro g a v
    show histCount (amapGet [] (amapSet t.lastInstructionRegister.signature h1
      t.severityHists) g) a v = _
    rw [amapGet_amapSet]
    by_cases hg : g = t.lastInstructionRegister.signature
    · rw [if_pos hg, g1 a v]
      by_cases hav : a = t.lastInstructionRegister.address ∧
          v = t.lastInstructionRegister.severity + x
      · rw [if_pos hav, if_pos ⟨hg, hav⟩, hg, hav.1, hav.2]
        rfl
      · rw [if_neg hav, if_neg (fun h => hav h.2), hg]
    · rw [if_neg hg, if_neg (fun h => hg h.1)]
  · intro a g
    show histCount r1 a g = _
    rw [g2 a g]
    by_cases hag : a = t.lastInstructionRegister.address ∧
        g = t.lastInstructionRegister.signature
    · rw [if_pos hag, if_pos hag, hag.1, hag.2]
      unfold add64 mul64
      rw [Nat.mul_comm _ 24]
      omega
    · rw [if_neg hag, if_neg hag]
  · show amapMem (amapGet [] (amapSet t.lastInstructionRegister.signature h1
      t.severityHists) t.lastInstructionRegister.signature)
      t.lastInstructionRegister.address = true
    rw [amapGet_amapSet, if_pos rfl]
    exact (value2hist_mem _ _ _ _ _ e1).1
  · exact (value2hist_mem _ _ _ _ _ e2).1

/-- The method `attribute` returns and removes no histogram entry. -/
theorem gold_attributeInstr_keeps (s : tracedoctor_tea_gold) (G A : Nat)
    (address flags memlat severity ilp : Nat) (hsv : severity + 1 < 2 ^ 64)
    (he : goldHasEntry s G A) :
    ∃ s1, tracedoctor_tea_gold.attributeInstr s address flags memlat severity ilp = some s1 ∧
      goldHasEntry s1 G A := by
  unfold tracedoctor_tea_gold.attributeInstr
  dsimp only
  by_cases hz : flags &&& INSTR_OIR = 0
  · rw [if_pos hz]
    have hlt := genSignature_lt s.lastInstructionRegister.flags flags memlat
      s.base.l2MissLatency s.base.l3MissLatency
    obtain ⟨h1, e1, _⟩ := value2hist_spec
      (amapGet [] s.severityHists (genSignature s.lastInstructionRegister.flags flags memlat
        s.base.l2MissLatency s.base.l3MissLatency)) address severity 1 hsv
    obtain ⟨r1, e2, _⟩ := value2hist_spec s.result address
      (genSignature s.lastInstructionRegister.flags flags memlat
        s.base.l2MissLatency s.base.l3MissLatency)
      (add64 ilp (mul64 severity 24)) (by omega)
    rw [e1, e2]
    refine ⟨_, rfl, ?_, ?_⟩
    · show amapMem (amapGet [] (amapSet _ h1 s.severityHists) G) A = true
      rw [amapGet_amapSet]
      by_cases hg : G = genSignature s.lastInstructionRegister.flags flags memlat
          s.base.l2MissLatency s.base.l3MissLatency
      · rw [if_pos hg]
        apply (value2hist_mem _ _ _ _ _ e1).2
        rw [← hg]
        exact he.1
      · rw [if_neg hg]
        exact he.1
    · exact (value2hist_mem _ _ _ _ _ e2).2 A he.2
  · rw [if_neg hz]
    exact ⟨_, rfl, he⟩

theorem gold_commitBlock_keeps (G A : Nat) (flags address memlat ilp : Nat)
    (st : tracedoctor_tea_gold × Nat) (hsv : st.2 + 1 < 2 ^ 64)
    (he : goldHasEntry st.1 G A) :
    ∃ st1, tracedoctor_tea_gold.commitBlock flags address memlat ilp st = some st1 ∧
      st1.2 + 1 < 2 ^ 64 ∧ goldHasEntry st1.1 G A := by
  unfold tracedoctor_tea_gold.commitBlock
  by_cases hc : hasBit flags INSTR_COMMITS = true
  · rw [if_pos hc]
    obtain ⟨s1, e1, k1⟩ := gold_attributeInstr_keeps st.1 G A address flags memlat st.2 ilp
      hsv he
    rw [e1]
    exact ⟨_, rfl, by show 0 + 1 < 2 ^ 64; omega, k1⟩
  · rw [if_neg hc]
    exact ⟨st, rfl, hsv, he⟩

theorem gold_commitPart_keeps (s : tracedoctor_tea_gold) (G A : Nat)
    (token : robAnalysisToken) (severity : Nat) (hsv : severity + 1 < 2 ^ 64)
    (hany : anyCommits token = true) (he : goldHasEntry s G A) :
    ∃ s1, tracedoctor_tea_gold.commitPart s token severity = some s1 ∧
      goldHasEntry s1 G A := by
  obtain ⟨h4, h1⟩ := nCommitting_bounds token
  have h1 := h1 hany
  obtain ⟨ilp, hilp⟩ := ilp_magic_some (nCommitting token - 1) (by omega)
  unfold nCommitting at hilp h1 h4
  unfold tracedoctor_tea_gold.commitPart
  dsimp only
  rw [if_neg (by omega), hilp]
  dsimp only
  obtain ⟨st0, e0, v0, k0⟩ := gold_commitBlock_keeps G A token.instr0_flags
    token.instr0_address token.instr0_memlat ilp (s, severity) hsv he
  rw [e0]
  dsimp only
  obtain ⟨st1, e1, v1, k1⟩ := gold_commitBlock_keeps G A token.instr1_flags
    token.instr1_address token.instr1_memlat ilp st0 v0 k0
  rw [e1]
  dsimp only
  obtain ⟨st2, e2, v2, k2⟩ := gold_commitBlock_keeps G A token.instr2_flags
    token.instr2_address token.instr2_memlat ilp st1 v1 k1
  rw [e2]
  dsimp only
  cases hc3 : hasBit token.instr3_flags INSTR_COMMITS
  · simp only [Bool.false_eq_true, if_false]
    exact ⟨st2.1, rfl, k2⟩
  · simp only [if_true]
    exact gold_attributeInstr_keeps st2.1 G A _ _ _ _ ilp v2 k2

/-- The block of `tick` under `if (token.state.rob & (ROB_COMMITTING | ROB_EXCEPTION))` with
no instruction pending returns and removes no histogram entry. -/
theorem gold_progressPart_keeps (s : tracedoctor_tea_gold) (G A : Nat)
    (token : robAnalysisToken) (hoir : s.lastInstructionRegister.oir = false)
    (hlt : s.lastProgressCycle < token.tsc_cycle) (ht : token.tsc_cycle < 2 ^ 44)
    (hany : hasBit token.rob ROB_COMMITTING = true → anyCommits token = true)
    (he : goldHasEntry s G A) :
    ∃ s3, tracedoctor_tea_gold.progressPart s token = some s3 ∧ goldHasEntry s3 G A := by
  unfold tracedoctor_tea_gold.progressPart
  by_cases hce : hasBit token.rob (ROB_COMMITTING ||| ROB_EXCEPTION) = true
  · rw [if_pos hce]
    dsimp only
    have h2 : sub64 (sub64 token.tsc_cycle s.lastProgressCycle) 1 =
        token.tsc_cycle - s.lastProgressCycle - 1 := by
      rw [sub64_of_le token.tsc_cycle s.lastProgressCycle (by omega) (by omega)]
      exact sub64_of_le _ _ (by omega) (by omega)
    have ha : tracedoctor_tea_gold.attributeOIR s 0 = some s := by
      unfold tracedoctor_tea_gold.attributeOIR
      rw [if_neg (by rw [hoir]; simp)]
    rw [ha]
    dsimp only
    cases hcm : hasBit token.rob ROB_COMMITTING
    · simp only [Bool.false_eq_true, if_false]
      obtain ⟨s2, e2, k2⟩ := gold_attributeInstr_keeps s G A (getFirstValid token).address
        INSTR_EXCPT 0 (sub64 (sub64 token.tsc_cycle s.lastProgressCycle) 1) 24
        (by rw [h2]; omega) he
      rw [e2]
      exact ⟨_, rfl, k2⟩
    · simp only [if_true]
      obtain ⟨s2, e2, k2⟩ := gold_commitPart_keeps s G A token
        (sub64 (sub64 token.tsc_cycle s.lastProgressCycle) 1) (by rw [h2]; omega)
        (hany hcm) he
      rw [e2]
      exact ⟨_, rfl, k2⟩
  · rw [if_neg hce]
    exact ⟨s, rfl, he⟩

/-! ### The register after a COMMITTING token -/

theorem gold_attributeInstr_reg (B : Nat) (s s1 : tracedoctor_tea_gold)
    (address flags memlat severity ilp : Nat)
    (h : tracedoctor_tea_gold.attributeInstr s address flags memlat severity ilp = some s1)
    (hq : s.lastInstructionRegister.oir = true →
      s.lastInstructionRegister.signature < 2 ^ 16 ∧ s.lastInstructionRegister.severity ≤ B)
    (hsv : severity ≤ B) :
    (s1.lastInstructionRegister.oir = true →
      s1.lastInstructionRegister.signature < 2 ^ 16 ∧
      s1.lastInstructionRegister.severity ≤ B) ∧
    s1.lastProgressCycle = s.lastProgressCycle := by
  unfold tracedoctor_tea_gold.attributeInstr at h
  dsimp only at h
  split at h
  · split at h
    · simp only [Option.some.injEq] at h
      rw [← h]
      exact ⟨hq, rfl⟩
    · exact absurd h (by simp)
  · simp only [Option.some.injEq] at h
    rw [← h]
    exact ⟨fun _ => ⟨genSignature_lt _ _ _ _ _, hsv⟩, rfl⟩

theorem gold_commitBlock_reg (B : Nat) (flags address memlat ilp : Nat)
    (st st1 : tracedoctor_tea_gold × Nat)
    (h : tracedoctor_tea_gold.commitBlock flags address memlat ilp st = some st1)
    (hq : st.1.lastInstructionRegister.oir = true →
      st.1.lastInstructionRegister.signature < 2 ^ 16 ∧
      st.1.lastInstructionRegister.severity ≤ B)
    (hsv : st.2 ≤ B) :
    (st1.1.lastInstructionRegister.oir = true →
      st1.1.lastInstructionRegister.signature < 2 ^ 16 ∧
      st1.1.lastInstructionRegister.severity ≤ B) ∧
    st1.2 ≤ B ∧ st1.1.lastProgressCycle = st.1.lastProgressCycle := by
  unfold tracedoctor_tea_gold.commitBlock at h
  split at h
  · split at h
    · exact absurd h (by simp)
    · rename_i s1 hs
      simp only [Option.some.injEq] at h
      rw [← h]
      obtain ⟨q1, p1⟩ := gold_attributeInstr_reg B _ _ _ _ _ _ _ hs hq hsv
      exact ⟨q1, Nat.zero_le _, p1⟩
  · simp only [Option.some.injEq] at h
    rw [← h]
    exact ⟨hq, hsv, rfl⟩

theorem gold_commitPart_reg (B : Nat) (s s1 : tracedoctor_tea_gold) (token : robAnalysisToken)
    (severity : Nat)
    (h : tracedoctor_tea_gold.commitPart s token severity = some s1)
    (hq : s.lastInstructionRegister.oir = true →
      s.lastInstructionRegister.signature < 2 ^ 16 ∧ s.lastInstructionRegister.severity ≤ B)
    (hsv : severity ≤ B) :
    (s1.lastInstructionRegister.oir = true →
      s1.lastInstructionRegister.signature < 2 ^ 16 ∧
      s1.lastInstructionRegister.severity ≤ B) ∧
    s1.lastProgressCycle = s.lastProgressCycle := by
  unfold tracedoctor_tea_gold.commitPart at h
  dsimp only at h
  split at h
  · exact absurd h (by simp)
  · split at h
    · exact absurd h (by simp)
    · split at h
      · exact absurd h (by simp)
      · rename_i st0 h0
        split at h
        · exact absurd h (by simp)
        · rename_i st1 h1
          split at h
          · exact absurd h (by simp)
          · rename_i st2 h2
            obtain ⟨a1, a2, a3⟩ := gold_commitBlock_reg B _ _ _ _ _ _ h0 hq hsv
            obtain ⟨b1, b2, b3⟩ := gold_commitBlock_reg B _ _ _ _ _ _ h1 a1 a2
            obtain ⟨c1, c2, c3⟩ := gold_commitBlock_reg B _ _ _ _ _ _ h2 b1 b2
            have hp : st2.1.lastProgressCycle = s.lastProgressCycle := by rw [c3, b3, a3]
            split at h
            · obtain ⟨d1, d2⟩ := gold_attributeInstr_reg B _ _ _ _ _ _ _ h c1 c2
              exact ⟨d1, by rw [d2, hp]⟩
            · simp only [Option.some.injEq] at h
              rw [← h]
              exact ⟨c1, hp⟩

/-- After a COMMITTING token at a 44-bit cycle past `lastProgressCycle`, the register holds a
16-bit signature and a 44-bit severity when an instruction is pending, and
`lastProgressCycle` is the cycle of the token. -/
theorem gold_step_reg (s s1 : tracedoctor_tea_gold) (token : robAnalysisToken)
    (hwf : goldWF s) (hnf : s.base.firstToken = false)
    (hc : hasBit token.rob ROB_COMMITTING = true)
    (hlt : s.lastProgressCycle < token.tsc_cycle) (ht : token.tsc_cycle < 2 ^ 44)
    (h : tracedoctor_tea_gold.step s token = some s1) :
    s1.lastProgressCycle = token.tsc_cycle ∧
    (s1.lastInstructionRegister.oir = true →
      s1.lastInstructionRegister.signature < 2 ^ 16 ∧
      s1.lastInstructionRegister.severity < 2 ^ 44) := by
  obtain ⟨t, e, w, b, _, _, _, lp⟩ := gold_trigger_spec s token hwf
  obtain ⟨t1, t2⟩ := triggerDetection_notFirst s.base token hnf
  unfold tracedoctor_tea_gold.step at h
  dsimp only at h
  rw [e] at h
  dsimp only at h
  rw [t1] at h
  simp only [Bool.false_eq_true, if_false] at h
  split at h
  · exact absurd h (by simp)
  · rename_i s2 hpop
    have hs2 : s2.lastProgressCycle < token.tsc_cycle := by
      unfold tracedoctor_tea_gold.populatedPart at hpop
      split at hpop
      · split at hpop
        · exact absurd hpop (by simp)
        · simp only [Option.some.injEq] at hpop
          rw [← hpop]
          show sub64 token.tsc_cycle 1 < token.tsc_cycle
          rw [sub64_of_le _ _ (by omega) (by omega)]
          omega
      · simp only [Option.some.injEq] at hpop
        rw [← hpop, lp]
        exact hlt
    unfold tracedoctor_tea_gold.progressPart at h
    rw [hasBit_or, hc] at h
    simp only [Bool.true_or, if_true] at h
    split at h
    · exact absurd h (by simp)
    · rename_i s3 h3
      have ho3 : s3.lastInstructionRegister.oir = false := by
        unfold tracedoctor_tea_gold.attributeOIR at h3
        split at h3
        · split at h3
          · simp only [Option.some.injEq] at h3
            rw [← h3]
          · exact absurd h3 (by simp)
        · rename_i hno
          simp only [Option.some.injEq] at h3
          rw [← h3]
          simpa using hno
      split at h
      · exact absurd h (by simp)
      · rename_i s4 h4
        have h2 : sub64 (sub64 token.tsc_cycle s2.lastProgressCycle) 1 =
            token.tsc_cycle - s2.lastProgressCycle - 1 := by
          rw [sub64_of_le token.tsc_cycle s2.lastProgressCycle (by omega) (by omega)]
          exact sub64_of_le _ _ (by omega) (by omega)
        obtain ⟨q4, _⟩ := gold_commitPart_reg (2 ^ 44 - 1) _ _ _ _ h4
          (fun ho => by rw [ho3] at ho; exact absurd ho (by simp))
          (by rw [h2]; omega)
        simp only [Option.some.injEq] at h
        rw [← h]
        refine ⟨rfl, fun ho => ?_⟩
        obtain ⟨q5, q6⟩ := q4 ho
        exact ⟨q5, by
          show s4.lastInstructionRegister.severity < 2 ^ 44
          omega⟩

/-! ### Tokens that do not touch the register -/

theorem gold_step_still (s : tracedoctor_tea_gold) (token : robAnalysisToken)
    (hwf : goldWF s) (hnf : s.base.firstToken = false)
    (hq : hasBit token.rob (ROB_POPULATED ||| ROB_COMMITTING ||| ROB_EXCEPTION) = false) :
    ∃ s1, tracedoctor_tea_gold.step s token = some s1 ∧ goldWF s1 ∧
      s1.base.firstToken = false ∧ s1.result = s.result ∧
      (s1.severityHists = s.severityHists ∨ s1.severityHists = []) ∧
      s1.lastInstructionRegister = s.lastInstructionRegister ∧
      s1.lastProgressCycle = s.lastProgressCycle := by
  rw [hasBit_or, hasBit_or] at hq
  simp only [Bool.or_eq_false_iff] at hq
  obtain ⟨⟨hp, hc⟩, he⟩ := hq
  obtain ⟨s1, e, w, b, r, sv, l, lp⟩ := gold_trigger_spec s token hwf
  obtain ⟨t1, t2⟩ := triggerDetection_notFirst s.base token hnf
  unfold tracedoctor_tea_gold.step
  dsimp only
  rw [e]
  dsimp only
  rw [t1]
  simp only [Bool.false_eq_true, if_false]
  have hpop : tracedoctor_tea_gold.populatedPart s1 token = some s1 := by
    unfold tracedoctor_tea_gold.populatedPart
    simp [hp]
  have hprog : tracedoctor_tea_gold.progressPart s1 token = some s1 := by
    unfold tracedoctor_tea_gold.progressPart
    rw [hasBit_or]
    simp [hc, he]
  rw [hpop]
  dsimp only
  rw [hprog]
  exact ⟨s1, rfl, w, by rw [b]; exact t2, r, sv, l, lp⟩

theorem gold_tick_still (tokens : List robAnalysisToken) :
    ∀ s : tracedoctor_tea_gold, goldWF s → s.base.firstToken = false →
    (∀ t ∈ tokens,
      hasBit t.rob (ROB_POPULATED ||| ROB_COMMITTING ||| ROB_EXCEPTION) = false) →
    ∃ s1, tracedoctor_tea_gold.tick s tokens = some s1 ∧ goldWF s1 ∧
      s1.base.firstToken = false ∧ s1.result = s.result ∧
      (s1.severityHists = s.severityHists ∨ s1.severityHists = []) ∧
      s1.lastInstructionRegister = s.lastInstructionRegister ∧
      s1.lastProgressCycle = s.lastProgressCycle := by
  induction tokens with
  | nil => intro s w f _; exact ⟨s, rfl, w, f, rfl, Or.inl rfl, rfl, rfl⟩
  | cons t ts ih =>
    intro s hwf hnf hq
    obtain ⟨s1, e, w, f, r, sv, l, lp⟩ :=
      gold_step_still s t hwf hnf (hq t (List.mem_cons_self _ _))
    obtain ⟨s2, e2, w2, f2, r2, sv2, l2, lp2⟩ :=
      ih s1 w f (fun u hu => hq u (List.mem_cons_of_mem _ hu))
    refine ⟨s2, by simp only [tracedoctor_tea_gold.tick, e, e2], w2, f2, by rw [r2, r], ?_,
      by rw [l2, l], by rw [lp2, lp]⟩
    rcases sv2 with h | h
    · rcases sv with h1 | h1
      · left; rw [h, h1]
      · right; rw [h, h1]
    · right; exact h

/-! ### The next token with POPULATED, COMMITTING or EXCEPTION set -/

/-- A token with POPULATED, COMMITTING or EXCEPTION set, processed while an instruction is
pending: after `triggerDetection` the pending instruction is attributed by `attributeOIR`,
with the ROB-empty gap as additional severity when the token is POPULATED, and the token is
then processed from the worker without a pending instruction. -/
theorem gold_step_finalises (s : tracedoctor_tea_gold) (next : robAnalysisToken)
    (hwf : goldWF s) (hnf : s.base.firstToken = false)
    (hoir : s.lastInstructionRegister.oir = true)
    (hsig : s.lastInstructionRegister.signature < 2 ^ 16)
    (hsev : s.lastInstructionRegister.severity < 2 ^ 44)
    (hnext : hasBit next.rob (ROB_POPULATED ||| ROB_COMMITTING ||| ROB_EXCEPTION) = true)
    (hany : hasBit next.rob ROB_COMMITTING = true → anyCommits next = true)
    (hlt : s.lastProgressCycle < next.tsc_cycle) (ht : next.tsc_cycle < 2 ^ 44) :
    ∃ sT sO s3, goldAtPopulated s next = some sT ∧
      sT.severityHists = goldSeverityBefore s next ∧ sT.result = s.result ∧
      tracedoctor_tea_gold.attributeOIR sT (goldGap s.lastProgressCycle next) = some sO ∧
      goldFinalised s.lastInstructionRegister (goldGap s.lastProgressCycle next) sT sO ∧
      tracedoctor_tea_gold.step s next =
        tracedoctor_tea_gold.progressPart
          { sO with
            lastProgressCycle :=
              if hasBit next.rob ROB_POPULATED then next.tsc_cycle - 1
              else s.lastProgressCycle } next ∧
      tracedoctor_tea_gold.step s next = some s3 ∧
      goldHasEntry s3 s.lastInstructionRegister.signature
        s.lastInstructionRegister.address := by
  obtain ⟨sT, eT, bT, rT, svT, lT, lpT⟩ := gold_trigger_exact s next hwf
  obtain ⟨t1, _⟩ := triggerDetection_notFirst s.base next hnf
  have hgap : goldGap s.lastProgressCycle next < 2 ^ 44 := by
    unfold goldGap
    split <;> omega
  obtain ⟨sO, eO, fO, kO, _, lpO⟩ := gold_attributeOIR_exact sT
    (goldGap s.lastProgressCycle next) (by rw [lT]; exact hoir) (by rw [lT]; omega)
    (by rw [lT]; omega)
  rw [lT] at fO kO
  have hoO : sO.lastInstructionRegister.oir = false := by rw [fO.2.2]
  have hfac : tracedoctor_tea_gold.step s next =
      tracedoctor_tea_gold.progressPart
        { sO with
          lastProgressCycle :=
            if hasBit next.rob ROB_POPULATED then next.tsc_cycle - 1
            else s.lastProgressCycle } next := by
    rw [gold_step_unfold]
    have eT1 : goldAtPopulated s next = some sT := eT
    rw [eT1]
    dsimp only
    rw [t1]
    simp only [Bool.false_eq_true, if_false]
    cases hp : hasBit next.rob ROB_POPULATED
    · have hg : goldGap s.lastProgressCycle next = 0 := by
        unfold goldGap
        rw [hp]
        rfl
      rw [hg] at eO
      have hpop : tracedoctor_tea_gold.populatedPart sT next = some sT := by
        unfold tracedoctor_tea_gold.populatedPart
        simp [hp]
      rw [hpop]
      dsimp only
      have hce : hasBit next.rob (ROB_COMMITTING ||| ROB_EXCEPTION) = true := by
        rw [hasBit_or, hasBit_or, hp] at hnext
        rw [hasBit_or]
        simpa using hnext
      have hsame : ({ sO with lastProgressCycle := s.lastProgressCycle } :
          tracedoctor_tea_gold) = sO := by
        rw [← lpT, ← lpO]
      simp only [Bool.false_eq_true, if_false]
      rw [hsame]
      have haO : tracedoctor_tea_gold.attributeOIR sO 0 = some sO := by
        unfold tracedoctor_tea_gold.attributeOIR
        rw [if_neg (by rw [hoO]; simp)]
      unfold tracedoctor_tea_gold.progressPart
      rw [if_pos hce, if_pos hce, eO, haO]
      dsimp only
      rw [lpO]
    · have hg : goldGap s.lastProgressCycle next =
          sub64 (sub64 next.tsc_cycle sT.lastProgressCycle) 1 := by
        unfold goldGap
        rw [hp, lpT, sub64_of_le next.tsc_cycle s.lastProgressCycle (by omega) (by omega)]
        exact (sub64_of_le _ _ (by omega) (by omega)).symm
      rw [hg] at eO
      have hpop : tracedoctor_tea_gold.populatedPart sT next =
          some { sO with lastProgressCycle := sub64 next.tsc_cycle 1 } := by
        unfold tracedoctor_tea_gold.populatedPart
        rw [hp, lT, hoir]
        simp only [Bool.and_self, if_true]
        rw [eO]
      rw [hpop]
      dsimp only
      simp only [if_true]
      rw [sub64_of_le _ _ (by omega) (by omega)]
  have hlp : (if hasBit next.rob ROB_POPULATED = true then next.tsc_cycle - 1
      else s.lastProgressCycle) < next.tsc_cycle := by
    split <;> omega
  obtain ⟨s3, e3, k3⟩ := gold_progressPart_keeps
    { sO with
      lastProgressCycle :=
        if hasBit next.rob ROB_POPULATED then next.tsc_cycle - 1
        else s.lastProgressCycle }
    s.lastInstructionRegister.signature s.lastInstructionRegister.address next hoO hlp ht
    hany kO
  exact ⟨sT, sO, s3, eT, svT, rT, eO, fO, hfac, by rw [hfac]; exact e3, k3⟩

/-- The destructor of TEA-gold, run while an instruction is pending: `attributeOIR(0)`
attributes it and `flushResult` writes the histograms. -/
theorem gold_teardown_finalises (s : tracedoctor_tea_gold)
    (hwf : goldWF s) (hoir : s.lastInstructionRegister.oir = true)
    (hsig : s.lastInstructionRegister.signature < 2 ^ 16)
    (hsev : s.lastInstructionRegister.severity < 2 ^ 44) :
    ∃ sO sD, tracedoctor_tea_gold.attributeOIR s 0 = some sO ∧
      goldFinalised s.lastInstructionRegister 0 s sO ∧
      goldHasEntry sO s.lastInstructionRegister.signature
        s.lastInstructionRegister.address ∧
      tracedoctor_tea_gold.flushResult sO = some sD ∧
      tracedoctor_tea_gold.teardown s = some sD ∧
      sD.result = sO.result ∧ sD.severityHists = [] := by
  obtain ⟨sO, eO, fO, kO, _, _⟩ := gold_attributeOIR_exact s 0 hoir (by omega) (by omega)
  obtain ⟨wO, _⟩ := gold_attributeOIR_WF s sO 0 hwf eO
  obtain ⟨sD, eD, _, _, rD, svD, _, _⟩ := gold_flushResult_spec sO wO
  refine ⟨sO, sD, eO, fO, kO, eD, ?_, rD, svD⟩
  unfold tracedoctor_tea_gold.teardown
  rw [eO]
  exact eD

/-- C2 (as amended). TEA-gold OIR deferral, on a token stream with increasing 44-bit cycle
counts in which every COMMITTING token has a committing slot. Once a (non-first) COMMITTING
token whose last committing slot carries an OIR flag has been processed, the instruction is
pending in the register, and every later run of tokens whose ROB status has none of
POPULATED, COMMITTING and EXCEPTION is processed without creating a histogram entry: `result`
and the pending register are unchanged, and `severityHists` is unchanged or emptied by a
flush. The next token with POPULATED, COMMITTING or EXCEPTION set makes the pending
attribution: after `triggerDetection` (and the flush that may be due), `attributeOIR` adds 1
to `severityHists[signature][address][severity + gap]` and
`ilpLatency + 24 * (severity + gap)` to `result[address][signature]`, where `gap` is the
ROB-empty gap when the token is POPULATED and 0 otherwise, changes no other counter and
clears the pending mark; the token is then processed from that worker, the iteration returns,
and afterwards both histograms hold an entry for the instruction. If the worker is torn down
instead, the destructor makes the attribution with `gap = 0` and `flushResult` writes the
histograms. -/
theorem gold_oir_deferral (s0 s1 : tracedoctor_tea_gold) (token next : robAnalysisToken)
    (tokens : List robAnalysisToken)
    (hwf : goldWF s0) (hnf : s0.base.firstToken = false)
    (hc : hasBit token.rob ROB_COMMITTING = true)
    (hoir : hasBit (getLastCommitting token).flags INSTR_OIR = true)
    (hlt0 : s0.lastProgressCycle < token.tsc_cycle) (ht0 : token.tsc_cycle < 2 ^ 44)
    (hstep : tracedoctor_tea_gold.step s0 token = some s1)
    (hq : ∀ t ∈ tokens,
      hasBit t.rob (ROB_POPULATED ||| ROB_COMMITTING ||| ROB_EXCEPTION) = false)
    (hnext : hasBit next.rob (ROB_POPULATED ||| ROB_COMMITTING ||| ROB_EXCEPTION) = true)
    (hany : hasBit next.rob ROB_COMMITTING = true → anyCommits next = true)
    (hlt : token.tsc_cycle < next.tsc_cycle) (ht : next.tsc_cycle < 2 ^ 44) :
    s1.lastInstructionRegister.oir = true ∧
    s1.lastInstructionRegister.address = (getLastCommitting token).address ∧
    ∃ s2, tracedoctor_tea_gold.tick s1 tokens = some s2 ∧
      s2.lastInstructionRegister = s1.lastInstructionRegister ∧
      s2.result = s1.result ∧
      (s2.severityHists = s1.severityHists ∨ s2.severityHists = []) ∧
      (∃ sT sO s3, goldAtPopulated s2 next = some sT ∧
        sT.severityHists = goldSeverityBefore s2 next ∧ sT.result = s1.result ∧
        tracedoctor_tea_gold.attributeOIR sT (goldGap token.tsc_cycle next) = some sO ∧
        goldFinalised s1.lastInstructionRegister (goldGap token.tsc_cycle next) sT sO ∧
        tracedoctor_tea_gold.step s2 next =
          tracedoctor_tea_gold.progressPart
            { sO with
              lastProgressCycle :=
                if hasBit next.rob ROB_POPULATED then next.tsc_cycle - 1
                else token.tsc_cycle } next ∧
        tracedoctor_tea_gold.step s2 next = some s3 ∧
        goldHasEntry s3 s1.lastInstructionRegister.signature
          s1.lastInstructionRegister.address) ∧
      (∃ sO sD, tracedoctor_tea_gold.attributeOIR s2 0 = some sO ∧
        goldFinalised s1.lastInstructionRegister 0 s2 sO ∧
        goldHasEntry sO s1.lastInstructionRegister.signature
          s1.lastInstructionRegister.address ∧
        tracedoctor_tea_gold.flushResult sO = some sD ∧
        tracedoctor_tea_gold.teardown s2 = some sD ∧
        sD.result = sO.result ∧ sD.severityHists = []) := by
  obtain ⟨w, f, o, a⟩ := gold_step_oir s0 s1 token hwf hnf hc hoir hstep
  obtain ⟨lp1, q1⟩ := gold_step_reg s0 s1 token hwf hnf hc hlt0 ht0 hstep
  obtain ⟨g1, v1⟩ := q1 o
  obtain ⟨s2, e2, w2, f2, r2, sv2, l2, lp2⟩ := gold_tick_still tokens s1 w f hq
  have hlp : s2.lastProgressCycle = token.tsc_cycle := by rw [lp2, lp1]
  obtain ⟨sT, sO, s3, c1, c2, c3, c4, c5, c6, c7, c8⟩ := gold_step_finalises s2 next w2 f2
    (by rw [l2]; exact o) (by rw [l2]; exact g1) (by rw [l2]; exact v1) hnext hany
    (by rw [hlp]; exact hlt) ht
  obtain ⟨tO, tD, d1, d2, d3, d4, d5, d6, d7⟩ := gold_teardown_finalises s2 w2
    (by rw [l2]; exact o) (by rw [l2]; exact g1) (by rw [l2]; exact v1)
  rw [hlp] at c4 c5 c6
  rw [l2] at c5 c8 d2 d3
  rw [r2] at c3
  exact ⟨o, a, s2, e2, l2, r2, sv2, ⟨sT, sO, s3, c1, c2, c3, c4, c5, c6, c7, c8⟩,
    ⟨tO, tD, d1, d2, d3, d4, d5, d6, d7⟩⟩

/-- Witness of `gold_oir_deferral`: a mispredicted branch at `0x200` commits at cycle 50, two
tokens only dispatch, and the token of cycle 60 is COMMITTING and not POPULATED. -/
theorem gold_oir_deferral_witness :
    ∃ s1, tracedoctor_tea_gold.step goldStarted goldBranchToken = some s1 ∧
      s1.lastInstructionRegister.oir = true ∧
      s1.lastInstructionRegister.address = 0x200 ∧
      ∃ s2, tracedoctor_tea_gold.tick s1 goldQuietTokens = some s2 ∧
        s2.lastInstructionRegister = s1.lastInstructionRegister ∧
        s2.result = s1.result ∧
        (s2.severityHists = s1.severityHists ∨ s2.severityHists = []) ∧
        (∃ sT sO s3, goldAtPopulated s2 goldLaterCommitToken = some sT ∧
          sT.severityHists = goldSeverityBefore s2 goldLaterCommitToken ∧
          sT.result = s1.result ∧
          tracedoctor_tea_gold.attributeOIR sT (goldGap 50 goldLaterCommitToken) = some sO ∧
          goldFinalised s1.lastInstructionRegister (goldGap 50 goldLaterCommitToken) sT sO ∧
          tracedoctor_tea_gold.step s2 goldLaterCommitToken =
            tracedoctor_tea_gold.progressPart
              { sO with
                lastProgressCycle :=
                  if hasBit goldLaterCommitToken.rob ROB_POPULATED then 60 - 1 else 50 }
              goldLaterCommitToken ∧
          tracedoctor_tea_gold.step s2 goldLaterCommitToken = some s3 ∧
          goldHasEntry s3 s1.lastInstructionRegister.signature
            s1.lastInstructionRegister.address) ∧
        (∃ sO sD, tracedoctor_tea_gold.attributeOIR s2 0 = some sO ∧
          goldFinalised s1.lastInstructionRegister 0 s2 sO ∧
          goldHasEntry sO s1.lastInstructionRegister.signature
            s1.lastInstructionRegister.address ∧
          tracedoctor_tea_gold.flushResult sO = some sD ∧
          tracedoctor_tea_gold.teardown s2 = some sD ∧
          sD.result = sO.result ∧ sD.severityHists = []) := by
  have h : (tracedoctor_tea_gold.step goldStarted goldBranchToken).isSome = true := by decide
  obtain ⟨s1, hs⟩ := Option.isSome_iff_exists.1 h
  have key := gold_oir_deferral goldStarted s1 goldBranchToken goldLaterCommitToken
    goldQuietTokens (by decide) (by decide) (by decide) (by decide) (by decide) (by decide)
    hs (by decide) (by decide) (by decide) (by decide) (by decide)
  exact ⟨s1, hs, key.1, key.2.1, key.2.2⟩

/-- C2 (counterexample). A fresh TEA-gold worker sees a first token at cycle 49 and a
COMMITTING token at cycle 50 whose only committing slot is a mispredicted branch at `0x200`:
the branch is pending and no histogram has an entry. The next token, at cycle 51, is
COMMITTING and not POPULATED; processing it creates the entries of `0x200` in `severityHists`
and in `result`, although no POPULATED token was seen and the worker was not torn down. -/
theorem gold_oir_deferral_counterexample :
    ∃ sA, tracedoctor_tea_gold.tick goldFresh goldBranchTokens = some sA ∧
      sA.lastInstructionRegister.oir = true ∧ sA.lastInstructionRegister.address = 0x200 ∧
      sA.severityHists = [] ∧ sA.result = [] ∧
      hasBit goldNextCommitToken.rob ROB_POPULATED = false ∧
      ∃ sB, tracedoctor_tea_gold.step sA goldNextCommitToken = some sB ∧
        amapMem sB.result 0x200 = true ∧
        amapGet [] (amapGet [] sB.severityHists 1024) 0x200 = [1] := by
  decide!

end TraceDoctor
